import Mathlib

/-! GMime streaming MIME parser: shallow embedding of `gmime/gmime-parser.c`

Bytes are natural numbers below 256, pointers into `realbuf` are indices,
`off_t` values are integers (`-1` is "unknown"), and the loops that refill
the input buffer take a fuel argument and return `none` when it runs out.
The header regex callback is not modelled (`have_regex` is false).
-/

namespace GMime

/-- Bytes of an ASCII string literal. -/
def bytes (s : String) : List Nat := s.toList.map Char.toNat

/-- Size of the read buffer. -/
def SCAN_BUF : Nat := 4096

/-- Headroom guaranteed to be before each read buffer. -/
def SCAN_HEAD : Nat := 128

/-- The enum of parser states. -/
inductive ParserState where
  | ERROR
  | INIT
  | FROM
  | HEADERS
  | HEADERS_END
  | CONTENT
  deriving DecidableEq, Repr

/-- Modelled from the spec: the stream collaborator (`read / tell / eos`), which is not
part of the parser source. `chunks` are the byte runs that successive reads can deliver
(a memory stream holding `d` is `[d]`, a stream with short reads has several chunks),
`pos` is the absolute offset of the next byte. -/
structure GMimeStream where
  chunks : List (List Nat)
  pos : Nat
  seekable : Bool
  deriving DecidableEq, Repr

/-- Modelled from the spec: `read(dst, n)` delivers at most `n` bytes of the current chunk;
at end of stream it delivers nothing. -/
def g_mime_stream_read (s : GMimeStream) (n : Nat) : List Nat × GMimeStream :=
  match s.chunks with
  | [] => ([], s)
  | c :: cs =>
    (c.take n,
      { s with chunks := (if c.length ≤ n then cs else c.drop n :: cs),
               pos := s.pos + (c.take n).length })

/-- Modelled from the spec: `tell()` is the stream offset, or `-1` if not seekable. -/
def g_mime_stream_tell (s : GMimeStream) : Int :=
  if s.seekable then (s.pos : Int) else -1

/-- Modelled from the spec: `eos()`. -/
def g_mime_stream_eos (s : GMimeStream) : Bool := s.chunks.isEmpty

/-- A memory stream over `d`, positioned at offset 0. -/
def g_mime_stream_mem_new (d : List Nat) : GMimeStream :=
  { chunks := [d], pos := 0, seekable := true }

/-- The struct `_boundary_stack`: one frame; the parent link is the tail of the list. -/
structure BoundaryStack where
  boundary : List Nat
  boundarylen : Nat
  boundarylenfinal : Nat
  boundarylenmax : Nat
  content_end : Int
  deriving DecidableEq, Repr

/-- The struct `_header_raw`; the `next` link is the tail of the list. -/
structure HeaderRaw where
  name : List Nat
  value : List Nat
  offset : Int
  deriving DecidableEq, Repr

/-- The struct `_GMimeParserPrivate`. `realbuf` is the whole i/o array, `inptr` and `inend`
index it, `inbuf` is always `SCAN_HEAD`. `headerbuf` and `rawbuf` hold the bytes between
the buffer start and `headerptr` / `rawptr`. -/
structure GMimeParser where
  state : ParserState
  stream : GMimeStream
  offset : Int
  realbuf : List Nat
  inptr : Nat
  inend : Nat
  from_offset : Int
  from_line : List Nat
  headerbuf : List Nat
  headerleft : Nat
  rawbuf : List Nat
  rawleft : Nat
  headers_start : Int
  header_start : Int
  unstep : Nat
  midline : Bool
  seekable : Bool
  scan_from : Bool
  persist_stream : Bool
  respect_content_length : Bool
  headers : List HeaderRaw
  bounds : List BoundaryStack
  deriving DecidableEq, Repr

/-- Read of `buf[i]`; a read outside the array gives 0. -/
def peek (buf : List Nat) (i : Nat) : Nat := buf.getD i 0

/-- The `len` bytes of `buf` from index `start`. -/
def slice (buf : List Nat) (start len : Nat) : List Nat := (buf.drop start).take len

/-- Write of the bytes `src` into `buf` from index `dst` on. -/
def writeAt (buf : List Nat) (dst : Nat) (src : List Nat) : List Nat :=
  buf.take dst ++ src ++ buf.drop (dst + src.length)

/-- The call `memmove (buf + dst, buf + src, n)`. -/
def memmove (buf : List Nat) (dst src n : Nat) : List Nat :=
  writeAt buf dst (slice buf src n)

/-- The inner loop `while (*inptr != '\n') inptr++`. -/
def scan_to_lf (buf : List Nat) (inptr : Nat) : Nat :=
  inptr + ((buf.drop inptr).takeWhile (fun c => c != 10)).length

/-- C string held in a buffer: the bytes before the first NUL. -/
def cstr (buf : List Nat) : List Nat := buf.takeWhile (fun c => c != 0)

/-- The libc `strncmp (a, b, n) == 0`; a list that ends is read as NUL. -/
def strncmp_eq : List Nat → List Nat → Nat → Bool
  | _, _, 0 => true
  | a, b, n + 1 =>
    if a.headD 0 != b.headD 0 then false
    else if a.headD 0 == 0 then true
    else strncmp_eq a.tail b.tail n

/-- ASCII lower-casing of one byte. -/
def ascii_tolower (c : Nat) : Nat := if 65 ≤ c ∧ c ≤ 90 then c + 32 else c

/-- The libc `strcasecmp (a, b) == 0` on C strings. -/
def strcasecmp_eq (a b : List Nat) : Bool :=
  (cstr a).map ascii_tolower == (cstr b).map ascii_tolower

/-- The glib `g_ascii_isspace`. -/
def g_ascii_isspace (c : Nat) : Bool :=
  c == 32 || c == 9 || c == 10 || c == 12 || c == 13

/-- The glib `g_strchug`: removes leading whitespace. -/
def g_strchug (s : List Nat) : List Nat := s.dropWhile g_ascii_isspace

/-- The glib `g_strchomp`: removes trailing whitespace. -/
def g_strchomp (s : List Nat) : List Nat := (s.reverse.dropWhile g_ascii_isspace).reverse

/-- The glib `g_strstrip`. -/
def g_strstrip (s : List Nat) : List Nat := g_strchomp (g_strchug s)

/-- The function `parser_push_boundary`. -/
def parser_push_boundary (p : GMimeParser) (boundary : List Nat) : GMimeParser :=
  let max := match p.bounds with
    | [] => 0
    | s :: _ => s.boundarylenmax
  let blen := if cstr boundary = bytes "From " then 5 else (cstr boundary).length + 2
  let blenfinal := if cstr boundary = bytes "From " then 5 else (cstr boundary).length + 2 + 2
  let s : BoundaryStack :=
    { boundary := (if cstr boundary = bytes "From " then bytes "From "
                   else bytes "--" ++ cstr boundary ++ bytes "--"),
      boundarylen := blen,
      boundarylenfinal := blenfinal,
      boundarylenmax := Nat.max blenfinal max,
      content_end := -1 }
  { p with bounds := s :: p.bounds }

/-- The function `parser_pop_boundary`. -/
def parser_pop_boundary (p : GMimeParser) : GMimeParser :=
  match p.bounds with
  | [] => p
  | _ :: parent => { p with bounds := parent }

/-- The function `header_raw_find` (without the offset out-parameter). -/
def header_raw_find : List HeaderRaw → List Nat → Option (List Nat)
  | [], _ => none
  | h :: t, name => if strcasecmp_eq h.name name then some h.value else header_raw_find t name

/-- The function `parser_init`; the flags and the i/o array are left as they are. -/
def parser_init (p : GMimeParser) (stream : GMimeStream) : GMimeParser :=
  { p with
    state := ParserState.INIT,
    stream := stream,
    offset := g_mime_stream_tell stream,
    inptr := SCAN_HEAD,
    inend := SCAN_HEAD,
    from_offset := -1,
    from_line := [],
    headerbuf := [],
    headerleft := SCAN_HEAD,
    rawbuf := [],
    rawleft := SCAN_HEAD,
    headers_start := -1,
    header_start := -1,
    unstep := 0,
    midline := false,
    seekable := (g_mime_stream_tell stream != -1),
    headers := [],
    bounds := [] }

/-- The function `g_mime_parser_new_with_stream`: `g_mime_parser_init` followed by
`g_mime_parser_init_with_stream`; the fresh i/o array is taken as zeroed. -/
def g_mime_parser_new_with_stream (stream : GMimeStream) : GMimeParser :=
  parser_init
    { state := ParserState.INIT, stream := stream, offset := -1,
      realbuf := List.replicate (SCAN_HEAD + SCAN_BUF + 1) 0,
      inptr := SCAN_HEAD, inend := SCAN_HEAD, from_offset := -1, from_line := [],
      headerbuf := [], headerleft := SCAN_HEAD, rawbuf := [], rawleft := SCAN_HEAD,
      headers_start := -1, header_start := -1, unstep := 0, midline := false,
      seekable := false, scan_from := false, persist_stream := true,
      respect_content_length := false, headers := [], bounds := [] }
    stream

/-- The function `parser_unstep`; `unstep` is a 26-bit field. -/
def parser_unstep (p : GMimeParser) : GMimeParser :=
  { p with unstep := (p.unstep + 1) % 2 ^ 26 }

/-- The function `g_mime_parser_get_persist_stream`. -/
def g_mime_parser_get_persist_stream (p : GMimeParser) : Bool :=
  p.persist_stream && p.seekable

/-- The function `g_mime_parser_set_persist_stream`. -/
def g_mime_parser_set_persist_stream (p : GMimeParser) (persist : Bool) : GMimeParser :=
  { p with persist_stream := persist }

/-- The function `g_mime_parser_get_scan_from`. -/
def g_mime_parser_get_scan_from (p : GMimeParser) : Bool := p.scan_from

/-- The function `g_mime_parser_set_scan_from`. -/
def g_mime_parser_set_scan_from (p : GMimeParser) (scan_from : Bool) : GMimeParser :=
  { p with scan_from := scan_from }

/-- The function `g_mime_parser_get_respect_content_length`. -/
def g_mime_parser_get_respect_content_length (p : GMimeParser) : Bool :=
  p.respect_content_length

/-- The function `g_mime_parser_set_respect_content_length`. -/
def g_mime_parser_set_respect_content_length (p : GMimeParser) (b : Bool) : GMimeParser :=
  { p with respect_content_length := b }

/-- The first part of `parser_fill`, the attempt to align `inend` with
`realbuf + SCAN_HEAD`: the unread bytes are moved towards the head of the array. The
result is the array, the new `inptr` and the local `inbuf`, which is the new `inend`. -/
def parser_fill_shift (p : GMimeParser) : List Nat × Nat × Nat :=
  let inlen := p.inend - p.inptr
  if p.inptr ≥ SCAN_HEAD then
    let inbuf := SCAN_HEAD - (if inlen < SCAN_HEAD then inlen else SCAN_HEAD)
    (memmove p.realbuf inbuf p.inptr inlen, inbuf, inbuf + inlen)
  else if p.inptr > 0 then
    let shift := min p.inptr (p.inend - SCAN_HEAD)
    (memmove p.realbuf (p.inptr - shift) p.inptr inlen, p.inptr - shift,
      p.inptr - shift + inlen)
  else
    (p.realbuf, p.inptr, p.inend)

/-- The function `parser_fill`: shifts the unread bytes towards the head of the array,
reads from the stream up to index `SCAN_HEAD + SCAN_BUF - 1`, and returns the number of
unread bytes. -/
def parser_fill (p : GMimeParser) : Nat × GMimeParser :=
  let moved := parser_fill_shift p
  let inend := SCAN_HEAD + SCAN_BUF - 1
  let rd := g_mime_stream_read p.stream (inend - moved.2.2)
  let p1 : GMimeParser :=
    { p with
      realbuf := writeAt moved.1 moved.2.2 rd.1,
      inptr := moved.2.1,
      inend := moved.2.2 + rd.1.length,
      stream := rd.2,
      offset := g_mime_stream_tell rd.2 }
  (p1.inend - p1.inptr, p1)

/-- The function `parser_offset`; `none` is the NULL pointer. -/
def parser_offset (p : GMimeParser) (inptr : Option Nat) : Int :=
  if p.offset = -1 then -1
  else
    match inptr with
    | none => p.offset - ((p.inend : Int) - (p.inptr : Int))
    | some i => p.offset - ((p.inend : Int) - (i : Int))

/-- The function `g_mime_parser_tell`. -/
def g_mime_parser_tell (p : GMimeParser) : Int := parser_offset p none

/-- The function `g_mime_parser_eos`. -/
def g_mime_parser_eos (p : GMimeParser) : Bool :=
  g_mime_stream_eos p.stream && p.inptr == p.inend

/-- Result of the line loop of `parser_step_from`. -/
inductive FromScan where
  | got_from (p : GMimeParser) (inptr : Nat)
  | refill (p : GMimeParser) (left : Nat)
  | done (p : GMimeParser) (inptr : Nat)
  deriving Repr

/-- The loop `while (inptr < inend)` of `parser_step_from`; the first argument bounds the
number of iterations (each one advances `inptr`). -/
def step_from_lines : Nat → GMimeParser → Nat → Option FromScan
  | 0, _, _ => none
  | n + 1, p, inptr =>
    if inptr < p.inend then
      let start := inptr
      let inptr := scan_to_lf p.realbuf start
      if inptr + 1 ≥ p.inend then
        some (FromScan.refill { p with inptr := start } (p.inend - start))
      else
        let len := inptr - start
        let inptr := inptr + 1
        if len ≥ 5 && strncmp_eq (p.realbuf.drop start) (bytes "From ") 5 then
          some (FromScan.got_from
            { p with from_offset := parser_offset p (some start),
                     from_line := p.from_line ++ slice p.realbuf start len } inptr)
        else
          step_from_lines n p inptr
    else
      some (FromScan.done p inptr)

/-- The `do ... while (1)` loop of `parser_step_from`, entered at `refill`. -/
def step_from_loop : Nat → GMimeParser → Nat → Option (Int × GMimeParser)
  | 0, _, _ => none
  | fuel + 1, p, left =>
    let r := parser_fill p
    if r.1 ≤ left then
      some (-1, { r.2 with state := ParserState.ERROR, inptr := r.2.inend })
    else
      let p := { r.2 with realbuf := r.2.realbuf.set r.2.inend 10 }
      match step_from_lines (p.inend - p.inptr + 1) p p.inptr with
      | none => none
      | some (FromScan.got_from p inptr) =>
        some (0, { p with state := ParserState.HEADERS, inptr := inptr })
      | some (FromScan.refill p left) => step_from_loop fuel p left
      | some (FromScan.done p inptr) => step_from_loop fuel { p with inptr := inptr } 0

/-- The function `parser_step_from`. -/
def parser_step_from (fuel : Nat) (p : GMimeParser) : Option (Int × GMimeParser) :=
  step_from_loop fuel { p with from_line := [] } 0

/-- The loop `while (hlen < hoff + len) hlen <<= 1` of the append statements. -/
def grow_hlen : Nat → Nat → Nat → Nat
  | 0, hlen, _ => hlen
  | n + 1, hlen, target => if hlen < target then grow_hlen n (hlen * 2) target else hlen

/-- The statement `header_append (priv, start, len)`; `src` is the `len` bytes at `start`.
The buffer grows when `headerleft <= len`. -/
def header_append (p : GMimeParser) (src : List Nat) : GMimeParser :=
  let len := src.length
  let hoff := p.headerbuf.length
  let headerleft :=
    if p.headerleft ≤ len then
      grow_hlen (hoff + len) (if hoff = 0 then 1 else hoff) (hoff + len) - hoff
    else p.headerleft
  { p with headerbuf := p.headerbuf ++ src, headerleft := headerleft - len }

/-- The statement `raw_header_append (priv, start, len)`. -/
def raw_header_append (p : GMimeParser) (src : List Nat) : GMimeParser :=
  let len := src.length
  let hoff := p.rawbuf.length
  let rawleft :=
    if p.rawleft ≤ len then
      grow_hlen (hoff + len) (if hoff = 0 then 1 else hoff) (hoff + len) - hoff
    else p.rawleft
  { p with rawbuf := p.rawbuf ++ src, rawleft := rawleft - len }

/-- The statement `raw_header_reset (priv)`. -/
def raw_header_reset (p : GMimeParser) : GMimeParser :=
  { p with rawleft := p.rawleft + p.rawbuf.length, rawbuf := [] }

/-- The header that `header_parse` builds from the buffered line: the colon scan stops at
the first NUL or `':'`; the name is the stripped copy of the bytes before it; without a
colon the stripped name becomes the value of an `X-Invalid-Header`. -/
def header_parse_line (headerbuf : List Nat) (header_start : Int) : HeaderRaw :=
  let hlen := (headerbuf.takeWhile (fun c => c != 0 && c != 58)).length
  let name := g_strstrip (headerbuf.take hlen)
  if peek headerbuf hlen != 58 then
    { name := bytes "X-Invalid-Header", value := name, offset := header_start }
  else
    { name := name, value := g_strstrip (cstr (headerbuf.drop (hlen + 1))),
      offset := header_start }

/-- The statement `header_parse (parser, priv, hend)`: `hend` is the number of headers in
the list before the link that `hend` points to. -/
def header_parse (p : GMimeParser) (hend : Nat) : GMimeParser × Nat :=
  let header := header_parse_line p.headerbuf p.header_start
  ({ p with headers := p.headers.take hend ++ [header],
            headerleft := p.headerleft + p.headerbuf.length,
            headerbuf := [] }, hend + 1)

/-- Result of the line loop of `parser_step_headers`. -/
inductive HeaderScan where
  | headers_end (p : GMimeParser) (hend : Nat) (inptr : Nat)
  | refill (p : GMimeParser) (hend : Nat) (left : Nat)
  | done (p : GMimeParser) (hend : Nat) (inptr : Nat)
  deriving Repr

/-- The loop `while (inptr < inend)` of `parser_step_headers`; the first argument bounds
the number of iterations (each one advances `inptr`). -/
def step_headers_lines : Nat → GMimeParser → Nat → Nat → Option HeaderScan
  | 0, _, _, _ => none
  | n + 1, p, hend, inptr =>
    if inptr < p.inend then
      let start := inptr
      let inptr := scan_to_lf p.realbuf start
      let p := raw_header_append p (slice p.realbuf start (inptr - start))
      if inptr = p.inend then
        let p := header_append p (slice p.realbuf start (inptr - start))
        some (HeaderScan.refill { p with midline := true, inptr := inptr } hend
          (p.inend - inptr))
      else if !p.midline && (inptr = start || (inptr - start = 1 && peek p.realbuf start = 13)) then
        some (HeaderScan.headers_end p hend inptr)
      else
        let len := inptr - start
        let len := if inptr > start && peek p.realbuf (inptr - 1) = 13 then len - 1 else len
        let p := header_append p (slice p.realbuf start len)
        let p := raw_header_append p (slice p.realbuf inptr 1)
        let inptr := inptr + 1
        if peek p.realbuf inptr = 32 || peek p.realbuf inptr = 9 then
          step_headers_lines n { p with midline := true } hend inptr
        else
          let r := header_parse { p with midline := false } hend
          step_headers_lines n
            { r.1 with header_start := parser_offset r.1 (some inptr) } r.2 inptr
    else
      some (HeaderScan.done p hend inptr)

/-- The `do ... while (1)` loop of `parser_step_headers`, entered at `refill`, up to the
label `headers_end`; returns the parser, `hend` and the local `inptr`. -/
def step_headers_loop : Nat → GMimeParser → Nat → Nat → Option (GMimeParser × Nat × Nat)
  | 0, _, _, _ => none
  | fuel + 1, p, hend, left =>
    let r := parser_fill p
    if r.1 ≤ left then
      let p := r.2
      let p := header_append p (slice p.realbuf p.inptr (p.inend - p.inptr))
      let p := raw_header_append p (slice p.realbuf p.inptr (p.inend - p.inptr))
      some (p, hend, p.inptr)
    else
      let p := { r.2 with realbuf := r.2.realbuf.set r.2.inend 10 }
      match step_headers_lines (p.inend - p.inptr + 1) p hend p.inptr with
      | none => none
      | some (HeaderScan.headers_end p hend inptr) => some (p, hend, inptr)
      | some (HeaderScan.refill p hend left) => step_headers_loop fuel p hend left
      | some (HeaderScan.done p hend inptr) =>
        step_headers_loop fuel { p with inptr := inptr } hend (p.inend - inptr)

/-- The function `parser_step_headers`. -/
def parser_step_headers (fuel : Nat) (p : GMimeParser) : Option GMimeParser :=
  let p := { p with midline := false,
                      headers_start := parser_offset p none,
                      header_start := parser_offset p none }
  match step_headers_loop fuel p 0 0 with
  | none => none
  | some (p, hend, inptr) =>
    let p := if p.headerbuf.length > 0 then (header_parse p hend).1 else p
    some { p with state := ParserState.HEADERS_END, inptr := inptr }

/-- The function `parser_step`; `none` also stands for `g_assert_not_reached`. -/
def parser_step (fuel : Nat) (p : GMimeParser) : Option (ParserState × GMimeParser) :=
  if p.unstep = 0 then
    let p := match p.state with
      | ParserState.INIT =>
        { p with state := (if p.scan_from then ParserState.FROM else ParserState.HEADERS) }
      | _ => p
    match p.state with
    | ParserState.FROM =>
      match parser_step_from fuel p with
      | none => none
      | some r => some (r.2.state, r.2)
    | ParserState.HEADERS =>
      match parser_step_headers fuel p with
      | none => none
      | some p => some (p.state, p)
    | ParserState.ERROR => some (p.state, p)
    | _ => none
  else
    some (p.state, { p with unstep := p.unstep - 1 })

/-- The `do ... while (1)` loop of `parser_skip_line`; returns the parser and the local
`inptr`. -/
def skip_line_loop : Nat → GMimeParser → Option (GMimeParser × Nat)
  | 0, _ => none
  | fuel + 1, p =>
    let r := parser_fill p
    if r.1 ≤ 0 then some (r.2, r.2.inptr)
    else
      let p := { r.2 with realbuf := r.2.realbuf.set r.2.inend 10 }
      let inptr := scan_to_lf p.realbuf p.inptr
      if inptr < p.inend then some (p, inptr)
      else skip_line_loop fuel { p with inptr := inptr }

/-- The function `parser_skip_line`. -/
def parser_skip_line (fuel : Nat) (p : GMimeParser) : Option GMimeParser :=
  match skip_line_loop fuel p with
  | none => none
  | some (p, inptr) => some { p with midline := false, inptr := min (inptr + 1) p.inend }

/-- The value `FOUND_EOS`. -/
def FOUND_EOS : Nat := 1

/-- The value `FOUND_BOUNDARY`. -/
def FOUND_BOUNDARY : Nat := 2

/-- The value `FOUND_END_BOUNDARY`. -/
def FOUND_END_BOUNDARY : Nat := 3

/-- The test `possible_boundary (scan_from, start, len)`; `line` is the array from
`start` on. -/
def possible_boundary (scan_from : Bool) (line : List Nat) (len : Nat) : Bool :=
  (scan_from && decide (len ≥ 5) && strncmp_eq line (bytes "From ") 5) ||
  (decide (len ≥ 2) && (peek line 0 == 45 && peek line 1 == 45))

/-- The loop `while (s)` of `check_boundary`. -/
def check_boundary_walk (offset : Int) (line : List Nat) (len : Nat) : List BoundaryStack → Nat
  | [] => 0
  | s :: parent =>
    if decide (offset ≥ s.content_end) && decide (len ≥ s.boundarylenfinal) &&
        strncmp_eq s.boundary line s.boundarylenfinal then
      FOUND_END_BOUNDARY
    else if decide (len = s.boundarylen) && strncmp_eq s.boundary line s.boundarylen then
      FOUND_BOUNDARY
    else
      check_boundary_walk offset line len parent

/-- The function `check_boundary`; `len` is a `size_t`, and the byte before the array
is read as 0. -/
def check_boundary (p : GMimeParser) (start len : Nat) : Nat :=
  let offset := parser_offset p (some start)
  let last := if start + len = 0 then 0 else peek p.realbuf (start + len - 1)
  let len := if last = 13 then (len + 2 ^ 64 - 1) % 2 ^ 64 else len
  if possible_boundary p.scan_from (p.realbuf.drop start) len then
    check_boundary_walk offset (p.realbuf.drop start) len p.bounds
  else 0

/-- Result of the line loop of `parser_scan_content`. -/
inductive ContentScan where
  | boundary (p : GMimeParser) (found : Nat) (start inptr : Nat) (content : Option (List Nat))
  | refill (p : GMimeParser) (content : Option (List Nat))
  | done (p : GMimeParser) (found : Nat) (start inptr : Nat) (content : Option (List Nat))
  deriving Repr

/-- The statement `content_save (content, start, len)`. -/
def content_save (content : Option (List Nat)) (src : List Nat) : Option (List Nat) :=
  match content with
  | none => none
  | some c => some (c ++ src)

/-- The loop `while (inptr < inend)` of `parser_scan_content`; the first argument bounds
the number of iterations (each one advances `inptr`). -/
def scan_content_lines :
    Nat → GMimeParser → Nat → Nat → Nat → Option (List Nat) → Option ContentScan
  | 0, _, _, _, _, _ => none
  | n + 1, p, found, start0, inptr, content =>
    if inptr < p.inend then
      let start := inptr
      let inptr := scan_to_lf p.realbuf start
      let len := inptr - start
      if inptr < p.inend then
        let found := check_boundary p start len
        if found ≠ 0 then some (ContentScan.boundary p found start inptr content)
        else
          scan_content_lines n p found start (inptr + 1)
            (content_save content (slice p.realbuf start (len + 1)))
      else
        let p := { p with midline := true }
        if found = 0 then
          some (ContentScan.refill { p with inptr := start } content)
        else
          let found := check_boundary p start len
          if found ≠ 0 then some (ContentScan.boundary p found start inptr content)
          else
            scan_content_lines n p found start inptr
              (content_save content (slice p.realbuf start len))
    else
      some (ContentScan.done p found start0 inptr content)

/-- The `do ... while (!found)` loop of `parser_scan_content`, entered at `refill`, up to
the label `boundary`; returns the parser, `found`, `start`, the local `inptr` and the
content. The local `inptr` equals `priv->inptr` at every entry. -/
def scan_content_loop :
    Nat → GMimeParser → Nat → Option (List Nat) →
      Option (GMimeParser × Nat × Nat × Nat × Option (List Nat))
  | 0, _, _, _ => none
  | fuel + 1, p, inptr0, content =>
    let nleft := p.inend - p.inptr
    let r := parser_fill p
    if r.1 ≤ 0 then some (r.2, FOUND_EOS, r.2.inptr, inptr0, content)
    else
      let p := { r.2 with realbuf := r.2.realbuf.set r.2.inend 10 }
      let found := if p.midline && p.inend - p.inptr = nleft then FOUND_EOS else 0
      let p := { p with midline := false }
      match scan_content_lines (p.inend - p.inptr + 1) p found p.inptr p.inptr content with
      | none => none
      | some (ContentScan.boundary p found start inptr content) =>
        some (p, found, start, inptr, content)
      | some (ContentScan.refill p content) => scan_content_loop fuel p p.inptr content
      | some (ContentScan.done p found start inptr content) =>
        if found ≠ 0 then some ({ p with inptr := inptr }, found, start, inptr, content)
        else scan_content_loop fuel { p with inptr := inptr } inptr content

/-- The function `parser_scan_content`; returns `found`, `crlf`, the content and the
parser. -/
def parser_scan_content (fuel : Nat) (p : GMimeParser) (content : Option (List Nat)) :
    Option (Nat × Nat × Option (List Nat) × GMimeParser) :=
  match scan_content_loop fuel { p with midline := false } p.inptr content with
  | none => none
  | some (p, found, start, inptr, content) =>
    let crlf :=
      if found ≠ FOUND_EOS then (if peek p.realbuf (inptr - 1) = 13 then 2 else 1) else 0
    some (found, crlf, content, { p with inptr := start })

/-- Modelled from the spec: the value of the Content-Type parser, which is not part of the
parser source: `{type, subtype, parameters}`. -/
structure GMimeContentType where
  type : List Nat
  subtype : List Nat
  params : List (List Nat × List Nat)
  deriving DecidableEq, Repr

/-- Modelled from the spec: the external collaborators of the part constructor that are
not part of the parser source: the Content-Type parser
(`g_mime_content_type_new_from_string`) and the decision of the object factory whether a
`(type, subtype)` is a MessagePart (`GMIME_IS_MESSAGE_PART` of `g_mime_object_new_type`). -/
structure Collaborators where
  content_type_new_from_string : List Nat → GMimeContentType
  is_message_part : List Nat → List Nat → Bool

/-- Modelled from the spec: `is_type(type, subtype)` with `"*"` wildcards. -/
def g_mime_content_type_is_type (ct : GMimeContentType) (type subtype : List Nat) : Bool :=
  (type == bytes "*" || strcasecmp_eq ct.type type) &&
  (subtype == bytes "*" || strcasecmp_eq ct.subtype subtype)

/-- Modelled from the spec: `get_parameter(name)`. -/
def g_mime_content_type_get_parameter (ct : GMimeContentType) (name : List Nat) :
    Option (List Nat) :=
  match ct.params.find? (fun kv => strcasecmp_eq kv.1 name) with
  | none => none
  | some kv => some kv.2

/-- The call `g_mime_content_type_new ("text", "plain")`. -/
def text_plain : GMimeContentType :=
  { type := bytes "text", subtype := bytes "plain", params := [] }

/-- The function `parser_content_type`. -/
def parser_content_type (env : Collaborators) (p : GMimeParser) : Option GMimeContentType :=
  match header_raw_find p.headers (bytes "Content-Type") with
  | some v => some (env.content_type_new_from_string v)
  | none => none

/-- The stream attached to a leaf part: an owned byte array, or the substream
`[start, end)` of the parser's stream. -/
inductive PartContent where
  | mem (data : List Nat)
  | substream (start : Int) (stop : Int)
  deriving DecidableEq, Repr

/-- Modelled from the spec: the MIME objects that the external factory builds and the
sinks `add_header`, `set_raw_headers`, `set_content`, `add_part`, `set_preface`,
`set_postface` and `set_message` fill; a message part holds the headers and the body of
its nested message. -/
inductive GMimeObject where
  | part (content_type : GMimeContentType) (headers : List (List Nat × List Nat))
      (raw_headers : List Nat) (content : PartContent)
  | message_part (content_type : GMimeContentType) (headers : List (List Nat × List Nat))
      (raw_headers : List Nat) (message_headers : List (List Nat × List Nat))
      (mime_part : GMimeObject)
  | multipart (content_type : GMimeContentType) (headers : List (List Nat × List Nat))
      (raw_headers : List Nat) (preface : Option (List Nat)) (postface : Option (List Nat))
      (subparts : List GMimeObject)

/-- Modelled from the spec: the message object: its headers and its body part. -/
structure GMimeMessage where
  headers : List (List Nat × List Nat)
  mime_part : GMimeObject

/-- The loop that replays the header list into an object with `g_mime_object_add_header`. -/
def add_headers (headers : List HeaderRaw) : List (List Nat × List Nat) :=
  headers.map (fun h => (h.name, h.value))

/-- The loop `while (parser_step (parser) != GMIME_PARSER_STATE_HEADERS_END)`. -/
def step_to_headers_end : Nat → GMimeParser → Option GMimeParser
  | 0, _ => none
  | fuel + 1, p =>
    match parser_step fuel p with
    | none => none
    | some (st, p) =>
      if st = ParserState.HEADERS_END then some p else step_to_headers_end fuel p

/-- The call `g_byte_array_set_size`; new bytes are taken as zero. -/
def g_byte_array_set_size (a : List Nat) (n : Nat) : List Nat :=
  if n ≤ a.length then a.take n else a ++ List.replicate (n - a.length) 0

/-- The function `parser_scan_mime_part_content`; returns the content stream, `found`
and the parser. The length `content->len - crlf` is computed on `guint`. -/
def parser_scan_mime_part_content (fuel : Nat) (p : GMimeParser) :
    Option (PartContent × Nat × GMimeParser) :=
  let persist := p.persist_stream && p.seekable
  let start := parser_offset p none
  let content : Option (List Nat) := if persist then none else some []
  match parser_scan_content fuel p content with
  | none => none
  | some (found, crlf, content, p) =>
    if persist then
      let stop := if found ≠ FOUND_EOS then parser_offset p none - crlf else parser_offset p none
      some (PartContent.substream start stop, found, p)
    else
      let c := content.getD []
      let c := if found ≠ FOUND_EOS then
          g_byte_array_set_size c ((c.length + 2 ^ 32 - crlf) % 2 ^ 32)
        else c
      some (PartContent.mem c, found, p)

/-- The second loop of `crlf2lf`: copies the bytes from `inptr` on to `outptr`, leaving
out the CR of each CR LF. -/
def crlf2lf_copy : List Nat → List Nat
  | [] => []
  | [c] => [c]
  | c :: d :: rest =>
    if c = 13 ∧ d = 10 then d :: crlf2lf_copy rest else c :: crlf2lf_copy (d :: rest)

/-- The first loop of `crlf2lf`: the number of bytes before the first CR LF (or the NUL). -/
def crlf2lf_find : List Nat → Nat
  | [] => 0
  | [_] => 1
  | c :: d :: rest => if c = 13 ∧ d = 10 then 0 else crlf2lf_find (d :: rest) + 1

/-- The function `crlf2lf` on the bytes of the C string `in`. -/
def crlf2lf (s : List Nat) : List Nat :=
  let i := crlf2lf_find s
  if i ≥ s.length then s else s.take i ++ crlf2lf_copy (s.drop (i + 1))

/-- The function `parser_scan_multipart_face`; returns `found`, the face that is set (if
one is set) and the parser. -/
def parser_scan_multipart_face (fuel : Nat) (p : GMimeParser) :
    Option (Nat × Option (List Nat) × GMimeParser) :=
  match parser_scan_content fuel p (some []) with
  | none => none
  | some (found, crlf, content, p) =>
    let buffer := content.getD []
    if buffer.length ≥ crlf then
      let data := (g_byte_array_set_size buffer (buffer.length + 1)).set (buffer.length - crlf) 0
      some (found, some (crlf2lf (cstr data)), p)
    else
      some (found, none, p)

/-- The function `found_immediate_boundary`. -/
def found_immediate_boundary (p : GMimeParser) : Bool :=
  match p.bounds with
  | [] => false
  | s :: _ => strncmp_eq s.boundary (p.realbuf.drop p.inptr) s.boundarylenfinal

mutual

/-- The function `parser_scan_message_part`; returns the headers and the body of the
nested message, `found` and the parser. -/
def parser_scan_message_part (env : Collaborators) :
    Nat → GMimeParser → Option (GMimeMessage × Nat × GMimeParser)
  | 0, _ => none
  | fuel + 1, p =>
    match step_to_headers_end fuel { p with state := ParserState.HEADERS } with
    | none => none
    | some p =>
      let content_type := (parser_content_type env p).getD text_plain
      let p1 := parser_unstep p
      if g_mime_content_type_is_type content_type (bytes "multipart") (bytes "*") then
        match parser_construct_multipart env fuel p1 content_type with
        | none => none
        | some (object, found, p2) =>
          some ({ headers := add_headers p.headers, mime_part := object }, found, p2)
      else
        match parser_construct_leaf_part env fuel p1 content_type with
        | none => none
        | some (object, found, p2) =>
          some ({ headers := add_headers p.headers, mime_part := object }, found, p2)

/-- The function `parser_construct_leaf_part`; returns the object, `found` and the
parser. -/
def parser_construct_leaf_part (env : Collaborators) :
    Nat → GMimeParser → GMimeContentType → Option (GMimeObject × Nat × GMimeParser)
  | 0, _, _ => none
  | fuel + 1, p, content_type =>
    match step_to_headers_end fuel p with
    | none => none
    | some p =>
      let headers := add_headers p.headers
      let raw := cstr p.rawbuf
      match parser_skip_line fuel (raw_header_reset { p with headers := [] }) with
      | none => none
      | some p =>
        if env.is_message_part content_type.type content_type.subtype then
          match parser_scan_message_part env fuel p with
          | none => none
          | some (message, found, p) =>
            some (GMimeObject.message_part content_type headers raw message.headers
              message.mime_part, found, p)
        else
          match parser_scan_mime_part_content fuel p with
          | none => none
          | some (content, found, p) =>
            some (GMimeObject.part content_type headers raw content, found, p)

/-- The function `parser_scan_multipart_subparts`; the second list argument holds the
parts added to the multipart so far. -/
def parser_scan_multipart_subparts (env : Collaborators) :
    Nat → GMimeParser → List GMimeObject → Option (List GMimeObject × Nat × GMimeParser)
  | 0, _, _ => none
  | fuel + 1, p, parts =>
    match parser_skip_line fuel p with
    | none => none
    | some p =>
      match parser_step_headers fuel p with
      | none => none
      | some p =>
        let content_type := (parser_content_type env p).getD text_plain
        let p := parser_unstep p
        if g_mime_content_type_is_type content_type (bytes "multipart") (bytes "*") then
          match parser_construct_multipart env fuel p content_type with
          | none => none
          | some (subpart, found, p) =>
            if found = FOUND_BOUNDARY then
              parser_scan_multipart_subparts env fuel p (parts ++ [subpart])
            else some (parts ++ [subpart], found, p)
        else
          match parser_construct_leaf_part env fuel p content_type with
          | none => none
          | some (subpart, found, p) =>
            if found = FOUND_BOUNDARY then
              parser_scan_multipart_subparts env fuel p (parts ++ [subpart])
            else some (parts ++ [subpart], found, p)

/-- The function `parser_construct_multipart`; returns the object, `found` and the
parser. -/
def parser_construct_multipart (env : Collaborators) :
    Nat → GMimeParser → GMimeContentType → Option (GMimeObject × Nat × GMimeParser)
  | 0, _, _ => none
  | fuel + 1, p, content_type =>
    match step_to_headers_end fuel p with
    | none => none
    | some p =>
      let headers := add_headers p.headers
      let raw := cstr p.rawbuf
      match parser_skip_line fuel (raw_header_reset { p with headers := [] }) with
      | none => none
      | some p =>
        match g_mime_content_type_get_parameter content_type (bytes "boundary") with
        | some boundary =>
          match parser_scan_multipart_face fuel (parser_push_boundary p boundary) with
          | none => none
          | some (found, preface, p) =>
            let sub : Option (List GMimeObject × Nat × GMimeParser) :=
              if found = FOUND_BOUNDARY then parser_scan_multipart_subparts env fuel p []
              else some ([], found, p)
            match sub with
            | none => none
            | some (parts, found, p) =>
              if found = FOUND_END_BOUNDARY && found_immediate_boundary p then
                match parser_skip_line fuel p with
                | none => none
                | some p =>
                  match parser_scan_multipart_face fuel (parser_pop_boundary p) with
                  | none => none
                  | some (found, postface, p) =>
                    some (GMimeObject.multipart content_type headers raw preface postface
                      parts, found, p)
              else
                some (GMimeObject.multipart content_type headers raw preface none parts,
                  found, parser_pop_boundary p)
        | none =>
          match parser_scan_multipart_face fuel p with
          | none => none
          | some (found, preface, p) =>
            some (GMimeObject.multipart content_type headers raw preface none [], found, p)

end

/-- The function `parser_construct_part` (and `g_mime_parser_construct_part`). -/
def parser_construct_part (env : Collaborators) (fuel : Nat) (p : GMimeParser) :
    Option (GMimeObject × GMimeParser) :=
  match step_to_headers_end fuel p with
  | none => none
  | some p =>
    let content_type := (parser_content_type env p).getD text_plain
    let p := parser_unstep p
    if g_mime_content_type_is_type content_type (bytes "multipart") (bytes "*") then
      match parser_construct_multipart env fuel p content_type with
      | none => none
      | some (object, _, p) => some (object, p)
    else
      match parser_construct_leaf_part env fuel p content_type with
      | none => none
      | some (object, _, p) => some (object, p)

/-- The libc `isspace` in the C locale. -/
def c_isspace (c : Nat) : Bool := c == 32 || (decide (9 ≤ c) && decide (c ≤ 13))

/-- The digits loop of `strtoul` in base 10, saturating at `ULONG_MAX`. -/
def strtoul_digits : List Nat → Nat → Nat
  | [], acc => acc
  | c :: rest, acc =>
    if 48 ≤ c ∧ c ≤ 57 then strtoul_digits rest (min (acc * 10 + (c - 48)) (2 ^ 64 - 1))
    else acc

/-- The libc `strtoul (s, NULL, 10)`. -/
def strtoul (s : List Nat) : Nat :=
  let t := (cstr s).dropWhile c_isspace
  match t with
  | 45 :: rest => (2 ^ 64 - strtoul_digits rest 0) % 2 ^ 64
  | 43 :: rest => strtoul_digits rest 0
  | _ => strtoul_digits t 0

/-- Conversion of an `unsigned long` to `int`. -/
def to_int (n : Nat) : Int :=
  if n % 2 ^ 32 < 2 ^ 31 then ((n % 2 ^ 32 : Nat) : Int) else ((n % 2 ^ 32 : Nat) : Int) - 2 ^ 32

/-- The header loop of `parser_construct_message`: the value of `content_length`. -/
def message_content_length (respect : Bool) : List HeaderRaw → Int → Int
  | [], acc => acc
  | h :: t, acc =>
    if respect && strcasecmp_eq h.name (bytes "Content-Length") then
      message_content_length respect t (to_int (strtoul h.value))
    else message_content_length respect t acc

/-- The loop `while ((state = parser_step (parser)) != ERROR && state != HEADERS_END)`. -/
def step_to_headers_end_or_error : Nat → GMimeParser → Option (ParserState × GMimeParser)
  | 0, _ => none
  | fuel + 1, p =>
    match parser_step fuel p with
    | none => none
    | some (st, p) =>
      if st = ParserState.ERROR ∨ st = ParserState.HEADERS_END then some (st, p)
      else step_to_headers_end_or_error fuel p

/-- The function `parser_construct_message` (and `g_mime_parser_construct_message`); the
inner `none` is the NULL result. -/
def parser_construct_message (env : Collaborators) (fuel : Nat) (p : GMimeParser) :
    Option (Option GMimeMessage × GMimeParser) :=
  match step_to_headers_end_or_error fuel p with
  | none => none
  | some (state, p) =>
    if state = ParserState.ERROR then some (none, p)
    else
      let content_length := message_content_length p.respect_content_length p.headers (-1)
      let headers := add_headers p.headers
      let p :=
        if p.scan_from then
          let p := parser_push_boundary p (bytes "From ")
          if p.respect_content_length && content_length != -1 then
            match p.bounds with
            | [] => p
            | s :: parent =>
              { p with bounds :=
                  { s with content_end := parser_offset p none + content_length } :: parent }
          else p
        else p
      let content_type := (parser_content_type env p).getD text_plain
      let p := parser_unstep p
      let r :=
        if g_mime_content_type_is_type content_type (bytes "multipart") (bytes "*") then
          parser_construct_multipart env fuel p content_type
        else parser_construct_leaf_part env fuel p content_type
      match r with
      | none => none
      | some (object, _, p) =>
        let p :=
          if p.scan_from then parser_pop_boundary { p with state := ParserState.FROM } else p
        some (some { headers := headers, mime_part := object }, p)

/-- The function `g_mime_parser_get_from`. -/
def g_mime_parser_get_from (p : GMimeParser) : Option (List Nat) :=
  if !p.scan_from then none
  else if p.from_line.length ≠ 0 then some (cstr p.from_line) else none

/-- The function `g_mime_parser_get_from_offset`. -/
def g_mime_parser_get_from_offset (p : GMimeParser) : Int :=
  if !p.scan_from then -1 else p.from_offset

/-- The preface of a multipart object. -/
def GMimeObject.get_preface : GMimeObject → Option (List Nat)
  | GMimeObject.multipart _ _ _ preface _ _ => preface
  | _ => none

/-- The postface of a multipart object. -/
def GMimeObject.get_postface : GMimeObject → Option (List Nat)
  | GMimeObject.multipart _ _ _ _ postface _ => postface
  | _ => none

/-- The subparts of a multipart object. -/
def GMimeObject.get_subparts : GMimeObject → List GMimeObject
  | GMimeObject.multipart _ _ _ _ _ subparts => subparts
  | _ => []

/-- The content stream of a leaf part. -/
def GMimeObject.get_content : GMimeObject → Option PartContent
  | GMimeObject.part _ _ _ content => some content
  | _ => none

/-- The headers added to an object. -/
def GMimeObject.get_headers : GMimeObject → List (List Nat × List Nat)
  | GMimeObject.part _ headers _ _ => headers
  | GMimeObject.message_part _ headers _ _ _ => headers
  | GMimeObject.multipart _ headers _ _ _ _ => headers

/-- The raw header block attached to an object. -/
def GMimeObject.get_raw_headers : GMimeObject → List Nat
  | GMimeObject.part _ _ raw _ => raw
  | GMimeObject.message_part _ _ raw _ _ => raw
  | GMimeObject.multipart _ _ raw _ _ _ => raw

/-- The content type of an object. -/
def GMimeObject.get_content_type : GMimeObject → GMimeContentType
  | GMimeObject.part ct _ _ _ => ct
  | GMimeObject.message_part ct _ _ _ _ => ct
  | GMimeObject.multipart ct _ _ _ _ _ => ct

/-- The bytes that a content stream holds, given the bytes `data` of the parser's stream
from offset 0 on. -/
def PartContent.read (data : List Nat) : PartContent → List Nat
  | PartContent.mem d => d
  | PartContent.substream start stop => (data.drop start.toNat).take (stop.toNat - start.toNat)

/-- Split of a byte string at each occurrence of `sep`. -/
def split_on (sep : Nat) : List Nat → List (List Nat)
  | [] => [[]]
  | c :: rest =>
    match split_on sep rest with
    | [] => [[c]]
    | h :: t => if c = sep then [] :: h :: t else (c :: h) :: t

/-- A `name=value` parameter of a Content-Type value. -/
def content_type_param (s : List Nat) : List Nat × List Nat :=
  let name := s.takeWhile (fun c => c != 61)
  (g_strstrip name, g_strstrip (s.drop (name.length + 1)))

/-- Modelled from the spec: a Content-Type parser for the plain forms
`type/subtype; name=value; ...` (no quoting, no comments); a value without `'/'` gives
`text/plain`. It stands for `g_mime_content_type_new_from_string` where a theorem needs a
concrete one. -/
def simple_content_type (v : List Nat) : GMimeContentType :=
  match split_on 59 v with
  | [] => text_plain
  | ts :: ps =>
    let type := ts.takeWhile (fun c => c != 47)
    if type.length = ts.length then text_plain
    else
      { type := g_strstrip type, subtype := g_strstrip (ts.drop (type.length + 1)),
        params := ps.map content_type_param }

/-- Modelled from the spec: collaborators with the plain Content-Type parser and a factory
that builds a MessagePart for `message/rfc822`. -/
def simple_collaborators : Collaborators :=
  { content_type_new_from_string := simple_content_type,
    is_message_part := fun type subtype =>
      strcasecmp_eq type (bytes "message") && strcasecmp_eq subtype (bytes "rfc822") }

/-! ## Test inputs -/

/-- A fresh parser over a memory stream that holds `d`. -/
def parser_on (d : List Nat) : GMimeParser :=
  g_mime_parser_new_with_stream (g_mime_stream_mem_new d)

/-- A 999-byte header line `X-Pad: xxx...x` with its CR LF. -/
def pad_header_line : List Nat := bytes "X-Pad: " ++ List.replicate 990 120 ++ bytes "\r\n"

/-- A block of `n` padding header lines (`999 * n` bytes). -/
def pad_headers (n : Nat) : List Nat := (List.replicate n pad_header_line).flatten

/-- A message of 4109 bytes whose header `Subject` is folded; the LF that ends its first
physical line is byte 4094, the last byte that the first buffer fill (4095 bytes) holds,
and byte 4095 is the space that starts the continuation line. -/
def folded_at_window_end : List Nat :=
  pad_headers 4 ++ bytes "Subject: " ++ List.replicate 88 97 ++ bytes "\r\n two\r\n\r\nbody"

/-- A message with the folded header `Subject: one / two` of the spec scenario, behind
4081 bytes of padding headers, so that the LF after `one` is byte 4094. -/
def folded_subject_at_window_end : List Nat :=
  pad_headers 4 ++ bytes "X-Pad: " ++ List.replicate 76 120 ++ bytes "\r\n" ++
    bytes "Subject: one\r\n  two\r\n\r\nx"

/-- A message whose header block is 4094 bytes long: the CR of the blank line is byte
4094, the last byte of the first buffer fill, and its LF is byte 4095. -/
def blank_line_at_window_end : List Nat :=
  pad_headers 4 ++ bytes "Subject: " ++ List.replicate 87 97 ++ bytes "\r\n" ++
    bytes "\r\nhello\r\n"

/-- The multipart input of the two-part scenario of the spec. -/
def two_part_input : List Nat :=
  bytes "Content-Type: multipart/mixed; boundary=B\r\n\r\npreface\r\n--B\r\nContent-Type: text/plain\r\n\r\nA\r\n--B\r\nContent-Type: text/plain\r\n\r\nB\r\n--B--\r\npostface"

/-- A preface of one line: 4223 bytes `x` followed by the bytes `--B--`. -/
def long_line_preface : List Nat := List.replicate 4223 120 ++ bytes "--B--"

/-- A multipart input with boundary `B`, the preface `long_line_preface`, one part with
body `A`, and the postface `postface`. -/
def long_line_multipart : List Nat :=
  bytes "Content-Type: multipart/mixed; boundary=B\r\n\r\n" ++ long_line_preface ++
    bytes "\r\n--B\r\nContent-Type: text/plain\r\n\r\nA\r\n--B--\r\npostface"

/-! ## The matching rule of the specification -/

/-- The walk over the frames in the words of the specification (section 4.3): a frame
gives END_BOUNDARY if the offset is not before its `content_end` (when set, that is, not
`-1`), the line has at least `close_len` bytes and its first `close_len` bytes are the
marker; else it gives BOUNDARY if the line has exactly `open_len` bytes and they are the
first `open_len` bytes of the marker; else the parent is asked. -/
def boundary_rule_walk (offset : Int) (line : List Nat) : List BoundaryStack → Nat
  | [] => 0
  | s :: parent =>
    if (s.content_end = -1 ∨ offset ≥ s.content_end) ∧ line.length ≥ s.boundarylenfinal ∧
        line.take s.boundarylenfinal = s.boundary then
      FOUND_END_BOUNDARY
    else if line.length = s.boundarylen ∧
        line.take s.boundarylen = s.boundary.take s.boundarylen then
      FOUND_BOUNDARY
    else
      boundary_rule_walk offset line parent

/-- The matching rule in the words of the specification: one trailing CR is trimmed; a
line that neither starts with `--` nor (with scan_from on) is at least 5 bytes long and
starts with `From ` is body content (0); else the frames are walked from top to root. -/
def boundary_rule (scan_from : Bool) (frames : List BoundaryStack) (offset : Int)
    (line : List Nat) : Nat :=
  let line := if line.getLast? = some 13 then line.dropLast else line
  if line.take 2 = bytes "--" ∨
      (scan_from = true ∧ line.length ≥ 5 ∧ line.take 5 = bytes "From ") then
    boundary_rule_walk offset line frames
  else 0

/-- A parser with the frame of boundary `B` on the stack and, after one fill, the bytes
`--B--` CR LF `rest` in its window (from index 128 on). -/
def end_boundary_example : GMimeParser :=
  (parser_fill (parser_push_boundary (parser_on (bytes "--B--\r\nrest")) (bytes "B"))).2

/-! ## Predicates used in the proofs about the content scanner -/

/-- What the line loop of `parser_scan_content` returns: a boundary is reported only for
a line that starts inside the window and that `check_boundary` recognises; `done` never
carries a boundary. -/
def ContentScanOk : ContentScan → Prop
  | ContentScan.boundary p found start inptr _ =>
    found ≠ 0 ∧ start < p.inend ∧ inptr = scan_to_lf p.realbuf start ∧
      check_boundary p start (scan_to_lf p.realbuf start - start) = found
  | ContentScan.refill _ _ => True
  | ContentScan.done _ found _ _ _ => found ≤ 1

/-- A parser with the frame of boundary `B` on the stack, over the stream
`pre CR LF --B CR LF rest`. -/
def preface_scan_example : GMimeParser :=
  parser_push_boundary (parser_on (bytes "pre\r\n--B\r\nrest")) (bytes "B")

/-- The result of `parser_scan_content` on `preface_scan_example`. -/
def preface_scan_result : Nat × Nat × Option (List Nat) × GMimeParser :=
  (parser_scan_content 5 preface_scan_example (some [])).getD
    (0, 0, none, preface_scan_example)

/-! ## The window invariant and the bytes of the stream -/

/-- The window invariant: the i/o array has its declared size, `inptr <= inend`, and
`inend` lies between `realbuf + SCAN_HEAD` and `realbuf + SCAN_HEAD + SCAN_BUF - 1`. -/
def WindowInv (p : GMimeParser) : Prop :=
  p.realbuf.length = SCAN_HEAD + SCAN_BUF + 1 ∧ p.inptr ≤ p.inend ∧
    SCAN_HEAD ≤ p.inend ∧ p.inend ≤ SCAN_HEAD + SCAN_BUF - 1

/-- The unread bytes held in the window `[inptr, inend)`. -/
def window (p : GMimeParser) : List Nat := slice p.realbuf p.inptr (p.inend - p.inptr)

/-- All the bytes that the parser has not consumed: the window, then the rest of the
stream. -/
def unread (p : GMimeParser) : List Nat := window p ++ p.stream.chunks.flatten

/-- The bytes `D` of the stream from offset 0 on are what the parser sees: the stream
stands at offset `pos` of `D`, and the window holds the bytes of `D` just before `pos`. -/
def Represents (D : List Nat) (p : GMimeParser) : Prop :=
  p.stream.pos ≤ D.length ∧ p.inend - p.inptr ≤ p.stream.pos ∧
    D.drop p.stream.pos = p.stream.chunks.flatten ∧
    window p = slice D (p.stream.pos - (p.inend - p.inptr)) (p.inend - p.inptr)

/-- The absolute offset in the stream of the array index `i` (for an index of the
window). -/
def abs_offset (p : GMimeParser) (i : Nat) : Nat := p.stream.pos - (p.inend - i)

/-- The value of an `off_t` that stands for the absolute offset `a`: `-1` when the
stream is not seekable. -/
def off_of (seekable : Bool) (a : Nat) : Int := if seekable then (a : Int) else -1

/-- A bound on the number of reads that deliver something: the bytes and the chunks left
in the stream. -/
def stream_left (s : GMimeStream) : Nat := s.chunks.flatten.length + s.chunks.length

/-! ## The header block as bytes of the stream -/

/-- The relation between the bytes `S` of the physical lines of a header and the buffered
logical line `hb`: `hb` is `S` with every line terminator removed, where a terminator is
a LF or a CR LF pair (a CR that is not removed with its LF stays in `hb`). -/
inductive Decoded : List Nat → List Nat → Prop where
  | nil : Decoded [] []
  | seg (S hb seg : List Nat) : Decoded S hb → (∀ c ∈ seg, c ≠ 10) →
      Decoded (S ++ seg) (hb ++ seg)
  | lf (S hb : List Nat) : Decoded S hb → Decoded (S ++ [10]) hb
  | crlf (S hb : List Nat) : Decoded S hb → Decoded (S ++ [13, 10]) hb

/-- The offset `a` is the start of a line of `D`: the offset `a0` where the header block
starts, or an offset that follows a line feed. -/
def LineStart (D : List Nat) (a0 a : Nat) : Prop := a = a0 ∨ (0 < a ∧ peek D (a - 1) = 10)

/-- The headers `hs` lie in `D` one after the other from offset `a` to offset `e`: each
header starts at a line start, covers a non-empty range of bytes that ends where the next
header starts, is what `header_parse` builds from the bytes of its range with the line
terminators removed, and carries the offset of the first byte of its range. -/
def HeaderChain (D : List Nat) (seekable : Bool) (a0 : Nat) :
    Nat → List HeaderRaw → Nat → Prop
  | a, [], e => a = e
  | a, h :: hs, e =>
    LineStart D a0 a ∧
    ∃ a' hb, a < a' ∧ a' ≤ D.length ∧ Decoded (slice D a (a' - a)) hb ∧
      h = header_parse_line hb (off_of seekable a) ∧ HeaderChain D seekable a0 a' hs e

/-- The state of the i/o array during a scan: the window invariant, the relation to the
bytes `D` of the stream, the offset of the parser in step with the stream, and the
sentinel line feed at `inend`. -/
def BufOK (D : List Nat) (p : GMimeParser) : Prop :=
  WindowInv p ∧ Represents D p ∧ p.offset = g_mime_stream_tell p.stream ∧
    peek p.realbuf p.inend = 10

/-- The invariant of `parser_step_headers` at the array index `i`, for a header block
that starts at offset `a0` of `D` with `raw0` in the raw buffer, while the logical line in
progress starts at offset `s`: the raw buffer has grown by the bytes from `a0` to `i`, the
headers recorded lie in `D` from `a0` to `s`, `header_start` stands for `s`, and the
header buffer is the decoded form of the bytes from `s` to `i`. -/
def HeaderInvAt (D : List Nat) (a0 : Nat) (raw0 : List Nat) (p : GMimeParser)
    (hend i s : Nat) : Prop :=
  p.inptr ≤ i ∧ i ≤ p.inend ∧ a0 ≤ abs_offset p i ∧
  p.rawbuf = raw0 ++ slice D a0 (abs_offset p i - a0) ∧
  p.headers.length = hend ∧
  a0 ≤ s ∧ s ≤ abs_offset p i ∧ p.header_start = off_of p.stream.seekable s ∧
    HeaderChain D p.stream.seekable a0 a0 p.headers s ∧ LineStart D a0 s ∧
    Decoded (slice D s (abs_offset p i - s)) p.headerbuf ∧
    (p.midline = false → p.headerbuf = [] ∧ s = abs_offset p i)

/-- The invariant of `parser_step_headers` at the array index `i`, for some start of the
logical line in progress. -/
def HeaderInv (D : List Nat) (a0 : Nat) (raw0 : List Nat) (p : GMimeParser)
    (hend i : Nat) : Prop :=
  ∃ s, HeaderInvAt D a0 raw0 p hend i s

/-- The trimmed length of the line `[i, j)`: without its last byte when that is a CR. -/
def trimmed_len (buf : List Nat) (i j : Nat) : Nat :=
  if (decide (j > i) && decide (peek buf (j - 1) = 13)) = true then j - i - 1 else j - i

/-- The parser after the appends of the line loop of `parser_step_headers` for the line
`[i, j)` with its line feed at `j`. -/
def header_line_done (p : GMimeParser) (i j : Nat) : GMimeParser :=
  raw_header_append
    (header_append (raw_header_append p (slice p.realbuf i (j - i)))
      (slice p.realbuf i (trimmed_len p.realbuf i j)))
    (slice p.realbuf j 1)

/-- The parser after `header_parse` and the update of `header_start` that follow the
line `[i, j)` when no continuation line comes next. -/
def header_line_parsed (p : GMimeParser) (hend i j : Nat) : GMimeParser :=
  { (header_parse { header_line_done p i j with midline := false } hend).1 with
    header_start := parser_offset p (some (j + 1)) }

/-- Two parser states with the same i/o array, window and stream. -/
def SameBuf (p q : GMimeParser) : Prop :=
  q.realbuf = p.realbuf ∧ q.inptr = p.inptr ∧ q.inend = p.inend ∧ q.stream = p.stream ∧
    q.offset = p.offset

/-- The state at the label `headers_end` when the scan stops at the line feed (index
`j`) of a blank line: the raw buffer has grown by the bytes from `a0` to that line feed,
the header buffer is empty, the headers recorded lie in `D` from `a0` to the start `s` of
the blank line, and the blank line is that line feed alone or a CR and that line feed. -/
def HeaderEnd (D : List Nat) (a0 : Nat) (raw0 : List Nat) (q : GMimeParser)
    (hend j : Nat) : Prop :=
  q.inptr ≤ j ∧ j < q.inend ∧ a0 ≤ abs_offset q j ∧
  q.rawbuf = raw0 ++ slice D a0 (abs_offset q j - a0) ∧
  q.headers.length = hend ∧ q.headerbuf = [] ∧ peek D (abs_offset q j) = 10 ∧
  ∃ s, a0 ≤ s ∧ HeaderChain D q.stream.seekable a0 a0 q.headers s ∧ LineStart D a0 s ∧
    (abs_offset q j = s ∨ (abs_offset q j = s + 1 ∧ peek D s = 13))

/-- What the line loop of `parser_step_headers` returns, started from the state `p`. -/
def HeaderScanPost (D : List Nat) (a0 : Nat) (raw0 : List Nat) (p : GMimeParser) :
    HeaderScan → Prop
  | HeaderScan.headers_end q hend j => SameBuf p q ∧ HeaderEnd D a0 raw0 q hend j
  | HeaderScan.refill q hend left =>
    left = 0 ∧ q.realbuf = p.realbuf ∧ q.inend = p.inend ∧ q.stream = p.stream ∧
      q.offset = p.offset ∧ q.inptr = q.inend ∧ HeaderInv D a0 raw0 q hend q.inend
  | HeaderScan.done q hend j => SameBuf p q ∧ j = q.inend ∧ HeaderInv D a0 raw0 q hend j

/-- The state at the label `headers_end` of `parser_step_headers`, with the local `inptr`
equal to `j`: the scan stopped at the line feed of a blank line, or the window is empty
and a fill brought nothing (end of stream). -/
def HeadersDone (D : List Nat) (a0 : Nat) (raw0 : List Nat) (q : GMimeParser)
    (hend j : Nat) : Prop :=
  WindowInv q ∧ Represents D q ∧ q.offset = g_mime_stream_tell q.stream ∧
    (HeaderEnd D a0 raw0 q hend j ∨
      (q.inptr = q.inend ∧ j = q.inend ∧ HeaderInv D a0 raw0 q hend j))

/-- The parser after `parser_fill` and the write of the sentinel `*inend = LF`. -/
def fill_sentinel (p : GMimeParser) : GMimeParser :=
  { (parser_fill p).2 with realbuf := (parser_fill p).2.realbuf.set (parser_fill p).2.inend 10 }

/-- The result of `parser_step_headers` for a header block that starts at offset `a0` of
`D` with `raw0` in the raw buffer: the state is HEADERS_END; the raw buffer has grown by
exactly the bytes from `a0` to the position `e` of the parser; the headers lie in `D`
one after the other from `a0` on; and the parser stands at the line feed of a blank line
(that line feed alone, or a CR and that line feed, at a line start `s` where the headers
end), or the window is empty after a fill that brought nothing and the bytes after the
last header are bare line terminators. -/
def HeadersScanned (D : List Nat) (a0 : Nat) (raw0 : List Nat) (q : GMimeParser) : Prop :=
  q.state = ParserState.HEADERS_END ∧ WindowInv q ∧ Represents D q ∧
  q.offset = g_mime_stream_tell q.stream ∧
  a0 ≤ abs_offset q q.inptr ∧
  q.rawbuf = raw0 ++ slice D a0 (abs_offset q q.inptr - a0) ∧
  q.headerbuf = [] ∧
  ∃ s, a0 ≤ s ∧ s ≤ abs_offset q q.inptr ∧
    HeaderChain D q.stream.seekable a0 a0 q.headers s ∧
    ((LineStart D a0 s ∧ q.inptr < q.inend ∧ peek D (abs_offset q q.inptr) = 10 ∧
        (abs_offset q q.inptr = s ∨ (abs_offset q q.inptr = s + 1 ∧ peek D s = 13))) ∨
      (q.inptr = q.inend ∧ Decoded (slice D s (abs_offset q q.inptr - s)) []))

/-- The message of the first scenario, with CR LF line ends: the blank line that ends the
header block is the CR at offset 13 and the LF at offset 14. -/
def crlf_message : List Nat := bytes "Subject: hi\r\n\r\nhello\r\n"

/-- A stream that delivers at least one byte at every read before its end: no chunk is
empty. -/
def NoEmptyRead (s : GMimeStream) : Prop := ∀ c ∈ s.chunks, c ≠ []

/-- A stream that ends in the middle of its second header line: no blank line, and no
line feed after `Subject: hi`. -/
def unterminated_header : List Nat := bytes "A: 1\nSubject: hi"

/-! ## Inputs with mixed line ends -/

/-- A body line `hello` that ends with a bare LF, followed by the boundary line `--B`
that ends with CR LF. The boundary line starts at offset 6. -/
def lf_body_crlf_boundary : List Nat := bytes "hello\n--B\r\nrest"

/-- A body line `hello` that ends with CR LF, followed by the boundary line `--B` that
ends with a bare LF. The boundary line starts at offset 7. -/
def crlf_body_lf_boundary : List Nat := bytes "hello\r\n--B\nrest"

/-- A multipart with LF line ends whose end boundary line alone ends with CR LF; its one
part has the body `hello`. -/
def mixed_line_ends_multipart : List Nat :=
  bytes "Content-Type: multipart/mixed; boundary=B\n\n--B\n\nhello\n--B--\r\n"

/-! ## CR LF pairs in a byte string -/

/-- The byte string holds a CR immediately followed by LF. -/
def has_crlf : List Nat → Bool
  | c :: d :: rest => (c == 13 && d == 10) || has_crlf (d :: rest)
  | _ => false

/-- The byte string holds a CR immediately followed by CR LF. -/
def has_cr_crlf : List Nat → Bool
  | c :: d :: e :: rest => (c == 13 && d == 13 && e == 10) || has_cr_crlf (d :: e :: rest)
  | _ => false

/-- A multipart whose preface is `a CR CR LF b`. -/
def cr_crlf_preface_multipart : List Nat :=
  bytes "Content-Type: multipart/mixed; boundary=B\n\na\r\r\nb\n--B--\n"

/-- The result of `parser_scan_multipart_face` on `preface_scan_example`. -/
def preface_face_result : Nat × Option (List Nat) × GMimeParser :=
  (parser_scan_multipart_face 5 preface_scan_example).getD (0, none, preface_scan_example)

/-! ## Multipart inputs whose header block ends at the end of the first buffer fill -/

/-- A header block of a `multipart/mixed` with boundary `b`, padded with five more header
lines; for a boundary of one byte it is 4094 bytes long, so that the CR of the blank
line that follows it is byte 4094, the last byte of the first buffer fill. -/
def padded_multipart_headers (b : List Nat) : List Nat :=
  bytes "Content-Type: multipart/mixed; boundary=" ++ b ++ bytes "\r\n" ++ pad_headers 4 ++
    bytes "X: " ++ List.replicate 50 97 ++ bytes "\r\n"

/-- The blank line and the body of a `multipart/mixed` with boundary `O`: a
`multipart/alternative` with boundary `I` and the parts `A` and `B`, a `text/plain` part
`C`, the end boundary and the postface `post`. -/
def nested_multipart_body : List Nat :=
  bytes "\r\n--O\r\nContent-Type: multipart/alternative; boundary=I\r\n\r\n--I\r\nContent-Type: text/plain\r\n\r\nA\r\n--I\r\nContent-Type: text/html\r\n\r\nB\r\n--I--\r\n--O\r\nContent-Type: text/plain\r\n\r\nC\r\n--O--\r\npost"

/-- The nested multipart with a one-line header block. -/
def nested_multipart : List Nat :=
  bytes "Content-Type: multipart/mixed; boundary=O\r\n" ++ nested_multipart_body

/-- The nested multipart with the padded header block. -/
def nested_multipart_at_window_end : List Nat :=
  padded_multipart_headers (bytes "O") ++ nested_multipart_body

/-- The blank line and the body of a `multipart/mixed` with boundary `B` that ends, without
end boundary, in the body of its second part. -/
def unterminated_multipart_body : List Nat :=
  bytes "\r\n--B\r\nContent-Type: text/plain\r\n\r\nA\r\n--B\r\nContent-Type: text/plain\r\n\r\nB"

/-- The unterminated multipart with a one-line header block. -/
def unterminated_multipart : List Nat :=
  bytes "Content-Type: multipart/mixed; boundary=B\r\n" ++ unterminated_multipart_body

/-- The unterminated multipart with the padded header block. -/
def unterminated_multipart_at_window_end : List Nat :=
  padded_multipart_headers (bytes "B") ++ unterminated_multipart_body

/-! ## An mbox with Content-Length -/

/-- An mbox whose first message has `Content-Length: 6`; its body starts at offset 26 and
the line `From b` starts at offset 31, which is byte 5 of the body. -/
def content_length_mbox : List Nat :=
  bytes "From a\nContent-Length: 6\n\nabcd\nFrom b\nxyz\nFrom c\n\nbody2\n"

/-- A parser on `content_length_mbox` with `scan_from` and `respect_content_length` on. -/
def content_length_example : GMimeParser :=
  g_mime_parser_set_respect_content_length
    (g_mime_parser_set_scan_from (parser_on content_length_mbox) true) true

/-! ## The content scanner and the bytes of the stream -/

/-- The fields of the parser that the buffer fill, the line skip and the content scan
leave alone. -/
def frame_fields (p : GMimeParser) :=
  (p.state, p.from_offset, p.from_line, p.headerbuf, p.headerleft, p.rawbuf, p.rawleft,
    p.headers_start, p.header_start, p.unstep, p.seekable, p.scan_from, p.persist_stream,
    p.respect_content_length, p.headers, p.bounds)

/-- The state `q` differs from `p` at most in the i/o array, its window, the stream, the
cached offset and the `midline` flag. -/
def Frame (p q : GMimeParser) : Prop := frame_fields q = frame_fields p

/-- The invariant of `parser_scan_content` at the array index `i`, for a scan that began at
offset `a0` of `D` with the content `c0`: the content has grown by the bytes from `a0` to
`i`. -/
def ContentAt (D : List Nat) (a0 : Nat) (c0 : Option (List Nat)) (p : GMimeParser) (i : Nat)
    (content : Option (List Nat)) : Prop :=
  p.inptr ≤ i ∧ i ≤ p.inend ∧ a0 ≤ abs_offset p i ∧
    content = content_save c0 (slice D a0 (abs_offset p i - a0))

/-- What the line loop of `parser_scan_content` returns, started at index `i` of the state
`p` with the local `found` equal to `found0`. -/
def ContentScanPost (D : List Nat) (a0 : Nat) (c0 : Option (List Nat)) (p : GMimeParser)
    (i found0 : Nat) : ContentScan → Prop
  | ContentScan.boundary q found start j content =>
    (q = p ∨ q = { p with midline := true }) ∧ found ≠ 0 ∧ i ≤ start ∧ start < p.inend ∧
      j = scan_to_lf p.realbuf start ∧ j ≤ p.inend ∧
      check_boundary p start (j - start) = found ∧ ContentAt D a0 c0 p start content
  | ContentScan.refill q content =>
    ∃ start, q = { p with midline := true, inptr := start } ∧ i ≤ start ∧ start < p.inend ∧
      (found0 ≠ 0 → i < start) ∧ scan_to_lf p.realbuf start = p.inend ∧
      ContentAt D a0 c0 p start content
  | ContentScan.done q found _ j content =>
    (q = p ∨ q = { p with midline := true }) ∧ j = p.inend ∧ (i < p.inend → found = 0) ∧
      (¬ i < p.inend → found = found0) ∧ ContentAt D a0 c0 p p.inend content

/-- The state `q` and the locals `found`, `start`, `inptr` and `content` at the label
`boundary` of `parser_scan_content`, for a scan that began in state `p` at offset `a0` of
`D` with the content `c0`: the content has grown by the bytes from `a0` to `start`; at
EOS the window is empty; at a boundary, `start` is inside the window, `inptr` is at the
line feed (or the sentinel) that ends the line and `check_boundary` gives `found` for
that line. -/
def ContentScanned (D : List Nat) (a0 : Nat) (c0 : Option (List Nat)) (p q : GMimeParser)
    (found start j : Nat) (content : Option (List Nat)) : Prop :=
  Frame p q ∧ WindowInv q ∧ Represents D q ∧ q.offset = g_mime_stream_tell q.stream ∧
  q.stream.seekable = p.stream.seekable ∧
  stream_left q.stream + (q.inend - start) ≤ stream_left p.stream + (p.inend - p.inptr) ∧
  (NoEmptyRead p.stream →
    NoEmptyRead q.stream ∧ (found = FOUND_EOS → q.stream.chunks = [])) ∧
  ContentAt D a0 c0 q start content ∧
  ((found = FOUND_EOS ∧ q.inptr = q.inend) ∨
    ((found = FOUND_BOUNDARY ∨ found = FOUND_END_BOUNDARY) ∧ start < q.inend ∧
      j = scan_to_lf q.realbuf start ∧ j ≤ q.inend ∧
      check_boundary q start (j - start) = found ∧ peek q.realbuf q.inend = 10))

/-- The termination measure of the refill loop of `parser_scan_content`. -/
def scan_measure (p : GMimeParser) : Nat :=
  4 * stream_left p.stream + 2 * (p.inend - p.inptr) + (if p.midline then 0 else 1)

/-- The result of `parser_scan_content` from the state `p` with the content `c0`: the
parser `p2` stands where the scan stopped, the content has grown by exactly the bytes of
`D` passed over, and the scan stopped at end of stream with an empty window and
`crlf = 0`, or at a line inside the window that `check_boundary` recognises, with `crlf`
taken from the last byte of that line. -/
def ScanResult (D : List Nat) (p : GMimeParser) (c0 : Option (List Nat)) (found crlf : Nat)
    (content : Option (List Nat)) (p2 : GMimeParser) : Prop :=
  Frame p p2 ∧ WindowInv p2 ∧ Represents D p2 ∧ p2.offset = g_mime_stream_tell p2.stream ∧
  p2.stream.seekable = p.stream.seekable ∧
  stream_left p2.stream + (p2.inend - p2.inptr) ≤ stream_left p.stream + (p.inend - p.inptr) ∧
  (NoEmptyRead p.stream →
    NoEmptyRead p2.stream ∧ (found = FOUND_EOS → p2.stream.chunks = [])) ∧
  abs_offset p p.inptr ≤ abs_offset p2 p2.inptr ∧
  content = content_save c0
    (slice D (abs_offset p p.inptr) (abs_offset p2 p2.inptr - abs_offset p p.inptr)) ∧
  ((found = FOUND_EOS ∧ crlf = 0 ∧ p2.inptr = p2.inend) ∨
    ((found = FOUND_BOUNDARY ∨ found = FOUND_END_BOUNDARY) ∧ p2.inptr < p2.inend ∧
      scan_to_lf p2.realbuf p2.inptr ≤ p2.inend ∧
      check_boundary p2 p2.inptr (scan_to_lf p2.realbuf p2.inptr - p2.inptr) = found ∧
      crlf = (if peek p2.realbuf (scan_to_lf p2.realbuf p2.inptr - 1) = 13 then 2 else 1)))

/-- The result of `parser_skip_line` from the state `p`: the parser `p2` stands after the
first line feed at or after the position of `p`, or, when the stream ends before one,
at the end of the stream with an empty window. -/
def SkipResult (D : List Nat) (p p2 : GMimeParser) : Prop :=
  Frame p p2 ∧ WindowInv p2 ∧ Represents D p2 ∧ p2.offset = g_mime_stream_tell p2.stream ∧
  p2.stream.seekable = p.stream.seekable ∧ p2.midline = false ∧
  stream_left p2.stream + (p2.inend - p2.inptr) ≤ stream_left p.stream + (p.inend - p.inptr) ∧
  (NoEmptyRead p.stream →
    NoEmptyRead p2.stream ∧
      (peek D (abs_offset p2 p2.inptr - 1) ≠ 10 → p2.stream.chunks = [])) ∧
  abs_offset p p.inptr ≤ abs_offset p2 p2.inptr ∧
  ((abs_offset p p.inptr < abs_offset p2 p2.inptr ∧
      peek D (abs_offset p2 p2.inptr - 1) = 10 ∧
      ∀ c ∈ slice D (abs_offset p p.inptr)
        (abs_offset p2 p2.inptr - 1 - abs_offset p p.inptr), c ≠ 10) ∨
    (p2.inptr = p2.inend ∧
      ∀ c ∈ slice D (abs_offset p p.inptr)
        (abs_offset p2 p2.inptr - abs_offset p p.inptr), c ≠ 10))

/-- The state `q` and the local `inptr = j` when the loop of `parser_skip_line` ends, for a
skip that began at offset `a0` of `D`: no line feed lies between `a0` and `j`, and `j`
is at a line feed inside the window, or the window is empty after a fill that brought
nothing. -/
def SkipDone (D : List Nat) (a0 : Nat) (p q : GMimeParser) (j : Nat) : Prop :=
  Frame p q ∧ q.midline = p.midline ∧ WindowInv q ∧ Represents D q ∧
  q.offset = g_mime_stream_tell q.stream ∧ q.stream.seekable = p.stream.seekable ∧
  stream_left q.stream + (q.inend - j) ≤ stream_left p.stream + (p.inend - p.inptr) ∧
  (NoEmptyRead p.stream → NoEmptyRead q.stream ∧ (j = q.inend → q.stream.chunks = [])) ∧
  q.inptr ≤ j ∧ j ≤ q.inend ∧ a0 ≤ abs_offset q j ∧
  (∀ c ∈ slice D a0 (abs_offset q j - a0), c ≠ 10) ∧
  ((j < q.inend ∧ peek D (abs_offset q j) = 10) ∨ (j = q.inend ∧ q.inptr = q.inend))

/-! ## A multipart without boundary parameter -/

/-- The line of `D` that starts at offset `s` begins with the bytes `From ` and ends with
the line feed at offset `e`; `s` is a line start at or after `a0`. -/
def FromLineAt (D : List Nat) (a0 s e : Nat) : Prop :=
  a0 ≤ s ∧ LineStart D a0 s ∧ slice D s 5 = bytes "From " ∧ s ≤ e ∧ peek D e = 10 ∧
    ∀ c ∈ slice D s (e - s), c ≠ 10

/-- No line of `D` that starts at or after `a0` and before `s` begins with `From `. -/
def NoFromLineBefore (D : List Nat) (a0 s : Nat) : Prop :=
  ∀ t, a0 ≤ t → t < s → LineStart D a0 t → slice D t 5 ≠ bytes "From "

/-- The invariant of `parser_step_from` at the array index `i`, for a scan that began at
offset `a0` of `D`: `i` is at a line start and no line before it begins with `From `. -/
def FromInv (D : List Nat) (a0 : Nat) (p : GMimeParser) (i : Nat) : Prop :=
  p.inptr ≤ i ∧ i ≤ p.inend ∧ a0 ≤ abs_offset p i ∧ LineStart D a0 (abs_offset p i) ∧
    NoFromLineBefore D a0 (abs_offset p i)

/-- What the line loop of `parser_step_from` returns, started at index `i` of `p`. -/
def FromScanPost (D : List Nat) (a0 : Nat) (p : GMimeParser) (i : Nat) : FromScan → Prop
  | FromScan.got_from q j1 =>
    ∃ start j, q = { p with from_offset := parser_offset p (some start),
                            from_line := p.from_line ++ slice p.realbuf start (j - start) } ∧
      j1 = j + 1 ∧ i ≤ start ∧ start ≤ j ∧ j + 1 < p.inend ∧
      j = scan_to_lf p.realbuf start ∧ FromInv D a0 p start ∧
      slice D (abs_offset p start) 5 = bytes "From "
  | FromScan.refill q left =>
    ∃ start, q = { p with inptr := start } ∧ left = p.inend - start ∧ i ≤ start ∧
      start < p.inend ∧ scan_to_lf p.realbuf start + 1 ≥ p.inend ∧ FromInv D a0 p start
  | FromScan.done q j => q = p ∧ j = p.inend ∧ FromInv D a0 p p.inend

/-- What `parser_step_from` knows about the window when it asks for a refill with `left`
bytes unread: nothing when `left` is 0; else `left` is the whole window, which holds no
line feed before its last byte. -/
def FromPending (D : List Nat) (p : GMimeParser) (left : Nat) : Prop :=
  left = 0 ∨ (left = p.inend - p.inptr ∧
    ∀ c ∈ slice D (abs_offset p p.inptr) (left - 1), c ≠ 10)

/-- The result `(rc, q)` of `parser_step_from` for a scan that began in state `p` at offset
`a0` of `D`. Success: the state is HEADERS, the first line from `a0` on that begins with
`From ` starts at `s` and ends with the line feed at `e`, at least one more byte follows
it, `from_offset` stands for `s`, `from_line` has grown by the bytes of the line without
the line feed, and `inptr` is just after the line feed. Failure: the state is ERROR,
the window is consumed, and the scan stopped at a line start `start` before which no
From-line begins, with no line feed from `start` to the byte before the last byte read,
the stream at its end or the window full. -/
def FromDone (D : List Nat) (a0 : Nat) (fl0 : List Nat) (p : GMimeParser) (rc : Int)
    (q : GMimeParser) : Prop :=
  WindowInv q ∧ Represents D q ∧ q.offset = g_mime_stream_tell q.stream ∧
  q.stream.seekable = p.stream.seekable ∧
  ((rc = 0 ∧ q.state = ParserState.HEADERS ∧
      ∃ s e, FromLineAt D a0 s e ∧ NoFromLineBefore D a0 s ∧
        q.from_offset = off_of q.stream.seekable s ∧
        q.from_line = fl0 ++ slice D s (e - s) ∧
        abs_offset q q.inptr = e + 1 ∧ e + 1 < abs_offset q q.inend) ∨
    (rc = -1 ∧ q.state = ParserState.ERROR ∧ q.inptr = q.inend ∧ q.from_line = fl0 ∧
      ∃ start, a0 ≤ start ∧ start ≤ abs_offset q q.inend ∧ LineStart D a0 start ∧
        NoFromLineBefore D a0 start ∧
        (∀ c ∈ slice D start (abs_offset q q.inend - start - 1), c ≠ 10) ∧
        (NoEmptyRead p.stream →
          q.stream.chunks = [] ∨ abs_offset q q.inend - start = SCAN_HEAD + SCAN_BUF - 1)))

/-- An mbox stream whose first line is not a From line: the From line starts at offset 5
and its line feed is byte 17. -/
def mbox_after_junk : List Nat := bytes "junk\nFrom a@b Mon\nX: y\n\nbody\n"

/-- A stream that is one complete From line and nothing else: its line feed is the last
byte of the stream. -/
def from_line_at_eof : List Nat := bytes "From a@b Mon\n"

/-! ## The boundary stack -/

/-- An operation on the boundary stack: a call of `parser_push_boundary` with a boundary
string, or a call of `parser_pop_boundary`. -/
inductive StackOp where
  | push (boundary : List Nat)
  | pop
  deriving DecidableEq, Repr

/-- The parser after a sequence of calls of `parser_push_boundary` and
`parser_pop_boundary`. -/
def run_stack_ops : List StackOp → GMimeParser → GMimeParser
  | [], p => p
  | StackOp.push b :: ops, p => run_stack_ops ops (parser_push_boundary p b)
  | StackOp.pop :: ops, p => run_stack_ops ops (parser_pop_boundary p)

/-- The maximum of `boundarylenfinal` over the frames of a stack. -/
def max_lenfinal : List BoundaryStack → Nat
  | [] => 0
  | s :: parent => Nat.max s.boundarylenfinal (max_lenfinal parent)

/-- The stack-max invariant: in each frame `boundarylenmax` is the maximum of
`boundarylenfinal` over that frame and the frames that enclose it. -/
def StackMaxInv : List BoundaryStack → Prop
  | [] => True
  | s :: parent => s.boundarylenmax = max_lenfinal (s :: parent) ∧ StackMaxInv parent

/-- A stream that is not seekable and holds nothing. -/
def pipe_stream : GMimeStream := { chunks := [], pos := 0, seekable := false }

/-! ## What the stepping functions leave alone -/

/-- The fields of the parser that no stepping function writes: the `unstep` count, the
flags and the boundary stack. -/
def step_fields (p : GMimeParser) :=
  (p.unstep, p.seekable, p.scan_from, p.persist_stream, p.respect_content_length, p.bounds)

/-- The fields of the header lexer, which `parser_step_from` leaves alone. -/
def header_fields (p : GMimeParser) :=
  (p.headerbuf, p.headerleft, p.rawbuf, p.rawleft, p.headers_start, p.header_start,
    p.midline, p.headers)

/-- The stream `t` is the stream `s` after some reads: its position is not before the
one of `s` and it has no more chunks. -/
def StreamLater (s t : GMimeStream) : Prop :=
  s.pos ≤ t.pos ∧ t.chunks.length ≤ s.chunks.length

/-- The state `q` comes after the state `p` by steps that leave the `unstep` count, the
flags and the boundary stack alone and only read from the stream. -/
def Kept (p q : GMimeParser) : Prop :=
  step_fields q = step_fields p ∧ StreamLater p.stream q.stream

/-- The parser state that a result of the line loop of `parser_step_headers` carries. -/
def HeaderScan.st : HeaderScan → GMimeParser
  | HeaderScan.headers_end p _ _ => p
  | HeaderScan.refill p _ _ => p
  | HeaderScan.done p _ _ => p

/-- The parser state that a result of the line loop of `parser_step_from` carries. -/
def FromScan.st : FromScan → GMimeParser
  | FromScan.got_from p _ => p
  | FromScan.refill p _ => p
  | FromScan.done p _ => p

/-- The case INIT of `parser_step`: the state becomes FROM or HEADERS. -/
def step_enter (p : GMimeParser) : GMimeParser :=
  match p.state with
  | ParserState.INIT =>
    { p with state := (if p.scan_from then ParserState.FROM else ParserState.HEADERS) }
  | _ => p

/-! ## The buffer fill and the step machine -/

/-- A stream that is one line of 5000 bytes `x` without line feed. -/
def long_line : List Nat := List.replicate 5000 120

/-- The parser on `long_line` after two calls of `parser_fill` with nothing consumed in
between, as the line loops leave it when they find no line feed: the 4223 bytes read so
far fill the i/o array from its first byte on. -/
def full_window_example : GMimeParser :=
  (parser_fill (parser_fill (parser_on long_line)).2).2

/-- The parser on `crlf_message` after one call of `parser_step`. -/
def stepped_example : GMimeParser :=
  ((parser_step 30 (parser_on crlf_message)).map (fun r => r.2)).getD (parser_on crlf_message)

/-! ## Inputs for the claims about From-lines, boundaries and content storage -/

/-- An mbox that holds one message. -/
def one_message_mbox : List Nat := bytes "From a@b Mon\nX: y\n\nbody\n"

/-- A parser on `one_message_mbox` with `scan_from` on. -/
def one_message_example : GMimeParser :=
  g_mime_parser_set_scan_from (parser_on one_message_mbox) true

/-- The parser on `one_message_mbox` after the first call of
`parser_construct_message`. -/
def after_first_message : GMimeParser :=
  ((parser_construct_message simple_collaborators 60 one_message_example).map
    (fun r => r.2)).getD one_message_example

/-- The parser on `one_message_mbox` after the second call of
`parser_construct_message`. -/
def after_second_message : GMimeParser :=
  ((parser_construct_message simple_collaborators 60 after_first_message).map
    (fun r => r.2)).getD one_message_example

/-- A multipart whose only part has an empty body: the end boundary follows the blank
line of the part at offset 73. -/
def empty_part_multipart : List Nat :=
  bytes "Content-Type: multipart/mixed; boundary=B\n\n--B\nContent-Type: text/plain\n\n--B--\n"

/-- A parser at the start of an empty body: the stream holds the end boundary line of
the frame on the stack and nothing before it. -/
def empty_body_example : GMimeParser :=
  parser_push_boundary (parser_on (bytes "--B--\n")) (bytes "B")

/-- The parser `empty_body_example` with persist_stream off after its content scan. -/
def empty_body_scanned : GMimeParser :=
  ((parser_scan_content 10 (g_mime_parser_set_persist_stream empty_body_example false)
    (some [])).map (fun r => r.2.2.2)).getD empty_body_example

/-! ## The part constructors and the bytes of the stream -/

/-- What the parser has not consumed, as a termination measure: what is left in the
stream and the unread bytes of the window. -/
def unread_measure (p : GMimeParser) : Nat := stream_left p.stream + (p.inend - p.inptr)

/-- The flags of the parser. -/
def flag_fields (p : GMimeParser) :=
  (p.seekable, p.scan_from, p.persist_stream, p.respect_content_length)

/-- The state `q` follows the state `p`: nothing was put back into the stream or the
window, and the flags are the same. -/
def Follows (p q : GMimeParser) : Prop :=
  unread_measure q ≤ unread_measure p ∧ flag_fields q = flag_fields p

/-- The parser between two parts: the i/o array stands for bytes of `D`, no step is
pending to be taken back, and the header list and the header buffer are empty. -/
def Rest (D : List Nat) (p : GMimeParser) : Prop :=
  WindowInv p ∧ Represents D p ∧ p.offset = g_mime_stream_tell p.stream ∧
    p.unstep = 0 ∧ p.headers = [] ∧ p.headerbuf = []

/-- The parser as the callers hand it to `parser_construct_leaf_part` and
`parser_construct_multipart`: in state HEADERS_END, after `parser_unstep`. -/
def AtHeadersEnd (D : List Nat) (p : GMimeParser) : Prop :=
  WindowInv p ∧ Represents D p ∧ p.offset = g_mime_stream_tell p.stream ∧
    p.state = ParserState.HEADERS_END ∧ p.unstep = 1 ∧ p.headerbuf = []

/-- The parser `q` and the value `found` when a part constructor that was called in
state `p` returns: the parser is between two parts, nothing was put back, the flags and
the boundary stack are those at entry, `found` is one of the three scan outcomes, and
unless it is EOS an unread line stands at `inptr`. -/
def PartDone (D : List Nat) (p : GMimeParser) (found : Nat) (q : GMimeParser) : Prop :=
  Rest D q ∧ Follows p q ∧ q.bounds = p.bounds ∧
    (found = FOUND_EOS ∨ found = FOUND_BOUNDARY ∨ found = FOUND_END_BOUNDARY) ∧
    (found ≠ FOUND_EOS → q.inptr < q.inend)

/-- The parser after the statements of `parser_construct_message` that push the mbox
frame and set its `content_end`, which run when scan_from is on. -/
def message_frame (p : GMimeParser) (content_length : Int) : GMimeParser :=
  if p.scan_from then
    let p := parser_push_boundary p (bytes "From ")
    if p.respect_content_length && content_length != -1 then
      match p.bounds with
      | [] => p
      | s :: parent =>
        { p with bounds :=
            { s with content_end := parser_offset p none + content_length } :: parent }
    else p
  else p

/-- The part of `parser_construct_message` after the header loop, for a state other than
ERROR. -/
def construct_message_body (env : Collaborators) (fuel : Nat) (p : GMimeParser) :
    Option (Option GMimeMessage × GMimeParser) :=
  let content_length := message_content_length p.respect_content_length p.headers (-1)
  let headers := add_headers p.headers
  let p := message_frame p content_length
  let content_type := (parser_content_type env p).getD text_plain
  let p := parser_unstep p
  let r :=
    if g_mime_content_type_is_type content_type (bytes "multipart") (bytes "*") then
      parser_construct_multipart env fuel p content_type
    else parser_construct_leaf_part env fuel p content_type
  match r with
  | none => none
  | some (object, _, p) =>
    let p :=
      if p.scan_from then parser_pop_boundary { p with state := ParserState.FROM } else p
    some (some { headers := headers, mime_part := object }, p)

/-- A parser on `crlf_message`, which holds no From-line, with `scan_from` on. -/
def no_from_line_example : GMimeParser :=
  g_mime_parser_set_scan_from (parser_on crlf_message) true

/-! ## The function `crlf2lf` in the words of its specification -/

/-- The byte string `s` with the CR of every CR LF pair left out and every other byte
kept, in order. -/
def without_crlf_cr : List Nat → List Nat
  | [] => []
  | [c] => [c]
  | c :: d :: rest =>
    if c = 13 ∧ d = 10 then without_crlf_cr (d :: rest) else c :: without_crlf_cr (d :: rest)

/-- The number of CR LF pairs of a byte string. -/
def count_crlf : List Nat → Nat
  | [] => 0
  | [_] => 0
  | c :: d :: rest => (if c = 13 ∧ d = 10 then 1 else 0) + count_crlf (d :: rest)

/-! ## Steps on the i/o array -/

/-- A step that a scanning loop makes on the i/o array: a call of `parser_fill`, the
write of the sentinel `*inend = LF`, or an advance of `inptr` to an index of
`[inptr, inend]` (an index outside of it leaves `inptr` alone). -/
inductive WindowOp where
  | fill
  | sentinel
  | advance (i : Nat)
  deriving DecidableEq, Repr

/-- The parser after a sequence of steps on the i/o array. -/
def run_window_ops : List WindowOp → GMimeParser → GMimeParser
  | [], p => p
  | WindowOp.fill :: ops, p => run_window_ops ops (parser_fill p).2
  | WindowOp.sentinel :: ops, p =>
    run_window_ops ops { p with realbuf := p.realbuf.set p.inend 10 }
  | WindowOp.advance i :: ops, p =>
    run_window_ops ops (if p.inptr ≤ i ∧ i ≤ p.inend then { p with inptr := i } else p)

/-- A stream with short reads: three chunks, the second one empty. -/
def chunked_stream : GMimeStream :=
  { chunks := [bytes "Subject: hi\r\n", [], bytes "\r\nhello\r\n"], pos := 0, seekable := true }

/-! ## Inputs for the claims about the buffer, the content scan and nested multiparts -/

/-- A stream with short reads that holds `crlf_message` in two chunks. -/
def two_chunk_stream : GMimeStream :=
  { chunks := [bytes "Subject: hi\r\n", bytes "\r\nhello\r\n"], pos := 0, seekable := true }

/-- The parser on `two_chunk_stream` after the first fill and an advance of `inptr` over
the 9 bytes `Subject: `. -/
def after_first_fill : GMimeParser :=
  { (parser_fill (g_mime_parser_new_with_stream two_chunk_stream)).2 with
    inptr := (parser_fill (g_mime_parser_new_with_stream two_chunk_stream)).2.inptr + 9 }

/-- The parser on `two_part_input` as `parser_construct_part` hands it to
`parser_construct_multipart`: after `parser_step_headers` and `parser_unstep`. -/
def two_part_example : GMimeParser :=
  parser_unstep
    ((parser_step_headers 60 (parser_on two_part_input)).getD (parser_on two_part_input))

/-- The content type of `two_part_input`. -/
def two_part_content_type : GMimeContentType :=
  (parser_content_type simple_collaborators two_part_example).getD text_plain

/-- A body of one line of 4223 bytes `x` followed by the bytes `--B--` and a line feed. -/
def long_line_body : List Nat := long_line_preface ++ bytes "\n"

/-- A parser at the start of `long_line_body`, with the frame of the boundary parameter
`B` on the stack. -/
def long_line_body_example : GMimeParser :=
  parser_push_boundary (parser_on long_line_body) (bytes "B")

/-- A multipart with boundary `O` whose first part is a multipart with boundary `I` that
holds the part `A` and is not closed by `--I--`; the part `B` follows the open boundary
`--O`. -/
def unclosed_inner_multipart : List Nat :=
  bytes "Content-Type: multipart/mixed; boundary=O\n\n--O\nContent-Type: multipart/alternative; boundary=I\n\n--I\nContent-Type: text/plain\n\nA\n--O\nContent-Type: text/plain\n\nB\n--O--\n"

/-- The input `unclosed_inner_multipart` with the inner multipart closed by `--I--`. -/
def closed_inner_multipart : List Nat :=
  bytes "Content-Type: multipart/mixed; boundary=O\n\n--O\nContent-Type: multipart/alternative; boundary=I\n\n--I\nContent-Type: text/plain\n\nA\n--I--\n--O\nContent-Type: text/plain\n\nB\n--O--\n"

/-- A parser at the start of a body of one line `A`, followed by the end boundary line of
the frame on the stack, with persist_stream off. -/
def one_line_body_example : GMimeParser :=
  g_mime_parser_set_persist_stream
    (parser_push_boundary (parser_on (bytes "A\n--B--\n")) (bytes "B")) false

/-! ## The verification of a multipart/signed part (`gmime-multipart-signed.c`) -/

/-- Modelled from the spec: the error codes of the domain GMIME_ERROR, which are declared
outside the two source files. -/
inductive GMimeErrorCode where
  | GMIME_ERROR_GENERAL
  | GMIME_ERROR_NOT_SUPPORTED
  | GMIME_ERROR_PARSE_ERROR
  | GMIME_ERROR_PROTOCOL_ERROR
  | GMIME_ERROR_BAD_PASSWORD
  deriving DecidableEq, Repr

/-- The error that `g_set_error` stores in `*err`, in the domain GMIME_ERROR. -/
structure GError where
  code : GMimeErrorCode
  message : List Nat
  deriving DecidableEq, Repr

/-- Modelled from the spec: the result object of the cipher context's `verify`, which is
declared outside the two source files. -/
structure GMimeSignatureValidity where
  status : Nat
  deriving DecidableEq, Repr

/-- Modelled from the spec: the cipher context, an external collaborator: its field
`sign_protocol`, `g_mime_cipher_context_hash_id`, and `g_mime_cipher_context_verify`,
which takes the hash, the content stream and the signature stream, and gives its return
value with the error it has set, if any. -/
structure GMimeCipherContext where
  sign_protocol : Option (List Nat)
  hash_id : Option (List Nat) → Nat
  verify : Nat → List Nat → List Nat → Option GMimeSignatureValidity × Option GError

/-- Modelled from the spec: the external collaborators of the verification that are not
part of the source: the bytes that `g_mime_object_write_to_stream` writes for an
object, the encoding CRLF filter `g_mime_filter_crlf_new (TRUE, FALSE)`, the bytes that
`g_mime_data_wrapper_write_to_stream` writes for the content of a part (decoded), and
the bytes of the stream `g_mime_data_wrapper_get_stream` of that content (as stored). -/
structure SignedCollaborators where
  object_write_to_stream : GMimeObject → List Nat
  filter_crlf_encode : List Nat → List Nat
  data_wrapper_write_to_stream : GMimeObject → List Nat
  data_wrapper_get_stream : GMimeObject → List Nat

/-- The struct `GMimeMultipartSigned`: the multipart it extends (content type and
children), and its fields `protocol` and `micalg`. -/
structure GMimeMultipartSigned where
  content_type : GMimeContentType
  subparts : List GMimeObject
  protocol : Option (List Nat)
  micalg : Option (List Nat)

/-- Modelled from the spec: `g_mime_multipart_get_count`. -/
def g_mime_multipart_get_count (mps : GMimeMultipartSigned) : Nat := mps.subparts.length

/-- Modelled from the spec: `g_mime_multipart_get_part`, NULL for an index that is out of
range. -/
def g_mime_multipart_get_part (mps : GMimeMultipartSigned) (index : Nat) :
    Option GMimeObject := mps.subparts.get? index

/-- Modelled from the spec: `g_mime_object_get_content_type_parameter`. -/
def g_mime_object_get_content_type_parameter (mps : GMimeMultipartSigned)
    (name : List Nat) : Option (List Nat) :=
  g_mime_content_type_get_parameter mps.content_type name

/-- Modelled from the spec: `g_mime_content_type_to_string`, the string `type/subtype`. -/
def g_mime_content_type_to_string (ct : GMimeContentType) : List Nat :=
  ct.type ++ bytes "/" ++ ct.subtype

/-- The glib `g_ascii_strcasecmp (a, b) == 0` on C strings. -/
def g_ascii_strcasecmp_eq (a b : List Nat) : Bool :=
  (cstr a).map ascii_tolower == (cstr b).map ascii_tolower

/-- The index GMIME_MULTIPART_SIGNED_CONTENT. -/
def GMIME_MULTIPART_SIGNED_CONTENT : Nat := 0

/-- The index GMIME_MULTIPART_SIGNED_SIGNATURE. -/
def GMIME_MULTIPART_SIGNED_SIGNATURE : Nat := 1

/-- The function `g_mime_multipart_signed_verify`, called with `*err == NULL`: the value
returned (`none` is NULL) and `*err` at the return. The guard
`g_return_val_if_fail (ctx->sign_protocol != NULL, NULL)` is the first match; the two
parts exist after the check of the count, so the last alternative is never taken. -/
def g_mime_multipart_signed_verify (env : SignedCollaborators) (mps : GMimeMultipartSigned)
    (ctx : GMimeCipherContext) : Option GMimeSignatureValidity × Option GError :=
  match ctx.sign_protocol with
  | none => (none, none)
  | some sign_protocol =>
    if g_mime_multipart_get_count mps < 2 then
      (none, some { code := GMimeErrorCode.GMIME_ERROR_PARSE_ERROR,
                    message := bytes "Cannot verify multipart/signed part due to missing subparts." })
    else
      let checked : Option (List Nat) :=
        match g_mime_object_get_content_type_parameter mps (bytes "protocol") with
        | some protocol =>
          if !g_ascii_strcasecmp_eq sign_protocol protocol then none else some protocol
        | none => some sign_protocol
      match checked with
      | none => (none, none)
      | some protocol =>
        match g_mime_multipart_get_part mps GMIME_MULTIPART_SIGNED_SIGNATURE,
            g_mime_multipart_get_part mps GMIME_MULTIPART_SIGNED_CONTENT with
        | some signature, some content =>
          if !g_ascii_strcasecmp_eq
              (g_mime_content_type_to_string signature.get_content_type) protocol then
            (none, none)
          else
            let stream := env.filter_crlf_encode (env.object_write_to_stream content)
            let sigstream :=
              if g_ascii_strcasecmp_eq protocol (bytes "application/pkcs7-signature") ||
                  g_ascii_strcasecmp_eq protocol (bytes "application/x-pkcs7-signature") then
                env.data_wrapper_write_to_stream signature
              else env.data_wrapper_get_stream signature
            ctx.verify (ctx.hash_id mps.micalg) stream sigstream
        | _, _ => (none, none)

/-- The bytes of the content of a leaf part that holds them in memory. -/
def part_bytes (o : GMimeObject) : List Nat :=
  match o.get_content with
  | some (PartContent.mem d) => d
  | _ => []

/-- An instance of the collaborators of the verification: an object is written as its
raw headers, an empty line and its content; the filter writes CR LF for each LF. -/
def simple_signed_collaborators : SignedCollaborators :=
  { object_write_to_stream := fun o => o.get_raw_headers ++ bytes "\n" ++ part_bytes o,
    filter_crlf_encode := fun s => s.flatMap (fun c => if c = 10 then [13, 10] else [c]),
    data_wrapper_write_to_stream := part_bytes,
    data_wrapper_get_stream := part_bytes }

/-- A cipher context with the sign protocol `application/pgp-signature`, whose `verify`
accepts the signature `good` and rejects every other one with an error. -/
def pgp_context : GMimeCipherContext :=
  { sign_protocol := some (bytes "application/pgp-signature"),
    hash_id := fun _ => 0,
    verify := fun _ _ sig =>
      if sig = bytes "good" then (some { status := 1 }, none)
      else (none, some { code := GMimeErrorCode.GMIME_ERROR_GENERAL,
                         message := bytes "bad signature" }) }

/-- A leaf part of the given type `application/subtype` with the given content. -/
def application_part (subtype : String) (content : String) : GMimeObject :=
  GMimeObject.part { type := bytes "application", subtype := bytes subtype, params := [] }
    [] [] (PartContent.mem (bytes content))

/-- A multipart/signed with the given protocol parameter and the given children. -/
def signed_part (protocol : String) (subparts : List GMimeObject) : GMimeMultipartSigned :=
  { content_type := { type := bytes "multipart", subtype := bytes "signed",
                      params := [(bytes "protocol", bytes protocol)] },
    subparts := subparts, protocol := some (bytes protocol), micalg := none }

/-! ## General lemmas -/

/-! ### The statement `header_parse` -/

/-- The colon scan stops at the first colon of a line without NUL before it. -/
theorem takeWhile_colon_append (pre post : List Nat) (hpre : ∀ c ∈ pre, c ≠ 58 ∧ c ≠ 0) :
    (pre ++ 58 :: post).takeWhile (fun c => c != 0 && c != 58) = pre := by
  induction pre with
  | nil => simp [List.takeWhile_cons]
  | cons a t ih =>
    have ha := hpre a (List.mem_cons_self a t)
    have ht : ∀ c ∈ t, c ≠ 58 ∧ c ≠ 0 := fun c hc => hpre c (List.mem_cons_of_mem a hc)
    simp [List.takeWhile_cons, ha.1, ha.2, ih ht]

/-- Read of the byte that follows a prefix. -/
theorem peek_append_length (pre : List Nat) (c : Nat) (post : List Nat) :
    peek (pre ++ c :: post) pre.length = c := by
  induction pre with
  | nil => simp [peek]
  | cons a t ih => simpa [peek] using ih

/-- Name and value that `header_parse` takes from a line with a colon. -/
theorem header_parse_line_colon (pre post : List Nat) (off : Int)
    (hpre : ∀ c ∈ pre, c ≠ 58 ∧ c ≠ 0) :
    header_parse_line (pre ++ 58 :: post) off =
      { name := g_strstrip pre, value := g_strstrip (cstr post), offset := off } := by
  unfold header_parse_line
  simp only [takeWhile_colon_append pre post hpre, peek_append_length]
  simp

/-- Unfolding of `cstr` on a non-empty buffer. -/
theorem cstr_cons (a : Nat) (t : List Nat) :
    cstr (a :: t) = if a = 0 then [] else a :: cstr t := by
  unfold cstr
  rw [List.takeWhile_cons]
  by_cases ha : a = 0 <;> simp [ha]

/-- Without a colon the colon scan runs to the end of the C string. -/
theorem takeWhile_no_colon (hb : List Nat) (h : 58 ∉ cstr hb) :
    hb.takeWhile (fun c => c != 0 && c != 58) = cstr hb := by
  induction hb with
  | nil => simp [cstr]
  | cons a t ih =>
    rw [cstr_cons] at h ⊢
    rw [List.takeWhile_cons]
    by_cases ha : a = 0
    · simp [ha]
    · simp only [ha, if_false, List.mem_cons, not_or] at h
      have h58 : a ≠ 58 := fun h' => h.1 h'.symm
      simp [ha, h58, ih h.2]

/-- The C string is a prefix of its buffer. -/
theorem take_cstr_length (hb : List Nat) : hb.take (cstr hb).length = cstr hb := by
  induction hb with
  | nil => simp [cstr]
  | cons a t ih =>
    rw [cstr_cons]
    by_cases ha : a = 0
    · simp [ha]
    · simp [ha, ih]

/-- The byte after the C string is NUL. -/
theorem peek_cstr_length (hb : List Nat) : peek hb (cstr hb).length = 0 := by
  induction hb with
  | nil => simp [cstr, peek]
  | cons a t ih =>
    rw [cstr_cons]
    by_cases ha : a = 0
    · simp [ha, peek]
    · simp only [peek, List.getD_eq_getElem?_getD] at ih
      simp [ha, peek, ih]

/-- The header that `header_parse` builds from a line without colon. -/
theorem header_parse_line_no_colon (hb : List Nat) (off : Int) (h : 58 ∉ cstr hb) :
    header_parse_line hb off =
      { name := bytes "X-Invalid-Header", value := g_strstrip (cstr hb), offset := off } := by
  unfold header_parse_line
  simp only [takeWhile_no_colon hb h, take_cstr_length, peek_cstr_length]
  simp

/-- The object that `parser_construct_leaf_part` returns carries the header list of the
parser, in list order, and the C string of the raw buffer. -/
theorem construct_leaf_part_headers (env : Collaborators) (fuel : Nat) (q : GMimeParser)
    (ct : GMimeContentType) (obj : GMimeObject) (found : Nat) (q' : GMimeParser)
    (h : parser_construct_leaf_part env (fuel + 1) q ct = some (obj, found, q')) :
    ∃ r, step_to_headers_end fuel q = some r ∧
      obj.get_headers = r.headers.map (fun x => (x.name, x.value)) ∧
      obj.get_raw_headers = cstr r.rawbuf := by
  rw [parser_construct_leaf_part] at h
  cases h1 : step_to_headers_end fuel q with
  | none => simp [h1] at h
  | some r =>
    refine ⟨r, rfl, ?_⟩
    simp only [h1] at h
    cases h2 : parser_skip_line fuel (raw_header_reset { r with headers := [] }) with
    | none => simp [h2] at h
    | some r2 =>
      simp only [h2] at h
      by_cases hm : env.is_message_part ct.type ct.subtype = true
      · simp only [hm, if_true] at h
        cases h3 : parser_scan_message_part env fuel r2 with
        | none => simp [h3] at h
        | some v =>
          obtain ⟨m, f, r3⟩ := v
          simp only [h3, Option.some.injEq, Prod.mk.injEq] at h
          rw [← h.1]
          simp [GMimeObject.get_headers, GMimeObject.get_raw_headers, add_headers]
      · have hm' : env.is_message_part ct.type ct.subtype = false := by
          simpa using hm
        simp only [hm'] at h
        cases h3 : parser_scan_mime_part_content fuel r2 with
        | none => simp [h3] at h
        | some v =>
          obtain ⟨m, f, r3⟩ := v
          simp only [h3] at h
          simp only [Bool.false_eq_true, if_false, Option.some.injEq, Prod.mk.injEq] at h
          rw [← h.1]
          simp [GMimeObject.get_headers, GMimeObject.get_raw_headers, add_headers]


/-! ### The function `check_boundary` -/

/-- The comparison `strncmp_eq` is symmetric. -/
theorem strncmp_eq_comm (a b : List Nat) (n : Nat) : strncmp_eq a b n = strncmp_eq b a n := by
  induction n generalizing a b with
  | zero => simp [strncmp_eq]
  | succ n ih =>
    simp only [strncmp_eq]
    rw [ih a.tail b.tail]
    generalize a.headD 0 = x
    generalize b.headD 0 = y
    by_cases h : x = y
    · subst h
      simp
    · have h' : ¬ y = x := fun e => h e.symm
      simp [h, h']

/-- On a C string without NUL among its first `n` bytes, `strncmp` compares the first `n` bytes. -/
theorem strncmp_eq_iff (a b : List Nat) (n : Nat) (ha : n ≤ a.length) (hb : n ≤ b.length)
    (h0 : ∀ c ∈ a.take n, c ≠ 0) : strncmp_eq a b n = true ↔ b.take n = a.take n := by
  induction n generalizing a b with
  | zero => simp [strncmp_eq]
  | succ n ih =>
    cases a with
    | nil => simp at ha
    | cons x a =>
      cases b with
      | nil => simp at hb
      | cons y b =>
        have hx : x ≠ 0 := h0 x (by simp)
        have h0' : ∀ c ∈ a.take n, c ≠ 0 := fun c hc => h0 c (by simp [hc])
        have := ih a b (by simpa using ha) (by simpa using hb) h0'
        simp only [strncmp_eq, List.headD_cons, List.tail_cons, List.take_succ_cons,
          List.cons.injEq]
        by_cases hxy : x = y
        · subst hxy
          simp [hx, this]
        · have hyx : ¬ y = x := fun e => hxy e.symm
          simp [hxy, hyx]

/-- Read relative to a pointer into the array. -/
theorem peek_drop (buf : List Nat) (s i : Nat) : peek (buf.drop s) i = peek buf (s + i) := by
  simp [peek, List.getD_eq_getElem?_getD, List.getElem?_drop]

/-- A Boolean test may be replaced by an equivalent proposition. -/
theorem ite_congr_bool {α : Type} (b : Bool) (P : Prop) [Decidable P] (h : b = true ↔ P)
    (x y : α) : (if b = true then x else y) = (if P then x else y) := by
  by_cases hP : P
  · simp [hP, h.mpr hP]
  · have : b = false := by
      cases hb : b
      · rfl
      · exact absurd (h.mp hb) hP
    simp [hP, this]

/-- The frame loop of `check_boundary` agrees with the walk of the matching rule. -/
theorem check_boundary_walk_eq (off : Int) (rest : List Nat) (len : Nat)
    (hlen : len ≤ rest.length) (hoff : -1 ≤ off) (frames : List BoundaryStack)
    (hframes : ∀ s ∈ frames, s.boundary.length = s.boundarylenfinal ∧
      s.boundarylen ≤ s.boundarylenfinal ∧ 0 ∉ s.boundary) :
    check_boundary_walk off rest len frames = boundary_rule_walk off (rest.take len) frames := by
  induction frames with
  | nil => rfl
  | cons s parent ih =>
    obtain ⟨hl, hle, h0⟩ := hframes s (List.mem_cons_self _ _)
    have ih' := ih (fun t ht => hframes t (List.mem_cons_of_mem _ ht))
    have hlenl : (rest.take len).length = len := by simp [hlen]
    have c1 : (decide (off ≥ s.content_end) && decide (len ≥ s.boundarylenfinal) &&
        strncmp_eq s.boundary rest s.boundarylenfinal) = true ↔
        ((s.content_end = -1 ∨ off ≥ s.content_end) ∧
          (rest.take len).length ≥ s.boundarylenfinal ∧
          (rest.take len).take s.boundarylenfinal = s.boundary) := by
      rw [hlenl]
      simp only [Bool.and_eq_true, decide_eq_true_eq]
      constructor
      · rintro ⟨⟨h1, h2⟩, h3⟩
        refine ⟨Or.inr h1, h2, ?_⟩
        have := (strncmp_eq_iff s.boundary rest s.boundarylenfinal (by omega) (by omega)
          (fun c hc hc0 => h0 (hc0 ▸ List.mem_of_mem_take hc))).mp h3
        rw [List.take_take, Nat.min_eq_left h2, this, ← hl, List.take_length]
      · rintro ⟨h1, h2, h3⟩
        refine ⟨⟨?_, h2⟩, ?_⟩
        · rcases h1 with h1 | h1
          · omega
          · exact h1
        · apply (strncmp_eq_iff s.boundary rest s.boundarylenfinal (by omega) (by omega)
            (fun c hc hc0 => h0 (hc0 ▸ List.mem_of_mem_take hc))).mpr
          rw [List.take_take, Nat.min_eq_left h2] at h3
          rw [h3, ← hl, List.take_length]
    have c2 : (decide (len = s.boundarylen) && strncmp_eq s.boundary rest s.boundarylen) = true ↔
        ((rest.take len).length = s.boundarylen ∧
          (rest.take len).take s.boundarylen = s.boundary.take s.boundarylen) := by
      rw [hlenl]
      simp only [Bool.and_eq_true, decide_eq_true_eq]
      constructor
      · rintro ⟨h1, h3⟩
        refine ⟨h1, ?_⟩
        have := (strncmp_eq_iff s.boundary rest s.boundarylen (by omega) (by omega)
          (fun c hc hc0 => h0 (hc0 ▸ List.mem_of_mem_take hc))).mp h3
        rw [List.take_take, h1, Nat.min_self, this]
      · rintro ⟨h1, h3⟩
        refine ⟨h1, ?_⟩
        apply (strncmp_eq_iff s.boundary rest s.boundarylen (by omega) (by omega)
            (fun c hc hc0 => h0 (hc0 ▸ List.mem_of_mem_take hc))).mpr
        rw [List.take_take, h1, Nat.min_self] at h3
        exact h3
    simp only [check_boundary_walk, boundary_rule_walk]
    rw [ite_congr_bool _ _ c1, ite_congr_bool _ _ c2, ih']

/-- The bytes of `--`. -/
theorem bytes_dashes : bytes "--" = [45, 45] := by decide

/-- The bytes of the mbox marker. -/
theorem bytes_from : bytes "From " = [70, 114, 111, 109, 32] := by decide

/-- The test `possible_boundary` in the words of the matching rule. -/
theorem possible_boundary_iff (sf : Bool) (rest : List Nat) (len : Nat)
    (hlen : len ≤ rest.length) :
    possible_boundary sf rest len = true ↔
      ((rest.take len).take 2 = bytes "--" ∨
        (sf = true ∧ (rest.take len).length ≥ 5 ∧ (rest.take len).take 5 = bytes "From ")) := by
  have hlenl : (rest.take len).length = len := by simp [hlen]
  have hd : (decide (len ≥ 2) && (peek rest 0 == 45 && peek rest 1 == 45)) = true ↔
      (rest.take len).take 2 = bytes "--" := by
    rw [bytes_dashes, List.take_take]
    by_cases h2 : 2 ≤ len
    · rw [Nat.min_eq_left h2]
      match rest, hlen with
      | a :: b :: r, _ => simp [peek, h2]
      | [a], h => simp at h; omega
      | [], h => simp at h; omega
    · have : (List.take (min 2 len) rest).length < 2 := by
        simp; omega
      constructor
      · intro h; simp [h2] at h
      · intro h; rw [h] at this; simp at this
  have hf : (sf && decide (len ≥ 5) && strncmp_eq rest (bytes "From ") 5) = true ↔
      (sf = true ∧ (rest.take len).length ≥ 5 ∧ (rest.take len).take 5 = bytes "From ") := by
    rw [hlenl, strncmp_eq_comm]
    simp only [Bool.and_eq_true, decide_eq_true_eq]
    constructor
    · rintro ⟨⟨h1, h2⟩, h3⟩
      refine ⟨h1, h2, ?_⟩
      have := (strncmp_eq_iff (bytes "From ") rest 5 (by decide) (by omega)
        (by decide)).mp h3
      rw [List.take_take, Nat.min_eq_left h2, this]
      decide
    · rintro ⟨h1, h2, h3⟩
      refine ⟨⟨h1, h2⟩, ?_⟩
      apply (strncmp_eq_iff (bytes "From ") rest 5 (by decide) (by omega) (by decide)).mpr
      rw [List.take_take, Nat.min_eq_left h2] at h3
      rw [h3]
      decide
  unfold possible_boundary
  rw [Bool.or_eq_true, hd, hf]
  tauto

/-- A candidate that starts at a line feed cannot be a boundary. -/
theorem possible_boundary_at_lf (sf : Bool) (rest : List Nat) (len : Nat)
    (h : peek rest 0 = 10) : possible_boundary sf rest len = false := by
  unfold possible_boundary
  have h1 : strncmp_eq rest (bytes "From ") 5 = false := by
    rw [bytes_from]
    cases rest with
    | nil => simp [strncmp_eq]
    | cons a r =>
      simp [peek] at h
      subst h
      simp [strncmp_eq]
  simp [h1, h]

/-- The last byte of a non-empty line of the array. -/
theorem getLast?_take_drop (buf : List Nat) (start len : Nat) (h0 : 0 < len)
    (h : start + len ≤ buf.length) :
    ((buf.drop start).take len).getLast? = some (peek buf (start + len - 1)) := by
  rw [List.getLast?_eq_getElem?]
  have hl : ((buf.drop start).take len).length = len := by simp; omega
  rw [hl, List.getElem?_take_of_lt (by omega), List.getElem?_drop]
  have : start + (len - 1) = start + len - 1 := by omega
  rw [this]
  have hlt : start + len - 1 < buf.length := by omega
  simp [peek, List.getD_eq_getElem?_getD, List.getElem?_eq_getElem hlt]

/-! ### The function `parser_scan_content` -/

/-- The result of `check_boundary` does not depend on the flag `midline`. -/
theorem check_boundary_midline (p : GMimeParser) (b : Bool) (start len : Nat) :
    check_boundary { p with midline := b } start len = check_boundary p start len := rfl

/-- The result of `check_boundary` does not depend on `priv->inptr`. -/
theorem check_boundary_inptr (p : GMimeParser) (i : Nat) (start len : Nat) :
    check_boundary { p with inptr := i } start len = check_boundary p start len := rfl

/-- The line loop of `parser_scan_content` reports a boundary only at a line that `check_boundary` recognises. -/
theorem scan_content_lines_ok (n : Nat) (p : GMimeParser) (found start0 inptr : Nat)
    (content : Option (List Nat)) (r : ContentScan) (hf : found ≤ 1)
    (h : scan_content_lines n p found start0 inptr content = some r) : ContentScanOk r := by
  induction n generalizing p found start0 inptr content with
  | zero => simp [scan_content_lines] at h
  | succ n ih =>
    rw [scan_content_lines] at h
    by_cases h1 : inptr < p.inend
    · simp only [h1, if_true] at h
      by_cases h2 : scan_to_lf p.realbuf inptr < p.inend
      · simp only [h2, if_true] at h
        by_cases h3 : check_boundary p inptr (scan_to_lf p.realbuf inptr - inptr) = 0
        · simp only [h3, ne_eq, not_true_eq_false, if_false] at h
          exact ih _ _ _ _ _ (by omega) h
        · simp only [ne_eq, h3, not_false_eq_true, if_true, Option.some.injEq] at h
          subst h
          exact ⟨h3, h1, rfl, rfl⟩
      · simp only [h2, if_false] at h
        by_cases h4 : found = 0
        · simp only [h4, if_true, Option.some.injEq] at h
          subst h
          trivial
        · simp only [h4, if_false] at h
          by_cases h3 : check_boundary { p with midline := true } inptr
              (scan_to_lf p.realbuf inptr - inptr) = 0
          · simp only [h3, ne_eq, not_true_eq_false, if_false] at h
            exact ih _ _ _ _ _ (by omega) h
          · simp only [ne_eq, h3, not_false_eq_true, if_true, Option.some.injEq] at h
            subst h
            exact ⟨h3, h1, rfl, rfl⟩
    · simp only [h1, if_false, Option.some.injEq] at h
      subst h
      exact hf

/-- The refill loop of `parser_scan_content` leaves at the label `boundary` with `start` at a line that `check_boundary` recognises. -/
theorem scan_content_loop_ok (fuel : Nat) (p : GMimeParser) (inptr0 : Nat)
    (content : Option (List Nat)) (p' : GMimeParser) (found start inptr : Nat)
    (content' : Option (List Nat))
    (h : scan_content_loop fuel p inptr0 content = some (p', found, start, inptr, content'))
    (hb : found = FOUND_BOUNDARY ∨ found = FOUND_END_BOUNDARY) :
    start < p'.inend ∧ inptr = scan_to_lf p'.realbuf start ∧
      check_boundary p' start (scan_to_lf p'.realbuf start - start) = found := by
  induction fuel generalizing p inptr0 content with
  | zero => simp [scan_content_loop] at h
  | succ fuel ih =>
    rw [scan_content_loop] at h
    by_cases h1 : (parser_fill p).1 ≤ 0
    · simp only [h1, if_true, Option.some.injEq, Prod.mk.injEq] at h
      obtain ⟨_, hf, _⟩ := h
      rcases hb with hb | hb <;> rw [hb] at hf <;> simp [FOUND_EOS, FOUND_BOUNDARY, FOUND_END_BOUNDARY] at hf
    · simp only [h1, if_false] at h
      split at h
      · simp at h
      · rename_i q f s i c heq
        simp only [Option.some.injEq, Prod.mk.injEq] at h
        obtain ⟨rfl, rfl, rfl, rfl, rfl⟩ := h
        have := scan_content_lines_ok _ _ _ _ _ _ _ (by split <;> simp [FOUND_EOS]) heq
        exact ⟨this.2.1, this.2.2.1, this.2.2.2⟩
      · exact ih _ _ _ h
      · rename_i q f s i c heq
        have := scan_content_lines_ok _ _ _ _ _ _ _ (by split <;> simp [FOUND_EOS]) heq
        have hle : f ≤ 1 := this
        by_cases hf0 : f = 0
        · simp only [hf0, ne_eq, not_true_eq_false, if_false] at h
          exact ih _ _ _ h
        · simp only [ne_eq, hf0, not_false_eq_true, if_true, Option.some.injEq,
            Prod.mk.injEq] at h
          obtain ⟨_, hf, _⟩ := h
          rcases hb with hb | hb <;> rw [hb] at hf <;>
            simp [FOUND_BOUNDARY, FOUND_END_BOUNDARY] at hf <;> omega

/-! ### Slices, writes and the stream -/

/-- Length of a slice that lies inside the array. -/
theorem slice_length (buf : List Nat) (s n : Nat) (h : s + n ≤ buf.length) :
    (slice buf s n).length = n := by
  unfold slice
  rw [List.length_take, List.length_drop]
  omega

/-- The empty slice. -/
theorem slice_zero (buf : List Nat) (s : Nat) : slice buf s 0 = [] := by
  simp [slice]

/-- Adjacent slices join. -/
theorem slice_append (buf : List Nat) (s n m : Nat) :
    slice buf s n ++ slice buf (s + n) m = slice buf s (n + m) := by
  unfold slice
  rw [← List.drop_drop, List.take_add]

/-- A slice of a slice. -/
theorem slice_slice (buf : List Nat) (s n k m : Nat) (h : k + m ≤ n) :
    slice (slice buf s n) k m = slice buf (s + k) m := by
  unfold slice
  rw [List.drop_take, List.take_take, List.drop_drop, Nat.min_eq_left (by omega)]

/-- Read inside a slice. -/
theorem peek_slice (buf : List Nat) (s n k : Nat) (h : k < n) :
    peek (slice buf s n) k = peek buf (s + k) := by
  unfold peek slice
  simp [List.getD_eq_getElem?_getD, List.getElem?_take_of_lt h, List.getElem?_drop]

/-- The bytes written are read back. -/
theorem slice_writeAt_same (buf src : List Nat) (d : Nat) (h : d ≤ buf.length) :
    slice (writeAt buf d src) d src.length = src := by
  unfold slice writeAt
  have hl : (buf.take d).length = d := by simp [h]
  rw [List.append_assoc, List.drop_append_of_le_length (by omega)]
  rw [List.drop_of_length_le (by omega)]
  simp

/-- A write inside the array keeps its length. -/
theorem writeAt_length (buf src : List Nat) (d : Nat) (h : d + src.length ≤ buf.length) :
    (writeAt buf d src).length = buf.length := by
  unfold writeAt
  simp
  omega

/-- A write does not change the bytes before it. -/
theorem slice_writeAt_before (buf src : List Nat) (d s n : Nat) (h : s + n ≤ d)
    (hd : d ≤ buf.length) :
    slice (writeAt buf d src) s n = slice buf s n := by
  unfold slice writeAt
  have hl : (buf.take d).length = d := by simp [hd]
  rw [List.append_assoc, List.drop_append_of_le_length (by omega),
    List.take_append_of_le_length (by rw [List.length_drop]; omega)]
  rw [List.drop_take, List.take_take, Nat.min_eq_left (by omega)]

/-- A read delivers at most `n` bytes, which are the next bytes of the stream, and advances the position by their number. -/
theorem stream_read_spec (s : GMimeStream) (n : Nat) :
    (g_mime_stream_read s n).1.length ≤ n ∧
    s.chunks.flatten = (g_mime_stream_read s n).1 ++ (g_mime_stream_read s n).2.chunks.flatten ∧
    (g_mime_stream_read s n).2.pos = s.pos + (g_mime_stream_read s n).1.length ∧
    (g_mime_stream_read s n).2.seekable = s.seekable := by
  unfold g_mime_stream_read
  cases hc : s.chunks with
  | nil => simp [hc]
  | cons c cs =>
    simp only [List.flatten_cons]
    refine ⟨by simp, ?_, trivial, trivial⟩
    by_cases h : c.length ≤ n
    · simp [h, List.take_of_length_le h]
    · simp only [h, if_false, List.flatten_cons]
      rw [← List.append_assoc, List.take_append_drop]

/-- A read of at least one byte either finds the stream at its end or uses up a byte or a chunk. -/
theorem stream_read_progress (s : GMimeStream) (n : Nat) (hn : 0 < n) :
    (s.chunks = [] ∧ (g_mime_stream_read s n).1 = [] ∧ (g_mime_stream_read s n).2 = s) ∨
    stream_left (g_mime_stream_read s n).2 < stream_left s := by
  unfold g_mime_stream_read stream_left
  cases hc : s.chunks with
  | nil => left; simp [hc]
  | cons c cs =>
    right
    by_cases h : c.length ≤ n
    · simp [h]
      omega
    · have : 0 < c.length := by omega
      simp [h]
      omega

/-! ### The function `parser_fill` -/

/-- After `memmove` the destination holds the bytes of the source. -/
theorem slice_memmove (buf : List Nat) (d s n : Nat) (hd : d + n ≤ buf.length)
    (hs : s + n ≤ buf.length) : slice (memmove buf d s n) d n = slice buf s n := by
  unfold memmove
  have := slice_writeAt_same buf (slice buf s n) d (by omega)
  rw [slice_length buf s n hs] at this
  exact this

/-- The call `memmove` inside the array keeps its length. -/
theorem memmove_length (buf : List Nat) (d s n : Nat) (hd : d + n ≤ buf.length)
    (hs : s + n ≤ buf.length) : (memmove buf d s n).length = buf.length := by
  unfold memmove
  apply writeAt_length
  rw [slice_length buf s n hs]
  exact hd

/-- The shift of `parser_fill` keeps the unread bytes and leaves `inend` in its range. -/
theorem parser_fill_shift_spec (p : GMimeParser) (h : WindowInv p) :
    (parser_fill_shift p).1.length = SCAN_HEAD + SCAN_BUF + 1 ∧
    (parser_fill_shift p).2.2 = (parser_fill_shift p).2.1 + (p.inend - p.inptr) ∧
    SCAN_HEAD ≤ (parser_fill_shift p).2.2 ∧
    (parser_fill_shift p).2.2 ≤ SCAN_HEAD + SCAN_BUF - 1 ∧
    slice (parser_fill_shift p).1 (parser_fill_shift p).2.1 (p.inend - p.inptr) = window p ∧
    (p.inptr = p.inend → (parser_fill_shift p).2.2 = SCAN_HEAD) := by
  obtain ⟨hl, h1, h2, h3⟩ := h
  unfold parser_fill_shift window
  simp only [SCAN_HEAD, SCAN_BUF] at *
  by_cases c1 : p.inptr ≥ 128
  · simp only [c1, if_true]
    by_cases c2 : p.inend - p.inptr < 128
    · simp only [c2, if_true]
      refine ⟨?_, trivial, by omega, by omega, ?_, by omega⟩
      · rw [memmove_length _ _ _ _ (by omega) (by omega)]; exact hl
      · exact slice_memmove _ _ _ _ (by omega) (by omega)
    · simp only [c2, if_false]
      refine ⟨?_, trivial, by omega, by omega, ?_, by omega⟩
      · rw [memmove_length _ _ _ _ (by omega) (by omega)]; exact hl
      · exact slice_memmove _ _ _ _ (by omega) (by omega)
  · simp only [c1, if_false]
    by_cases c3 : p.inptr > 0
    · simp only [c3, if_true]
      refine ⟨?_, trivial, by omega, by omega, ?_, by omega⟩
      · rw [memmove_length _ _ _ _ (by omega) (by omega)]; exact hl
      · exact slice_memmove _ _ _ _ (by omega) (by omega)
    · simp only [c3, if_false]
      refine ⟨hl, by omega, by omega, by omega, trivial, by omega⟩

/-- The function `parser_fill` keeps the window invariant; the new window is the old one followed by the bytes read; with an empty window it either finds the stream at its end or uses up some of it. -/
theorem parser_fill_spec (p : GMimeParser) (h : WindowInv p) :
    WindowInv (parser_fill p).2 ∧
    (parser_fill p).1 = (parser_fill p).2.inend - (parser_fill p).2.inptr ∧
    ∃ data, window (parser_fill p).2 = window p ++ data ∧
      (parser_fill p).2.inend - (parser_fill p).2.inptr = (p.inend - p.inptr) + data.length ∧
      p.stream.chunks.flatten = data ++ (parser_fill p).2.stream.chunks.flatten ∧
      (parser_fill p).2.stream.pos = p.stream.pos + data.length ∧
      (parser_fill p).2.stream.seekable = p.stream.seekable ∧
      (parser_fill p).2.offset = g_mime_stream_tell (parser_fill p).2.stream ∧
      (p.inptr = p.inend →
        (p.stream.chunks = [] ∧ data = [] ∧ (parser_fill p).2.stream = p.stream) ∨
        stream_left (parser_fill p).2.stream < stream_left p.stream) := by
  obtain ⟨m1, m2, m3, m4, m5, m6⟩ := parser_fill_shift_spec p h
  obtain ⟨r1, r2, r3, r4⟩ := stream_read_spec p.stream
    (SCAN_HEAD + SCAN_BUF - 1 - (parser_fill_shift p).2.2)
  unfold parser_fill
  simp only
  generalize hrd : g_mime_stream_read p.stream
    (SCAN_HEAD + SCAN_BUF - 1 - (parser_fill_shift p).2.2) = rd at r1 r2 r3 r4
  generalize hmv : parser_fill_shift p = mv at m1 m2 m3 m4 m5 m6 r1 hrd
  have hsz : mv.2.2 + rd.1.length ≤ mv.1.length := by
    simp only [SCAN_HEAD, SCAN_BUF] at *; omega
  refine ⟨⟨?_, ?_, ?_, ?_⟩, trivial, rd.1, ?_, ?_, r2, r3, r4, trivial, ?_⟩
  · show (writeAt mv.1 mv.2.2 rd.1).length = _
    rw [writeAt_length _ _ _ hsz, m1]
  · show mv.2.1 ≤ mv.2.2 + rd.1.length
    omega
  · show SCAN_HEAD ≤ mv.2.2 + rd.1.length
    omega
  · show mv.2.2 + rd.1.length ≤ SCAN_HEAD + SCAN_BUF - 1
    omega
  · show slice (writeAt mv.1 mv.2.2 rd.1) mv.2.1 (mv.2.2 + rd.1.length - mv.2.1) = _
    have e : mv.2.2 + rd.1.length - mv.2.1 = (p.inend - p.inptr) + rd.1.length := by omega
    rw [e, ← slice_append, slice_writeAt_before _ _ _ _ _ (by omega) (by omega), m5]
    have e2 : mv.2.1 + (p.inend - p.inptr) = mv.2.2 := by omega
    rw [e2, slice_writeAt_same _ _ _ (by omega)]
  · show mv.2.2 + rd.1.length - mv.2.1 = _
    omega
  · intro he
    have h128 := m6 he
    have hn : 0 < SCAN_HEAD + SCAN_BUF - 1 - mv.2.2 := by
      simp only [SCAN_HEAD, SCAN_BUF] at *; omega
    have := stream_read_progress p.stream _ hn
    rw [hrd] at this
    exact this

/-- A read keeps the chunks that are left non-empty. -/
theorem stream_read_noEmpty (s : GMimeStream) (n : Nat) (h : NoEmptyRead s) :
    NoEmptyRead (g_mime_stream_read s n).2 := by
  unfold NoEmptyRead at *
  unfold g_mime_stream_read
  cases hc : s.chunks with
  | nil => simp [hc]
  | cons c cs =>
    rw [hc] at h
    by_cases hl : c.length ≤ n
    · simp only [hl, if_true]
      exact fun x hx => h x (List.mem_cons_of_mem _ hx)
    · simp only [hl, if_false]
      intro x hx
      rcases List.mem_cons.1 hx with hx | hx
      · intro hx0
        rw [hx, List.drop_eq_nil_iff] at hx0
        omega
      · exact h x (List.mem_cons_of_mem _ hx)

/-- A read of a positive number of bytes that delivers nothing finds the stream at its
end. -/
theorem stream_read_nil (s : GMimeStream) (n : Nat) (h : NoEmptyRead s) (hn : 0 < n)
    (h0 : (g_mime_stream_read s n).1.length = 0) :
    s.chunks = [] ∧ (g_mime_stream_read s n).2.chunks = [] := by
  unfold g_mime_stream_read at h0 ⊢
  cases hc : s.chunks with
  | nil => exact ⟨rfl, hc⟩
  | cons c cs =>
    exfalso
    have hne : c ≠ [] := h c (by rw [hc]; exact List.mem_cons_self _ _)
    simp only [hc, List.length_take] at h0
    have : 0 < c.length := List.length_pos.2 hne
    omega

/-- The function `parser_fill` keeps the chunks that are left non-empty. -/
theorem parser_fill_noEmpty (p : GMimeParser) (h : NoEmptyRead p.stream) :
    NoEmptyRead (parser_fill p).2.stream :=
  stream_read_noEmpty _ _ h

/-- A fill that leaves the window empty found the stream at its end. -/
theorem parser_fill_eof (p : GMimeParser) (hw : WindowInv p) (h : NoEmptyRead p.stream)
    (h0 : (parser_fill p).1 ≤ 0) :
    p.inptr = p.inend ∧ p.stream.chunks = [] ∧ (parser_fill p).2.stream.chunks = [] := by
  obtain ⟨m1, m2, m3, m4, m5, m6⟩ := parser_fill_shift_spec p hw
  have h1 := hw.2.1
  have hv : (parser_fill p).1 =
      (parser_fill_shift p).2.2 + (g_mime_stream_read p.stream
        (SCAN_HEAD + SCAN_BUF - 1 - (parser_fill_shift p).2.2)).1.length -
        (parser_fill_shift p).2.1 := rfl
  rw [hv] at h0
  have he : p.inptr = p.inend := by omega
  have h128 := m6 he
  have hn : 0 < SCAN_HEAD + SCAN_BUF - 1 - (parser_fill_shift p).2.2 := by
    simp only [SCAN_HEAD, SCAN_BUF] at *; omega
  have := stream_read_nil p.stream _ h hn (by omega)
  exact ⟨he, this.1, this.2⟩

/-- The function `parser_fill` keeps the relation to the bytes of the stream and the absolute offset of `inptr`. -/
theorem parser_fill_represents (D : List Nat) (p : GMimeParser) (h : WindowInv p)
    (hr : Represents D p) :
    Represents D (parser_fill p).2 ∧
    abs_offset (parser_fill p).2 (parser_fill p).2.inptr = abs_offset p p.inptr := by
  obtain ⟨_, _, data, f1, f2, f3, f4, _, _, _⟩ := parser_fill_spec p h
  obtain ⟨hp, hw, hd, hwin⟩ := hr
  generalize (parser_fill p).2 = q at *
  have hdl : data.length ≤ D.length - p.stream.pos := by
    have := congrArg List.length hd
    rw [f3] at this
    simp at this
    omega
  have hsl : slice D p.stream.pos data.length = data := by
    unfold slice
    rw [hd, f3]
    simp
  refine ⟨⟨by omega, by omega, ?_, ?_⟩, ?_⟩
  · rw [f4, ← List.drop_drop, hd, f3]
    simp
  · rw [f1, f2, f4, hwin]
    have e : p.stream.pos + data.length - (p.inend - p.inptr + data.length) =
        p.stream.pos - (p.inend - p.inptr) := by omega
    rw [e, ← slice_append]
    have e2 : p.stream.pos - (p.inend - p.inptr) + (p.inend - p.inptr) = p.stream.pos := by
      omega
    rw [e2, hsl]
  · unfold abs_offset
    omega

/-! ### The header lexer -/

/-- The scan for a line feed stops at or before any line feed. -/
theorem takeWhile_length_le_of_lf (l : List Nat) (k : Nat) (h : peek l k = 10) :
    (l.takeWhile (fun c => c != 10)).length ≤ k := by
  induction l generalizing k with
  | nil => simp
  | cons a t ih =>
    rw [List.takeWhile_cons]
    by_cases ha : a = 10
    · simp [ha]
    · cases k with
      | zero => simp [peek] at h; exact absurd h ha
      | succ k =>
        have : peek t k = 10 := by simpa [peek] using h
        simp [ha, ih k this]

/-- The scan for a line feed stops at a line feed. -/
theorem peek_takeWhile_length (l : List Nat)
    (h : (l.takeWhile (fun c => c != 10)).length < l.length) :
    peek l (l.takeWhile (fun c => c != 10)).length = 10 := by
  induction l with
  | nil => simp at h
  | cons a t ih =>
    rw [List.takeWhile_cons] at h ⊢
    by_cases ha : a = 10
    · simp [ha, peek]
    · simp only [bne_iff_ne, ne_eq, ha, not_false_eq_true, decide_True, if_true,
        List.length_cons, Nat.add_lt_add_iff_right] at h ⊢
      simpa [peek] using ih h

/-- The bytes passed by the scan for a line feed. -/
theorem take_takeWhile_length (l : List Nat) :
    l.take (l.takeWhile (fun c => c != 10)).length = l.takeWhile (fun c => c != 10) := by
  induction l with
  | nil => simp
  | cons a t ih =>
    rw [List.takeWhile_cons]
    by_cases ha : a = 10
    · simp [ha]
    · simp [ha, ih]

/-- With a line feed at index `e`, the inner loop `while (*inptr != LF) inptr++` started at `s <= e` stops at the first line feed from `s` on, at or before `e`. -/
theorem scan_to_lf_spec (buf : List Nat) (s e : Nat) (hse : s ≤ e) (he : peek buf e = 10) :
    s ≤ scan_to_lf buf s ∧ scan_to_lf buf s ≤ e ∧ peek buf (scan_to_lf buf s) = 10 ∧
    (∀ c ∈ slice buf s (scan_to_lf buf s - s), c ≠ 10) := by
  have hk : peek (buf.drop s) (e - s) = 10 := by
    simp only [peek, List.getD_eq_getElem?_getD, List.getElem?_drop] at he ⊢
    have : s + (e - s) = e := by omega
    rw [this]; exact he
  have hle := takeWhile_length_le_of_lf (buf.drop s) (e - s) hk
  have hlt : e - s < (buf.drop s).length := by
    by_contra hc
    have : peek (buf.drop s) (e - s) = 0 := by
      simp only [peek, List.getD_eq_getElem?_getD]
      rw [List.getElem?_eq_none (by omega)]
      rfl
    omega
  unfold scan_to_lf
  refine ⟨by omega, by omega, ?_, ?_⟩
  · have := peek_takeWhile_length (buf.drop s) (by omega)
    simp only [peek, List.getD_eq_getElem?_getD, List.getElem?_drop] at this ⊢
    exact this
  · intro c hc
    unfold slice at hc
    rw [Nat.add_sub_cancel_left, take_takeWhile_length] at hc
    have := List.mem_takeWhile_imp hc
    simpa using this

/-- Absolute offsets advance with the array index. -/
theorem abs_offset_add (p : GMimeParser) (i m : Nat) (h1 : p.inptr ≤ i) (h2 : i + m ≤ p.inend)
    (h3 : p.inend - p.inptr ≤ p.stream.pos) :
    abs_offset p (i + m) = abs_offset p i + m := by
  unfold abs_offset
  omega

/-- The bytes of the window are the bytes of the stream at their absolute offset. -/
theorem buf_slice_eq (D : List Nat) (p : GMimeParser) (hw : WindowInv p)
    (hr : Represents D p) (i m : Nat) (h1 : p.inptr ≤ i) (h2 : i + m ≤ p.inend) :
    slice p.realbuf i m = slice D (abs_offset p i) m := by
  obtain ⟨_, hle, _, hwin⟩ := hr
  have e1 := slice_slice p.realbuf p.inptr (p.inend - p.inptr) (i - p.inptr) m (by omega)
  have e2 := slice_slice D (p.stream.pos - (p.inend - p.inptr)) (p.inend - p.inptr)
    (i - p.inptr) m (by omega)
  unfold window at hwin
  rw [hwin, e2] at e1
  have a1 : p.inptr + (i - p.inptr) = i := by omega
  have a2 : p.stream.pos - (p.inend - p.inptr) + (i - p.inptr) = abs_offset p i := by
    unfold abs_offset; omega
  rw [a1, a2] at e1
  exact e1.symm

/-- A byte of the window is the byte of the stream at its absolute offset. -/
theorem buf_peek_eq (D : List Nat) (p : GMimeParser) (hw : WindowInv p)
    (hr : Represents D p) (k : Nat) (h1 : p.inptr ≤ k) (h2 : k < p.inend) :
    peek p.realbuf k = peek D (abs_offset p k) := by
  have := buf_slice_eq D p hw hr k 1 h1 (by omega)
  have h3 := congrArg (fun l => peek l 0) this
  simp only at h3
  rw [peek_slice _ _ _ _ (by omega), peek_slice _ _ _ _ (by omega)] at h3
  simpa using h3

/-- Absolute offsets of the window lie inside the stream. -/
theorem abs_offset_le_length (D : List Nat) (p : GMimeParser) (hr : Represents D p) (i : Nat)
    (h2 : i ≤ p.inend) : abs_offset p i ≤ D.length := by
  unfold abs_offset
  have := hr.1
  omega

/-- A field of the parser after an append statement. -/
@[simp]
theorem raw_header_append_realbuf (p : GMimeParser) (x : List Nat) : (raw_header_append p x).realbuf = p.realbuf := rfl

/-- A field of the parser after an append statement. -/
@[simp]
theorem raw_header_append_inptr (p : GMimeParser) (x : List Nat) : (raw_header_append p x).inptr = p.inptr := rfl

/-- A field of the parser after an append statement. -/
@[simp]
theorem raw_header_append_inend (p : GMimeParser) (x : List Nat) : (raw_header_append p x).inend = p.inend := rfl

/-- A field of the parser after an append statement. -/
@[simp]
theorem raw_header_append_stream (p : GMimeParser) (x : List Nat) : (raw_header_append p x).stream = p.stream := rfl

/-- A field of the parser after an append statement. -/
@[simp]
theorem raw_header_append_offset (p : GMimeParser) (x : List Nat) : (raw_header_append p x).offset = p.offset := rfl

/-- A field of the parser after an append statement. -/
@[simp]
theorem raw_header_append_midline (p : GMimeParser) (x : List Nat) : (raw_header_append p x).midline = p.midline := rfl

/-- A field of the parser after an append statement. -/
@[simp]
theorem raw_header_append_rawbuf (p : GMimeParser) (x : List Nat) : (raw_header_append p x).rawbuf = p.rawbuf ++ x := rfl

/-- A field of the parser after an append statement. -/
@[simp]
theorem raw_header_append_headerbuf (p : GMimeParser) (x : List Nat) : (raw_header_append p x).headerbuf = p.headerbuf := rfl

/-- A field of the parser after an append statement. -/
@[simp]
theorem raw_header_append_headers (p : GMimeParser) (x : List Nat) : (raw_header_append p x).headers = p.headers := rfl

/-- A field of the parser after an append statement. -/
@[simp]
theorem raw_header_append_header_start (p : GMimeParser) (x : List Nat) : (raw_header_append p x).header_start = p.header_start := rfl

/-- A field of the parser after an append statement. -/
@[simp]
theorem header_append_realbuf (p : GMimeParser) (x : List Nat) : (header_append p x).realbuf = p.realbuf := rfl

/-- A field of the parser after an append statement. -/
@[simp]
theorem header_append_inptr (p : GMimeParser) (x : List Nat) : (header_append p x).inptr = p.inptr := rfl

/-- A field of the parser after an append statement. -/
@[simp]
theorem header_append_inend (p : GMimeParser) (x : List Nat) : (header_append p x).inend = p.inend := rfl

/-- A field of the parser after an append statement. -/
@[simp]
theorem header_append_stream (p : GMimeParser) (x : List Nat) : (header_append p x).stream = p.stream := rfl

/-- A field of the parser after an append statement. -/
@[simp]
theorem header_append_offset (p : GMimeParser) (x : List Nat) : (header_append p x).offset = p.offset := rfl

/-- A field of the parser after an append statement. -/
@[simp]
theorem header_append_midline (p : GMimeParser) (x : List Nat) : (header_append p x).midline = p.midline := rfl

/-- A field of the parser after an append statement. -/
@[simp]
theorem header_append_rawbuf (p : GMimeParser) (x : List Nat) : (header_append p x).rawbuf = p.rawbuf := rfl

/-- A field of the parser after an append statement. -/
@[simp]
theorem header_append_headerbuf (p : GMimeParser) (x : List Nat) : (header_append p x).headerbuf = p.headerbuf ++ x := rfl

/-- A field of the parser after an append statement. -/
@[simp]
theorem header_append_headers (p : GMimeParser) (x : List Nat) : (header_append p x).headers = p.headers := rfl

/-- A field of the parser after an append statement. -/
@[simp]
theorem header_append_header_start (p : GMimeParser) (x : List Nat) : (header_append p x).header_start = p.header_start := rfl

/-- A non-empty logical line comes from a non-empty range of bytes. -/
theorem decoded_nonempty (S hb : List Nat) (h : Decoded S hb) (hne : hb ≠ []) : S ≠ [] := by
  induction h with
  | nil => exact absurd rfl hne
  | seg S hb seg _ _ ih =>
    intro hS
    have h1 : S = [] := (List.append_eq_nil.mp hS).1
    have h2 : seg = [] := (List.append_eq_nil.mp hS).2
    subst h2
    simp at hne
    exact ih hne h1
  | lf S hb _ _ => simp
  | crlf S hb _ _ => simp

/-- A chain of headers is extended at its end by the header of the next range of bytes. -/
theorem header_chain_snoc (D : List Nat) (sk : Bool) (a0 a : Nat) (hs : List HeaderRaw)
    (s e : Nat) (hb : List Nat) (hc : HeaderChain D sk a0 a hs s) (hls : LineStart D a0 s)
    (hlt : s < e) (hle : e ≤ D.length) (hd : Decoded (slice D s (e - s)) hb) :
    HeaderChain D sk a0 a (hs ++ [header_parse_line hb (off_of sk s)]) e := by
  induction hs generalizing a with
  | nil =>
    simp only [HeaderChain] at hc
    subst hc
    exact ⟨hls, e, hb, hlt, hle, hd, rfl, rfl⟩
  | cons h t ih =>
    obtain ⟨h1, a', hb', h2, h3, h4, h5, h6⟩ := hc
    exact ⟨h1, a', hb', h2, h3, h4, h5, ih a' h6⟩

/-- The function `parser_offset` gives the absolute offset of an index of the window (or `-1` on a stream that is not seekable). -/
theorem parser_offset_eq (D : List Nat) (p : GMimeParser) (hb : BufOK D p) (i : Nat)
    (h1 : p.inptr ≤ i) (h2 : i ≤ p.inend) :
    parser_offset p (some i) = off_of p.stream.seekable (abs_offset p i) := by
  obtain ⟨_, ⟨_, hle, _, _⟩, ho, _⟩ := hb
  unfold parser_offset off_of abs_offset
  rw [ho]
  unfold g_mime_stream_tell
  by_cases hs : p.stream.seekable = true
  · simp only [hs, if_true]
    have : ¬ ((p.stream.pos : Int) = -1) := by omega
    simp only [this, if_false]
    omega
  · simp [hs]

/-- A range of bytes extended at its end. -/
theorem slice_extend (D : List Nat) (s x m : Nat) (h : s ≤ x) :
    slice D s (x + m - s) = slice D s (x - s) ++ slice D x m := by
  have e : x + m - s = (x - s) + m := by omega
  rw [e, ← slice_append]
  congr 2
  omega

/-- The one-byte range at a byte that is not NUL. -/
theorem slice_one_of_peek (D : List Nat) (x c : Nat) (h : peek D x = c) (hc : c ≠ 0) :
    slice D x 1 = [c] := by
  unfold slice
  unfold peek at h
  rw [List.getD_eq_getElem?_getD] at h
  cases hx : D[x]? with
  | none => rw [hx] at h; simp at h; exact absurd h.symm hc
  | some v =>
    rw [hx] at h
    simp at h
    subst h
    have hlt : x < D.length := by
      by_contra hn
      rw [List.getElem?_eq_none (by omega)] at hx
      cases hx
    rw [List.getElem?_eq_getElem hlt] at hx
    have hv : D[x] = v := Option.some.inj hx
    rw [List.drop_eq_getElem_cons hlt, hv]
    rfl

/-- The state of the i/o array depends only on the array, the window and the stream. -/
theorem bufOK_of_sameBuf (D : List Nat) (p q : GMimeParser) (h : SameBuf p q)
    (hb : BufOK D p) : BufOK D q := by
  obtain ⟨h1, h2, h3, h4, h5⟩ := h
  unfold BufOK WindowInv Represents window at *
  rw [h1, h2, h3, h4, h5]
  exact hb

/-- The result of the line loop may be stated from any state with the same array, window and stream. -/
theorem headerScanPost_of_sameBuf (D : List Nat) (a0 : Nat) (raw0 : List Nat)
    (p q : GMimeParser) (h : SameBuf p q) (r : HeaderScan)
    (hr : HeaderScanPost D a0 raw0 q r) : HeaderScanPost D a0 raw0 p r := by
  obtain ⟨h1, h2, h3, h4, h5⟩ := h
  cases r with
  | headers_end q' hend j =>
    obtain ⟨⟨g1, g2, g3, g4, g5⟩, g⟩ := hr
    exact ⟨⟨g1.trans h1, g2.trans h2, g3.trans h3, g4.trans h4, g5.trans h5⟩, g⟩
  | refill q' hend left =>
    obtain ⟨g0, g1, g3, g4, g5, g⟩ := hr
    exact ⟨g0, g1.trans h1, g3.trans h3, g4.trans h4, g5.trans h5, g⟩
  | done q' hend j =>
    obtain ⟨⟨g1, g2, g3, g4, g5⟩, g⟩ := hr
    exact ⟨⟨g1.trans h1, g2.trans h2, g3.trans h3, g4.trans h4, g5.trans h5⟩, g⟩

/-- A line that ends with LF is decoded by leaving out the LF. -/
theorem decoded_line (S hb seg : List Nat) (hd : Decoded S hb) (hno : ∀ c ∈ seg, c ≠ 10) :
    Decoded (S ++ seg ++ [10]) (hb ++ seg) :=
  Decoded.lf _ _ (Decoded.seg _ _ _ hd hno)

/-- A line that ends with CR LF is decoded by leaving out the CR LF. -/
theorem decoded_line_cr (S hb seg : List Nat) (hd : Decoded S hb) (hno : ∀ c ∈ seg, c ≠ 10) :
    Decoded (S ++ (seg ++ [13]) ++ [10]) (hb ++ seg) := by
  have := Decoded.crlf _ _ (Decoded.seg _ _ _ hd hno)
  simpa [List.append_assoc] using this

/-- The bytes that the line loop appends to the header buffer for a line decode that line. -/
theorem decoded_trimmed_line (buf : List Nat) (i j : Nat) (hij : i ≤ j) (S hb : List Nat)
    (hd : Decoded S hb) (hno : ∀ c ∈ slice buf i (j - i), c ≠ 10) :
    Decoded (S ++ slice buf i (j - i) ++ [10]) (hb ++ slice buf i (trimmed_len buf i j)) := by
  unfold trimmed_len
  by_cases hc : (decide (j > i) && decide (peek buf (j - 1) = 13)) = true
  · simp only [hc, if_true]
    simp only [Bool.and_eq_true, decide_eq_true_eq] at hc
    obtain ⟨h1, h2⟩ := hc
    have e : slice buf i (j - i) = slice buf i (j - i - 1) ++ [13] := by
      have := slice_append buf i (j - i - 1) 1
      rw [show j - i - 1 + 1 = j - i by omega, show i + (j - i - 1) = j - 1 by omega,
        slice_one_of_peek buf (j - 1) 13 h2 (by decide)] at this
      exact this.symm
    rw [e] at hno ⊢
    exact decoded_line_cr _ _ _ hd (fun c hc => hno c (by simp [hc]))
  · simp only [hc, if_false]
    exact decoded_line _ _ _ hd hno

/-- One iteration of the line loop of `parser_step_headers`. -/
theorem step_headers_lines_succ (n : Nat) (p : GMimeParser) (hend i : Nat) :
    step_headers_lines (n + 1) p hend i =
      if i < p.inend then
        if scan_to_lf p.realbuf i = p.inend then
          some (HeaderScan.refill
            { header_append
                (raw_header_append p (slice p.realbuf i (scan_to_lf p.realbuf i - i)))
                (slice p.realbuf i (scan_to_lf p.realbuf i - i)) with
              midline := true, inptr := scan_to_lf p.realbuf i }
            hend (p.inend - scan_to_lf p.realbuf i))
        else if (!p.midline && (decide (scan_to_lf p.realbuf i = i) ||
            (decide (scan_to_lf p.realbuf i - i = 1) && decide (peek p.realbuf i = 13)))) = true
        then
          some (HeaderScan.headers_end
            (raw_header_append p (slice p.realbuf i (scan_to_lf p.realbuf i - i))) hend
            (scan_to_lf p.realbuf i))
        else if (decide (peek p.realbuf (scan_to_lf p.realbuf i + 1) = 32) ||
            decide (peek p.realbuf (scan_to_lf p.realbuf i + 1) = 9)) = true then
          step_headers_lines n
            { header_line_done p i (scan_to_lf p.realbuf i) with midline := true } hend
            (scan_to_lf p.realbuf i + 1)
        else
          step_headers_lines n (header_line_parsed p hend i (scan_to_lf p.realbuf i))
            (hend + 1) (scan_to_lf p.realbuf i + 1)
      else some (HeaderScan.done p hend i) := by
  rw [step_headers_lines]
  rfl

/-- A field of the parser after the statements for one header line. -/
theorem header_line_done_realbuf (p : GMimeParser) (i j : Nat) :
    (header_line_done p i j).realbuf = p.realbuf := rfl

/-- A field of the parser after the statements for one header line. -/
theorem header_line_done_inptr (p : GMimeParser) (i j : Nat) :
    (header_line_done p i j).inptr = p.inptr := rfl

/-- A field of the parser after the statements for one header line. -/
theorem header_line_done_inend (p : GMimeParser) (i j : Nat) :
    (header_line_done p i j).inend = p.inend := rfl

/-- A field of the parser after the statements for one header line. -/
theorem header_line_done_stream (p : GMimeParser) (i j : Nat) :
    (header_line_done p i j).stream = p.stream := rfl

/-- A field of the parser after the statements for one header line. -/
theorem header_line_done_offset (p : GMimeParser) (i j : Nat) :
    (header_line_done p i j).offset = p.offset := rfl

/-- A field of the parser after the statements for one header line. -/
theorem header_line_done_midline (p : GMimeParser) (i j : Nat) :
    (header_line_done p i j).midline = p.midline := rfl

/-- A field of the parser after the statements for one header line. -/
theorem header_line_done_headers (p : GMimeParser) (i j : Nat) :
    (header_line_done p i j).headers = p.headers := rfl

/-- A field of the parser after the statements for one header line. -/
theorem header_line_done_header_start (p : GMimeParser) (i j : Nat) :
    (header_line_done p i j).header_start = p.header_start := rfl

/-- A field of the parser after the statements for one header line. -/
theorem header_line_done_rawbuf (p : GMimeParser) (i j : Nat) :
    (header_line_done p i j).rawbuf = p.rawbuf ++ slice p.realbuf i (j - i) ++ slice p.realbuf j 1 := rfl

/-- A field of the parser after the statements for one header line. -/
theorem header_line_done_headerbuf (p : GMimeParser) (i j : Nat) :
    (header_line_done p i j).headerbuf = p.headerbuf ++ slice p.realbuf i (trimmed_len p.realbuf i j) := rfl

/-- A field of the parser after the statements for one header line. -/
theorem header_line_parsed_realbuf (p : GMimeParser) (hend i j : Nat) :
    (header_line_parsed p hend i j).realbuf = p.realbuf := by
  unfold header_line_parsed header_parse
  rfl

/-- A field of the parser after the statements for one header line. -/
theorem header_line_parsed_inptr (p : GMimeParser) (hend i j : Nat) :
    (header_line_parsed p hend i j).inptr = p.inptr := by
  unfold header_line_parsed header_parse
  rfl

/-- A field of the parser after the statements for one header line. -/
theorem header_line_parsed_inend (p : GMimeParser) (hend i j : Nat) :
    (header_line_parsed p hend i j).inend = p.inend := by
  unfold header_line_parsed header_parse
  rfl

/-- A field of the parser after the statements for one header line. -/
theorem header_line_parsed_stream (p : GMimeParser) (hend i j : Nat) :
    (header_line_parsed p hend i j).stream = p.stream := by
  unfold header_line_parsed header_parse
  rfl

/-- A field of the parser after the statements for one header line. -/
theorem header_line_parsed_offset (p : GMimeParser) (hend i j : Nat) :
    (header_line_parsed p hend i j).offset = p.offset := by
  unfold header_line_parsed header_parse
  rfl

/-- A field of the parser after the statements for one header line. -/
theorem header_line_parsed_midline (p : GMimeParser) (hend i j : Nat) :
    (header_line_parsed p hend i j).midline = false := rfl

/-- A field of the parser after the statements for one header line. -/
theorem header_line_parsed_headers (p : GMimeParser) (hend i j : Nat) :
    (header_line_parsed p hend i j).headers = p.headers.take hend ++
      [header_parse_line (p.headerbuf ++ slice p.realbuf i (trimmed_len p.realbuf i j))
        p.header_start] := rfl

/-- A field of the parser after the statements for one header line. -/
theorem header_line_parsed_header_start (p : GMimeParser) (hend i j : Nat) :
    (header_line_parsed p hend i j).header_start = parser_offset p (some (j + 1)) := rfl

/-- A field of the parser after the statements for one header line. -/
theorem header_line_parsed_rawbuf (p : GMimeParser) (hend i j : Nat) :
    (header_line_parsed p hend i j).rawbuf = p.rawbuf ++ slice p.realbuf i (j - i) ++ slice p.realbuf j 1 := rfl

/-- A field of the parser after the statements for one header line. -/
theorem header_line_parsed_headerbuf (p : GMimeParser) (hend i j : Nat) :
    (header_line_parsed p hend i j).headerbuf = [] := rfl

/-- Absolute offsets depend only on the stream and `inend`. -/
theorem abs_offset_congr (p q : GMimeParser) (k : Nat) (h1 : q.stream = p.stream)
    (h2 : q.inend = p.inend) : abs_offset q k = abs_offset p k := by
  unfold abs_offset
  rw [h1, h2]

/-- The line that the inner loop delimits, as bytes of the stream. -/
theorem header_line_facts (D : List Nat) (a0 : Nat) (raw0 : List Nat) (p : GMimeParser)
    (hend i s j : Nat) (hb : BufOK D p) (hinv : HeaderInvAt D a0 raw0 p hend i s)
    (hj : scan_to_lf p.realbuf i = j) :
    i ≤ j ∧ j ≤ p.inend ∧ peek p.realbuf j = 10 ∧
    abs_offset p j = abs_offset p i + (j - i) ∧
    p.rawbuf ++ slice p.realbuf i (j - i) = raw0 ++ slice D a0 (abs_offset p j - a0) ∧
    (∀ c ∈ slice p.realbuf i (j - i), c ≠ 10) ∧
    slice p.realbuf i (j - i) = slice D (abs_offset p i) (j - i) := by
  obtain ⟨hi1, hi2, ha0, hraw, _⟩ := hinv
  obtain ⟨j1, j2, j3, j4⟩ := scan_to_lf_spec p.realbuf i p.inend hi2 hb.2.2.2
  rw [hj] at j1 j2 j3 j4
  have hseg := buf_slice_eq D p hb.1 hb.2.1 i (j - i) hi1 (by omega)
  have habs : abs_offset p j = abs_offset p i + (j - i) := by
    have := abs_offset_add p i (j - i) hi1 (by omega) hb.2.1.2.1
    rwa [show i + (j - i) = j by omega] at this
  refine ⟨j1, j2, j3, habs, ?_, j4, hseg⟩
  rw [hraw, hseg, habs, List.append_assoc, ← slice_extend D a0 _ _ ha0]

/-- The invariant after a line that runs to the end of the window. -/
theorem headerInv_refill (D : List Nat) (a0 : Nat) (raw0 : List Nat) (p : GMimeParser)
    (hend i s : Nat) (hb : BufOK D p) (hinv : HeaderInvAt D a0 raw0 p hend i s)
    (hj : scan_to_lf p.realbuf i = p.inend) :
    HeaderInvAt D a0 raw0
      { header_append (raw_header_append p (slice p.realbuf i (p.inend - i)))
          (slice p.realbuf i (p.inend - i)) with midline := true, inptr := p.inend }
      hend p.inend s := by
  obtain ⟨f1, f2, f3, f4, f5, f6, f7⟩ := header_line_facts D a0 raw0 p hend i s p.inend hb hinv hj
  obtain ⟨hi1, hi2, ha0, hraw, hlen, hs1, hs2, hstart, hchain, hls, hdec, hmid⟩ := hinv
  refine ⟨Nat.le_refl _, Nat.le_refl _, ?_, ?_, hlen, hs1, ?_, hstart, hchain, hls, ?_, ?_⟩
  · show a0 ≤ abs_offset p p.inend
    omega
  · exact f5
  · show s ≤ abs_offset p p.inend
    omega
  · show Decoded (slice D s (abs_offset p p.inend - s))
      (p.headerbuf ++ slice p.realbuf i (p.inend - i))
    rw [f7, f4, slice_extend D s _ _ hs2]
    exact Decoded.seg _ _ _ hdec (f7 ▸ f6)
  · intro hm
    exact Bool.noConfusion (show true = false from hm)

/-- The state at a blank line. -/
theorem headerEnd_blank (D : List Nat) (a0 : Nat) (raw0 : List Nat) (p : GMimeParser)
    (hend i s j : Nat) (hb : BufOK D p) (hinv : HeaderInvAt D a0 raw0 p hend i s)
    (hj : scan_to_lf p.realbuf i = j) (h1 : i < p.inend) (hjlt : j < p.inend)
    (hblank : (!p.midline && (decide (j = i) ||
      (decide (j - i = 1) && decide (peek p.realbuf i = 13)))) = true) :
    HeaderEnd D a0 raw0 (raw_header_append p (slice p.realbuf i (j - i))) hend j := by
  obtain ⟨f1, f2, f3, f4, f5, f6, f7⟩ := header_line_facts D a0 raw0 p hend i s j hb hinv hj
  obtain ⟨hi1, hi2, ha0, hraw, hlen, hs1, hs2, hstart, hchain, hls, hdec, hmid⟩ := hinv
  simp only [Bool.and_eq_true, Bool.not_eq_true', Bool.or_eq_true,
    decide_eq_true_eq] at hblank
  obtain ⟨hm, hbl⟩ := hblank
  obtain ⟨hhb, hsi⟩ := hmid hm
  have hDj : peek D (abs_offset p j) = 10 := by
    rw [← buf_peek_eq D p hb.1 hb.2.1 j (by omega) hjlt]; exact f3
  refine ⟨by show p.inptr ≤ j; omega, hjlt, by show a0 ≤ abs_offset p j; omega, f5, hlen,
    hhb, hDj, s, hs1, hchain, hls, ?_⟩
  show abs_offset p j = s ∨ (abs_offset p j = s + 1 ∧ peek D s = 13)
  rcases hbl with hbl | ⟨hbl1, hbl2⟩
  · left; omega
  · right
    refine ⟨by omega, ?_⟩
    rw [hsi, ← buf_peek_eq D p hb.1 hb.2.1 i hi1 h1]; exact hbl2

/-- The raw buffer and the header buffer after a complete line. -/
theorem header_line_common (D : List Nat) (a0 : Nat) (raw0 : List Nat) (p : GMimeParser)
    (hend i s j : Nat) (hb : BufOK D p) (hinv : HeaderInvAt D a0 raw0 p hend i s)
    (hj : scan_to_lf p.realbuf i = j) (hjlt : j < p.inend) :
    i ≤ j ∧ abs_offset p (j + 1) = abs_offset p j + 1 ∧ peek D (abs_offset p j) = 10 ∧
    s < abs_offset p (j + 1) ∧ a0 ≤ abs_offset p (j + 1) ∧
    (header_line_done p i j).rawbuf = raw0 ++ slice D a0 (abs_offset p (j + 1) - a0) ∧
    Decoded (slice D s (abs_offset p (j + 1) - s)) (header_line_done p i j).headerbuf := by
  obtain ⟨f1, f2, f3, f4, f5, f6, f7⟩ := header_line_facts D a0 raw0 p hend i s j hb hinv hj
  obtain ⟨hi1, hi2, ha0, hraw, hlen, hs1, hs2, hstart, hchain, hls, hdec, hmid⟩ := hinv
  have habs1 : abs_offset p (j + 1) = abs_offset p j + 1 :=
    abs_offset_add p j 1 (by omega) (by omega) hb.2.1.2.1
  have hDj : peek D (abs_offset p j) = 10 := by
    rw [← buf_peek_eq D p hb.1 hb.2.1 j (by omega) hjlt]; exact f3
  have hlf : slice p.realbuf j 1 = [10] := slice_one_of_peek _ _ _ f3 (by decide)
  have hlfD : slice D (abs_offset p j) 1 = [10] := slice_one_of_peek _ _ _ hDj (by decide)
  refine ⟨f1, habs1, hDj, by omega, by omega, ?_, ?_⟩
  · show p.rawbuf ++ slice p.realbuf i (j - i) ++ slice p.realbuf j 1 = _
    rw [f5, hlf, ← hlfD, habs1, List.append_assoc, ← slice_extend D a0 _ _ (by omega)]
  · show Decoded _ (p.headerbuf ++ slice p.realbuf i (trimmed_len p.realbuf i j))
    rw [habs1, slice_extend D s _ _ (by omega), hlfD, f4, slice_extend D s _ _ hs2, ← f7]
    exact decoded_trimmed_line _ _ _ f1 _ _ hdec f6

/-- The invariant after a line that a continuation line follows. -/
theorem headerInv_continued (D : List Nat) (a0 : Nat) (raw0 : List Nat) (p : GMimeParser)
    (hend i s j : Nat) (hb : BufOK D p) (hinv : HeaderInvAt D a0 raw0 p hend i s)
    (hj : scan_to_lf p.realbuf i = j) (hjlt : j < p.inend) :
    HeaderInvAt D a0 raw0 { header_line_done p i j with midline := true } hend (j + 1) s := by
  obtain ⟨c0, c1, c2, c3, c4, c5, c6⟩ := header_line_common D a0 raw0 p hend i s j hb hinv hj hjlt
  obtain ⟨hi1, hi2, ha0, hraw, hlen, hs1, hs2, hstart, hchain, hls, hdec, hmid⟩ := hinv
  exact ⟨by show p.inptr ≤ j + 1; omega, by show j + 1 ≤ p.inend; omega, c4, c5, hlen, hs1,
    by show s ≤ abs_offset p (j + 1); omega, hstart, hchain, hls, c6,
    fun hm => Bool.noConfusion (show true = false from hm)⟩

/-- The invariant after a line that ends a header. -/
theorem headerInv_parsed (D : List Nat) (a0 : Nat) (raw0 : List Nat) (p : GMimeParser)
    (hend i s j : Nat) (hb : BufOK D p) (hinv : HeaderInvAt D a0 raw0 p hend i s)
    (hj : scan_to_lf p.realbuf i = j) (hjlt : j < p.inend) :
    HeaderInvAt D a0 raw0 (header_line_parsed p hend i j) (hend + 1) (j + 1)
      (abs_offset p (j + 1)) := by
  obtain ⟨c0, c1, c2, c3, c4, c5, c6⟩ := header_line_common D a0 raw0 p hend i s j hb hinv hj hjlt
  have hle1 : abs_offset p (j + 1) ≤ D.length :=
    abs_offset_le_length D p hb.2.1 (j + 1) (by omega)
  have hoff : parser_offset p (some (j + 1)) =
      off_of p.stream.seekable (abs_offset p (j + 1)) :=
    parser_offset_eq D p hb (j + 1) (by have := hinv.1; omega) (by omega)
  obtain ⟨hi1, hi2, ha0, hraw, hlen, hs1, hs2, hstart, hchain, hls, hdec, hmid⟩ := hinv
  rw [header_line_done_rawbuf] at c5
  rw [header_line_done_headerbuf] at c6
  unfold HeaderInvAt
  rw [abs_offset_congr p (header_line_parsed p hend i j) (j + 1) rfl rfl]
  simp only [header_line_parsed_inptr, header_line_parsed_inend, header_line_parsed_stream,
    header_line_parsed_rawbuf, header_line_parsed_headers, header_line_parsed_header_start,
    header_line_parsed_headerbuf, header_line_parsed_midline]
  refine ⟨by omega, by omega, c4, c5, ?_, c4, Nat.le_refl _, hoff, ?_, ?_, ?_, ?_⟩
  · rw [List.length_append, List.length_take, hlen]
    simp
  · rw [List.take_of_length_le (by omega), hstart]
    exact header_chain_snoc D _ a0 a0 p.headers s _ _ hchain hls c3 hle1 c6
  · right
    refine ⟨by omega, ?_⟩
    rw [c1, Nat.add_sub_cancel]
    exact c2
  · rw [Nat.sub_self, slice_zero]
    exact Decoded.nil
  · intro _
    exact ⟨trivial, trivial⟩

/-- The statements for a header line leave the array, the window and the stream alone. -/
theorem sameBuf_line_parsed (p : GMimeParser) (hend i j : Nat) :
    SameBuf p (header_line_parsed p hend i j) :=
  ⟨header_line_parsed_realbuf p hend i j, header_line_parsed_inptr p hend i j,
    header_line_parsed_inend p hend i j, header_line_parsed_stream p hend i j,
    header_line_parsed_offset p hend i j⟩

/-- The statements for a continued line leave the array, the window and the stream alone. -/
theorem sameBuf_line_continued (p : GMimeParser) (i j : Nat) :
    SameBuf p { header_line_done p i j with midline := true } :=
  ⟨rfl, rfl, rfl, rfl, rfl⟩

/-- The line loop of `parser_step_headers` returns, and keeps the invariant: it stops at a blank line, or at the end of the window with all of it consumed. -/
theorem step_headers_lines_spec (D : List Nat) (a0 : Nat) (raw0 : List Nat) (n : Nat)
    (p : GMimeParser) (hend i : Nat) (hb : BufOK D p) (hinv : HeaderInv D a0 raw0 p hend i)
    (hn : p.inend - i < n) :
    ∃ r, step_headers_lines n p hend i = some r ∧ HeaderScanPost D a0 raw0 p r := by
  induction n generalizing p hend i with
  | zero => omega
  | succ n ih =>
    obtain ⟨s, hinv⟩ := hinv
    rw [step_headers_lines_succ]
    by_cases h1 : i < p.inend
    · simp only [h1, if_true]
      have hjle := (header_line_facts D a0 raw0 p hend i s _ hb hinv rfl).2.1
      have hige := (header_line_facts D a0 raw0 p hend i s _ hb hinv rfl).1
      by_cases h2 : scan_to_lf p.realbuf i = p.inend
      · simp only [h2, if_true]
        exact ⟨_, rfl, Nat.sub_self _, rfl, rfl, rfl, rfl, rfl, s,
          headerInv_refill D a0 raw0 p hend i s hb hinv h2⟩
      · simp only [h2, if_false]
        have hjlt : scan_to_lf p.realbuf i < p.inend := by omega
        by_cases h3 : (!p.midline && (decide (scan_to_lf p.realbuf i = i) ||
            (decide (scan_to_lf p.realbuf i - i = 1) && decide (peek p.realbuf i = 13)))) = true
        · simp only [h3, if_true]
          exact ⟨_, rfl, ⟨rfl, rfl, rfl, rfl, rfl⟩,
            headerEnd_blank D a0 raw0 p hend i s _ hb hinv rfl h1 hjlt h3⟩
        · simp only [h3, if_false]
          by_cases h4 : (decide (peek p.realbuf (scan_to_lf p.realbuf i + 1) = 32) ||
              decide (peek p.realbuf (scan_to_lf p.realbuf i + 1) = 9)) = true
          · simp only [h4, if_true]
            obtain ⟨r, hr1, hr2⟩ := ih
              { header_line_done p i (scan_to_lf p.realbuf i) with midline := true } hend
              (scan_to_lf p.realbuf i + 1)
              (bufOK_of_sameBuf D p _ (sameBuf_line_continued p i _) hb)
              ⟨s, headerInv_continued D a0 raw0 p hend i s _ hb hinv rfl hjlt⟩
              (by show p.inend - (scan_to_lf p.realbuf i + 1) < n; omega)
            exact ⟨r, hr1, headerScanPost_of_sameBuf D a0 raw0 p _
              (sameBuf_line_continued p i _) r hr2⟩
          · simp only [h4, if_false]
            obtain ⟨r, hr1, hr2⟩ := ih
              (header_line_parsed p hend i (scan_to_lf p.realbuf i)) (hend + 1)
              (scan_to_lf p.realbuf i + 1)
              (bufOK_of_sameBuf D p _ (sameBuf_line_parsed p hend i _) hb)
              ⟨_, headerInv_parsed D a0 raw0 p hend i s _ hb hinv rfl hjlt⟩
              (by rw [header_line_parsed_inend]; omega)
            exact ⟨r, hr1, headerScanPost_of_sameBuf D a0 raw0 p _
              (sameBuf_line_parsed p hend i _) r hr2⟩
    · simp only [h1, if_false]
      exact ⟨_, rfl, ⟨rfl, rfl, rfl, rfl, rfl⟩, by have := hinv.2.1; omega, s, hinv⟩

/-- A read never adds to what is left in the stream. -/
theorem stream_read_left_le (s : GMimeStream) (n : Nat) :
    stream_left (g_mime_stream_read s n).2 ≤ stream_left s := by
  unfold g_mime_stream_read stream_left
  cases hc : s.chunks with
  | nil => simp [hc]
  | cons c cs =>
    by_cases h : c.length ≤ n
    · simp [h]
      omega
    · simp [h]

/-- The function `parser_fill` never adds to what is left in the stream. -/
theorem parser_fill_left_le (p : GMimeParser) :
    stream_left (parser_fill p).2.stream ≤ stream_left p.stream :=
  stream_read_left_le _ _

/-- The function `parser_fill` leaves the raw buffer alone. -/
theorem parser_fill_rawbuf (p : GMimeParser) : (parser_fill p).2.rawbuf = p.rawbuf := rfl

/-- The function `parser_fill` leaves the header list alone. -/
theorem parser_fill_headers (p : GMimeParser) : (parser_fill p).2.headers = p.headers := rfl

/-- The function `parser_fill` leaves `header_start` alone. -/
theorem parser_fill_header_start (p : GMimeParser) :
    (parser_fill p).2.header_start = p.header_start := rfl

/-- The function `parser_fill` leaves the header buffer alone. -/
theorem parser_fill_headerbuf (p : GMimeParser) :
    (parser_fill p).2.headerbuf = p.headerbuf := rfl

/-- The function `parser_fill` leaves the flag `midline` alone. -/
theorem parser_fill_midline (p : GMimeParser) : (parser_fill p).2.midline = p.midline := rfl

/-- A write at index `e` does not change the bytes before `e`. -/
theorem slice_set_outside (buf : List Nat) (e v i m : Nat) (h : i + m ≤ e) :
    slice (buf.set e v) i m = slice buf i m := by
  unfold slice
  rw [List.set_eq_take_append_cons_drop]
  split
  · rename_i hlt
    rw [List.drop_append_of_le_length (by rw [List.length_take]; omega),
      List.take_append_of_le_length (by rw [List.length_drop, List.length_take]; omega),
      List.drop_take, List.take_take, Nat.min_eq_left (by omega)]
  · rfl

/-- The byte written is read back. -/
theorem peek_set_same (buf : List Nat) (e v : Nat) (h : e < buf.length) :
    peek (buf.set e v) e = v := by
  simp [peek, List.getD_eq_getElem?_getD, List.getElem?_set, h]

/-- After a fill, the write of the sentinel at `inend` leaves the window as it is. -/
theorem bufOK_sentinel (D : List Nat) (q : GMimeParser) (hw : WindowInv q)
    (hr : Represents D q) (ho : q.offset = g_mime_stream_tell q.stream) :
    BufOK D { q with realbuf := q.realbuf.set q.inend 10 } := by
  obtain ⟨w1, w2, w3, w4⟩ := hw
  obtain ⟨r1, r2, r3, r4⟩ := hr
  refine ⟨⟨?_, w2, w3, w4⟩, ⟨r1, r2, r3, ?_⟩, ho, ?_⟩
  · show (q.realbuf.set q.inend 10).length = _
    rw [List.length_set]; exact w1
  · show slice (q.realbuf.set q.inend 10) q.inptr (q.inend - q.inptr) = _
    rw [slice_set_outside _ _ _ _ _ (by omega)]
    exact r4
  · show peek (q.realbuf.set q.inend 10) q.inend = 10
    apply peek_set_same
    simp only [SCAN_HEAD, SCAN_BUF] at *
    omega

/-- The invariant of `parser_step_headers` depends only on the buffers, the header list, the flags and the absolute offset of the position. -/
theorem headerInvAt_transfer (D : List Nat) (a0 : Nat) (raw0 : List Nat)
    (p q : GMimeParser) (hend i i' s : Nat)
    (h1 : q.rawbuf = p.rawbuf) (h2 : q.headers = p.headers)
    (h3 : q.header_start = p.header_start) (h4 : q.headerbuf = p.headerbuf)
    (h5 : q.midline = p.midline) (h6 : q.stream.seekable = p.stream.seekable)
    (habs : abs_offset q i' = abs_offset p i) (hi1 : q.inptr ≤ i') (hi2 : i' ≤ q.inend)
    (h : HeaderInvAt D a0 raw0 p hend i s) : HeaderInvAt D a0 raw0 q hend i' s := by
  unfold HeaderInvAt at *
  rw [h1, h2, h3, h4, h5, h6, habs]
  exact ⟨hi1, hi2, h.2.2⟩

/-- The invariant of `parser_step_headers` depends only on the buffers, the header list, the flags and the absolute offset of the position. -/
theorem headerInv_transfer (D : List Nat) (a0 : Nat) (raw0 : List Nat)
    (p q : GMimeParser) (hend i i' : Nat)
    (h1 : q.rawbuf = p.rawbuf) (h2 : q.headers = p.headers)
    (h3 : q.header_start = p.header_start) (h4 : q.headerbuf = p.headerbuf)
    (h5 : q.midline = p.midline) (h6 : q.stream.seekable = p.stream.seekable)
    (habs : abs_offset q i' = abs_offset p i) (hi1 : q.inptr ≤ i') (hi2 : i' ≤ q.inend)
    (h : HeaderInv D a0 raw0 p hend i) : HeaderInv D a0 raw0 q hend i' := by
  obtain ⟨s, hs⟩ := h
  exact ⟨s, headerInvAt_transfer D a0 raw0 p q hend i i' s h1 h2 h3 h4 h5 h6 habs hi1 hi2 hs⟩

/-- A state with an empty window sees the bytes of the stream as any state with the same stream does. -/
theorem represents_empty_window (D : List Nat) (p q : GMimeParser) (hr : Represents D p)
    (h1 : q.stream = p.stream) (h2 : q.inptr = q.inend) : Represents D q := by
  obtain ⟨r1, r2, r3, r4⟩ := hr
  unfold Represents window
  rw [h1, h2, Nat.sub_self, slice_zero, slice_zero]
  exact ⟨r1, Nat.zero_le _, r3, rfl⟩

/-- One iteration of the refill loop of `parser_step_headers`. -/
theorem step_headers_loop_succ (fuel : Nat) (p : GMimeParser) (hend left : Nat) :
    step_headers_loop (fuel + 1) p hend left =
      if (parser_fill p).1 ≤ left then
        some (raw_header_append
            (header_append (parser_fill p).2
              (slice (parser_fill p).2.realbuf (parser_fill p).2.inptr
                ((parser_fill p).2.inend - (parser_fill p).2.inptr)))
            (slice (parser_fill p).2.realbuf (parser_fill p).2.inptr
                ((parser_fill p).2.inend - (parser_fill p).2.inptr)),
          hend, (parser_fill p).2.inptr)
      else
        match step_headers_lines ((fill_sentinel p).inend - (fill_sentinel p).inptr + 1)
            (fill_sentinel p) hend (fill_sentinel p).inptr with
        | none => none
        | some (HeaderScan.headers_end q hend inptr) => some (q, hend, inptr)
        | some (HeaderScan.refill q hend left) => step_headers_loop fuel q hend left
        | some (HeaderScan.done q hend inptr) =>
          step_headers_loop fuel { q with inptr := inptr } hend (q.inend - inptr) := by
  rw [step_headers_loop]
  rfl

/-- The function `parser_fill` keeps the invariant of `parser_step_headers`. -/
theorem headerInv_fill (D : List Nat) (a0 : Nat) (raw0 : List Nat) (p : GMimeParser)
    (hend : Nat) (hw : WindowInv p) (hr : Represents D p)
    (h : HeaderInv D a0 raw0 p hend p.inptr) :
    HeaderInv D a0 raw0 (parser_fill p).2 hend (parser_fill p).2.inptr := by
  obtain ⟨hw', _, data, _, _, _, _, hsk, _, _⟩ := parser_fill_spec p hw
  exact headerInv_transfer D a0 raw0 p _ hend p.inptr _ rfl rfl rfl rfl rfl hsk
    (parser_fill_represents D p hw hr).2 (Nat.le_refl _) hw'.2.1 h

/-- After the fill and the write of the sentinel the array is ready for the line loop and the invariant holds. -/
theorem fill_sentinel_ok (D : List Nat) (a0 : Nat) (raw0 : List Nat) (p : GMimeParser)
    (hend : Nat) (hw : WindowInv p) (hr : Represents D p)
    (ho : p.offset = g_mime_stream_tell p.stream)
    (h : HeaderInv D a0 raw0 p hend p.inptr) :
    BufOK D (fill_sentinel p) ∧
    HeaderInv D a0 raw0 (fill_sentinel p) hend (fill_sentinel p).inptr := by
  obtain ⟨hw', _, data, _, _, _, _, hsk, ho', _⟩ := parser_fill_spec p hw
  have hr' := (parser_fill_represents D p hw hr).1
  refine ⟨bufOK_sentinel D _ hw' hr' ho', ?_⟩
  exact headerInv_transfer D a0 raw0 (parser_fill p).2 (fill_sentinel p) hend _ _
    rfl rfl rfl rfl rfl rfl rfl (Nat.le_refl _) hw'.2.1 (headerInv_fill D a0 raw0 p hend hw hr h)

/-- A fill that leaves bytes in the window either started with bytes in the window or used up some of the stream. -/
theorem fill_sentinel_fuel (p : GMimeParser) (hw : WindowInv p) (fuel : Nat)
    (hpos : ¬ (parser_fill p).1 ≤ 0)
    (hfuel : stream_left p.stream + (if p.inptr = p.inend then 1 else 2) ≤ fuel + 1) :
    stream_left (fill_sentinel p).stream + 1 ≤ fuel := by
  obtain ⟨_, hn, data, _, hlen, _, _, _, _, hprog⟩ := parser_fill_spec p hw
  have hle := parser_fill_left_le p
  show stream_left (parser_fill p).2.stream + 1 ≤ fuel
  by_cases he : p.inptr = p.inend
  · simp only [he, if_true] at hfuel
    rcases hprog he with ⟨_, hd, _⟩ | hlt
    · rw [hd] at hlen
      simp at hlen
      omega
    · omega
  · simp only [he, if_false] at hfuel
    omega

/-- With fuel above what is left in the stream, the refill loop of `parser_step_headers` reaches the label `headers_end`, at the line feed of a blank line or at the end of the stream, with the invariant kept. -/
theorem step_headers_loop_spec (D : List Nat) (a0 : Nat) (raw0 : List Nat) (fuel : Nat)
    (p : GMimeParser) (hend : Nat) (hw : WindowInv p) (hr : Represents D p)
    (ho : p.offset = g_mime_stream_tell p.stream)
    (hinv : HeaderInv D a0 raw0 p hend p.inptr)
    (hfuel : stream_left p.stream + (if p.inptr = p.inend then 1 else 2) ≤ fuel) :
    ∃ q hend' j, step_headers_loop fuel p hend 0 = some (q, hend', j) ∧
      HeadersDone D a0 raw0 q hend' j ∧ q.stream.seekable = p.stream.seekable ∧
      (NoEmptyRead p.stream →
        NoEmptyRead q.stream ∧ (q.inptr = q.inend → q.stream.chunks = [])) := by
  induction fuel generalizing p hend with
  | zero => split at hfuel <;> omega
  | succ fuel ih =>
    rw [step_headers_loop_succ]
    obtain ⟨hw', hn, data, _, hlen, _, _, hsk, ho', _⟩ := parser_fill_spec p hw
    have hr' := (parser_fill_represents D p hw hr).1
    by_cases h0 : (parser_fill p).1 ≤ 0
    · simp only [h0, if_true]
      have he : (parser_fill p).2.inptr = (parser_fill p).2.inend := by
        have := hw'.2.1; omega
      refine ⟨_, _, _, rfl, ⟨hw', hr', ho', Or.inr ⟨he, he, ?_⟩⟩, hsk,
        fun hne => ⟨parser_fill_noEmpty p hne, fun _ => (parser_fill_eof p hw hne h0).2.2⟩⟩
      have h1 := headerInv_fill D a0 raw0 p hend hw hr hinv
      refine headerInv_transfer D a0 raw0 (parser_fill p).2 _ hend _ _ ?_ rfl rfl ?_ rfl rfl rfl
        (Nat.le_refl _) hw'.2.1 h1
      · show (parser_fill p).2.rawbuf ++ slice _ _ _ = (parser_fill p).2.rawbuf
        rw [he, Nat.sub_self, slice_zero, List.append_nil]
      · show (parser_fill p).2.headerbuf ++ slice _ _ _ = (parser_fill p).2.headerbuf
        rw [he, Nat.sub_self, slice_zero, List.append_nil]
    · simp only [h0, if_false]
      obtain ⟨hb2, hinv2⟩ := fill_sentinel_ok D a0 raw0 p hend hw hr ho hinv
      have hfuel2 := fill_sentinel_fuel p hw fuel h0 hfuel
      obtain ⟨r, hr1, hr2⟩ := step_headers_lines_spec D a0 raw0
        ((fill_sentinel p).inend - (fill_sentinel p).inptr + 1) (fill_sentinel p) hend
        (fill_sentinel p).inptr hb2 hinv2 (by omega)
      rw [hr1]
      cases r with
      | headers_end q hend' j =>
        obtain ⟨hsame, hend_⟩ := hr2
        have hbq := bufOK_of_sameBuf D _ q hsame hb2
        refine ⟨q, hend', j, rfl, ⟨hbq.1, hbq.2.1, hbq.2.2.1, Or.inl hend_⟩,
          by rw [hsame.2.2.2.1]; exact hsk, fun hne => ⟨?_, fun hq => ?_⟩⟩
        · rw [hsame.2.2.2.1]; exact parser_fill_noEmpty p hne
        · have := hend_.1
          have := hend_.2.1
          omega
      | refill q hend' left =>
        obtain ⟨hl0, g1, g2, g3, g4, g5, g6⟩ := hr2
        subst hl0
        have hwq : WindowInv q := by
          have := hb2.1
          unfold WindowInv at this ⊢
          exact ⟨by rw [g1]; exact this.1, by rw [g5], by rw [g2]; exact this.2.2.1,
            by rw [g2]; exact this.2.2.2⟩
        have hrq : Represents D q := represents_empty_window D _ q hb2.2.1 g3 g5
        have hoq : q.offset = g_mime_stream_tell q.stream := by
          rw [g4, g3]; exact hb2.2.2.1
        have hinvq : HeaderInv D a0 raw0 q hend' q.inptr := by rw [g5]; exact g6
        obtain ⟨q', e', j', k1, k2, k3⟩ :=
          ih q hend' hwq hrq hoq hinvq (by rw [g3]; simp only [g5, if_true]; exact hfuel2)
        exact ⟨q', e', j', k1, k2, by rw [k3.1, g3]; exact hsk,
          fun hne => k3.2 (by rw [g3]; exact parser_fill_noEmpty p hne)⟩
      | done q hend' j =>
        obtain ⟨⟨g1, g0, g2, g3, g4⟩, g5, g6⟩ := hr2
        subst g5
        have hwq : WindowInv { q with inptr := q.inend } := by
          have := hb2.1
          unfold WindowInv at this ⊢
          show q.realbuf.length = _ ∧ q.inend ≤ q.inend ∧ SCAN_HEAD ≤ q.inend ∧
            q.inend ≤ SCAN_HEAD + SCAN_BUF - 1
          exact ⟨by rw [g1]; exact this.1, Nat.le_refl _, by rw [g2]; exact this.2.2.1,
            by rw [g2]; exact this.2.2.2⟩
        have hrq : Represents D { q with inptr := q.inend } :=
          represents_empty_window D _ _ hb2.2.1 g3 rfl
        have hoq : ({ q with inptr := q.inend } : GMimeParser).offset =
            g_mime_stream_tell ({ q with inptr := q.inend } : GMimeParser).stream := by
          show q.offset = g_mime_stream_tell q.stream
          rw [g4, g3]; exact hb2.2.2.1
        have hinvq : HeaderInv D a0 raw0 { q with inptr := q.inend } hend' q.inend :=
          headerInv_transfer D a0 raw0 q _ hend' q.inend q.inend rfl rfl rfl rfl rfl rfl rfl
            (Nat.le_refl _) (Nat.le_refl _) g6
        obtain ⟨q', e', j', k1, k2, k3⟩ := ih { q with inptr := q.inend } hend' hwq hrq hoq hinvq
          (by show stream_left q.stream + _ ≤ fuel
              rw [g3]; simp only [if_true]; exact hfuel2)
        have k3' : q'.stream.seekable = q.stream.seekable := k3.1
        have k4 : NoEmptyRead q.stream →
            NoEmptyRead q'.stream ∧ (q'.inptr = q'.inend → q'.stream.chunks = []) := k3.2
        exact ⟨q', e', j', by simpa using k1, k2, by rw [k3', g3]; exact hsk,
          fun hne => k4 (by rw [g3]; exact parser_fill_noEmpty p hne)⟩

/-- The function `parser_offset` at `priv->inptr` gives the absolute offset of the parser (or `-1` on a stream that is not seekable). -/
theorem parser_offset_none_eq (D : List Nat) (p : GMimeParser) (hw : WindowInv p)
    (hr : Represents D p) (ho : p.offset = g_mime_stream_tell p.stream) :
    parser_offset p none = off_of p.stream.seekable (abs_offset p p.inptr) := by
  obtain ⟨_, hle, _, _⟩ := hr
  have := hw.2.1
  unfold parser_offset off_of abs_offset
  rw [ho]
  unfold g_mime_stream_tell
  by_cases hs : p.stream.seekable = true
  · simp only [hs, if_true]
    have : ¬ ((p.stream.pos : Int) = -1) := by omega
    simp only [this, if_false]
    omega
  · simp [hs]

/-- An advance of `inptr` inside the window keeps the relation to the bytes of the stream. -/
theorem represents_advance (D : List Nat) (q : GMimeParser) (hw : WindowInv q)
    (hr : Represents D q) (j : Nat) (h1 : q.inptr ≤ j) (h2 : j ≤ q.inend) (st : ParserState) :
    Represents D { q with state := st, inptr := j } := by
  have hs := buf_slice_eq D q hw hr j (q.inend - j) h1 (by omega)
  obtain ⟨r1, r2, r3, r4⟩ := hr
  refine ⟨r1, ?_, r3, ?_⟩
  · show q.inend - j ≤ q.stream.pos
    omega
  · show slice q.realbuf j (q.inend - j) = slice D (q.stream.pos - (q.inend - j)) (q.inend - j)
    rw [hs]
    rfl

/-- The invariant holds when `parser_step_headers` starts with an empty header list and an empty header buffer. -/
theorem headerInv_start (D : List Nat) (p : GMimeParser) (hw : WindowInv p)
    (hr : Represents D p) (ho : p.offset = g_mime_stream_tell p.stream)
    (hh : p.headers = []) (hb : p.headerbuf = []) :
    HeaderInv D (abs_offset p p.inptr) p.rawbuf
      { p with midline := false, headers_start := parser_offset p none,
               header_start := parser_offset p none } 0 p.inptr := by
  refine ⟨abs_offset p p.inptr, Nat.le_refl _, hw.2.1, Nat.le_refl _, ?_, ?_, Nat.le_refl _,
    Nat.le_refl _, parser_offset_none_eq D p hw hr ho, ?_, Or.inl rfl, ?_, ?_⟩
  · show p.rawbuf = p.rawbuf ++ slice D _ (abs_offset p p.inptr - abs_offset p p.inptr)
    rw [Nat.sub_self, slice_zero, List.append_nil]
  · show p.headers.length = 0
    rw [hh]; rfl
  · show HeaderChain D p.stream.seekable _ _ p.headers _
    rw [hh]
    exact rfl
  · show Decoded (slice D _ (abs_offset p p.inptr - abs_offset p p.inptr)) p.headerbuf
    rw [Nat.sub_self, slice_zero, hb]
    exact Decoded.nil
  · intro _
    exact ⟨hb, rfl⟩

/-- A field of the parser after `header_parse`. -/
theorem header_parse_realbuf (q : GMimeParser) (hend : Nat) :
    (header_parse q hend).1.realbuf = q.realbuf := by
  unfold header_parse; rfl

/-- A field of the parser after `header_parse`. -/
theorem header_parse_inend (q : GMimeParser) (hend : Nat) :
    (header_parse q hend).1.inend = q.inend := by
  unfold header_parse; rfl

/-- A field of the parser after `header_parse`. -/
theorem header_parse_stream (q : GMimeParser) (hend : Nat) :
    (header_parse q hend).1.stream = q.stream := by
  unfold header_parse; rfl

/-- A field of the parser after `header_parse`. -/
theorem header_parse_offset (q : GMimeParser) (hend : Nat) :
    (header_parse q hend).1.offset = q.offset := by
  unfold header_parse; rfl

/-- A field of the parser after `header_parse`. -/
theorem header_parse_rawbuf (q : GMimeParser) (hend : Nat) :
    (header_parse q hend).1.rawbuf = q.rawbuf := by
  unfold header_parse; rfl

/-- A field of the parser after `header_parse`. -/
theorem header_parse_headerbuf (q : GMimeParser) (hend : Nat) :
    (header_parse q hend).1.headerbuf = [] := by
  unfold header_parse; rfl

/-- A field of the parser after `header_parse`. -/
theorem header_parse_headers (q : GMimeParser) (hend : Nat) :
    (header_parse q hend).1.headers =
      q.headers.take hend ++ [header_parse_line q.headerbuf q.header_start] := by
  unfold header_parse; rfl

/-- With fuel above what is left in the stream, `parser_step_headers` returns, in state HEADERS_END, with the raw buffer grown by exactly the bytes consumed and the headers lying in the stream one after the other, each with the offset of its first byte. -/
theorem parser_step_headers_spec (D : List Nat) (p : GMimeParser) (fuel : Nat)
    (hw : WindowInv p) (hr : Represents D p) (ho : p.offset = g_mime_stream_tell p.stream)
    (hh : p.headers = []) (hb : p.headerbuf = [])
    (hfuel : stream_left p.stream + 2 ≤ fuel) :
    ∃ p', parser_step_headers fuel p = some p' ∧
      HeadersScanned D (abs_offset p p.inptr) p.rawbuf p' ∧
      p'.stream.seekable = p.stream.seekable ∧
      (NoEmptyRead p.stream →
        NoEmptyRead p'.stream ∧ (p'.inptr = p'.inend → p'.stream.chunks = [])) := by
  have hinv := headerInv_start D p hw hr ho hh hb
  obtain ⟨q, hend, j, hloop, ⟨hwq, hrq, hoq, hcase⟩, hskq, hneq⟩ := step_headers_loop_spec D
    (abs_offset p p.inptr) p.rawbuf fuel
    { p with midline := false, headers_start := parser_offset p none,
             header_start := parser_offset p none } 0 hw hr ho hinv
    (by show stream_left p.stream + _ ≤ fuel
        split <;> omega)
  unfold parser_step_headers
  simp only [hloop]
  refine ⟨_, rfl, ?_⟩
  rcases hcase with hend_ | ⟨he, hj, s, hinvq⟩
  · obtain ⟨e1, e2, e3, e4, e5, e6, e7, s, e8, e9, e10, e11⟩ := hend_
    have hnb : ¬ (q.headerbuf.length > 0) := by rw [e6]; simp
    simp only [hnb, if_false]
    refine ⟨⟨rfl, ⟨hwq.1, by show j ≤ q.inend; omega, hwq.2.2.1, hwq.2.2.2⟩,
      represents_advance D q hwq hrq j e1 (by omega) _, hoq, e3, e4, e6, s, e8, ?_, e9,
      Or.inl ⟨e10, e2, e7, e11⟩⟩, hskq, fun hne => ⟨(hneq hne).1, fun hq => ?_⟩⟩
    · show s ≤ abs_offset q j
      rcases e11 with h | h <;> omega
    · have hq' : j = q.inend := hq
      omega
  · obtain ⟨i1, i2, i3, i4, i5, i6, i7, i8, i9, i10, i11, i12⟩ := hinvq
    by_cases hnb : q.headerbuf.length > 0
    · simp only [hnb, if_true]
      have hne : q.headerbuf ≠ [] := by
        intro h; rw [h] at hnb; simp at hnb
      have hlt : s < abs_offset q j := by
        by_contra hc
        have h0 : abs_offset q j - s = 0 := by omega
        rw [h0, slice_zero] at i11
        exact decoded_nonempty _ _ i11 hne rfl
      have hle : abs_offset q j ≤ D.length := abs_offset_le_length D q hrq j (by omega)
      have habs : abs_offset { (header_parse q hend).1 with
          state := ParserState.HEADERS_END, inptr := j } j = abs_offset q j :=
        abs_offset_congr q _ j (header_parse_stream q hend) (header_parse_inend q hend)
      refine ⟨⟨rfl, ⟨?_, by show j ≤ _; rw [header_parse_inend]; omega, ?_, ?_⟩, ?_, ?_, ?_, ?_,
        ?_, abs_offset q j, i3, by rw [habs], ?_, Or.inr ⟨?_, ?_⟩⟩,
        by show (header_parse q hend).1.stream.seekable = _
           rw [header_parse_stream]; exact hskq,
        fun hne => by
          show NoEmptyRead (header_parse q hend).1.stream ∧
            (_ → (header_parse q hend).1.stream.chunks = [])
          rw [header_parse_stream]
          exact ⟨(hneq hne).1, fun _ => (hneq hne).2 he⟩⟩
      · show (header_parse q hend).1.realbuf.length = _
        rw [header_parse_realbuf]; exact hwq.1
      · show SCAN_HEAD ≤ (header_parse q hend).1.inend
        rw [header_parse_inend]; exact hwq.2.2.1
      · show (header_parse q hend).1.inend ≤ _
        rw [header_parse_inend]; exact hwq.2.2.2
      · exact represents_empty_window D q _ hrq (header_parse_stream q hend)
          (by show j = (header_parse q hend).1.inend; rw [header_parse_inend]; exact hj)
      · show (header_parse q hend).1.offset = g_mime_stream_tell (header_parse q hend).1.stream
        rw [header_parse_offset, header_parse_stream]; exact hoq
      · rw [habs]
        exact i3
      · rw [habs]
        show (header_parse q hend).1.rawbuf = _
        rw [header_parse_rawbuf, i4]
      · show (header_parse q hend).1.headerbuf = []
        exact header_parse_headerbuf q hend
      · show HeaderChain D (header_parse q hend).1.stream.seekable _ _
          (header_parse q hend).1.headers _
        rw [header_parse_stream, header_parse_headers, List.take_of_length_le (by omega), i8]
        exact header_chain_snoc D _ _ _ q.headers s _ _ i9 i10 hlt hle i11
      · show j = (header_parse q hend).1.inend
        rw [header_parse_inend]; exact hj
      · rw [habs, Nat.sub_self, slice_zero]
        exact Decoded.nil
    · simp only [hnb, if_false]
      have hnil : q.headerbuf = [] := by
        cases hq : q.headerbuf with
        | nil => rfl
        | cons a t => rw [hq] at hnb; simp at hnb
      exact ⟨⟨rfl, ⟨hwq.1, by show j ≤ q.inend; omega, hwq.2.2.1, hwq.2.2.2⟩,
        represents_empty_window D q _ hrq rfl hj, hoq, i3, i4, hnil, s, i6, i7, i9,
        Or.inr ⟨hj, by rw [← hnil]; exact i11⟩⟩, hskq,
        fun hne => ⟨(hneq hne).1, fun _ => (hneq hne).2 he⟩⟩

/-- The header that `header_parse` builds carries the value of `header_start`. -/
theorem header_parse_line_offset (hb : List Nat) (off : Int) :
    (header_parse_line hb off).offset = off := by
  unfold header_parse_line
  dsimp only
  split <;> rfl

/-- A chain of headers ends at or after the offset where it starts. -/
theorem header_chain_le (D : List Nat) (sk : Bool) (a0 : Nat) (hs : List HeaderRaw) :
    ∀ a e, HeaderChain D sk a0 a hs e → a ≤ e := by
  induction hs with
  | nil => intro a e h; exact Nat.le_of_eq h
  | cons x xs ih =>
    intro a e h
    obtain ⟨_, a', hb, h1, _, _, _, h5⟩ := h
    have := ih a' e h5
    omega

/-- Every header of a chain has its own range of bytes inside the chain: it starts at a line start, and the header is built from the decoded bytes of the range with the offset of its first byte. -/
theorem header_chain_mem (D : List Nat) (sk : Bool) (a0 : Nat) (hs : List HeaderRaw) :
    ∀ a e, HeaderChain D sk a0 a hs e → ∀ h ∈ hs, ∃ a1 a2 hb,
      a ≤ a1 ∧ a1 < a2 ∧ a2 ≤ e ∧ a2 ≤ D.length ∧ LineStart D a0 a1 ∧
      Decoded (slice D a1 (a2 - a1)) hb ∧ h = header_parse_line hb (off_of sk a1) := by
  induction hs with
  | nil => intro a e _ h hm; cases hm
  | cons x xs ih =>
    intro a e hc h hm
    obtain ⟨c1, a', hb, c2, c3, c4, c5, c6⟩ := hc
    have hle := header_chain_le D sk a0 xs a' e c6
    rcases List.mem_cons.1 hm with heq | hin
    · subst heq
      exact ⟨a, a', hb, Nat.le_refl _, c2, hle, c3, c1, c4, c5⟩
    · obtain ⟨a1, a2, hb', d1, d2, d3, d4, d5, d6, d7⟩ := ih a' e c6 h hin
      exact ⟨a1, a2, hb', by omega, d2, d3, d4, d5, d6, d7⟩

/-- A parser just created on a memory stream over `d` satisfies the window invariant, stands for the bytes `d`, and has empty header list, header buffer and raw buffer. -/
theorem parser_on_ok (d : List Nat) :
    WindowInv (parser_on d) ∧ Represents d (parser_on d) ∧
    (parser_on d).offset = g_mime_stream_tell (parser_on d).stream ∧
    (parser_on d).headers = [] ∧ (parser_on d).headerbuf = [] ∧
    (parser_on d).rawbuf = [] ∧ (parser_on d).stream.seekable = true := by
  have h1 : (parser_on d).inptr = SCAN_HEAD := rfl
  have h2 : (parser_on d).inend = SCAN_HEAD := rfl
  have h3 : (parser_on d).stream = g_mime_stream_mem_new d := rfl
  have h4 : (parser_on d).realbuf = List.replicate (SCAN_HEAD + SCAN_BUF + 1) 0 := rfl
  have h5 : (parser_on d).offset = g_mime_stream_tell (g_mime_stream_mem_new d) := rfl
  refine ⟨?_, ?_, ?_, rfl, rfl, rfl, ?_⟩
  · unfold WindowInv
    rw [h1, h2, h4, List.length_replicate]
    unfold SCAN_HEAD SCAN_BUF
    omega
  · unfold Represents window
    rw [h1, h2, h3, Nat.sub_self, slice_zero, slice_zero]
    refine ⟨Nat.zero_le _, Nat.zero_le _, ?_, rfl⟩
    show d.drop 0 = [d].flatten
    simp
  · rw [h5, h3]
  · rw [h3]; rfl

/-- The measure of what is left in a fresh memory stream. -/
theorem stream_left_mem (d : List Nat) :
    stream_left (parser_on d).stream = d.length + 1 := by
  show ([d].flatten).length + [d].length = _
  simp

/-- The C string read from NUL-free bytes followed by a NUL is those bytes. -/
theorem cstr_append_nul (a rest : List Nat) (h : ∀ c ∈ a, c ≠ 0) :
    cstr (a ++ 0 :: rest) = a := by
  induction a with
  | nil => simp [cstr]
  | cons x xs ih =>
    have hx : x ≠ 0 := h x (List.mem_cons_self _ _)
    rw [List.cons_append, cstr_cons, if_neg hx, ih (fun c hc => h c (List.mem_cons_of_mem _ hc))]

/-- A byte of a slice is a byte of the array. -/
theorem mem_slice (D : List Nat) (a n c : Nat) (h : c ∈ slice D a n) : c ∈ D := by
  unfold slice at h
  exact List.mem_of_mem_drop (List.mem_of_mem_take h)

/-! ### Scans at the end of the stream -/

/-- With an empty window and the stream at its end `parser_fill` brings nothing. -/
theorem parser_fill_at_eos (q : GMimeParser) (hw : WindowInv q) (he : q.inptr = q.inend)
    (hc : q.stream.chunks = []) :
    (parser_fill q).1 = 0 ∧ (parser_fill q).2.inptr = (parser_fill q).2.inend ∧
    (parser_fill q).2.stream = q.stream ∧ WindowInv (parser_fill q).2 ∧
    (parser_fill q).2.offset = g_mime_stream_tell q.stream := by
  obtain ⟨hw', h1, data, _, h3, _, _, _, h7, h8⟩ := parser_fill_spec q hw
  have hst : (parser_fill q).2.stream = q.stream ∧ data = [] := by
    rcases h8 he with ⟨_, hd, hs⟩ | hlt
    · exact ⟨hs, hd⟩
    · exfalso
      have : stream_left q.stream = 0 := by
        unfold stream_left; rw [hc]; rfl
      omega
  have hle := hw'.2.1
  rw [hst.2] at h3
  simp only [List.length_nil] at h3
  refine ⟨by omega, by omega, hst.1, hw', by rw [h7, hst.1]⟩

/-- At the end of the stream `parser_skip_line` returns with the window still empty. -/
theorem parser_skip_line_at_eos (q : GMimeParser) (f : Nat) (hw : WindowInv q)
    (he : q.inptr = q.inend) (hc : q.stream.chunks = []) :
    ∃ q', parser_skip_line (f + 1) q = some q' ∧ WindowInv q' ∧ q'.inptr = q'.inend ∧
      q'.stream = q.stream ∧ q'.offset = g_mime_stream_tell q.stream ∧
      q'.persist_stream = q.persist_stream ∧ q'.seekable = q.seekable := by
  obtain ⟨f1, f2, f3, f4, f5⟩ := parser_fill_at_eos q hw he hc
  have hl : skip_line_loop (f + 1) q = some ((parser_fill q).2, (parser_fill q).2.inptr) := by
    rw [skip_line_loop]
    simp only [f1, Nat.le_refl, if_true]
  unfold parser_skip_line
  rw [hl]
  refine ⟨_, rfl, ⟨f4.1, ?_, f4.2.2.1, f4.2.2.2⟩, ?_, f3, f5, rfl, rfl⟩
  · show min ((parser_fill q).2.inptr + 1) (parser_fill q).2.inend ≤ (parser_fill q).2.inend
    exact Nat.min_le_right _ _
  · show min ((parser_fill q).2.inptr + 1) (parser_fill q).2.inend = (parser_fill q).2.inend
    rw [f2]
    exact Nat.min_eq_right (Nat.le_succ _)

/-- At the end of the stream `parser_scan_content` returns EOS with `crlf = 0` and saves
nothing. -/
theorem parser_scan_content_at_eos (q : GMimeParser) (f : Nat) (content : Option (List Nat))
    (hw : WindowInv q) (he : q.inptr = q.inend) (hc : q.stream.chunks = []) :
    ∃ q', parser_scan_content (f + 1) q content = some (FOUND_EOS, 0, content, q') ∧
      WindowInv q' ∧ q'.inptr = q'.inend ∧ q'.stream = q.stream ∧
      q'.offset = g_mime_stream_tell q.stream := by
  obtain ⟨f1, f2, f3, f4, f5⟩ := parser_fill_at_eos { q with midline := false } hw he hc
  have hl : scan_content_loop (f + 1) { q with midline := false } q.inptr content =
      some ((parser_fill { q with midline := false }).2, FOUND_EOS,
        (parser_fill { q with midline := false }).2.inptr, q.inptr, content) := by
    rw [scan_content_loop]
    simp only [f1, Nat.le_refl, if_true]
  unfold parser_scan_content
  rw [hl]
  refine ⟨_, ?_, ⟨f4.1, Nat.le_of_eq f2, f4.2.2.1, f4.2.2.2⟩, f2, f3, f5⟩
  simp

/-- At the end of the stream the body scan of a leaf part returns EOS and a content
stream that holds no byte. -/
theorem scan_mime_part_content_at_eos (q : GMimeParser) (f : Nat) (hw : WindowInv q)
    (he : q.inptr = q.inend) (hc : q.stream.chunks = [])
    (ho : q.offset = g_mime_stream_tell q.stream) :
    ∃ c q', parser_scan_mime_part_content (f + 1) q = some (c, FOUND_EOS, q') ∧
      ∀ D, PartContent.read D c = [] := by
  unfold parser_scan_mime_part_content
  by_cases hp : (q.persist_stream && q.seekable) = true
  · obtain ⟨q', h1, _, h3, _, h5⟩ := parser_scan_content_at_eos q f none hw he hc
    simp only [hp, if_true, h1]
    refine ⟨_, _, rfl, ?_⟩
    intro D
    have e1 : parser_offset q' none = parser_offset q none := by
      unfold parser_offset
      simp only [h5, ho, he, h3, Int.sub_self]
    simp [PartContent.read, e1]
  · have hp' : (q.persist_stream && q.seekable) = false := by
      cases hb : (q.persist_stream && q.seekable)
      · rfl
      · exact absurd hb hp
    obtain ⟨q', h1, _⟩ := parser_scan_content_at_eos q f (some []) hw he hc
    simp only [hp', Bool.false_eq_true, if_false, h1]
    refine ⟨_, _, rfl, ?_⟩
    intro D
    simp [PartContent.read]

/-- Bytes that decode to an empty line are line terminators only: they are none or end
with a line feed. -/
theorem decoded_nil_last (S hb : List Nat) (h : Decoded S hb) (he : hb = []) :
    S = [] ∨ S.getLast? = some 10 := by
  induction h with
  | nil => exact Or.inl rfl
  | seg S hb seg _ _ ih =>
    have h1 : hb = [] := (List.append_eq_nil.1 he).1
    have h2 : seg = [] := (List.append_eq_nil.1 he).2
    rw [h2, List.append_nil]
    exact ih h1
  | lf S hb _ _ => right; simp
  | crlf S hb _ _ => right; simp

/-! ### The function `crlf2lf` -/

/-- The copy loop of `crlf2lf` keeps a first byte that is not a CR. -/
theorem crlf2lf_copy_cons_ne (c : Nat) (t : List Nat) (h : c ≠ 13) :
    crlf2lf_copy (c :: t) = c :: crlf2lf_copy t := by
  cases t with
  | nil => rfl
  | cons d rest => rw [crlf2lf_copy, if_neg (fun hc => h hc.1)]

/-- The function `crlf2lf` is its copy loop run over the whole string. -/
theorem crlf2lf_eq_copy (s : List Nat) : crlf2lf s = crlf2lf_copy s := by
  induction s using crlf2lf_find.induct with
  | case1 => rfl
  | case2 c => rfl
  | case3 c d rest hc =>
    obtain ⟨h1, h2⟩ := hc
    subst h1; subst h2
    simp [crlf2lf, crlf2lf_find, crlf2lf_copy, crlf2lf_copy_cons_ne]
  | case4 c d rest hc ih =>
    have hf : crlf2lf_find (c :: d :: rest) = crlf2lf_find (d :: rest) + 1 := by
      rw [crlf2lf_find, if_neg hc]
    rw [crlf2lf_copy, if_neg hc, ← ih]
    unfold crlf2lf
    simp only [hf, List.length_cons]
    by_cases hge : crlf2lf_find (d :: rest) ≥ rest.length + 1
    · have : crlf2lf_find (d :: rest) + 1 ≥ rest.length + 1 + 1 := by omega
      simp only [hge, this, if_true]
    · have : ¬ crlf2lf_find (d :: rest) + 1 ≥ rest.length + 1 + 1 := by omega
      simp only [hge, this, if_false]
      rfl

/-- A CR LF pair in `c :: l` is at the head or in `l`. -/
theorem has_crlf_cons (c : Nat) (l : List Nat) :
    has_crlf (c :: l) = ((c == 13 && l.head? == some 10) || has_crlf l) := by
  cases l with
  | nil => simp [has_crlf]
  | cons d rest => simp [has_crlf]

/-- A CR CR LF triple in `c :: l` is at the head or in `l`. -/
theorem has_cr_crlf_cons (c : Nat) (l : List Nat) :
    has_cr_crlf (c :: l) =
      ((c == 13 && l.head? == some 13 && l.tail.head? == some 10) || has_cr_crlf l) := by
  cases l with
  | nil => simp [has_cr_crlf]
  | cons d rest =>
    cases rest with
    | nil => simp [has_cr_crlf]
    | cons e r => simp [has_cr_crlf]

/-- The first byte that the copy loop of `crlf2lf` delivers. -/
theorem crlf2lf_copy_head (d : Nat) (rest : List Nat) :
    (crlf2lf_copy (d :: rest)).head? =
      if d = 13 ∧ rest.head? = some 10 then some 10 else some d := by
  cases rest with
  | nil => simp [crlf2lf_copy]
  | cons e r =>
    by_cases h : d = 13 ∧ e = 10
    · rw [crlf2lf_copy, if_pos h]
      simp [h.1, h.2]
    · rw [crlf2lf_copy, if_neg h]
      simp [h]

/-- The output of the copy loop of `crlf2lf` holds a CR LF pair exactly when its input
holds a CR followed by CR LF. -/
theorem has_crlf_copy (s : List Nat) : has_crlf (crlf2lf_copy s) = has_cr_crlf s := by
  induction s using crlf2lf_copy.induct with
  | case1 => rfl
  | case2 c => rfl
  | case3 c d rest hc ih =>
    obtain ⟨h1, h2⟩ := hc
    subst h1; subst h2
    rw [crlf2lf_copy, if_pos ⟨rfl, rfl⟩, has_crlf_cons, ih, has_cr_crlf_cons 13 (10 :: rest),
      has_cr_crlf_cons 10 rest]
    simp
  | case4 c d rest hc ih =>
    rw [crlf2lf_copy, if_neg hc, has_crlf_cons, ih, has_cr_crlf_cons c (d :: rest),
      crlf2lf_copy_head]
    by_cases hd13 : d = 13 ∧ rest.head? = some 10
    · rw [if_pos hd13]
      simp [hd13.1, hd13.2]
    · rw [if_neg hd13, Bool.and_assoc]
      simp only [List.head?_cons, List.tail_cons]
      have e2 : (some d == some 13 && rest.head? == some 10) = false := by
        cases hx : (some d == some 13 && rest.head? == some 10)
        · rfl
        · exfalso
          simp only [Bool.and_eq_true, beq_iff_eq, Option.some.injEq] at hx
          exact hd13 hx
      rw [e2]
      by_cases h13 : c = 13
      · have hd : d ≠ 10 := fun h => hc ⟨h13, h⟩
        have e1 : (some d == some 10) = false := by simpa using hd
        rw [e1]
      · have b1 : (c == 13) = false := by simpa using h13
        rw [b1]
        rfl

/-- The C string read from bytes followed by a NUL ends at or before that NUL. -/
theorem cstr_append_nul_eq (a rest : List Nat) : cstr (a ++ 0 :: rest) = cstr a := by
  induction a with
  | nil => simp [cstr]
  | cons x xs ih =>
    rw [List.cons_append, cstr_cons, cstr_cons, ih]

/-- The C string that `parser_scan_multipart_face` hands to `crlf2lf`: the scanned bytes
without the last `crlf` ones, up to the first NUL. -/
theorem face_cstr (buffer : List Nat) (crlf : Nat) (h : crlf ≤ buffer.length) :
    cstr ((g_byte_array_set_size buffer (buffer.length + 1)).set (buffer.length - crlf) 0) =
      cstr (buffer.take (buffer.length - crlf)) := by
  have h1 : g_byte_array_set_size buffer (buffer.length + 1) = buffer ++ [0] := by
    unfold g_byte_array_set_size
    simp
  rw [h1, List.set_eq_take_append_cons_drop]
  have hlt : buffer.length - crlf < (buffer ++ [0]).length := by simp; omega
  rw [if_pos hlt, List.take_append_of_le_length (by omega), cstr_append_nul_eq]

/-! ### The content scanner -/

/-- Two saves of content are one save of the bytes joined. -/
theorem content_save_append (c0 : Option (List Nat)) (x y : List Nat) :
    content_save (content_save c0 x) y = content_save c0 (x ++ y) := by
  cases c0 with
  | none => rfl
  | some c => simp [content_save, List.append_assoc]

/-- The `midline` flag has no part in the state of the i/o array. -/
theorem bufOK_midline (D : List Nat) (p : GMimeParser) (b : Bool) (hb : BufOK D p) :
    BufOK D { p with midline := b } :=
  bufOK_of_sameBuf D p _ ⟨rfl, rfl, rfl, rfl, rfl⟩ hb

/-- One iteration of the line loop of `parser_scan_content`. -/
theorem scan_content_lines_succ (n : Nat) (p : GMimeParser) (found start0 i : Nat)
    (content : Option (List Nat)) :
    scan_content_lines (n + 1) p found start0 i content =
      if i < p.inend then
        if scan_to_lf p.realbuf i < p.inend then
          if check_boundary p i (scan_to_lf p.realbuf i - i) ≠ 0 then
            some (ContentScan.boundary p (check_boundary p i (scan_to_lf p.realbuf i - i)) i
              (scan_to_lf p.realbuf i) content)
          else
            scan_content_lines n p (check_boundary p i (scan_to_lf p.realbuf i - i)) i
              (scan_to_lf p.realbuf i + 1)
              (content_save content (slice p.realbuf i (scan_to_lf p.realbuf i - i + 1)))
        else
          if found = 0 then
            some (ContentScan.refill { p with midline := true, inptr := i } content)
          else
            if check_boundary p i (scan_to_lf p.realbuf i - i) ≠ 0 then
              some (ContentScan.boundary { p with midline := true }
                (check_boundary p i (scan_to_lf p.realbuf i - i)) i
                (scan_to_lf p.realbuf i) content)
            else
              scan_content_lines n { p with midline := true }
                (check_boundary p i (scan_to_lf p.realbuf i - i)) i (scan_to_lf p.realbuf i)
                (content_save content (slice p.realbuf i (scan_to_lf p.realbuf i - i)))
      else some (ContentScan.done p found start0 i content) := by
  rw [scan_content_lines]
  rfl


/-- The line that the inner loop of the content scanner delimits, as bytes of the stream. -/
theorem content_line_facts (D : List Nat) (a0 : Nat) (c0 : Option (List Nat))
    (p : GMimeParser) (i : Nat) (content : Option (List Nat)) (hb : BufOK D p)
    (hinv : ContentAt D a0 c0 p i content) (m : Nat)
    (hm : i + m ≤ p.inend) :
    ContentAt D a0 c0 p (i + m) (content_save content (slice p.realbuf i m)) := by
  obtain ⟨h1, h2, h3, h4⟩ := hinv
  obtain ⟨hw, hr, _, _⟩ := hb
  have habs := abs_offset_add p i m h1 hm hr.2.1
  refine ⟨by omega, hm, by omega, ?_⟩
  rw [h4, content_save_append, buf_slice_eq D p hw hr i m h1 hm, habs,
    slice_extend D a0 (abs_offset p i) m h3]

/-- The line loop of `parser_scan_content` returns, and it saves exactly the bytes from the
index where it starts to the index where it stops: the start of a boundary line, the
start of a line that the window does not complete, or the end of the window. -/
theorem scan_content_lines_spec (D : List Nat) (a0 : Nat) (c0 : Option (List Nat)) (n : Nat)
    (p : GMimeParser) (found0 start0 i : Nat) (content : Option (List Nat))
    (hb : BufOK D p) (hinv : ContentAt D a0 c0 p i content) (hn : p.inend - i < n) :
    ∃ r, scan_content_lines n p found0 start0 i content = some r ∧
      ContentScanPost D a0 c0 p i found0 r := by
  induction n generalizing p found0 start0 i content with
  | zero => omega
  | succ n ih =>
    rw [scan_content_lines_succ]
    obtain ⟨hi1, hi2, hi3, hi4⟩ := hinv
    by_cases h1 : i < p.inend
    · simp only [h1, if_true]
      obtain ⟨j1, j2, j3, j4⟩ := scan_to_lf_spec p.realbuf i p.inend hi2 hb.2.2.2
      by_cases h2 : scan_to_lf p.realbuf i < p.inend
      · simp only [h2, if_true]
        by_cases h3 : check_boundary p i (scan_to_lf p.realbuf i - i) ≠ 0
        · rw [if_pos h3]
          exact ⟨_, rfl, Or.inl rfl, h3, Nat.le_refl _, h1, rfl, j2, rfl, hi1, hi2, hi3, hi4⟩
        · rw [if_neg h3]
          have h30 : check_boundary p i (scan_to_lf p.realbuf i - i) = 0 := by
            by_contra hc; exact h3 hc
          have hca := content_line_facts D a0 c0 p i content hb ⟨hi1, hi2, hi3, hi4⟩
            (scan_to_lf p.realbuf i - i + 1) (by omega)
          have he : i + (scan_to_lf p.realbuf i - i + 1) = scan_to_lf p.realbuf i + 1 := by omega
          rw [he] at hca
          obtain ⟨r, hr1, hr2⟩ := ih p (check_boundary p i (scan_to_lf p.realbuf i - i)) i
            (scan_to_lf p.realbuf i + 1) _ hb hca (by omega)
          refine ⟨r, hr1, ?_⟩
          cases r with
          | boundary q found start j content' =>
            obtain ⟨g1, g2, g3, g4, g5⟩ := hr2
            exact ⟨g1, g2, by omega, g4, g5⟩
          | refill q content' =>
            obtain ⟨start, g1, g2, g3, g4, g5⟩ := hr2
            exact ⟨start, g1, by omega, g3, fun _ => by omega, g5⟩
          | done q found start j content' =>
            obtain ⟨g1, g2, g3, g4, g5⟩ := hr2
            refine ⟨g1, g2, fun _ => ?_, fun hc => absurd h1 hc, g5⟩
            by_cases hlt : scan_to_lf p.realbuf i + 1 < p.inend
            · exact g3 hlt
            · rw [g4 hlt]; exact h30
      · simp only [h2, if_false]
        have hje : scan_to_lf p.realbuf i = p.inend := by omega
        by_cases h4 : found0 = 0
        · simp only [h4, if_true]
          exact ⟨_, rfl, i, rfl, Nat.le_refl _, h1, fun hc => absurd rfl hc, hje,
            hi1, hi2, hi3, hi4⟩
        · simp only [h4, if_false]
          by_cases h3 : check_boundary p i (scan_to_lf p.realbuf i - i) ≠ 0
          · rw [if_pos h3]
            exact ⟨_, rfl, Or.inr rfl, h3, Nat.le_refl _, h1, rfl, j2, rfl, hi1, hi2, hi3, hi4⟩
          · rw [if_neg h3]
            have h30 : check_boundary p i (scan_to_lf p.realbuf i - i) = 0 := by
              by_contra hc; exact h3 hc
            have hca := content_line_facts D a0 c0 p i content hb ⟨hi1, hi2, hi3, hi4⟩
              (scan_to_lf p.realbuf i - i) (by omega)
            have he : i + (scan_to_lf p.realbuf i - i) = p.inend := by omega
            rw [he] at hca
            have hca' : ContentAt D a0 c0 { p with midline := true } p.inend
                (content_save content (slice p.realbuf i (scan_to_lf p.realbuf i - i))) := hca
            obtain ⟨r, hr1, hr2⟩ := ih { p with midline := true }
              (check_boundary p i (scan_to_lf p.realbuf i - i)) i p.inend _
              (bufOK_midline D p true hb) hca' (by show p.inend - p.inend < n; omega)
            rw [hje] at hr1 ⊢
            refine ⟨r, hr1, ?_⟩
            cases r with
            | boundary q found start j content' =>
              obtain ⟨_, _, g3, g4, _⟩ := hr2
              have g4' : start < p.inend := g4
              omega
            | refill q content' =>
              obtain ⟨start, _, g2, g3, _⟩ := hr2
              have g3' : start < p.inend := g3
              omega
            | done q found start j content' =>
              obtain ⟨g1, g2, g3, g4, g5⟩ := hr2
              refine ⟨?_, g2, fun _ => ?_, fun hc => absurd h1 hc, g5⟩
              · rcases g1 with g1 | g1
                · exact Or.inr g1
                · exact Or.inr g1
              · have := g4 (by show ¬ p.inend < p.inend; omega)
                rw [this]; exact h30
    · simp only [h1, if_false]
      have hie : i = p.inend := by omega
      refine ⟨_, rfl, Or.inl rfl, hie, fun hc => absurd hc h1, fun _ => rfl, ?_⟩
      rw [← hie]
      exact ⟨hi1, hi2, hi3, hi4⟩

/-- A read never adds a chunk, and what it delivers leaves the stream. -/
theorem stream_read_left_data (s : GMimeStream) (n : Nat) :
    stream_left (g_mime_stream_read s n).2 + (g_mime_stream_read s n).1.length ≤
      stream_left s := by
  unfold g_mime_stream_read stream_left
  cases hc : s.chunks with
  | nil => simp [hc]
  | cons c cs =>
    by_cases h : c.length ≤ n
    · simp [h, List.take_of_length_le h]
      omega
    · simp [h]
      omega

/-- The function `parser_fill` lengthens the window by what it takes from the stream. -/
theorem parser_fill_measure (p : GMimeParser) (hw : WindowInv p) :
    stream_left (parser_fill p).2.stream + ((parser_fill p).2.inend - (parser_fill p).2.inptr) ≤
      stream_left p.stream + (p.inend - p.inptr) ∧
    p.inend - p.inptr ≤ (parser_fill p).2.inend - (parser_fill p).2.inptr ∧
    (parser_fill p).1 = (parser_fill p).2.inend - (parser_fill p).2.inptr := by
  obtain ⟨m1, m2, m3, m4, m5, m6⟩ := parser_fill_shift_spec p hw
  have h := stream_read_left_data p.stream
    (SCAN_HEAD + SCAN_BUF - 1 - (parser_fill_shift p).2.2)
  have e1 : (parser_fill p).2.stream = (g_mime_stream_read p.stream
    (SCAN_HEAD + SCAN_BUF - 1 - (parser_fill_shift p).2.2)).2 := rfl
  have e2 : (parser_fill p).2.inend = (parser_fill_shift p).2.2 + (g_mime_stream_read p.stream
    (SCAN_HEAD + SCAN_BUF - 1 - (parser_fill_shift p).2.2)).1.length := rfl
  have e3 : (parser_fill p).2.inptr = (parser_fill_shift p).2.1 := rfl
  have e4 : (parser_fill p).1 = (parser_fill p).2.inend - (parser_fill p).2.inptr := rfl
  rw [e1, e2, e3]
  refine ⟨by omega, by omega, ?_⟩
  rw [e4, e2, e3]

/-- The relation `Frame` is reflexive. -/
theorem frame_refl (p : GMimeParser) : Frame p p := rfl

/-- The relation `Frame` is transitive. -/
theorem frame_trans (p q r : GMimeParser) (h1 : Frame p q) (h2 : Frame q r) : Frame p r :=
  Eq.trans h2 h1

/-- The function `parser_fill` changes the i/o array, its window, the stream and the
cached offset only. -/
theorem parser_fill_frame (p : GMimeParser) : Frame p (parser_fill p).2 := rfl

/-- The values of `check_boundary`. -/
theorem check_boundary_walk_values (offset : Int) (line : List Nat) (len : Nat)
    (bs : List BoundaryStack) :
    check_boundary_walk offset line len bs = 0 ∨
    check_boundary_walk offset line len bs = FOUND_BOUNDARY ∨
    check_boundary_walk offset line len bs = FOUND_END_BOUNDARY := by
  induction bs with
  | nil => left; rfl
  | cons s parent ih =>
    unfold check_boundary_walk
    split
    · right; right; rfl
    · split
      · right; left; rfl
      · exact ih

/-- The values of `check_boundary`. -/
theorem check_boundary_values (p : GMimeParser) (start len : Nat) :
    check_boundary p start len = 0 ∨ check_boundary p start len = FOUND_BOUNDARY ∨
    check_boundary p start len = FOUND_END_BOUNDARY := by
  unfold check_boundary
  simp only
  generalize (if (if start + len = 0 then 0 else peek p.realbuf (start + len - 1)) = 13 then
    (len + 2 ^ 64 - 1) % 2 ^ 64 else len) = l
  by_cases h : possible_boundary p.scan_from (List.drop start p.realbuf) l = true
  · rw [if_pos h]
    exact check_boundary_walk_values _ _ _ _
  · rw [if_neg h]
    left; rfl

/-- One iteration of the refill loop of `parser_scan_content`. -/
theorem scan_content_loop_succ (fuel : Nat) (p : GMimeParser) (inptr0 : Nat)
    (content : Option (List Nat)) :
    scan_content_loop (fuel + 1) p inptr0 content =
      if (parser_fill p).1 ≤ 0 then
        some ((parser_fill p).2, FOUND_EOS, (parser_fill p).2.inptr, inptr0, content)
      else
        match scan_content_lines ((fill_sentinel p).inend - (fill_sentinel p).inptr + 1)
            { fill_sentinel p with midline := false }
            (if (fill_sentinel p).midline &&
                decide ((fill_sentinel p).inend - (fill_sentinel p).inptr = p.inend - p.inptr)
              then FOUND_EOS else 0)
            (fill_sentinel p).inptr (fill_sentinel p).inptr content with
        | none => none
        | some (ContentScan.boundary q found start inptr content) =>
          some (q, found, start, inptr, content)
        | some (ContentScan.refill q content) => scan_content_loop fuel q q.inptr content
        | some (ContentScan.done q found start inptr content) =>
          if found ≠ 0 then some ({ q with inptr := inptr }, found, start, inptr, content)
          else scan_content_loop fuel { q with inptr := inptr } inptr content := by
  rw [scan_content_loop]
  rfl

/-- The relation to the bytes of the stream depends on the array, the window and the
stream only, and it is kept when `inptr` advances inside the window. -/
theorem represents_congr (D : List Nat) (p q : GMimeParser) (hw : WindowInv p)
    (hr : Represents D p) (h1 : q.realbuf = p.realbuf) (h2 : p.inptr ≤ q.inptr)
    (h3 : q.inptr ≤ q.inend) (h4 : q.inend = p.inend) (h5 : q.stream = p.stream) :
    Represents D q := by
  have hs := buf_slice_eq D p hw hr q.inptr (p.inend - q.inptr) h2 (by omega)
  obtain ⟨r1, r2, r3, r4⟩ := hr
  unfold Represents window
  rw [h1, h4, h5]
  refine ⟨r1, by omega, r3, ?_⟩
  rw [hs]
  rfl

/-- The window invariant depends on the array and the window only. -/
theorem windowInv_congr (p q : GMimeParser) (hw : WindowInv p)
    (h1 : q.realbuf = p.realbuf) (h3 : q.inptr ≤ q.inend) (h4 : q.inend = p.inend) :
    WindowInv q := by
  unfold WindowInv at *
  rw [h1, h4]
  exact ⟨hw.1, by omega, hw.2.2.1, hw.2.2.2⟩

/-- The result of a scan that continues from the state `q` is a result of the scan from
`p`. -/
theorem contentScanned_trans (D : List Nat) (a0 : Nat) (c0 : Option (List Nat))
    (p q r : GMimeParser) (found start j : Nat) (content : Option (List Nat))
    (h1 : Frame p q) (h2 : q.stream.seekable = p.stream.seekable)
    (h3 : NoEmptyRead p.stream → NoEmptyRead q.stream)
    (h4 : stream_left q.stream + (q.inend - q.inptr) ≤ stream_left p.stream + (p.inend - p.inptr))
    (h : ContentScanned D a0 c0 q r found start j content) :
    ContentScanned D a0 c0 p r found start j content := by
  obtain ⟨g1, g2, g3, g4, g5, gm, g6, g7, g8⟩ := h
  exact ⟨frame_trans p q r h1 g1, g2, g3, g4, by rw [g5, h2], by omega,
    fun hne => g6 (h3 hne), g7, g8⟩


/-- The refill loop of `parser_scan_content` returns when its fuel is above the measure of
the state, and what it has saved are the bytes of the stream from where the scan began to
the index `start` where it stops. -/
theorem scan_content_loop_spec (D : List Nat) (a0 : Nat) (c0 : Option (List Nat)) (fuel : Nat)
    (p : GMimeParser) (i0 : Nat) (content : Option (List Nat))
    (hw : WindowInv p) (hr : Represents D p) (ho : p.offset = g_mime_stream_tell p.stream)
    (hinv : ContentAt D a0 c0 p p.inptr content) (hfuel : scan_measure p < fuel) :
    ∃ q found start j content', scan_content_loop fuel p i0 content =
        some (q, found, start, j, content') ∧
      ContentScanned D a0 c0 p q found start j content' := by
  induction fuel generalizing p i0 content with
  | zero => omega
  | succ fuel ih =>
    rw [scan_content_loop_succ]
    obtain ⟨hw', _, _, _, _, _, _, hsk, ho', _⟩ := parser_fill_spec p hw
    obtain ⟨hr', habs⟩ := parser_fill_represents D p hw hr
    obtain ⟨m1, m2, m3⟩ := parser_fill_measure p hw
    have hle' := hw'.2.1
    have hca0 : ContentAt D a0 c0 (parser_fill p).2 (parser_fill p).2.inptr content :=
      ⟨Nat.le_refl _, hle', by rw [habs]; exact hinv.2.2.1, by rw [habs]; exact hinv.2.2.2⟩
    by_cases h0 : (parser_fill p).1 ≤ 0
    · simp only [h0, if_true]
      exact ⟨_, _, _, _, _, rfl, parser_fill_frame p, hw', hr', ho', hsk, m1,
        fun hne => ⟨parser_fill_noEmpty p hne, fun _ => (parser_fill_eof p hw hne h0).2.2⟩,
        hca0, Or.inl ⟨rfl, by omega⟩⟩
    · simp only [h0, if_false]
      have hbs : BufOK D (fill_sentinel p) := bufOK_sentinel D _ hw' hr' ho'
      have hb2 : BufOK D { fill_sentinel p with midline := false } := bufOK_midline D _ false hbs
      have hpos : (fill_sentinel p).inptr < (fill_sentinel p).inend := by
        show (parser_fill p).2.inptr < (parser_fill p).2.inend
        omega
      obtain ⟨r, hr1, hr2⟩ := scan_content_lines_spec D a0 c0
        ((fill_sentinel p).inend - (fill_sentinel p).inptr + 1)
        { fill_sentinel p with midline := false }
        (if (fill_sentinel p).midline &&
            decide ((fill_sentinel p).inend - (fill_sentinel p).inptr = p.inend - p.inptr)
          then FOUND_EOS else 0)
        (fill_sentinel p).inptr (fill_sentinel p).inptr content hb2 hca0
        (by show (fill_sentinel p).inend - (fill_sentinel p).inptr < _; omega)
      rw [hr1]
      have hfr : ∀ b, Frame p { fill_sentinel p with midline := b } := fun _ => rfl
      have hne2 : NoEmptyRead p.stream → NoEmptyRead (fill_sentinel p).stream :=
        fun hne => parser_fill_noEmpty p hne
      cases r with
      | boundary q found start j content' =>
        obtain ⟨g1, g2, g3, g4, g5, g6, g7, g8⟩ := hr2
        have hv : found = FOUND_BOUNDARY ∨ found = FOUND_END_BOUNDARY := by
          rcases check_boundary_values { fill_sentinel p with midline := false } start
            (j - start) with h | h | h
          · rw [g7] at h; exact absurd h g2
          · rw [g7] at h; exact Or.inl h
          · rw [g7] at h; exact Or.inr h
        have hq : q = { fill_sentinel p with midline := false } ∨
            q = { fill_sentinel p with midline := true } := g1
        have hM : stream_left (parser_fill p).2.stream + ((parser_fill p).2.inend - start) ≤
            stream_left p.stream + (p.inend - p.inptr) := by
          have g3' : (parser_fill p).2.inptr ≤ start := g3
          omega
        refine ⟨q, found, start, j, content', rfl, ?_⟩
        rcases hq with hq | hq <;> subst hq
        · exact ⟨hfr false, hb2.1, hb2.2.1, hb2.2.2.1, hsk, hM,
            fun hne => ⟨hne2 hne, fun he => by rw [he] at hv; rcases hv with h | h <;> cases h⟩,
            g8, Or.inr ⟨hv, g4, g5, g6, g7, hb2.2.2.2⟩⟩
        · exact ⟨hfr true, hb2.1, hb2.2.1, hb2.2.2.1, hsk, hM,
            fun hne => ⟨hne2 hne, fun he => by rw [he] at hv; rcases hv with h | h <;> cases h⟩,
            g8, Or.inr ⟨hv, g4, g5, g6, g7, hb2.2.2.2⟩⟩
      | refill q content' =>
        obtain ⟨start, g1, g2, g3, g4, g5, g6⟩ := hr2
        subst g1
        have g3' : start < (fill_sentinel p).inend := g3
        have g6' : ContentAt D a0 c0 { fill_sentinel p with midline := true, inptr := start }
            start content' := ⟨Nat.le_refl _, g6.2.1, g6.2.2.1, g6.2.2.2⟩
        have hwq : WindowInv { fill_sentinel p with midline := true, inptr := start } :=
          windowInv_congr (fill_sentinel p) _ hbs.1 rfl (Nat.le_of_lt g3') rfl
        have hrq : Represents D { fill_sentinel p with midline := true, inptr := start } :=
          represents_congr D (fill_sentinel p) _ hbs.1 hbs.2.1 rfl g2 (Nat.le_of_lt g3') rfl rfl
        have hmeasure : scan_measure { fill_sentinel p with midline := true, inptr := start }
            < fuel := by
          have e1 : scan_measure { fill_sentinel p with midline := true, inptr := start } =
              4 * stream_left (parser_fill p).2.stream +
                2 * ((parser_fill p).2.inend - start) := by
            simp [scan_measure, fill_sentinel]
          rw [e1]
          have g2' : (parser_fill p).2.inptr ≤ start := g2
          unfold scan_measure at hfuel
          by_cases hL : stream_left (parser_fill p).2.stream < stream_left p.stream
          · split at hfuel <;> omega
          · have hw2 : (parser_fill p).2.inend - (parser_fill p).2.inptr = p.inend - p.inptr := by
              omega
            cases hm : p.midline with
            | false =>
              rw [hm] at hfuel
              simp only [Bool.false_eq_true, if_false] at hfuel
              omega
            | true =>
              have hf0 : (if (fill_sentinel p).midline &&
                  decide ((fill_sentinel p).inend - (fill_sentinel p).inptr = p.inend - p.inptr)
                  then FOUND_EOS else 0) ≠ 0 := by
                have e2 : (fill_sentinel p).midline = true := hm
                have e3 : (fill_sentinel p).inend - (fill_sentinel p).inptr =
                    p.inend - p.inptr := hw2
                rw [e2, e3]
                simp [FOUND_EOS]
              have := g4 hf0
              have : (parser_fill p).2.inptr < start := this
              rw [hm] at hfuel
              simp only [if_true] at hfuel
              omega
        obtain ⟨q', found', start', j', c', k1, k2⟩ :=
          ih { fill_sentinel p with midline := true, inptr := start } start content'
            hwq hrq hbs.2.2.1 g6' hmeasure
        exact ⟨q', found', start', j', c', k1,
          contentScanned_trans D a0 c0 p
            { fill_sentinel p with midline := true, inptr := start } q' found' start' j' c'
            rfl hsk hne2
            (by show stream_left (parser_fill p).2.stream + ((parser_fill p).2.inend - start) ≤ _
                have g2' : (parser_fill p).2.inptr ≤ start := g2
                omega) k2⟩
      | done q found start j content' =>
        obtain ⟨g1, g2, g3, g4, g5⟩ := hr2
        have hf0 : found = 0 := g3 hpos
        subst hf0
        subst g2
        simp only [ne_eq, not_true_eq_false, if_false]
        have hmeasure : ∀ b,
            scan_measure { fill_sentinel p with midline := b, inptr := (fill_sentinel p).inend }
              < fuel := by
          intro b
          have e1 :
              scan_measure { fill_sentinel p with midline := b, inptr := (fill_sentinel p).inend }
                = 4 * stream_left (parser_fill p).2.stream + (if b then 0 else 1) := by
            simp [scan_measure, fill_sentinel]
          rw [e1]
          unfold scan_measure at hfuel
          have hpos' : (parser_fill p).2.inptr < (parser_fill p).2.inend := hpos
          split <;> split at hfuel <;> omega
        have hq : q = { fill_sentinel p with midline := false } ∨
            q = { fill_sentinel p with midline := true } := g1
        have hstep : ∀ b, ∃ q' found' start' j' c',
            scan_content_loop fuel
              { fill_sentinel p with midline := b, inptr := (fill_sentinel p).inend }
              (fill_sentinel p).inend content' = some (q', found', start', j', c') ∧
            ContentScanned D a0 c0 p q' found' start' j' c' := by
          intro b
          obtain ⟨q', found', start', j', c', k1, k2⟩ :=
            ih { fill_sentinel p with midline := b, inptr := (fill_sentinel p).inend }
              (fill_sentinel p).inend content'
              (windowInv_congr (fill_sentinel p) _ hbs.1 rfl (Nat.le_refl _) rfl)
              (represents_congr D (fill_sentinel p) _ hbs.1 hbs.2.1 rfl hbs.1.2.1
                (Nat.le_refl _) rfl rfl)
              hbs.2.2.1 ⟨Nat.le_refl _, Nat.le_refl _, g5.2.2.1, g5.2.2.2⟩ (hmeasure b)
          exact ⟨q', found', start', j', c', k1,
            contentScanned_trans D a0 c0 p
              { fill_sentinel p with midline := b, inptr := (fill_sentinel p).inend }
              q' found' start' j' c' rfl hsk hne2
              (by show stream_left (parser_fill p).2.stream +
                    ((parser_fill p).2.inend - (parser_fill p).2.inend) ≤ _
                  omega) k2⟩
        rcases hq with hq | hq <;> subst hq
        · exact hstep false
        · exact hstep true

/-- A save of no byte leaves the content as it is. -/
theorem content_save_nil (c0 : Option (List Nat)) : content_save c0 [] = c0 := by
  cases c0 with
  | none => rfl
  | some c => simp [content_save]

/-- The function `parser_scan_content` returns when its fuel is above
`4 * stream_left + 2 * window + 1`, with the result that `ScanResult` describes. -/
theorem parser_scan_content_spec (D : List Nat) (p : GMimeParser) (fuel : Nat)
    (c0 : Option (List Nat)) (hw : WindowInv p) (hr : Represents D p)
    (ho : p.offset = g_mime_stream_tell p.stream)
    (hfuel : 4 * stream_left p.stream + 2 * (p.inend - p.inptr) + 1 < fuel) :
    ∃ found crlf content p2, parser_scan_content fuel p c0 = some (found, crlf, content, p2) ∧
      ScanResult D p c0 found crlf content p2 := by
  have hle := hw.2.1
  have hinv : ContentAt D (abs_offset p p.inptr) c0 { p with midline := false } p.inptr c0 := by
    refine ⟨Nat.le_refl _, hle, Nat.le_refl _, ?_⟩
    show c0 = content_save c0 (slice D (abs_offset p p.inptr)
      (abs_offset p p.inptr - abs_offset p p.inptr))
    rw [Nat.sub_self, slice_zero, content_save_nil]
  obtain ⟨q, found, start, j, content, h1, h2⟩ := scan_content_loop_spec D
    (abs_offset p p.inptr) c0 fuel { p with midline := false } p.inptr c0
    (windowInv_congr p _ hw rfl hle rfl)
    (represents_congr D p _ hw hr rfl (Nat.le_refl _) hle rfl rfl) ho hinv
    (by simp only [scan_measure, Bool.false_eq_true, if_false]; exact hfuel)
  obtain ⟨g1, g2, g3, g4, g5, gm, g6, g7, g8⟩ := h2
  unfold parser_scan_content
  rw [h1]
  obtain ⟨c1, c2, c3, c4⟩ := g7
  refine ⟨_, _, _, _, rfl, g1, windowInv_congr q _ g2 rfl c2 rfl,
    represents_congr D q _ g2 g3 rfl c1 c2 rfl rfl, g4, g5, gm, g6, c3, c4, ?_⟩
  rcases g8 with ⟨e1, e2⟩ | ⟨b1, b2, b3, b4, b5, _⟩
  · left
    refine ⟨e1, by simp [e1], ?_⟩
    show start = q.inend
    omega
  · right
    have hne : found ≠ FOUND_EOS := by
      rcases b1 with h | h <;> rw [h] <;> decide
    subst b3
    exact ⟨b1, b2, b4, b5, by simp [hne]⟩

/-! ### The function `parser_skip_line` -/

/-- One iteration of the loop of `parser_skip_line`. -/
theorem skip_line_loop_succ (fuel : Nat) (p : GMimeParser) :
    skip_line_loop (fuel + 1) p =
      if (parser_fill p).1 ≤ 0 then some ((parser_fill p).2, (parser_fill p).2.inptr)
      else if scan_to_lf (fill_sentinel p).realbuf (fill_sentinel p).inptr <
          (fill_sentinel p).inend then
        some (fill_sentinel p, scan_to_lf (fill_sentinel p).realbuf (fill_sentinel p).inptr)
      else
        skip_line_loop fuel
          { fill_sentinel p with
            inptr := scan_to_lf (fill_sentinel p).realbuf (fill_sentinel p).inptr } := by
  rw [skip_line_loop]
  rfl

/-- The loop of `parser_skip_line` returns when its fuel is above what is left in the
stream, at the first line feed or at the end of the stream. -/
theorem skip_line_loop_spec (D : List Nat) (a0 : Nat) (fuel : Nat) (p : GMimeParser)
    (hw : WindowInv p) (hr : Represents D p) (ho : p.offset = g_mime_stream_tell p.stream)
    (ha : a0 ≤ abs_offset p p.inptr)
    (hlf : ∀ c ∈ slice D a0 (abs_offset p p.inptr - a0), c ≠ 10)
    (hfuel : stream_left p.stream + (if p.inptr = p.inend then 0 else 1) < fuel) :
    ∃ q j, skip_line_loop fuel p = some (q, j) ∧ SkipDone D a0 p q j := by
  induction fuel generalizing p with
  | zero => omega
  | succ fuel ih =>
    rw [skip_line_loop_succ]
    obtain ⟨hw', _, _, _, _, _, _, hsk, ho', _⟩ := parser_fill_spec p hw
    obtain ⟨hr', habs⟩ := parser_fill_represents D p hw hr
    obtain ⟨m1, m2, m3⟩ := parser_fill_measure p hw
    have hle' := hw'.2.1
    by_cases h0 : (parser_fill p).1 ≤ 0
    · simp only [h0, if_true]
      exact ⟨_, _, rfl, parser_fill_frame p, rfl, hw', hr', ho', hsk,
        by show stream_left (parser_fill p).2.stream +
             ((parser_fill p).2.inend - (parser_fill p).2.inptr) ≤ _
           exact m1,
        fun hne => ⟨parser_fill_noEmpty p hne, fun _ => (parser_fill_eof p hw hne h0).2.2⟩,
        Nat.le_refl _, hle', by rw [habs]; exact ha, by rw [habs]; exact hlf,
        Or.inr ⟨by omega, by omega⟩⟩
    · simp only [h0, if_false]
      have hbs : BufOK D (fill_sentinel p) := bufOK_sentinel D _ hw' hr' ho'
      have hle2 : (fill_sentinel p).inptr ≤ (fill_sentinel p).inend := hle'
      obtain ⟨j1, j2, j3, j4⟩ := scan_to_lf_spec (fill_sentinel p).realbuf
        (fill_sentinel p).inptr (fill_sentinel p).inend hle2 hbs.2.2.2
      have habs2 : abs_offset (fill_sentinel p) (fill_sentinel p).inptr = abs_offset p p.inptr :=
        habs
      have hj := abs_offset_add (fill_sentinel p) (fill_sentinel p).inptr
        (scan_to_lf (fill_sentinel p).realbuf (fill_sentinel p).inptr - (fill_sentinel p).inptr)
        (Nat.le_refl _) (by omega) hbs.2.1.2.1
      have hje : (fill_sentinel p).inptr +
          (scan_to_lf (fill_sentinel p).realbuf (fill_sentinel p).inptr -
            (fill_sentinel p).inptr) =
          scan_to_lf (fill_sentinel p).realbuf (fill_sentinel p).inptr := by omega
      rw [hje, habs2] at hj
      have hsl := buf_slice_eq D (fill_sentinel p) hbs.1 hbs.2.1 (fill_sentinel p).inptr
        (scan_to_lf (fill_sentinel p).realbuf (fill_sentinel p).inptr - (fill_sentinel p).inptr)
        (Nat.le_refl _) (by omega)
      rw [habs2] at hsl
      have hlf2 : ∀ c ∈ slice D a0 (abs_offset (fill_sentinel p)
          (scan_to_lf (fill_sentinel p).realbuf (fill_sentinel p).inptr) - a0), c ≠ 10 := by
        rw [hj, slice_extend D a0 _ _ ha]
        intro c hc
        rcases List.mem_append.1 hc with hc | hc
        · exact hlf c hc
        · rw [← hsl] at hc
          exact j4 c hc
      by_cases h2 : scan_to_lf (fill_sentinel p).realbuf (fill_sentinel p).inptr <
          (fill_sentinel p).inend
      · simp only [h2, if_true]
        refine ⟨_, _, rfl, rfl, rfl, hbs.1, hbs.2.1, hbs.2.2.1, hsk,
          by show stream_left (parser_fill p).2.stream + ((parser_fill p).2.inend -
               scan_to_lf (fill_sentinel p).realbuf (fill_sentinel p).inptr) ≤ _
             have j1' : (parser_fill p).2.inptr ≤
               scan_to_lf (fill_sentinel p).realbuf (fill_sentinel p).inptr := j1
             omega,
          fun hne => ⟨parser_fill_noEmpty p hne, fun he => by omega⟩,
          j1, j2, by rw [hj]; omega, hlf2, Or.inl ⟨h2, ?_⟩⟩
        rw [← buf_peek_eq D (fill_sentinel p) hbs.1 hbs.2.1 _ j1 h2]
        exact j3
      · simp only [h2, if_false]
        have hje2 : scan_to_lf (fill_sentinel p).realbuf (fill_sentinel p).inptr =
            (fill_sentinel p).inend := by omega
        rw [hje2] at hlf2 hj ⊢
        obtain ⟨q, j, k1, k2⟩ := ih
          { fill_sentinel p with inptr := (fill_sentinel p).inend }
          (windowInv_congr (fill_sentinel p) _ hbs.1 rfl (Nat.le_refl _) rfl)
          (represents_congr D (fill_sentinel p) _ hbs.1 hbs.2.1 rfl hle2 (Nat.le_refl _) rfl rfl)
          hbs.2.2.1 (by show a0 ≤ abs_offset (fill_sentinel p) (fill_sentinel p).inend
                        rw [hj]; omega)
          hlf2
          (by show stream_left (parser_fill p).2.stream +
                (if (fill_sentinel p).inend = (fill_sentinel p).inend then 0 else 1) < fuel
              rw [if_pos rfl]
              split at hfuel <;> omega)
        obtain ⟨g1, g2, g3, g4, g5, g6, gm, g7, g8⟩ := k2
        have gm' : stream_left q.stream + (q.inend - j) ≤
            stream_left (parser_fill p).2.stream +
              ((parser_fill p).2.inend - (parser_fill p).2.inend) := gm
        exact ⟨q, j, k1, frame_trans p _ q rfl g1, g2, g3, g4, g5, by rw [g6]; exact hsk,
          by omega, fun hne => g7 (parser_fill_noEmpty p hne), g8⟩

/-- The function `parser_skip_line` returns when its fuel is above what is left in the
stream, with the result that `SkipResult` describes. -/
theorem parser_skip_line_spec (D : List Nat) (p : GMimeParser) (fuel : Nat)
    (hw : WindowInv p) (hr : Represents D p) (ho : p.offset = g_mime_stream_tell p.stream)
    (hfuel : stream_left p.stream + 1 < fuel) :
    ∃ p2, parser_skip_line fuel p = some p2 ∧ SkipResult D p p2 := by
  obtain ⟨q, j, h1, h2⟩ := skip_line_loop_spec D (abs_offset p p.inptr) fuel p hw hr ho
    (Nat.le_refl _) (by rw [Nat.sub_self, slice_zero]; intro c hc; cases hc)
    (by split <;> omega)
  obtain ⟨g1, _, g3, g4, g5, g6, gm, g7, g8, g9, g10, g11, g12⟩ := h2
  unfold parser_skip_line
  rw [h1]
  have hmin : min (j + 1) q.inend ≤ q.inend := Nat.min_le_right _ _
  have hge : q.inptr ≤ min (j + 1) q.inend := by
    rw [Nat.le_min]; exact ⟨by omega, g3.2.1⟩
  refine ⟨_, rfl, g1, windowInv_congr q _ g3 rfl hmin rfl,
    represents_congr D q _ g3 g4 rfl hge hmin rfl rfl, g5, g6, rfl, ?_, ?_, ?_, ?_⟩
  · show stream_left q.stream + (q.inend - min (j + 1) q.inend) ≤ _
    have : j ≤ min (j + 1) q.inend := by rw [Nat.le_min]; exact ⟨by omega, g9⟩
    omega
  · intro hne
    refine ⟨(g7 hne).1, fun hp => ?_⟩
    rcases g12 with ⟨k1, k2⟩ | ⟨k1, _⟩
    · exfalso
      apply hp
      have e : abs_offset q (min (j + 1) q.inend) - 1 = abs_offset q j := by
        rw [Nat.min_eq_left (by omega)]
        unfold abs_offset
        have := g4.2.1
        omega
      show peek D (abs_offset q (min (j + 1) q.inend) - 1) = 10
      rw [e]; exact k2
    · exact (g7 hne).2 k1
  · show abs_offset p p.inptr ≤ abs_offset q (min (j + 1) q.inend)
    have : abs_offset q j ≤ abs_offset q (min (j + 1) q.inend) := by
      unfold abs_offset
      have : j ≤ min (j + 1) q.inend := by rw [Nat.le_min]; exact ⟨by omega, g9⟩
      omega
    omega
  · rcases g12 with ⟨k1, k2⟩ | ⟨k1, k3⟩
    · left
      have e : abs_offset q (min (j + 1) q.inend) = abs_offset q j + 1 := by
        rw [Nat.min_eq_left (by omega)]
        unfold abs_offset
        have := g4.2.1
        omega
      show abs_offset p p.inptr < abs_offset q (min (j + 1) q.inend) ∧
        peek D (abs_offset q (min (j + 1) q.inend) - 1) = 10 ∧
        ∀ c ∈ slice D (abs_offset p p.inptr)
          (abs_offset q (min (j + 1) q.inend) - 1 - abs_offset p p.inptr), c ≠ 10
      rw [e]
      exact ⟨by omega, k2, g11⟩
    · right
      have e : min (j + 1) q.inend = j := by
        rw [k1]; exact Nat.min_eq_right (Nat.le_succ _)
      show min (j + 1) q.inend = q.inend ∧
        ∀ c ∈ slice D (abs_offset p p.inptr)
          (abs_offset q (min (j + 1) q.inend) - abs_offset p p.inptr), c ≠ 10
      rw [e]
      exact ⟨k1, g11⟩

/-- After `parser_unstep` in state HEADERS_END the header loop of a constructor returns at
once, with the `unstep` count taken back. -/
theorem step_to_headers_end_unstep (f : Nat) (p : GMimeParser) (hu : p.unstep ≠ 0)
    (hs : p.state = ParserState.HEADERS_END) :
    step_to_headers_end (f + 1) p = some { p with unstep := p.unstep - 1 } := by
  rw [step_to_headers_end]
  unfold parser_step
  simp only [hu, if_false]
  simp [hs]

/-! ### The From-line scanner -/

/-- After its shift `parser_fill` has `inend` at the length of the unread bytes, or at
`SCAN_HEAD` when they are fewer. -/
theorem parser_fill_shift_inend (p : GMimeParser) (h : WindowInv p) :
    (parser_fill_shift p).2.2 = max (p.inend - p.inptr) SCAN_HEAD := by
  obtain ⟨hl, h1, h2, h3⟩ := h
  unfold parser_fill_shift
  simp only [SCAN_HEAD, SCAN_BUF] at *
  by_cases c1 : p.inptr ≥ 128
  · simp only [c1, if_true]
    by_cases c2 : p.inend - p.inptr < 128
    · simp only [c2, if_true]; omega
    · simp only [c2, if_false]; omega
  · simp only [c1, if_false]
    by_cases c3 : p.inptr > 0
    · simp only [c3, if_true]; omega
    · simp only [c3, if_false]; omega

/-- A fill that does not lengthen the window found the stream at its end or the window
full. -/
theorem parser_fill_no_progress (p : GMimeParser) (hw : WindowInv p)
    (hne : NoEmptyRead p.stream)
    (h : (parser_fill p).2.inend - (parser_fill p).2.inptr ≤ p.inend - p.inptr) :
    (parser_fill p).2.stream.chunks = [] ∨ p.inend - p.inptr = SCAN_HEAD + SCAN_BUF - 1 := by
  obtain ⟨m1, m2, m3, m4, m5, m6⟩ := parser_fill_shift_spec p hw
  have hs := parser_fill_shift_inend p hw
  have e2 : (parser_fill p).2.inend = (parser_fill_shift p).2.2 + (g_mime_stream_read p.stream
    (SCAN_HEAD + SCAN_BUF - 1 - (parser_fill_shift p).2.2)).1.length := rfl
  have e3 : (parser_fill p).2.inptr = (parser_fill_shift p).2.1 := rfl
  have e1 : (parser_fill p).2.stream = (g_mime_stream_read p.stream
    (SCAN_HEAD + SCAN_BUF - 1 - (parser_fill_shift p).2.2)).2 := rfl
  rw [e2, e3] at h
  by_cases hn : 0 < SCAN_HEAD + SCAN_BUF - 1 - (parser_fill_shift p).2.2
  · left
    rw [e1]
    exact (stream_read_nil p.stream _ hne hn (by omega)).2
  · right
    simp only [SCAN_HEAD, SCAN_BUF] at *
    omega

/-- The test for the From-line in `parser_step_from`, on a line that the window holds with
its line feed, in terms of the bytes of the stream. -/
theorem from_test_iff (D : List Nat) (p : GMimeParser) (hb : BufOK D p) (i j : Nat)
    (hi : p.inptr ≤ i) (hj : j = scan_to_lf p.realbuf i) (hij : i ≤ j) (hlt : j < p.inend)
    (hnl : ∀ c ∈ slice p.realbuf i (j - i), c ≠ 10) (hpk : peek p.realbuf j = 10) :
    (decide (j - i ≥ 5) && strncmp_eq (p.realbuf.drop i) (bytes "From ") 5) = true ↔
      slice D (abs_offset p i) 5 = bytes "From " := by
  obtain ⟨hw, hr, _, _⟩ := hb
  by_cases h5 : j - i ≥ 5
  · have hs := buf_slice_eq D p hw hr i 5 hi (by omega)
    have hlen : 5 ≤ (p.realbuf.drop i).length := by
      rw [List.length_drop, hw.1]
      have := hw.2.2.2
      simp only [SCAN_HEAD, SCAN_BUF] at *
      omega
    rw [strncmp_eq_comm, ← hs]
    simp only [h5, decide_True, Bool.true_and]
    rw [strncmp_eq_iff (bytes "From ") (p.realbuf.drop i) 5 (by decide) hlen (by decide)]
    unfold slice
    constructor
    · intro h; rw [h]; decide
    · intro h; rw [h]; decide
  · simp only [h5, decide_False, Bool.false_and]
    constructor
    · intro h; cases h
    · intro h
      exfalso
      have h1 : peek (slice D (abs_offset p i) 5) (j - i) = peek D (abs_offset p i + (j - i)) :=
        peek_slice D _ 5 (j - i) (by omega)
      have h2 := buf_peek_eq D p hw hr j (by omega) hlt
      have h3 : abs_offset p i + (j - i) = abs_offset p j := by
        have := abs_offset_add p i (j - i) hi (by omega) hr.2.1
        have e : i + (j - i) = j := by omega
        rw [e] at this
        exact this.symm
      rw [h3, ← h2, hpk, h] at h1
      have h6 : j - i < 5 := by omega
      generalize j - i = k at h1 h6
      interval_cases k <;> simp [bytes_from, peek] at h1

/-- One iteration of the line loop of `parser_step_from`. -/
theorem step_from_lines_succ (n : Nat) (p : GMimeParser) (i : Nat) :
    step_from_lines (n + 1) p i =
      if i < p.inend then
        if scan_to_lf p.realbuf i + 1 ≥ p.inend then
          some (FromScan.refill { p with inptr := i } (p.inend - i))
        else
          if (decide (scan_to_lf p.realbuf i - i ≥ 5) &&
              strncmp_eq (p.realbuf.drop i) (bytes "From ") 5) = true then
            some (FromScan.got_from
              { p with from_offset := parser_offset p (some i),
                       from_line := p.from_line ++
                         slice p.realbuf i (scan_to_lf p.realbuf i - i) }
              (scan_to_lf p.realbuf i + 1))
          else step_from_lines n p (scan_to_lf p.realbuf i + 1)
      else some (FromScan.done p i) := by
  rw [step_from_lines]

/-- The line loop of `parser_step_from` returns: at the first line that begins with
`From ` and lies in the window with its line feed and one more byte, or at the start of
a line that the window does not hold that far. -/
theorem step_from_lines_spec (D : List Nat) (a0 : Nat) (n : Nat) (p : GMimeParser) (i : Nat)
    (hb : BufOK D p) (hinv : FromInv D a0 p i) (hn : p.inend - i < n) :
    ∃ r, step_from_lines n p i = some r ∧ FromScanPost D a0 p i r := by
  induction n generalizing i with
  | zero => omega
  | succ n ih =>
    rw [step_from_lines_succ]
    obtain ⟨hi1, hi2, hi3, hi4, hi5⟩ := hinv
    by_cases h1 : i < p.inend
    · simp only [h1, if_true]
      obtain ⟨j1, j2, j3, j4⟩ := scan_to_lf_spec p.realbuf i p.inend hi2 hb.2.2.2
      by_cases h2 : scan_to_lf p.realbuf i + 1 ≥ p.inend
      · simp only [h2, if_true]
        exact ⟨_, rfl, i, rfl, rfl, Nat.le_refl _, h1, h2, hi1, hi2, hi3, hi4, hi5⟩
      · simp only [h2, if_false]
        have hlt : scan_to_lf p.realbuf i < p.inend := by omega
        have htest := from_test_iff D p hb i (scan_to_lf p.realbuf i) hi1 rfl j1 hlt j4 j3
        by_cases h3 : (decide (scan_to_lf p.realbuf i - i ≥ 5) &&
            strncmp_eq (p.realbuf.drop i) (bytes "From ") 5) = true
        · rw [if_pos h3]
          exact ⟨_, rfl, i, scan_to_lf p.realbuf i, rfl, rfl, Nat.le_refl _, j1, by omega, rfl,
            ⟨hi1, hi2, hi3, hi4, hi5⟩, htest.1 h3⟩
        · rw [if_neg h3]
          have hnot : slice D (abs_offset p i) 5 ≠ bytes "From " := fun h => h3 (htest.2 h)
          have hj := abs_offset_add p i (scan_to_lf p.realbuf i - i) hi1 (by omega) hb.2.1.2.1
          have hje : i + (scan_to_lf p.realbuf i - i) = scan_to_lf p.realbuf i := by omega
          rw [hje] at hj
          have hj1 := abs_offset_add p (scan_to_lf p.realbuf i) 1 (by omega) (by omega)
            hb.2.1.2.1
          have hpk := buf_peek_eq D p hb.1 hb.2.1 (scan_to_lf p.realbuf i) (by omega) hlt
          have hsl := buf_slice_eq D p hb.1 hb.2.1 i (scan_to_lf p.realbuf i - i) hi1 (by omega)
          have hinv' : FromInv D a0 p (scan_to_lf p.realbuf i + 1) := by
            refine ⟨by omega, by omega, by omega, ?_, ?_⟩
            · right
              rw [hj1]
              refine ⟨by omega, ?_⟩
              rw [Nat.add_sub_cancel, ← hpk]
              exact j3
            · intro t ht1 ht2 ht3
              by_cases hc : t < abs_offset p i
              · exact hi5 t ht1 hc ht3
              · by_cases he : t = abs_offset p i
                · rw [he]; exact hnot
                · exfalso
                  rcases ht3 with ht3 | ⟨_, ht3⟩
                  · omega
                  · have hk : t - 1 - abs_offset p i < scan_to_lf p.realbuf i - i := by omega
                    have hp := peek_slice D (abs_offset p i) (scan_to_lf p.realbuf i - i)
                      (t - 1 - abs_offset p i) hk
                    have e : abs_offset p i + (t - 1 - abs_offset p i) = t - 1 := by omega
                    rw [e, ht3, ← hsl] at hp
                    have hmem : peek (slice p.realbuf i (scan_to_lf p.realbuf i - i))
                        (t - 1 - abs_offset p i) ∈
                        slice p.realbuf i (scan_to_lf p.realbuf i - i) := by
                      unfold peek
                      rw [List.getD_eq_getElem?_getD]
                      have hl : t - 1 - abs_offset p i <
                          (slice p.realbuf i (scan_to_lf p.realbuf i - i)).length := by
                        rw [slice_length _ _ _ (by
                          have := hb.1.1
                          have := hb.1.2.2.2
                          simp only [SCAN_HEAD, SCAN_BUF] at *
                          omega)]
                        exact hk
                      rw [List.getElem?_eq_getElem hl]
                      exact List.getElem_mem _
                    exact j4 _ hmem hp
          obtain ⟨r, hr1, hr2⟩ := ih (scan_to_lf p.realbuf i + 1) hinv' (by omega)
          refine ⟨r, hr1, ?_⟩
          cases r with
          | got_from q j' =>
            obtain ⟨start, j, g1, g2, g3, g4⟩ := hr2
            exact ⟨start, j, g1, g2, by omega, g4⟩
          | refill q left =>
            obtain ⟨start, g1, g2, g3, g4⟩ := hr2
            exact ⟨start, g1, g2, by omega, g4⟩
          | done q j' => exact hr2
    · simp only [h1, if_false]
      have hie : i = p.inend := by omega
      refine ⟨_, rfl, rfl, hie, ?_⟩
      rw [← hie]
      exact ⟨hi1, hi2, hi3, hi4, hi5⟩

/-- One iteration of the refill loop of `parser_step_from`. -/
theorem step_from_loop_succ (fuel : Nat) (p : GMimeParser) (left : Nat) :
    step_from_loop (fuel + 1) p left =
      if (parser_fill p).1 ≤ left then
        some (-1, { (parser_fill p).2 with
          state := ParserState.ERROR, inptr := (parser_fill p).2.inend })
      else
        match step_from_lines ((fill_sentinel p).inend - (fill_sentinel p).inptr + 1)
            (fill_sentinel p) (fill_sentinel p).inptr with
        | none => none
        | some (FromScan.got_from q j) =>
          some (0, { q with state := ParserState.HEADERS, inptr := j })
        | some (FromScan.refill q left) => step_from_loop fuel q left
        | some (FromScan.done q j) => step_from_loop fuel { q with inptr := j } 0 := by
  rw [step_from_loop]
  rfl

/-- A longer slice holds the bytes of a shorter one. -/
theorem mem_slice_mono (buf : List Nat) (s m m2 c : Nat) (h : m ≤ m2)
    (hc : c ∈ slice buf s m) : c ∈ slice buf s m2 := by
  unfold slice at *
  have : (buf.drop s).take m = ((buf.drop s).take m2).take m := by
    rw [List.take_take, Nat.min_eq_left h]
  rw [this] at hc
  exact List.mem_of_mem_take hc

/-- The result of a From-line scan that continues from the state `q` is a result of the
scan from `p`. -/
theorem fromDone_trans (D : List Nat) (a0 : Nat) (fl0 : List Nat) (p q r : GMimeParser)
    (rc : Int) (h2 : q.stream.seekable = p.stream.seekable)
    (h3 : NoEmptyRead p.stream → NoEmptyRead q.stream) (h : FromDone D a0 fl0 q rc r) :
    FromDone D a0 fl0 p rc r := by
  obtain ⟨g1, g2, g3, g4, g5⟩ := h
  refine ⟨g1, g2, g3, by rw [g4, h2], ?_⟩
  rcases g5 with g5 | ⟨k1, k2, k3, k4, start, k5, k6, k7, k8, k9, k10⟩
  · exact Or.inl g5
  · exact Or.inr ⟨k1, k2, k3, k4, start, k5, k6, k7, k8, k9, fun hne => k10 (h3 hne)⟩

/-- The distance of two indices of the window is the distance of their offsets. -/
theorem abs_offset_sub (p : GMimeParser) (i j : Nat) (h1 : i ≤ j) (h2 : j ≤ p.inend)
    (h3 : p.inend - i ≤ p.stream.pos) : abs_offset p j - abs_offset p i = j - i := by
  unfold abs_offset
  omega


/-- The refill loop of `parser_step_from` returns when its fuel is above what is left in
the stream, with the result that `FromDone` describes. -/
theorem step_from_loop_spec (D : List Nat) (a0 : Nat) (fl0 : List Nat) (fuel : Nat)
    (p : GMimeParser) (left : Nat)
    (hw : WindowInv p) (hr : Represents D p) (ho : p.offset = g_mime_stream_tell p.stream)
    (hinv : FromInv D a0 p p.inptr) (hpend : FromPending D p left) (hfl : p.from_line = fl0)
    (hfuel : stream_left p.stream + (if p.inend - p.inptr ≤ left then 0 else 1) < fuel) :
    ∃ rc q, step_from_loop fuel p left = some (rc, q) ∧ FromDone D a0 fl0 p rc q := by
  induction fuel generalizing p left with
  | zero => omega
  | succ fuel ih =>
    rw [step_from_loop_succ]
    obtain ⟨hw', _, _, _, _, _, _, hsk, ho', _⟩ := parser_fill_spec p hw
    obtain ⟨hr', habs⟩ := parser_fill_represents D p hw hr
    obtain ⟨m1, m2, m3⟩ := parser_fill_measure p hw
    have hle' := hw'.2.1
    obtain ⟨hi1, hi2, hi3, hi4, hi5⟩ := hinv
    have hpos' := hr'.2.1
    by_cases h0 : (parser_fill p).1 ≤ left
    · simp only [h0, if_true]
      have hwq : WindowInv { (parser_fill p).2 with
          state := ParserState.ERROR, inptr := (parser_fill p).2.inend } :=
        windowInv_congr (parser_fill p).2 _ hw' rfl (Nat.le_refl _) rfl
      have hrq : Represents D { (parser_fill p).2 with
          state := ParserState.ERROR, inptr := (parser_fill p).2.inend } :=
        represents_congr D (parser_fill p).2 _ hw' hr' rfl hle' (Nat.le_refl _) rfl rfl
      refine ⟨_, _, rfl, hwq, hrq, ho', hsk, Or.inr ⟨rfl, rfl, rfl, hfl, abs_offset p p.inptr,
        hi3, ?_, hi4, hi5, ?_, ?_⟩⟩
      · show abs_offset p p.inptr ≤ abs_offset (parser_fill p).2 (parser_fill p).2.inend
        rw [← habs]
        unfold abs_offset
        omega
      · have hd : abs_offset (parser_fill p).2 (parser_fill p).2.inend - abs_offset p p.inptr =
            (parser_fill p).2.inend - (parser_fill p).2.inptr := by
          rw [← habs]
          exact abs_offset_sub _ _ _ hle' (Nat.le_refl _) hpos'
        show ∀ c ∈ slice D (abs_offset p p.inptr)
          (abs_offset (parser_fill p).2 (parser_fill p).2.inend - abs_offset p p.inptr - 1),
          c ≠ 10
        rw [hd]
        rcases hpend with hp | ⟨hp1, hp2⟩
        · have : (parser_fill p).2.inend - (parser_fill p).2.inptr - 1 = 0 := by omega
          rw [this, slice_zero]
          intro c hc; cases hc
        · have : (parser_fill p).2.inend - (parser_fill p).2.inptr - 1 = left - 1 := by omega
          rw [this]
          exact hp2
      · intro hne
        have hd : abs_offset (parser_fill p).2 (parser_fill p).2.inend - abs_offset p p.inptr =
            (parser_fill p).2.inend - (parser_fill p).2.inptr := by
          rw [← habs]
          exact abs_offset_sub _ _ _ hle' (Nat.le_refl _) hpos'
        show (parser_fill p).2.stream.chunks = [] ∨
          abs_offset (parser_fill p).2 (parser_fill p).2.inend - abs_offset p p.inptr =
            SCAN_HEAD + SCAN_BUF - 1
        rw [hd]
        have hle2 : (parser_fill p).2.inend - (parser_fill p).2.inptr ≤ p.inend - p.inptr := by
          rcases hpend with hp | ⟨hp1, _⟩ <;> omega
        rcases parser_fill_no_progress p hw hne hle2 with h | h
        · exact Or.inl h
        · exact Or.inr (by omega)
    · simp only [h0, if_false]
      have hbs : BufOK D (fill_sentinel p) := bufOK_sentinel D _ hw' hr' ho'
      have hinv2 : FromInv D a0 (fill_sentinel p) (fill_sentinel p).inptr := by
        refine ⟨Nat.le_refl _, hle', ?_, ?_, ?_⟩
        · show a0 ≤ abs_offset (parser_fill p).2 (parser_fill p).2.inptr
          rw [habs]; exact hi3
        · show LineStart D a0 (abs_offset (parser_fill p).2 (parser_fill p).2.inptr)
          rw [habs]; exact hi4
        · show NoFromLineBefore D a0 (abs_offset (parser_fill p).2 (parser_fill p).2.inptr)
          rw [habs]; exact hi5
      obtain ⟨r, hr1, hr2⟩ := step_from_lines_spec D a0
        ((fill_sentinel p).inend - (fill_sentinel p).inptr + 1) (fill_sentinel p)
        (fill_sentinel p).inptr hbs hinv2 (by omega)
      rw [hr1]
      have hne2 : NoEmptyRead p.stream → NoEmptyRead (fill_sentinel p).stream :=
        fun hne => parser_fill_noEmpty p hne
      have hLfuel : stream_left (parser_fill p).2.stream < fuel := by
        have h0' : ¬ (parser_fill p).2.inend - (parser_fill p).2.inptr ≤ left := by
          rw [← m3]; exact h0
        split at hfuel <;> omega
      cases r with
      | got_from q j1 =>
        obtain ⟨start, j, g1, g2, g3, g4, g5, g6, g7, g8⟩ := hr2
        subst g1; subst g2
        obtain ⟨f1, f2, f3, f4, f5⟩ := g7
        obtain ⟨j1, j2, j3, j4⟩ := scan_to_lf_spec (fill_sentinel p).realbuf start
          (fill_sentinel p).inend f2 hbs.2.2.2
        rw [← g6] at j3 j4
        have hjlt : j < (fill_sentinel p).inend := by omega
        have hpk := buf_peek_eq D (fill_sentinel p) hbs.1 hbs.2.1 j (by omega) hjlt
        have hsl := buf_slice_eq D (fill_sentinel p) hbs.1 hbs.2.1 start (j - start) f1
          (by omega)
        have hd := abs_offset_sub (fill_sentinel p) start j g4 (by omega)
          (by have := hbs.2.1.2.1; omega)
        have hj1 := abs_offset_add (fill_sentinel p) j 1 (by omega) (by omega) hbs.2.1.2.1
        have hmono : abs_offset (fill_sentinel p) start ≤ abs_offset (fill_sentinel p) j := by
          unfold abs_offset; omega
        have hj1le : j + 1 ≤ (fill_sentinel p).inend := by omega
        have hj1ge : (fill_sentinel p).inptr ≤ j + 1 := by omega
        refine ⟨_, _, rfl, windowInv_congr (fill_sentinel p) _ hbs.1 rfl hj1le rfl,
          represents_congr D (fill_sentinel p) _ hbs.1 hbs.2.1 rfl hj1ge hj1le rfl rfl,
          hbs.2.2.1, hsk, Or.inl ⟨rfl, rfl, abs_offset (fill_sentinel p) start,
            abs_offset (fill_sentinel p) j,
            ⟨f3, f4, g8, hmono, by rw [← hpk]; exact j3, by rw [hd, ← hsl]; exact j4⟩, f5,
            parser_offset_eq D (fill_sentinel p) hbs start f1 f2, ?_, hj1, ?_⟩⟩
        · show (fill_sentinel p).from_line ++ slice (fill_sentinel p).realbuf start (j - start) = _
          rw [hd, ← hsl]
          show p.from_line ++ _ = _
          rw [hfl]
        · show abs_offset (fill_sentinel p) j + 1 <
            abs_offset (fill_sentinel p) (fill_sentinel p).inend
          unfold abs_offset
          have := hbs.2.1.2.1
          omega
      | refill q left2 =>
        obtain ⟨start, g1, g2, g3, g4, g5, g6⟩ := hr2
        subst g1; subst g2
        obtain ⟨f1, f2, f3, f4, f5⟩ := g6
        obtain ⟨j1, j2, j3, j4⟩ := scan_to_lf_spec (fill_sentinel p).realbuf start
          (fill_sentinel p).inend f2 hbs.2.2.2
        have hsl := buf_slice_eq D (fill_sentinel p) hbs.1 hbs.2.1 start
          ((fill_sentinel p).inend - start - 1) f1 (by omega)
        obtain ⟨rc, q', k1, k2⟩ := ih { fill_sentinel p with inptr := start }
          ((fill_sentinel p).inend - start)
          (windowInv_congr (fill_sentinel p) _ hbs.1 rfl f2 rfl)
          (represents_congr D (fill_sentinel p) _ hbs.1 hbs.2.1 rfl f1 f2 rfl rfl)
          hbs.2.2.1 ⟨Nat.le_refl _, f2, f3, f4, f5⟩
          (Or.inr ⟨rfl, by
            show ∀ c ∈ slice D (abs_offset (fill_sentinel p) start)
              ((fill_sentinel p).inend - start - 1), c ≠ 10
            rw [← hsl]
            intro c hc
            exact j4 c (mem_slice_mono _ _ _ _ c (by omega) hc)⟩)
          hfl
          (by show stream_left (parser_fill p).2.stream +
                (if (fill_sentinel p).inend - start ≤ (fill_sentinel p).inend - start
                  then 0 else 1) < fuel
              rw [if_pos (Nat.le_refl _)]
              omega)
        exact ⟨rc, q', k1, fromDone_trans D a0 fl0 p
          { fill_sentinel p with inptr := start } q' rc hsk hne2 k2⟩
      | done q j =>
        obtain ⟨g1, g2, g3⟩ := hr2
        subst g1; subst g2
        obtain ⟨f1, f2, f3, f4, f5⟩ := g3
        obtain ⟨rc, q', k1, k2⟩ := ih { fill_sentinel p with inptr := (fill_sentinel p).inend } 0
          (windowInv_congr (fill_sentinel p) _ hbs.1 rfl (Nat.le_refl _) rfl)
          (represents_congr D (fill_sentinel p) _ hbs.1 hbs.2.1 rfl f1 (Nat.le_refl _) rfl rfl)
          hbs.2.2.1 ⟨Nat.le_refl _, Nat.le_refl _, f3, f4, f5⟩ (Or.inl rfl) hfl
          (by show stream_left (parser_fill p).2.stream +
                (if (fill_sentinel p).inend - (fill_sentinel p).inend ≤ 0 then 0 else 1) < fuel
              rw [if_pos (by omega)]
              omega)
        exact ⟨rc, q', k1, fromDone_trans D a0 fl0 p
          { fill_sentinel p with inptr := (fill_sentinel p).inend } q' rc hsk hne2 k2⟩

/-- The function `parser_step_from` returns when its fuel is above what is left in the
stream, with the result that `FromDone` describes. -/
theorem parser_step_from_spec (D : List Nat) (p : GMimeParser) (fuel : Nat)
    (hw : WindowInv p) (hr : Represents D p) (ho : p.offset = g_mime_stream_tell p.stream)
    (hfuel : stream_left p.stream + 1 < fuel) :
    ∃ rc q, parser_step_from fuel p = some (rc, q) ∧
      FromDone D (abs_offset p p.inptr) [] p rc q := by
  have hle := hw.2.1
  unfold parser_step_from
  exact step_from_loop_spec D (abs_offset p p.inptr) [] fuel { p with from_line := [] } 0
    (windowInv_congr p _ hw rfl hle rfl)
    (represents_congr D p _ hw hr rfl (Nat.le_refl _) hle rfl rfl) ho
    ⟨Nat.le_refl _, hle, Nat.le_refl _, Or.inl rfl, fun t h1 h2 _ => by
      have h2' : t < abs_offset p p.inptr := h2
      omega⟩
    (Or.inl rfl) rfl
    (by show stream_left p.stream + _ < fuel
        split <;> omega)

/-- A byte that is not NUL and lies in a range is a member of the slice of that range. -/
theorem peek_mem_slice (D : List Nat) (s n m : Nat) (h1 : s ≤ m) (h2 : m < s + n)
    (h3 : peek D m ≠ 0) : peek D m ∈ slice D s n := by
  have hlt : m < D.length := by
    by_contra hc
    apply h3
    unfold peek
    rw [List.getD_eq_getElem?_getD, List.getElem?_eq_none (by omega)]
    rfl
  have hp := peek_slice D s n (m - s) (by omega)
  have e : s + (m - s) = m := by omega
  rw [e] at hp
  rw [← hp]
  unfold peek
  rw [List.getD_eq_getElem?_getD]
  have hl : m - s < (slice D s n).length := by
    unfold slice
    rw [List.length_take, List.length_drop]
    omega
  rw [List.getElem?_eq_getElem hl]
  exact List.getElem_mem _

/-- When the stream has no chunk left, the window ends at the end of the bytes of the
stream. -/
theorem abs_inend_of_eos (D : List Nat) (q : GMimeParser) (hr : Represents D q)
    (hc : q.stream.chunks = []) : abs_offset q q.inend = D.length := by
  obtain ⟨r1, _, r3, _⟩ := hr
  rw [hc] at r3
  have : D.length ≤ q.stream.pos := by
    have := List.drop_eq_nil_iff.1 r3
    exact this
  unfold abs_offset
  omega

/-! ## The boundary stack -/

/-- A push keeps the stack-max invariant. -/
theorem stackMaxInv_push (p : GMimeParser) (b : List Nat) (h : StackMaxInv p.bounds) :
    StackMaxInv (parser_push_boundary p b).bounds := by
  unfold parser_push_boundary
  cases hb : p.bounds with
  | nil =>
    simp only [StackMaxInv, max_lenfinal, and_true]
  | cons s parent =>
    rw [hb] at h
    simp only [StackMaxInv, max_lenfinal] at h ⊢
    refine ⟨?_, h⟩
    rw [h.1]

/-- A pop keeps the stack-max invariant. -/
theorem stackMaxInv_pop (p : GMimeParser) (h : StackMaxInv p.bounds) :
    StackMaxInv (parser_pop_boundary p).bounds := by
  unfold parser_pop_boundary
  cases hb : p.bounds with
  | nil => simp only [hb, StackMaxInv]
  | cons s parent =>
    rw [hb] at h
    exact h.2

/-- Pushes and pops keep the stack-max invariant. -/
theorem stackMaxInv_run (ops : List StackOp) :
    ∀ p : GMimeParser, StackMaxInv p.bounds → StackMaxInv (run_stack_ops ops p).bounds := by
  induction ops with
  | nil => intro p h; exact h
  | cons op ops ih =>
    intro p h
    cases op with
    | push b => exact ih _ (stackMaxInv_push p b h)
    | pop => exact ih _ (stackMaxInv_pop p h)

/-! ## What the stepping functions leave alone -/

/-- A stream comes after itself. -/
theorem streamLater_refl (s : GMimeStream) : StreamLater s s :=
  ⟨Nat.le_refl _, Nat.le_refl _⟩

/-- The relation `StreamLater` is transitive. -/
theorem streamLater_trans (s t u : GMimeStream) (h1 : StreamLater s t)
    (h2 : StreamLater t u) : StreamLater s u :=
  ⟨Nat.le_trans h1.1 h2.1, Nat.le_trans h2.2 h1.2⟩

/-- A read moves the stream forward. -/
theorem stream_read_later (s : GMimeStream) (n : Nat) :
    StreamLater s (g_mime_stream_read s n).2 := by
  unfold g_mime_stream_read StreamLater
  cases hc : s.chunks with
  | nil => simp [hc]
  | cons c cs =>
    simp only
    constructor
    · omega
    · split <;> simp

/-- The relation `Kept` is reflexive. -/
theorem kept_refl (p : GMimeParser) : Kept p p := ⟨rfl, streamLater_refl _⟩

/-- The relation `Kept` is transitive. -/
theorem kept_trans (p q r : GMimeParser) (h1 : Kept p q) (h2 : Kept q r) : Kept p r :=
  ⟨h2.1.trans h1.1, streamLater_trans _ _ _ h1.2 h2.2⟩

/-- The function `parser_fill` only reads from the stream. -/
theorem parser_fill_kept (p : GMimeParser) : Kept p (parser_fill p).2 :=
  ⟨rfl, stream_read_later _ _⟩

/-- The sentinel write after `parser_fill` changes the i/o array only. -/
theorem fill_sentinel_kept (p : GMimeParser) : Kept p (fill_sentinel p) :=
  ⟨rfl, stream_read_later _ _⟩

/-- The line loop of `parser_step_headers` leaves the stream, the `unstep` count, the
flags, the boundary stack and the From-line fields alone. -/
theorem step_headers_lines_kept (n : Nat) :
    ∀ (p : GMimeParser) (hend i : Nat) (r : HeaderScan),
      step_headers_lines n p hend i = some r →
      step_fields r.st = step_fields p ∧ r.st.stream = p.stream ∧
        r.st.from_offset = p.from_offset ∧ r.st.from_line = p.from_line := by
  induction n with
  | zero => intro p hend i r h; simp [step_headers_lines] at h
  | succ n ih =>
    intro p hend i r h
    rw [step_headers_lines_succ] at h
    split at h
    · split at h
      · cases h; exact ⟨rfl, rfl, rfl, rfl⟩
      · split at h
        · cases h; exact ⟨rfl, rfl, rfl, rfl⟩
        · split at h
          · obtain ⟨h1, h2, h3, h4⟩ := ih _ _ _ _ h
            exact ⟨h1.trans rfl, h2.trans rfl, h3.trans rfl, h4.trans rfl⟩
          · obtain ⟨h1, h2, h3, h4⟩ := ih _ _ _ _ h
            refine ⟨h1.trans ?_, h2.trans ?_, h3.trans ?_, h4.trans ?_⟩
            · unfold header_line_parsed header_parse; rfl
            · unfold header_line_parsed header_parse; rfl
            · unfold header_line_parsed header_parse; rfl
            · unfold header_line_parsed header_parse; rfl
    · cases h; exact ⟨rfl, rfl, rfl, rfl⟩

/-- The refill loop of `parser_step_headers` leaves the `unstep` count, the flags, the
boundary stack and the From-line fields alone and only reads from the stream. -/
theorem step_headers_loop_kept (fuel : Nat) :
    ∀ (p : GMimeParser) (hend left : Nat) (q : GMimeParser) (hend' j : Nat),
      step_headers_loop fuel p hend left = some (q, hend', j) →
      Kept p q ∧ q.from_offset = p.from_offset ∧ q.from_line = p.from_line := by
  induction fuel with
  | zero => intro p hend left q hend' j h; simp [step_headers_loop] at h
  | succ fuel ih =>
    intro p hend left q hend' j h
    rw [step_headers_loop_succ] at h
    split at h
    · simp only [Option.some.injEq, Prod.mk.injEq] at h
      obtain ⟨h1, _, _⟩ := h
      subst h1
      exact ⟨⟨rfl, stream_read_later _ _⟩, rfl, rfl⟩
    · have hk := fill_sentinel_kept p
      split at h
      · exact absurd h (by simp)
      · rename_i q0 e0 j0 hl
        simp only [Option.some.injEq, Prod.mk.injEq] at h
        obtain ⟨h1, _, _⟩ := h
        subst h1
        obtain ⟨g1, g2, g3, g4⟩ := step_headers_lines_kept _ _ _ _ _ hl
        have g2' : q0.stream = (fill_sentinel p).stream := g2
        have hs : StreamLater p.stream q0.stream := by rw [g2']; exact hk.2
        exact ⟨⟨g1.trans hk.1, hs⟩, g3, g4⟩
      · rename_i q0 e0 l0 hl
        obtain ⟨g1, g2, g3, g4⟩ := step_headers_lines_kept _ _ _ _ _ hl
        obtain ⟨k1, k2, k3⟩ := ih _ _ _ _ _ _ h
        have g2' : q0.stream = (fill_sentinel p).stream := g2
        exact ⟨⟨k1.1.trans (g1.trans hk.1),
          streamLater_trans _ _ _ (by rw [g2']; exact hk.2) k1.2⟩,
          k2.trans g3, k3.trans g4⟩
      · rename_i q0 e0 j0 hl
        obtain ⟨g1, g2, g3, g4⟩ := step_headers_lines_kept _ _ _ _ _ hl
        obtain ⟨k1, k2, k3⟩ := ih _ _ _ _ _ _ h
        have g2' : q0.stream = (fill_sentinel p).stream := g2
        have k11 : step_fields q = step_fields q0 := k1.1
        have k12 : StreamLater q0.stream q.stream := k1.2
        have k2' : q.from_offset = q0.from_offset := k2
        have k3' : q.from_line = q0.from_line := k3
        exact ⟨⟨k11.trans (g1.trans hk.1),
          streamLater_trans _ _ _ (by rw [g2']; exact hk.2) k12⟩,
          k2'.trans g3, k3'.trans g4⟩

/-- The function `parser_step_headers` leaves the `unstep` count, the flags, the boundary
stack and the From-line fields alone and only reads from the stream. -/
theorem parser_step_headers_kept (fuel : Nat) (p q : GMimeParser)
    (h : parser_step_headers fuel p = some q) :
    Kept p q ∧ q.from_offset = p.from_offset ∧ q.from_line = p.from_line := by
  unfold parser_step_headers at h
  simp only at h
  split at h
  · exact absurd h (by simp)
  · rename_i q0 e0 j0 hl
    obtain ⟨k1, k2, k3⟩ := step_headers_loop_kept _ _ _ _ _ _ _ hl
    simp only [Option.some.injEq] at h
    subst h
    have k11 : step_fields q0 = step_fields p := k1.1
    have k12 : StreamLater p.stream q0.stream := k1.2
    have k2' : q0.from_offset = p.from_offset := k2
    have k3' : q0.from_line = p.from_line := k3
    split
    · refine ⟨⟨?_, ?_⟩, ?_, ?_⟩
      · exact Eq.trans (by unfold header_parse; rfl) k11
      · exact k12
      · exact Eq.trans (by unfold header_parse; rfl) k2'
      · exact Eq.trans (by unfold header_parse; rfl) k3'
    · exact ⟨⟨k11, k12⟩, k2', k3'⟩

/-- The line loop of `parser_step_from` leaves the stream, the `unstep` count, the flags,
the boundary stack and the fields of the header lexer alone. -/
theorem step_from_lines_kept (n : Nat) :
    ∀ (p : GMimeParser) (i : Nat) (r : FromScan),
      step_from_lines n p i = some r →
      step_fields r.st = step_fields p ∧ r.st.stream = p.stream ∧
        header_fields r.st = header_fields p := by
  induction n with
  | zero => intro p i r h; simp [step_from_lines] at h
  | succ n ih =>
    intro p i r h
    rw [step_from_lines_succ] at h
    split at h
    · split at h
      · cases h; exact ⟨rfl, rfl, rfl⟩
      · split at h
        · cases h; exact ⟨rfl, rfl, rfl⟩
        · exact ih _ _ _ h
    · cases h; exact ⟨rfl, rfl, rfl⟩

/-- The refill loop of `parser_step_from` leaves the `unstep` count, the flags, the
boundary stack and the fields of the header lexer alone and only reads from the
stream. -/
theorem step_from_loop_kept (fuel : Nat) :
    ∀ (p : GMimeParser) (left : Nat) (rc : Int) (q : GMimeParser),
      step_from_loop fuel p left = some (rc, q) →
      Kept p q ∧ header_fields q = header_fields p := by
  induction fuel with
  | zero => intro p left rc q h; simp [step_from_loop] at h
  | succ fuel ih =>
    intro p left rc q h
    rw [step_from_loop_succ] at h
    split at h
    · simp only [Option.some.injEq, Prod.mk.injEq] at h
      obtain ⟨_, h1⟩ := h
      subst h1
      exact ⟨⟨rfl, stream_read_later _ _⟩, rfl⟩
    · have hk := fill_sentinel_kept p
      split at h
      · exact absurd h (by simp)
      · rename_i q0 j0 hl
        simp only [Option.some.injEq, Prod.mk.injEq] at h
        obtain ⟨_, h1⟩ := h
        subst h1
        obtain ⟨g1, g2, g3⟩ := step_from_lines_kept _ _ _ _ hl
        have g2' : q0.stream = (fill_sentinel p).stream := g2
        have hs : StreamLater p.stream q0.stream := by rw [g2']; exact hk.2
        exact ⟨⟨g1.trans hk.1, hs⟩, g3⟩
      · rename_i q0 l0 hl
        obtain ⟨g1, g2, g3⟩ := step_from_lines_kept _ _ _ _ hl
        obtain ⟨k1, k2⟩ := ih _ _ _ _ h
        have g2' : q0.stream = (fill_sentinel p).stream := g2
        exact ⟨⟨k1.1.trans (g1.trans hk.1),
          streamLater_trans _ _ _ (by rw [g2']; exact hk.2) k1.2⟩, k2.trans g3⟩
      · rename_i q0 j0 hl
        obtain ⟨g1, g2, g3⟩ := step_from_lines_kept _ _ _ _ hl
        obtain ⟨k1, k2⟩ := ih _ _ _ _ h
        have g2' : q0.stream = (fill_sentinel p).stream := g2
        have k11 : step_fields q = step_fields q0 := k1.1
        have k12 : StreamLater q0.stream q.stream := k1.2
        have k2' : header_fields q = header_fields q0 := k2
        exact ⟨⟨k11.trans (g1.trans hk.1),
          streamLater_trans _ _ _ (by rw [g2']; exact hk.2) k12⟩, k2'.trans g3⟩

/-- The function `parser_step_from` leaves the `unstep` count, the flags, the boundary
stack and the fields of the header lexer alone and only reads from the stream. -/
theorem parser_step_from_kept (fuel : Nat) (p : GMimeParser) (rc : Int) (q : GMimeParser)
    (h : parser_step_from fuel p = some (rc, q)) :
    Kept p q ∧ header_fields q = header_fields p := by
  unfold parser_step_from at h
  obtain ⟨k1, k2⟩ := step_from_loop_kept _ _ _ _ _ h
  have k11 : step_fields q = step_fields p := k1.1
  have k12 : StreamLater p.stream q.stream := k1.2
  have k2' : header_fields q = header_fields p := k2
  exact ⟨⟨k11, k12⟩, k2'⟩

/-- The loop of `parser_skip_line` only reads from the stream. -/
theorem skip_line_loop_later (fuel : Nat) :
    ∀ (p q : GMimeParser) (j : Nat), skip_line_loop fuel p = some (q, j) →
      StreamLater p.stream q.stream := by
  induction fuel with
  | zero => intro p q j h; simp [skip_line_loop] at h
  | succ fuel ih =>
    intro p q j h
    rw [skip_line_loop_succ] at h
    split at h
    · simp only [Option.some.injEq, Prod.mk.injEq] at h
      obtain ⟨h1, _⟩ := h
      subst h1
      exact stream_read_later _ _
    · split at h
      · simp only [Option.some.injEq, Prod.mk.injEq] at h
        obtain ⟨h1, _⟩ := h
        subst h1
        exact stream_read_later _ _
      · have k := ih _ _ _ h
        have k' : StreamLater (fill_sentinel p).stream q.stream := k
        exact streamLater_trans _ _ _ (fill_sentinel_kept p).2 k'

/-- The function `parser_skip_line` only reads from the stream. -/
theorem parser_skip_line_later (fuel : Nat) (p q : GMimeParser)
    (h : parser_skip_line fuel p = some q) : StreamLater p.stream q.stream := by
  unfold parser_skip_line at h
  split at h
  · exact absurd h (by simp)
  · rename_i q0 j0 hl
    simp only [Option.some.injEq] at h
    subst h
    exact skip_line_loop_later _ p q0 j0 hl

/-- The function `parser_step` written with `step_enter`. -/
theorem parser_step_eq (fuel : Nat) (p : GMimeParser) :
    parser_step fuel p =
      if p.unstep = 0 then
        match (step_enter p).state with
        | ParserState.FROM =>
          match parser_step_from fuel (step_enter p) with
          | none => none
          | some r => some (r.2.state, r.2)
        | ParserState.HEADERS =>
          match parser_step_headers fuel (step_enter p) with
          | none => none
          | some q => some (q.state, q)
        | ParserState.ERROR => some ((step_enter p).state, step_enter p)
        | _ => none
      else some (p.state, { p with unstep := p.unstep - 1 }) := rfl

/-- The case INIT of `parser_step` changes the state only. -/
theorem step_enter_fields (p : GMimeParser) :
    step_fields (step_enter p) = step_fields p ∧ (step_enter p).stream = p.stream ∧
      header_fields (step_enter p) = header_fields p ∧ (step_enter p).realbuf = p.realbuf ∧
      (step_enter p).inptr = p.inptr ∧ (step_enter p).inend = p.inend ∧
      (step_enter p).offset = p.offset ∧ (step_enter p).from_offset = p.from_offset ∧
      (step_enter p).from_line = p.from_line := by
  unfold step_enter
  split <;> exact ⟨rfl, rfl, rfl, rfl, rfl, rfl, rfl, rfl, rfl⟩

/-- The function `parser_step` returns the state that it leaves; it leaves the `unstep`
count alone when it is 0, and otherwise it only takes 1 from it. -/
theorem parser_step_unstep (fuel : Nat) (p : GMimeParser) (st : ParserState)
    (q : GMimeParser) (h : parser_step fuel p = some (st, q)) :
    st = q.state ∧ q.unstep = p.unstep - 1 ∧
      (p.unstep ≠ 0 → q = { p with unstep := p.unstep - 1 }) := by
  rw [parser_step_eq] at h
  have hf := (step_enter_fields p).1
  have hf1 : (step_enter p).unstep = p.unstep := congrArg (fun c => c.1) hf
  by_cases hu : p.unstep = 0
  · simp only [hu, if_true] at h
    rw [hu]
    rw [hu] at hf1
    split at h
    · split at h
      · exact absurd h (by simp)
      · rename_i r hr
        simp only [Option.some.injEq, Prod.mk.injEq] at h
        have k : r.2.unstep = (step_enter p).unstep :=
          congrArg (fun c => c.1) (parser_step_from_kept _ _ r.1 r.2 hr).1.1
        refine ⟨?_, ?_, fun h0 => absurd rfl h0⟩
        · rw [← h.1, ← h.2]
        · rw [← h.2, k, hf1]
    · split at h
      · exact absurd h (by simp)
      · rename_i r hr
        simp only [Option.some.injEq, Prod.mk.injEq] at h
        have k : r.unstep = (step_enter p).unstep :=
          congrArg (fun c => c.1) (parser_step_headers_kept _ _ r hr).1.1
        refine ⟨?_, ?_, fun h0 => absurd rfl h0⟩
        · rw [← h.1, ← h.2]
        · rw [← h.2, k, hf1]
    · simp only [Option.some.injEq, Prod.mk.injEq] at h
      refine ⟨?_, ?_, fun h0 => absurd rfl h0⟩
      · rw [← h.1, ← h.2]
      · rw [← h.2, hf1]
    · exact absurd h (by simp)
  · simp only [hu, if_false, Option.some.injEq, Prod.mk.injEq] at h
    refine ⟨?_, ?_, fun _ => h.2.symm⟩
    · rw [← h.1, ← h.2]
    · rw [← h.2]

/-- The length of a byte array after `g_byte_array_set_size`. -/
theorem g_byte_array_set_size_length (a : List Nat) (n : Nat) :
    (g_byte_array_set_size a n).length = n := by
  unfold g_byte_array_set_size
  split
  · rw [List.length_take]; omega
  · rw [List.length_append, List.length_replicate]; omega

/-! ## The part constructors and the bytes of the stream -/

/-- The relation `Follows` is reflexive. -/
theorem follows_refl (p : GMimeParser) : Follows p p := ⟨Nat.le_refl _, rfl⟩

/-- The relation `Follows` is transitive. -/
theorem follows_trans (p q r : GMimeParser) (h1 : Follows p q) (h2 : Follows q r) :
    Follows p r :=
  ⟨Nat.le_trans h2.1 h1.1, h2.2.trans h1.2⟩

/-- The fields that a frame condition keeps. -/
theorem frame_eqs (p q : GMimeParser) (h : Frame p q) :
    q.state = p.state ∧ q.unstep = p.unstep ∧ q.headers = p.headers ∧
    q.headerbuf = p.headerbuf ∧ q.rawbuf = p.rawbuf ∧ q.bounds = p.bounds ∧
    flag_fields q = flag_fields p ∧ q.from_offset = p.from_offset ∧
    q.from_line = p.from_line := by
  unfold Frame frame_fields at h
  simp only [Prod.mk.injEq] at h
  obtain ⟨h1, h2, h3, h4, _, h6, _, _, _, h10, h11, h12, h13, h14, h15, h16⟩ := h
  refine ⟨h1, h10, h15, h4, h6, h16, ?_, h2, h3⟩
  unfold flag_fields
  rw [h11, h12, h13, h14]

/-- The measure of the unread bytes in terms of the absolute offset of the parser. -/
theorem unread_measure_eq (D : List Nat) (p : GMimeParser) (hr : Represents D p) :
    unread_measure p = (D.length - abs_offset p p.inptr) + p.stream.chunks.length := by
  obtain ⟨r1, r2, r3, _⟩ := hr
  have hl : p.stream.chunks.flatten.length = D.length - p.stream.pos := by
    rw [← r3, List.length_drop]
  unfold unread_measure stream_left abs_offset
  rw [hl]
  omega

/-- A parser that stands later in the same bytes, on a stream that was only read from,
has no more unread; it has less when its offset is greater. -/
theorem unread_measure_le (D : List Nat) (p q : GMimeParser) (hr : Represents D p)
    (hrq : Represents D q) (hq : q.inptr ≤ q.inend)
    (hs : StreamLater p.stream q.stream)
    (ha : abs_offset p p.inptr ≤ abs_offset q q.inptr) :
    unread_measure q ≤ unread_measure p ∧
      (abs_offset p p.inptr < abs_offset q q.inptr → unread_measure q < unread_measure p) := by
  rw [unread_measure_eq D p hr, unread_measure_eq D q hrq]
  have := abs_offset_le_length D q hrq q.inptr hq
  have := hs.2
  constructor
  · omega
  · intro h; omega

/-- A chain of headers that is not empty ends after the offset where it starts. -/
theorem header_chain_lt (D : List Nat) (sk : Bool) (a0 a e : Nat) (hs : List HeaderRaw)
    (hne : hs ≠ []) (h : HeaderChain D sk a0 a hs e) : a < e := by
  cases hs with
  | nil => exact absurd rfl hne
  | cons x xs =>
    obtain ⟨_, a', hb, h1, _, _, _, h5⟩ := h
    have := header_chain_le D sk a0 xs a' e h5
    omega

/-- The function `parser_step_headers` between two parts: it returns in state
HEADERS_END with nothing put back, and with less unread when it recorded a header. -/
theorem step_headers_done (D : List Nat) (p : GMimeParser) (fuel : Nat) (hp : Rest D p)
    (hfuel : stream_left p.stream + 2 ≤ fuel) :
    ∃ q, parser_step_headers fuel p = some q ∧
      AtHeadersEnd D (parser_unstep q) ∧ q.unstep = 0 ∧ Follows p q ∧ q.bounds = p.bounds ∧
      (q.headers ≠ [] → unread_measure q < unread_measure p) := by
  obtain ⟨hw, hr, ho, hu, hh, hb⟩ := hp
  obtain ⟨q, h1, h2, _⟩ := parser_step_headers_spec D p fuel hw hr ho hh hb hfuel
  obtain ⟨k1, k2, k3⟩ := parser_step_headers_kept fuel p q h1
  obtain ⟨g1, g2, g3, g4, g5, _, g7, s, s1, s2, s3, _⟩ := h2
  have hf : step_fields q = step_fields p := k1.1
  unfold step_fields at hf
  simp only [Prod.mk.injEq] at hf
  obtain ⟨f1, f2, f3, f4, f5, f6⟩ := hf
  have hm := unread_measure_le D p q hr g3 g2.2.1 k1.2 g5
  have hq0 : q.unstep = 0 := by rw [f1, hu]
  refine ⟨q, h1, ⟨g2, g3, g4, g1, ?_, g7⟩, hq0, ⟨hm.1, ?_⟩, f6, ?_⟩
  · show (q.unstep + 1) % 2 ^ 26 = 1
    rw [hq0]
    decide
  · unfold flag_fields
    rw [f2, f3, f4, f5]
  · intro hne
    have := header_chain_lt D _ _ _ _ q.headers hne s3
    exact hm.2 (by omega)

/-- The function `parser_skip_line` between two parts: it returns with nothing put back,
and with less unread when the window was not empty. -/
theorem skip_line_done (D : List Nat) (p : GMimeParser) (fuel : Nat) (hp : Rest D p)
    (hfuel : stream_left p.stream + 1 < fuel) :
    ∃ q, parser_skip_line fuel p = some q ∧ Rest D q ∧ Follows p q ∧ q.bounds = p.bounds ∧
      q.state = p.state ∧ q.rawbuf = p.rawbuf ∧
      (p.inptr < p.inend → unread_measure q < unread_measure p) := by
  obtain ⟨hw, hr, ho, hu, hh, hb⟩ := hp
  obtain ⟨q, h1, h2⟩ := parser_skip_line_spec D p fuel hw hr ho hfuel
  have hl := parser_skip_line_later fuel p q h1
  obtain ⟨k1, k2, k3, k4, _, _, k7, _, k9, k10⟩ := h2
  obtain ⟨e1, e2, e3, e4, e5, e6, e7, _, _⟩ := frame_eqs p q k1
  have hm := unread_measure_le D p q hr k3 k2.2.1 hl k9
  refine ⟨q, h1, ⟨k2, k3, k4, by rw [e2, hu], by rw [e3, hh], by rw [e4, hb]⟩,
    ⟨hm.1, e7⟩, e6, e1, e5, ?_⟩
  intro hlt
  apply hm.2
  rcases k10 with ⟨h, _⟩ | ⟨h, _⟩
  · exact h
  · have hpos := hl.1
    have := hr.2.1
    unfold abs_offset
    rw [h]
    omega

/-- The function `parser_scan_content` between two parts. -/
theorem scan_content_done (D : List Nat) (p : GMimeParser) (fuel : Nat)
    (c0 : Option (List Nat)) (hp : Rest D p)
    (hfuel : 4 * unread_measure p + 1 < fuel) :
    ∃ found crlf content q, parser_scan_content fuel p c0 = some (found, crlf, content, q) ∧
      PartDone D p found q ∧ q.state = p.state ∧ q.rawbuf = p.rawbuf := by
  obtain ⟨hw, hr, ho, hu, hh, hb⟩ := hp
  obtain ⟨found, crlf, content, q, h1, h2⟩ := parser_scan_content_spec D p fuel c0 hw hr ho
    (by unfold unread_measure at hfuel; omega)
  obtain ⟨k1, k2, k3, k4, _, k6, _, _, _, k10⟩ := h2
  obtain ⟨e1, e2, e3, e4, e5, e6, e7, _, _⟩ := frame_eqs p q k1
  refine ⟨found, crlf, content, q, h1,
    ⟨⟨k2, k3, k4, by rw [e2, hu], by rw [e3, hh], by rw [e4, hb]⟩, ⟨k6, e7⟩, e6, ?_, ?_⟩,
    e1, e5⟩
  · rcases k10 with ⟨h, _⟩ | ⟨h | h, _⟩
    · exact Or.inl h
    · exact Or.inr (Or.inl h)
    · exact Or.inr (Or.inr h)
  · intro hne
    rcases k10 with ⟨h, _⟩ | ⟨_, h, _⟩
    · exact absurd h hne
    · exact h

/-- The function `parser_scan_mime_part_content` between two parts. -/
theorem scan_mime_part_content_done (D : List Nat) (p : GMimeParser) (fuel : Nat)
    (hp : Rest D p) (hfuel : 4 * unread_measure p + 1 < fuel) :
    ∃ c found q, parser_scan_mime_part_content fuel p = some (c, found, q) ∧
      PartDone D p found q := by
  unfold parser_scan_mime_part_content
  obtain ⟨found, crlf, content, q, h1, h2, _⟩ := scan_content_done D p fuel
    (if (p.persist_stream && p.seekable) = true then none else some []) hp hfuel
  simp only [h1]
  split
  · exact ⟨_, _, _, rfl, h2⟩
  · exact ⟨_, _, _, rfl, h2⟩

/-- The function `parser_scan_multipart_face` between two parts. -/
theorem scan_multipart_face_done (D : List Nat) (p : GMimeParser) (fuel : Nat)
    (hp : Rest D p) (hfuel : 4 * unread_measure p + 1 < fuel) :
    ∃ found face q, parser_scan_multipart_face fuel p = some (found, face, q) ∧
      PartDone D p found q := by
  unfold parser_scan_multipart_face
  obtain ⟨found, crlf, content, q, h1, h2, _⟩ := scan_content_done D p fuel (some []) hp hfuel
  simp only [h1]
  split
  · exact ⟨_, _, _, rfl, h2⟩
  · exact ⟨_, _, _, rfl, h2⟩

/-- A part constructor that returns from a later state returns from the earlier one. -/
theorem partDone_of_follows (D : List Nat) (p p2 : GMimeParser) (found : Nat)
    (q : GMimeParser) (hf : Follows p p2) (hb : p2.bounds = p.bounds)
    (h : PartDone D p2 found q) : PartDone D p found q :=
  ⟨h.1, follows_trans p p2 q hf h.2.1, h.2.2.1.trans hb, h.2.2.2.1, h.2.2.2.2⟩

/-- The parser at the start of a part constructor, after the header loop returned at
once and the header list and the raw buffer were reset, is between two parts. -/
theorem rest_of_atHeadersEnd (D : List Nat) (p : GMimeParser) (hp : AtHeadersEnd D p) :
    Rest D (raw_header_reset
      { ({ p with unstep := p.unstep - 1 } : GMimeParser) with headers := [] }) ∧
    Follows p (raw_header_reset
      { ({ p with unstep := p.unstep - 1 } : GMimeParser) with headers := [] }) := by
  obtain ⟨hw, hr, ho, hs, hu, hb⟩ := hp
  have hle := hw.2.1
  refine ⟨⟨windowInv_congr p _ hw rfl hle rfl,
    represents_congr D p _ hw hr rfl (Nat.le_refl _) hle rfl rfl, ho, ?_, rfl, hb⟩,
    ⟨Nat.le_refl _, rfl⟩⟩
  show p.unstep - 1 = 0
  rw [hu]

/-- A push on the boundary stack leaves the parser between two parts. -/
theorem rest_push (D : List Nat) (p : GMimeParser) (b : List Nat) (hp : Rest D p) :
    Rest D (parser_push_boundary p b) ∧ Follows p (parser_push_boundary p b) ∧
      (parser_push_boundary p b).bounds.tail = p.bounds ∧
      (parser_push_boundary p b).inptr = p.inptr ∧
      (parser_push_boundary p b).inend = p.inend := by
  obtain ⟨hw, hr, ho, hu, hh, hb⟩ := hp
  have hle := hw.2.1
  exact ⟨⟨windowInv_congr p _ hw rfl hle rfl,
    represents_congr D p _ hw hr rfl (Nat.le_refl _) hle rfl rfl, ho, hu, hh, hb⟩,
    ⟨Nat.le_refl _, rfl⟩, rfl, rfl, rfl⟩

/-- A pop on the boundary stack leaves the parser between two parts. -/
theorem rest_pop (D : List Nat) (p : GMimeParser) (hp : Rest D p) :
    Rest D (parser_pop_boundary p) ∧ Follows p (parser_pop_boundary p) ∧
      (parser_pop_boundary p).bounds = p.bounds.tail ∧
      (parser_pop_boundary p).inptr = p.inptr ∧
      (parser_pop_boundary p).inend = p.inend := by
  obtain ⟨hw, hr, ho, hu, hh, hb⟩ := hp
  have hle := hw.2.1
  unfold parser_pop_boundary
  cases hbd : p.bounds with
  | nil =>
    exact ⟨⟨hw, hr, ho, hu, hh, hb⟩, follows_refl p, by rw [hbd]; rfl, rfl, rfl⟩
  | cons s parent =>
    exact ⟨⟨windowInv_congr p _ hw rfl hle rfl,
      represents_congr D p _ hw hr rfl (Nat.le_refl _) hle rfl rfl, ho, hu, hh, hb⟩,
      ⟨Nat.le_refl _, rfl⟩, rfl, rfl, rfl⟩

/-- A content type that was read from a header: the header list is not empty. -/
theorem parser_content_type_some (env : Collaborators) (p : GMimeParser)
    (ct : GMimeContentType) (h : parser_content_type env p = some ct) : p.headers ≠ [] := by
  intro hn
  unfold parser_content_type at h
  rw [hn] at h
  simp [header_raw_find] at h

/-- The case INIT of `parser_step` does nothing in another state. -/
theorem step_enter_of_ne (p : GMimeParser) (h : p.state ≠ ParserState.INIT) :
    step_enter p = p := by
  unfold step_enter
  split
  · rename_i h0; exact absurd h0 h
  · rfl

/-- In state HEADERS, with no step to take back, the header loop of a constructor makes
one call of `parser_step_headers`. -/
theorem step_to_headers_end_headers (D : List Nat) (p : GMimeParser) (f : Nat)
    (hp : Rest D p) (hs : p.state = ParserState.HEADERS)
    (hfuel : stream_left p.stream + 2 ≤ f) :
    ∃ q, step_to_headers_end (f + 1) p = some q ∧
      AtHeadersEnd D (parser_unstep q) ∧ q.unstep = 0 ∧ Follows p q ∧ q.bounds = p.bounds ∧
      (q.headers ≠ [] → unread_measure q < unread_measure p) := by
  obtain ⟨q, h1, h2, h3, h4, h5, h6⟩ := step_headers_done D p f hp hfuel
  refine ⟨q, ?_, h2, h3, h4, h5, h6⟩
  rw [step_to_headers_end, parser_step_eq, if_pos hp.2.2.2.1,
    step_enter_of_ne p (by rw [hs]; decide)]
  simp only [hs, h1]
  have hq : q.state = ParserState.HEADERS_END := h2.2.2.2.1
  simp only [hq, if_true]

/-- A leaf part whose type is not a message part: the constructor returns. -/
theorem construct_leaf_part_plain (env : Collaborators) (D : List Nat) (n : Nat)
    (p : GMimeParser) (ct : GMimeContentType) (hp : AtHeadersEnd D p)
    (hm : env.is_message_part ct.type ct.subtype = false)
    (hn : 4 * unread_measure p + 3 ≤ n) :
    ∃ o found q, parser_construct_leaf_part env n p ct = some (o, found, q) ∧
      PartDone D p found q := by
  obtain ⟨g, rfl⟩ : ∃ g, n = g + 1 + 1 := ⟨n - 2, by omega⟩
  obtain ⟨r1, r2⟩ := rest_of_atHeadersEnd D p hp
  rw [parser_construct_leaf_part,
    step_to_headers_end_unstep g p (by rw [hp.2.2.2.2.1]; decide) hp.2.2.2.1]
  simp only
  have hmu := r2.1
  obtain ⟨p2, s1, s2, s3, s4, _, _, _⟩ := skip_line_done D _ (g + 1) r1
    (by unfold unread_measure at hmu hn; omega)
  rw [s1]
  simp only [hm]
  obtain ⟨c, found, q, t1, t2⟩ := scan_mime_part_content_done D p2 (g + 1) s2
    (by have := s3.1; omega)
  rw [t1]
  exact ⟨_, _, _, rfl, partDone_of_follows D p p2 found q (follows_trans _ _ _ r2 s3)
    (s4.trans rfl) t2⟩

/-- The end of `parser_construct_multipart`, after the preface and the subparts: the own
end boundary line is skipped and the postface is scanned with the frame popped, or the
frame is popped and `found` is handed up. -/
theorem construct_multipart_tail (D : List Nat) (n : Nat) (p : GMimeParser) (found : Nat)
    (ct : GMimeContentType) (headers : List (List Nat × List Nat)) (raw : List Nat)
    (preface : Option (List Nat)) (parts : List GMimeObject)
    (hp : Rest D p)
    (hf : found = FOUND_EOS ∨ found = FOUND_BOUNDARY ∨ found = FOUND_END_BOUNDARY)
    (hi : found ≠ FOUND_EOS → p.inptr < p.inend)
    (hn : 4 * unread_measure p + 1 < n) :
    ∃ o found2 q,
      (if (found = FOUND_END_BOUNDARY && found_immediate_boundary p) = true then
        match parser_skip_line n p with
        | none => none
        | some p =>
          match parser_scan_multipart_face n (parser_pop_boundary p) with
          | none => none
          | some (found, postface, p) =>
            some (GMimeObject.multipart ct headers raw preface postface parts, found, p)
      else
        some (GMimeObject.multipart ct headers raw preface none parts, found,
          parser_pop_boundary p)) = some (o, found2, q) ∧
      Rest D q ∧ Follows p q ∧ q.bounds = p.bounds.tail ∧
      (found2 = FOUND_EOS ∨ found2 = FOUND_BOUNDARY ∨ found2 = FOUND_END_BOUNDARY) ∧
      (found2 ≠ FOUND_EOS → q.inptr < q.inend) := by
  by_cases hc : (found = FOUND_END_BOUNDARY && found_immediate_boundary p) = true
  · rw [if_pos hc]
    obtain ⟨p2, s1, s2, s3, s4, _, _, _⟩ := skip_line_done D p n hp
      (by unfold unread_measure at hn; omega)
    rw [s1]
    simp only
    obtain ⟨r1, r2, r3, _, _⟩ := rest_pop D p2 s2
    obtain ⟨f2, face, q, t1, t2⟩ := scan_multipart_face_done D (parser_pop_boundary p2) n r1
      (by have := s3.1; have := r2.1; omega)
    rw [t1]
    refine ⟨_, _, _, rfl, t2.1, follows_trans _ _ _ s3 (follows_trans _ _ _ r2 t2.2.1), ?_,
      t2.2.2.2.1, t2.2.2.2.2⟩
    rw [t2.2.2.1, r3, s4]
  · rw [if_neg hc]
    obtain ⟨r1, r2, r3, r4, r5⟩ := rest_pop D p hp
    refine ⟨_, _, _, rfl, r1, r2, r3, hf, ?_⟩
    intro hne
    rw [r4, r5]
    exact hi hne

/-- With fuel above four times what is unread, the four part constructors return, with
the parser between two parts, nothing put back, and the flags and the boundary stack as
at entry. The object factory builds no message part for `text/plain`. -/
theorem construct_parts_spec (env : Collaborators) (D : List Nat)
    (henv : env.is_message_part (bytes "text") (bytes "plain") = false) (n : Nat) :
    (∀ p ct, AtHeadersEnd D p → 4 * unread_measure p + 6 ≤ n →
      ∃ o found q, parser_construct_leaf_part env n p ct = some (o, found, q) ∧
        PartDone D p found q) ∧
    (∀ p ct, AtHeadersEnd D p → 4 * unread_measure p + 4 ≤ n →
      ∃ o found q, parser_construct_multipart env n p ct = some (o, found, q) ∧
        PartDone D p found q) ∧
    (∀ p parts, Rest D p → p.inptr < p.inend → 4 * unread_measure p + 3 ≤ n →
      ∃ ps found q, parser_scan_multipart_subparts env n p parts = some (ps, found, q) ∧
        PartDone D p found q) ∧
    (∀ p, Rest D p → 4 * unread_measure p + 5 ≤ n →
      ∃ m found q, parser_scan_message_part env n p = some (m, found, q) ∧
        PartDone D p found q) := by
  induction n with
  | zero =>
    refine ⟨fun p ct _ h => ?_, fun p ct _ h => ?_, fun p ps _ _ h => ?_, fun p _ h => ?_⟩ <;>
      omega
  | succ n ih =>
    obtain ⟨ihL, ihM, ihS, ihG⟩ := ih
    have htp : g_mime_content_type_is_type text_plain (bytes "multipart") (bytes "*") =
        false := by decide
    refine ⟨?_, ?_, ?_, ?_⟩
    · -- the leaf constructor
      intro p ct hp hn
      obtain ⟨g, rfl⟩ : ∃ g, n = g + 1 := ⟨n - 1, by omega⟩
      obtain ⟨r1, r2⟩ := rest_of_atHeadersEnd D p hp
      rw [parser_construct_leaf_part,
        step_to_headers_end_unstep g p (by rw [hp.2.2.2.2.1]; decide) hp.2.2.2.1]
      simp only
      have hmu := r2.1
      obtain ⟨p2, s1, s2, s3, s4, _, _, _⟩ := skip_line_done D _ (g + 1) r1
        (by unfold unread_measure at hmu hn; omega)
      rw [s1]
      simp only
      have hf2 := follows_trans _ _ _ r2 s3
      by_cases hm : env.is_message_part ct.type ct.subtype = true
      · simp only [hm, if_true]
        obtain ⟨m, found, q, t1, t2⟩ := ihG p2 s2 (by have := hf2.1; omega)
        rw [t1]
        exact ⟨_, _, _, rfl, partDone_of_follows D p p2 found q hf2 (s4.trans rfl) t2⟩
      · simp only [hm]
        obtain ⟨c, found, q, t1, t2⟩ := scan_mime_part_content_done D p2 (g + 1) s2
          (by have := hf2.1; omega)
        rw [t1]
        exact ⟨_, _, _, rfl, partDone_of_follows D p p2 found q hf2 (s4.trans rfl) t2⟩
    · -- the multipart constructor
      intro p ct hp hn
      obtain ⟨g, rfl⟩ : ∃ g, n = g + 1 := ⟨n - 1, by omega⟩
      obtain ⟨r1, r2⟩ := rest_of_atHeadersEnd D p hp
      rw [parser_construct_multipart,
        step_to_headers_end_unstep g p (by rw [hp.2.2.2.2.1]; decide) hp.2.2.2.1]
      simp only
      have hmu := r2.1
      obtain ⟨p2, s1, s2, s3, s4, _, _, _⟩ := skip_line_done D _ (g + 1) r1
        (by unfold unread_measure at hmu hn; omega)
      rw [s1]
      simp only
      have hf2 := follows_trans _ _ _ r2 s3
      have hb2 : p2.bounds = p.bounds := s4.trans rfl
      cases hbd : g_mime_content_type_get_parameter ct (bytes "boundary") with
      | none =>
        simp only
        obtain ⟨found, face, q, t1, t2⟩ := scan_multipart_face_done D p2 (g + 1) s2
          (by have := hf2.1; omega)
        rw [t1]
        exact ⟨_, _, _, rfl, partDone_of_follows D p p2 found q hf2 hb2 t2⟩
      | some B =>
        simp only
        obtain ⟨u1, u2, u3, _, _⟩ := rest_push D p2 B s2
        obtain ⟨found, preface, p4, t1, t2⟩ :=
          scan_multipart_face_done D (parser_push_boundary p2 B) (g + 1) u1
            (by have := hf2.1; have := u2.1; omega)
        rw [t1]
        simp only
        have hf4 := follows_trans _ _ _ hf2 (follows_trans _ _ _ u2 t2.2.1)
        have hb4 : p4.bounds.tail = p.bounds := by rw [t2.2.2.1, u3, hb2]
        by_cases hfb : found = FOUND_BOUNDARY
        · simp only [hfb, if_true]
          obtain ⟨parts, found5, p5, v1, v2⟩ := ihS p4 [] t2.1
            (t2.2.2.2.2 (by rw [hfb]; decide)) (by have := hf4.1; omega)
          rw [v1]
          simp only
          obtain ⟨o, f6, q, w1, w2, w3, w4, w5, w6⟩ := construct_multipart_tail D (g + 1) p5
            found5 ct (add_headers p.headers) (cstr p.rawbuf) preface parts v2.1 v2.2.2.2.1
            v2.2.2.2.2 (by have := hf4.1; have := v2.2.1.1; omega)
          refine ⟨o, f6, q, w1, w2, follows_trans _ _ _ hf4 (follows_trans _ _ _ v2.2.1 w3),
            ?_, w5, w6⟩
          rw [w4, v2.2.2.1, hb4]
        · simp only [hfb, if_false]
          obtain ⟨o, f6, q, w1, w2, w3, w4, w5, w6⟩ := construct_multipart_tail D (g + 1) p4
            found ct (add_headers p.headers) (cstr p.rawbuf) preface [] t2.1 t2.2.2.2.1
            t2.2.2.2.2 (by have := hf4.1; omega)
          refine ⟨o, f6, q, w1, w2, follows_trans _ _ _ hf4 w3, ?_, w5, w6⟩
          rw [w4, hb4]
    · -- the subparts loop
      intro p parts hp hlt hn
      rw [parser_scan_multipart_subparts]
      obtain ⟨q1, s1, s2, s3, s4, _, _, s7⟩ := skip_line_done D p n hp
        (by unfold unread_measure at hn; omega)
      have hlt1 := s7 hlt
      rw [s1]
      simp only
      obtain ⟨q2, h1, h2, h3, h4, h5, _⟩ := step_headers_done D q1 n s2
        (by unfold unread_measure at hn hlt1; omega)
      rw [h1]
      simp only
      have hf3 : Follows p (parser_unstep q2) :=
        follows_trans _ _ _ s3 (follows_trans _ _ _ h4 ⟨Nat.le_refl _, rfl⟩)
      have hb3 : (parser_unstep q2).bounds = p.bounds := h5.trans s4
      have hmu3 : unread_measure (parser_unstep q2) < unread_measure p :=
        Nat.lt_of_le_of_lt h4.1 hlt1
      by_cases hmp : g_mime_content_type_is_type ((parser_content_type env q2).getD text_plain)
          (bytes "multipart") (bytes "*") = true
      · simp only [hmp, if_true]
        obtain ⟨sub, found, q4, t1, t2⟩ := ihM (parser_unstep q2)
          ((parser_content_type env q2).getD text_plain) h2 (by omega)
        rw [t1]
        simp only
        have t3 := partDone_of_follows D p _ found q4 hf3 hb3 t2
        by_cases hfb : found = FOUND_BOUNDARY
        · simp only [hfb, if_true]
          obtain ⟨ps, f5, q5, v1, v2⟩ := ihS q4 (parts ++ [sub]) t2.1
            (t2.2.2.2.2 (by rw [hfb]; decide)) (by have := t2.2.1.1; omega)
          exact ⟨ps, f5, q5, v1, partDone_of_follows D p q4 f5 q5 t3.2.1 t3.2.2.1 v2⟩
        · simp only [hfb, if_false]
          exact ⟨_, _, _, rfl, t3⟩
      · simp only [hmp]
        obtain ⟨sub, found, q4, t1, t2⟩ := ihL (parser_unstep q2)
          ((parser_content_type env q2).getD text_plain) h2 (by omega)
        rw [t1]
        simp only
        have t3 := partDone_of_follows D p _ found q4 hf3 hb3 t2
        by_cases hfb : found = FOUND_BOUNDARY
        · simp only [hfb, if_true]
          obtain ⟨ps, f5, q5, v1, v2⟩ := ihS q4 (parts ++ [sub]) t2.1
            (t2.2.2.2.2 (by rw [hfb]; decide)) (by have := t2.2.1.1; omega)
          exact ⟨ps, f5, q5, v1, partDone_of_follows D p q4 f5 q5 t3.2.1 t3.2.2.1 v2⟩
        · simp only [hfb, if_false]
          exact ⟨_, _, _, rfl, t3⟩
    · -- the nested message
      intro p hp hn
      obtain ⟨g, rfl⟩ : ∃ g, n = g + 1 := ⟨n - 1, by omega⟩
      have hp' : Rest D { p with state := ParserState.HEADERS } := by
        obtain ⟨hw, hr, ho, hu, hh, hb⟩ := hp
        have hle := hw.2.1
        exact ⟨windowInv_congr p _ hw rfl hle rfl,
          represents_congr D p _ hw hr rfl (Nat.le_refl _) hle rfl rfl, ho, hu, hh, hb⟩
      obtain ⟨q, h1, h2, h3, h4, h5, h6⟩ := step_to_headers_end_headers D
        { p with state := ParserState.HEADERS } g hp' rfl
        (by show stream_left p.stream + 2 ≤ g
            unfold unread_measure at hn; omega)
      rw [parser_scan_message_part, h1]
      simp only
      have hf1 : Follows p (parser_unstep q) :=
        follows_trans _ _ _ (⟨Nat.le_refl _, rfl⟩ : Follows p { p with state := ParserState.HEADERS })
          (follows_trans _ _ _ h4 ⟨Nat.le_refl _, rfl⟩)
      have hb1 : (parser_unstep q).bounds = p.bounds := h5
      have hmu1 : unread_measure (parser_unstep q) ≤ unread_measure p := hf1.1
      cases hct : parser_content_type env q with
      | none =>
        simp only [Option.getD_none, htp]
        obtain ⟨o, found, q2, t1, t2⟩ := construct_leaf_part_plain env D (g + 1)
          (parser_unstep q) text_plain h2 henv (by omega)
        rw [t1]
        exact ⟨_, _, _, rfl, partDone_of_follows D p _ found q2 hf1 hb1 t2⟩
      | some ct =>
        have hlt : unread_measure q < unread_measure p :=
          h6 (parser_content_type_some env q ct hct)
        have hlt1 : unread_measure (parser_unstep q) < unread_measure p := hlt
        simp only [Option.getD_some]
        by_cases hmp : g_mime_content_type_is_type ct (bytes "multipart") (bytes "*") = true
        · simp only [hmp, if_true]
          obtain ⟨o, found, q2, t1, t2⟩ := ihM (parser_unstep q) ct h2 (by omega)
          rw [t1]
          exact ⟨_, _, _, rfl, partDone_of_follows D p _ found q2 hf1 hb1 t2⟩
        · simp only [hmp]
          obtain ⟨o, found, q2, t1, t2⟩ := ihL (parser_unstep q) ct h2 (by omega)
          rw [t1]
          exact ⟨_, _, _, rfl, partDone_of_follows D p _ found q2 hf1 hb1 t2⟩

/-! ## The public constructors -/

/-- More fuel does not change what the refill loop of `parser_step_from` returns. -/
theorem step_from_loop_mono (f k : Nat) :
    ∀ (p : GMimeParser) (left : Nat) (r : Int × GMimeParser),
      step_from_loop f p left = some r → step_from_loop (f + k) p left = some r := by
  induction f with
  | zero => intro p left r h; simp [step_from_loop] at h
  | succ f ih =>
    intro p left r h
    have e : f + 1 + k = (f + k) + 1 := by omega
    rw [e, step_from_loop_succ]
    rw [step_from_loop_succ] at h
    by_cases hc : (parser_fill p).1 ≤ left
    · rw [if_pos hc] at h ⊢
      exact h
    · rw [if_neg hc] at h ⊢
      cases hl : step_from_lines ((fill_sentinel p).inend - (fill_sentinel p).inptr + 1)
          (fill_sentinel p) (fill_sentinel p).inptr with
      | none => rw [hl] at h; exact absurd h (by simp)
      | some s =>
        rw [hl] at h
        cases s with
        | got_from q j => exact h
        | refill q l => exact ih _ _ _ h
        | done q j => exact ih _ _ _ h

/-- More fuel does not change what `parser_step_from` returns. -/
theorem parser_step_from_mono (f k : Nat) (p : GMimeParser) (r : Int × GMimeParser)
    (h : parser_step_from f p = some r) : parser_step_from (f + k) p = some r :=
  step_from_loop_mono f k _ _ _ h

/-- The function `parser_step_from` between two parts: it returns, with 0 in state HEADERS
or with -1 in state ERROR, and nothing is put back. -/
theorem step_from_done (D : List Nat) (p : GMimeParser) (fuel : Nat) (hp : Rest D p)
    (hfuel : stream_left p.stream + 1 < fuel) :
    ∃ rc q, parser_step_from fuel p = some (rc, q) ∧
      FromDone D (abs_offset p p.inptr) [] p rc q ∧
      ((rc = 0 ∧ q.state = ParserState.HEADERS) ∨ (rc = -1 ∧ q.state = ParserState.ERROR)) ∧
      Rest D q ∧ Follows p q ∧ q.bounds = p.bounds := by
  obtain ⟨hw, hr, ho, hu, hh, hb⟩ := hp
  obtain ⟨rc, q, h1, h2⟩ := parser_step_from_spec D p fuel hw hr ho hfuel
  obtain ⟨k1, k2⟩ := parser_step_from_kept fuel p rc q h1
  have hf : step_fields q = step_fields p := k1.1
  unfold step_fields at hf
  simp only [Prod.mk.injEq] at hf
  obtain ⟨f1, f2, f3, f4, f5, f6⟩ := hf
  unfold header_fields at k2
  simp only [Prod.mk.injEq] at k2
  obtain ⟨e1, _, _, _, _, _, _, e8⟩ := k2
  have h2' := h2
  obtain ⟨g1, g2, g3, _, g5⟩ := h2
  have ha : abs_offset p p.inptr ≤ abs_offset q q.inptr := by
    rcases g5 with ⟨_, _, s, e, c1, _, _, _, c5, _⟩ | ⟨_, _, c3, _, start, c5, c6, _⟩
    · have := c1.1
      have := c1.2.2.2.1
      omega
    · rw [c3]
      omega
  have hm := unread_measure_le D p q hr g2 g1.2.1 k1.2 ha
  refine ⟨rc, q, h1, h2', ?_, ⟨g1, g2, g3, by rw [f1, hu], by rw [e8, hh], by rw [e1, hb]⟩,
    ⟨hm.1, ?_⟩, f6⟩
  · rcases g5 with ⟨c1, c2, _⟩ | ⟨c1, c2, _⟩
    · exact Or.inl ⟨c1, c2⟩
    · exact Or.inr ⟨c1, c2⟩
  · unfold flag_fields
    rw [f2, f3, f4, f5]

/-- The case INIT of `parser_step` in state INIT. -/
theorem step_enter_init (p : GMimeParser) (h : p.state = ParserState.INIT) :
    step_enter p =
      { p with state := (if p.scan_from then ParserState.FROM else ParserState.HEADERS) } := by
  unfold step_enter
  split
  · rfl
  · rename_i h0
    exact absurd h (h0 · )

/-- A parser between two parts stays so when its state changes. -/
theorem rest_with_state (D : List Nat) (p : GMimeParser) (st : ParserState) (hp : Rest D p) :
    Rest D { p with state := st } := by
  obtain ⟨hw, hr, ho, hu, hh, hb⟩ := hp
  have hle := hw.2.1
  exact ⟨windowInv_congr p _ hw rfl hle rfl,
    represents_congr D p _ hw hr rfl (Nat.le_refl _) hle rfl rfl, ho, hu, hh, hb⟩

/-- With scan_from off, the header loop of `parser_construct_part` on a fresh parser
makes one call of `parser_step_headers`. -/
theorem step_to_headers_end_init (D : List Nat) (p : GMimeParser) (f : Nat)
    (hp : Rest D p) (hs : p.state = ParserState.INIT) (hsf : p.scan_from = false)
    (hfuel : stream_left p.stream + 2 ≤ f) :
    ∃ q, step_to_headers_end (f + 1) p = some q ∧
      step_to_headers_end_or_error (f + 1) p = some (ParserState.HEADERS_END, q) ∧
      AtHeadersEnd D (parser_unstep q) ∧ q.unstep = 0 ∧ Follows p q ∧ q.bounds = p.bounds := by
  have he : step_enter p = { p with state := ParserState.HEADERS } := by
    rw [step_enter_init p hs, hsf]
    rfl
  obtain ⟨q, h1, h2, h3, h4, h5, _⟩ := step_headers_done D { p with state := ParserState.HEADERS }
    f (rest_with_state D p _ hp) hfuel
  have hq : q.state = ParserState.HEADERS_END := h2.2.2.2.1
  have hstep : parser_step f p = some (ParserState.HEADERS_END, q) := by
    rw [parser_step_eq, if_pos hp.2.2.2.1, he]
    simp only [h1, hq]
  refine ⟨q, ?_, ?_, h2, h3, ⟨h4.1, h4.2⟩, h5⟩
  · rw [step_to_headers_end, hstep]
    simp only [if_true]
  · rw [step_to_headers_end_or_error, hstep]
    simp only [or_true, if_true]

/-- With scan_from off and fuel above four times what is unread, `parser_construct_part`
on a fresh parser returns an object. The object factory builds no message part for
`text/plain`. -/
theorem construct_part_spec (env : Collaborators) (D : List Nat)
    (henv : env.is_message_part (bytes "text") (bytes "plain") = false)
    (p : GMimeParser) (fuel : Nat) (hp : Rest D p) (hs : p.state = ParserState.INIT)
    (hsf : p.scan_from = false) (hfuel : 4 * unread_measure p + 6 ≤ fuel) :
    ∃ o q, parser_construct_part env fuel p = some (o, q) ∧ Rest D q ∧ Follows p q ∧
      q.bounds = p.bounds := by
  obtain ⟨f, rfl⟩ : ∃ f, fuel = f + 1 := ⟨fuel - 1, by omega⟩
  obtain ⟨q, h1, _, h2, h3, h4, h5⟩ := step_to_headers_end_init D p f hp hs hsf
    (by unfold unread_measure at hfuel; omega)
  obtain ⟨cL, cM, _, _⟩ := construct_parts_spec env D henv (f + 1)
  have hmu : unread_measure (parser_unstep q) ≤ unread_measure p := h4.1
  have hf1 : Follows p (parser_unstep q) := ⟨h4.1, h4.2⟩
  have hb1 : (parser_unstep q).bounds = p.bounds := h5
  unfold parser_construct_part
  rw [h1]
  simp only
  by_cases hmp : g_mime_content_type_is_type ((parser_content_type env q).getD text_plain)
      (bytes "multipart") (bytes "*") = true
  · simp only [hmp, if_true]
    obtain ⟨o, found, q2, t1, t2⟩ := cM (parser_unstep q) _ h2 (by omega)
    rw [t1]
    have t3 := partDone_of_follows D p _ found q2 hf1 hb1 t2
    exact ⟨_, _, rfl, t3.1, t3.2.1, t3.2.2.1⟩
  · simp only [hmp]
    obtain ⟨o, found, q2, t1, t2⟩ := cL (parser_unstep q) _ h2 (by omega)
    rw [t1]
    have t3 := partDone_of_follows D p _ found q2 hf1 hb1 t2
    exact ⟨_, _, rfl, t3.1, t3.2.1, t3.2.2.1⟩

/-- In state ERROR the header loop of `parser_construct_part` never ends: it returns for
no amount of fuel. -/
theorem step_to_headers_end_error (f : Nat) :
    ∀ p : GMimeParser, p.state = ParserState.ERROR → p.unstep = 0 →
      step_to_headers_end f p = none := by
  induction f with
  | zero => intro p _ _; rfl
  | succ f ih =>
    intro p hs hu
    rw [step_to_headers_end, parser_step_eq, if_pos hu,
      step_enter_of_ne p (by rw [hs]; decide)]
    simp only [hs]
    exact ih p hs hu

/-- With scan_from on, on a stream in which no line begins with `From `,
`parser_construct_part` on a fresh parser returns for no amount of fuel: the loop that
steps to HEADERS_END spins in state ERROR. -/
theorem construct_part_no_from_line (env : Collaborators) (D : List Nat) (p : GMimeParser)
    (hp : Rest D p) (hs : p.state = ParserState.INIT) (hsf : p.scan_from = true)
    (hno : ∀ s, abs_offset p p.inptr ≤ s → LineStart D (abs_offset p p.inptr) s →
      slice D s 5 ≠ bytes "From ") (fuel : Nat) :
    parser_construct_part env fuel p = none := by
  have he : step_enter p = { p with state := ParserState.FROM } := by
    rw [step_enter_init p hs, hsf]
    rfl
  have key : step_to_headers_end fuel p = none := by
    cases fuel with
    | zero => rfl
    | succ f =>
      rw [step_to_headers_end, parser_step_eq, if_pos hp.2.2.2.1, he]
      simp only
      cases hr : parser_step_from f { p with state := ParserState.FROM } with
      | none => rfl
      | some r =>
        simp only
        have hm := parser_step_from_mono f (stream_left p.stream + 2) _ r hr
        obtain ⟨rc, q, h1, h2, h3, h4, _⟩ := step_from_done D
          { p with state := ParserState.FROM } (f + (stream_left p.stream + 2))
          (rest_with_state D p _ hp)
          (by show stream_left p.stream + 1 < f + (stream_left p.stream + 2); omega)
        rw [hm] at h1
        have hrq : r = (rc, q) := Option.some.inj h1
        have hq : q.state = ParserState.ERROR := by
          rcases h2.2.2.2.2 with ⟨_, _, s, e, c1, _⟩ | ⟨_, c, _⟩
          · exact absurd c1.2.2.1 (hno s c1.1 c1.2.1)
          · exact c
        rw [hrq]
        simp only [hq]
        exact step_to_headers_end_error f q hq h4.2.2.2.1
  unfold parser_construct_part
  rw [key]

/-- The function `parser_construct_message` written with `construct_message_body`. -/
theorem parser_construct_message_eq (env : Collaborators) (fuel : Nat) (p : GMimeParser) :
    parser_construct_message env fuel p =
      match step_to_headers_end_or_error fuel p with
      | none => none
      | some (state, p) =>
        if state = ParserState.ERROR then some (none, p)
        else construct_message_body env fuel p := rfl

/-- The statements that push the mbox frame change the boundary stack only. -/
theorem message_frame_eq (p : GMimeParser) (cl : Int) :
    message_frame p cl = { p with bounds := (message_frame p cl).bounds } ∧
    (p.scan_from = true → (message_frame p cl).bounds.tail = p.bounds) ∧
    (p.scan_from = false → (message_frame p cl).bounds = p.bounds) := by
  unfold message_frame parser_push_boundary
  cases hsf : p.scan_from <;> cases hr : p.respect_content_length <;>
    by_cases hc : cl = -1 <;> simp [hsf, hr, hc] <;> (cases p; simp_all)

/-- After the header loop, with fuel above four times what is unread,
`parser_construct_message` returns a message, with the boundary stack as at entry. -/
theorem construct_message_body_spec (env : Collaborators) (D : List Nat)
    (henv : env.is_message_part (bytes "text") (bytes "plain") = false)
    (q : GMimeParser) (fuel : Nat) (hq : AtHeadersEnd D (parser_unstep q))
    (hfuel : 4 * unread_measure q + 6 ≤ fuel) :
    ∃ m q2, construct_message_body env fuel q = some (some m, q2) ∧ Rest D q2 ∧
      Follows q q2 ∧ q2.bounds = q.bounds ∧
      (q.scan_from = true → q2.state = ParserState.FROM) := by
  obtain ⟨cL, cM, _, _⟩ := construct_parts_spec env D henv fuel
  unfold construct_message_body
  simp only
  generalize message_content_length q.respect_content_length q.headers (-1) = cl
  obtain ⟨e1, e2, e3⟩ := message_frame_eq q cl
  generalize message_frame q cl = q0 at e1 e2 e3 ⊢
  obtain ⟨hw, hr, ho, hs, hu, hb⟩ := hq
  have hle := hw.2.1
  have hq0 : AtHeadersEnd D (parser_unstep q0) := by
    rw [e1]
    exact ⟨windowInv_congr _ _ hw rfl hle rfl,
      represents_congr D _ _ hw hr rfl (Nat.le_refl _) hle rfl rfl, ho, hs, hu, hb⟩
  have hf0 : Follows q (parser_unstep q0) := by
    rw [e1]
    exact ⟨Nat.le_refl _, rfl⟩
  have hsf0 : (parser_unstep q0).scan_from = q.scan_from := by
    rw [e1]
    rfl
  have hmu : unread_measure (parser_unstep q0) ≤ unread_measure q := hf0.1
  have hfin : ∀ (o : GMimeObject) (found : Nat) (q4 : GMimeParser),
      PartDone D (parser_unstep q0) found q4 →
      ∃ m q2, (some (some ({ headers := add_headers q.headers, mime_part := o } : GMimeMessage),
          if q4.scan_from = true then
            parser_pop_boundary { q4 with state := ParserState.FROM } else q4) :
          Option (Option GMimeMessage × GMimeParser)) = some (some m, q2) ∧ Rest D q2 ∧
        Follows q q2 ∧ q2.bounds = q.bounds ∧
        (q.scan_from = true → q2.state = ParserState.FROM) := by
    intro o found q4 t2
    have hsf4 : q4.scan_from = q.scan_from := by
      have h := t2.2.1.2
      unfold flag_fields at h
      simp only [Prod.mk.injEq] at h
      rw [h.2.1, hsf0]
    have hb4 : q4.bounds = q0.bounds := t2.2.2.1
    have hf4 : Follows q q4 := follows_trans _ _ _ hf0 t2.2.1
    by_cases hsf : q.scan_from = true
    · rw [if_pos (hsf4.trans hsf)]
      obtain ⟨r1, r2, r3, _, _⟩ := rest_pop D { q4 with state := ParserState.FROM }
        (rest_with_state D q4 _ t2.1)
      refine ⟨_, _, rfl, r1, follows_trans _ _ _ hf4
        (follows_trans _ _ _ (⟨Nat.le_refl _, rfl⟩ : Follows q4 { q4 with state := ParserState.FROM }) r2),
        ?_, fun _ => ?_⟩
      · rw [r3]
        show q4.bounds.tail = q.bounds
        rw [hb4, e2 hsf]
      · unfold parser_pop_boundary
        split <;> rfl
    · rw [if_neg (by rw [hsf4]; exact hsf)]
      refine ⟨_, _, rfl, t2.1, hf4, ?_, fun h => absurd h hsf⟩
      rw [hb4, e3 (by simpa using hsf)]
  by_cases hmp : g_mime_content_type_is_type ((parser_content_type env q0).getD text_plain)
      (bytes "multipart") (bytes "*") = true
  · simp only [hmp, if_true]
    obtain ⟨o, found, q4, t1, t2⟩ := cM (parser_unstep q0) _ hq0 (by omega)
    rw [t1]
    exact hfin o found q4 t2
  · simp only [hmp]
    obtain ⟨o, found, q4, t1, t2⟩ := cL (parser_unstep q0) _ hq0 (by omega)
    rw [t1]
    exact hfin o found q4 t2

/-- With fuel above four times what is unread, `parser_construct_message` on a fresh
parser returns; it returns NULL exactly when scan_from is on and `parser_step_from`
fails, and then the state is ERROR; otherwise it returns a message, with the boundary
stack as at entry. The object factory builds no message part for `text/plain`. -/
theorem construct_message_spec (env : Collaborators) (D : List Nat)
    (henv : env.is_message_part (bytes "text") (bytes "plain") = false)
    (p : GMimeParser) (fuel : Nat) (hp : Rest D p) (hs : p.state = ParserState.INIT)
    (hfuel : 4 * unread_measure p + 8 ≤ fuel) :
    ∃ r q, parser_construct_message env fuel p = some (r, q) ∧
      (r = none ↔ (p.scan_from = true ∧
        ∃ q', parser_step_from fuel { p with state := ParserState.FROM } = some (-1, q'))) ∧
      Rest D q ∧ Follows p q ∧ q.bounds = p.bounds ∧
      (r = none → q.state = ParserState.ERROR) ∧
      (r ≠ none → p.scan_from = true → q.state = ParserState.FROM) := by
  obtain ⟨n, rfl⟩ : ∃ n, fuel = n + 1 := ⟨fuel - 1, by omega⟩
  rw [parser_construct_message_eq]
  by_cases hsf : p.scan_from = true
  · have he : step_enter p = { p with state := ParserState.FROM } := by
      rw [step_enter_init p hs, hsf]
      rfl
    obtain ⟨rc, q1, h1, _, h3, h4, h5, h6⟩ := step_from_done D
      { p with state := ParserState.FROM } n (rest_with_state D p _ hp)
      (by show stream_left p.stream + 1 < n
          unfold unread_measure at hfuel; omega)
    have hmono := parser_step_from_mono n 1 _ _ h1
    have hstep : parser_step n p = some (q1.state, q1) := by
      rw [parser_step_eq, if_pos hp.2.2.2.1, he]
      simp only [h1]
    have hf1 : Follows p q1 := ⟨h5.1, h5.2⟩
    have hb1 : q1.bounds = p.bounds := h6
    rw [step_to_headers_end_or_error, hstep]
    simp only
    rcases h3 with ⟨c1, c2⟩ | ⟨c1, c2⟩
    · -- the From-line was found
      have hmu1 : unread_measure q1 ≤ unread_measure p := hf1.1
      obtain ⟨m, rfl⟩ : ∃ m, n = m + 1 := ⟨n - 1, by omega⟩
      obtain ⟨q2, g1, g2, g3, g4, g5, _⟩ := step_headers_done D q1 m h4
        (by unfold unread_measure at hfuel hmu1; omega)
      have hq2 : q2.state = ParserState.HEADERS_END := g2.2.2.2.1
      have hstep2 : parser_step m q1 = some (ParserState.HEADERS_END, q2) := by
        rw [parser_step_eq, if_pos h4.2.2.2.1, step_enter_of_ne q1 (by rw [c2]; decide)]
        simp only [c2, g1, hq2]
      have hne : ¬ (q1.state = ParserState.ERROR ∨ q1.state = ParserState.HEADERS_END) := by
        rw [c2]; decide
      rw [if_neg hne, step_to_headers_end_or_error, hstep2]
      simp only [or_true, if_true]
      rw [if_neg (by decide)]
      obtain ⟨msg, q3, t1, t2, t3, t4, t5⟩ := construct_message_body_spec env D henv q2
        (m + 1 + 1) g2 (by have := g4.1; omega)
      rw [t1]
      have hsf2 : q2.scan_from = true := by
        have h := (follows_trans _ _ _ hf1 g4).2
        unfold flag_fields at h
        simp only [Prod.mk.injEq] at h
        rw [h.2.1, hsf]
      refine ⟨_, _, rfl, ?_, t2, follows_trans _ _ _ hf1 (follows_trans _ _ _ g4 t3),
        by rw [t4, g5, hb1], fun h => absurd h (by simp), fun _ _ => t5 hsf2⟩
      constructor
      · intro h; exact absurd h (by simp)
      · rintro ⟨_, q', hq'⟩
        rw [hmono, c1] at hq'
        simp only [Option.some.injEq, Prod.mk.injEq] at hq'
        exact absurd hq'.1 (by decide)
    · -- the From-line scan failed
      have hor : q1.state = ParserState.ERROR ∨ q1.state = ParserState.HEADERS_END :=
        Or.inl c2
      rw [if_pos hor]
      simp only [c2, if_true]
      refine ⟨_, _, rfl, ?_, h4, hf1, hb1, fun _ => c2, fun h => absurd rfl h⟩
      constructor
      · intro _
        exact ⟨hsf, q1, by rw [hmono, c1]⟩
      · intro _; rfl
  · have hsf' : p.scan_from = false := by simpa using hsf
    obtain ⟨q, _, h2, h3, h4, h5, h6⟩ := step_to_headers_end_init D p n hp hs hsf'
      (by unfold unread_measure at hfuel; omega)
    rw [h2]
    simp only
    rw [if_neg (by decide)]
    obtain ⟨msg, q3, t1, t2, t3, t4, _⟩ := construct_message_body_spec env D henv q (n + 1) h3
      (by have := h5.1; omega)
    rw [t1]
    refine ⟨_, _, rfl, ?_, t2, follows_trans _ _ _ h5 t3, by rw [t4, h6],
      fun h => absurd h (by simp), fun _ h => absurd h hsf⟩
    constructor
    · intro h; exact absurd h (by simp)
    · rintro ⟨h, _⟩; exact absurd h hsf

/-! ### The function `crlf2lf` and its specification -/

/-- A first byte that is not a CR is kept. -/
theorem without_crlf_cr_cons_ne (c : Nat) (t : List Nat) (h : c ≠ 13) :
    without_crlf_cr (c :: t) = c :: without_crlf_cr t := by
  cases t with
  | nil => rfl
  | cons d rest => rw [without_crlf_cr, if_neg (fun hc => h hc.1)]

/-- The copy loop of `crlf2lf` leaves out the CR of every CR LF pair and keeps every
other byte. -/
theorem crlf2lf_copy_eq_spec (s : List Nat) : crlf2lf_copy s = without_crlf_cr s := by
  induction s using crlf2lf_copy.induct with
  | case1 => rfl
  | case2 c => rfl
  | case3 c d rest hc ih =>
    obtain ⟨rfl, rfl⟩ := hc
    rw [crlf2lf_copy, if_pos ⟨rfl, rfl⟩, without_crlf_cr, if_pos ⟨rfl, rfl⟩,
      without_crlf_cr_cons_ne 10 rest (by decide), ih]
  | case4 c d rest hc ih =>
    rw [crlf2lf_copy, if_neg hc, without_crlf_cr, if_neg hc, ih]

/-- Each CR LF pair makes the output one byte shorter. -/
theorem without_crlf_cr_length (s : List Nat) :
    (without_crlf_cr s).length + count_crlf s = s.length := by
  induction s using without_crlf_cr.induct with
  | case1 => rfl
  | case2 c => rfl
  | case3 c d rest hc ih =>
    rw [without_crlf_cr, if_pos hc, count_crlf, if_pos hc]
    simp only [List.length_cons] at ih ⊢
    omega
  | case4 c d rest hc ih =>
    rw [without_crlf_cr, if_neg hc, count_crlf, if_neg hc]
    simp only [List.length_cons] at ih ⊢
    omega

/-- A string without CR LF pair is left as it is. -/
theorem without_crlf_cr_id (s : List Nat) (h : has_crlf s = false) :
    without_crlf_cr s = s := by
  induction s using without_crlf_cr.induct with
  | case1 => rfl
  | case2 c => rfl
  | case3 c d rest hc ih =>
    obtain ⟨rfl, rfl⟩ := hc
    simp [has_crlf] at h
  | case4 c d rest hc ih =>
    rw [without_crlf_cr, if_neg hc]
    rw [has_crlf_cons] at h
    simp only [Bool.or_eq_false_iff] at h
    rw [ih h.2]

/-! ### Steps on the i/o array -/

/-- The steps of the scanning loops keep the window invariant. -/
theorem windowInv_run (ops : List WindowOp) :
    ∀ p : GMimeParser, WindowInv p → WindowInv (run_window_ops ops p) := by
  induction ops with
  | nil => intro p h; exact h
  | cons op ops ih =>
    intro p h
    cases op with
    | fill => exact ih _ (parser_fill_spec p h).1
    | sentinel =>
      apply ih
      obtain ⟨h1, h2, h3, h4⟩ := h
      exact ⟨by show (p.realbuf.set p.inend 10).length = _; rw [List.length_set]; exact h1,
        h2, h3, h4⟩
    | advance i =>
      apply ih
      by_cases hc : p.inptr ≤ i ∧ i ≤ p.inend
      · rw [if_pos hc]
        obtain ⟨h1, h2, h3, h4⟩ := h
        exact ⟨h1, hc.2, h3, h4⟩
      · rw [if_neg hc]
        exact h

/-- A fresh parser satisfies the window invariant. -/
theorem windowInv_new (stream : GMimeStream) :
    WindowInv (g_mime_parser_new_with_stream stream) := by
  have h1 : (g_mime_parser_new_with_stream stream).inptr = SCAN_HEAD := rfl
  have h2 : (g_mime_parser_new_with_stream stream).inend = SCAN_HEAD := rfl
  have h4 : (g_mime_parser_new_with_stream stream).realbuf =
      List.replicate (SCAN_HEAD + SCAN_BUF + 1) 0 := rfl
  unfold WindowInv
  rw [h1, h2, h4, List.length_replicate]
  unfold SCAN_HEAD SCAN_BUF
  omega

/-- The window after `parser_fill` is the window before it followed by what the read
delivers, and the stream is the one the read leaves. -/
theorem parser_fill_read (p : GMimeParser) (h : WindowInv p) :
    window (parser_fill p).2 = window p ++
      (g_mime_stream_read p.stream (SCAN_HEAD + SCAN_BUF - 1 - (parser_fill_shift p).2.2)).1 ∧
    (parser_fill p).2.stream =
      (g_mime_stream_read p.stream (SCAN_HEAD + SCAN_BUF - 1 - (parser_fill_shift p).2.2)).2 ∧
    (parser_fill p).2.inend - (parser_fill p).2.inptr = (p.inend - p.inptr) +
      (g_mime_stream_read p.stream
        (SCAN_HEAD + SCAN_BUF - 1 - (parser_fill_shift p).2.2)).1.length := by
  obtain ⟨m1, m2, m3, m4, m5, m6⟩ := parser_fill_shift_spec p h
  obtain ⟨r1, r2, r3, r4⟩ := stream_read_spec p.stream
    (SCAN_HEAD + SCAN_BUF - 1 - (parser_fill_shift p).2.2)
  unfold parser_fill
  simp only
  generalize hrd : g_mime_stream_read p.stream
    (SCAN_HEAD + SCAN_BUF - 1 - (parser_fill_shift p).2.2) = rd at r1 r2 r3 r4
  generalize hmv : parser_fill_shift p = mv at m1 m2 m3 m4 m5 m6 r1 hrd
  have hsz : mv.2.2 + rd.1.length ≤ mv.1.length := by
    simp only [SCAN_HEAD, SCAN_BUF] at *; omega
  refine ⟨?_, trivial, ?_⟩
  · show slice (writeAt mv.1 mv.2.2 rd.1) mv.2.1 (mv.2.2 + rd.1.length - mv.2.1) = _
    have e : mv.2.2 + rd.1.length - mv.2.1 = (p.inend - p.inptr) + rd.1.length := by omega
    rw [e, ← slice_append, slice_writeAt_before _ _ _ _ _ (by omega) (by omega), m5]
    have e2 : mv.2.1 + (p.inend - p.inptr) = mv.2.2 := by omega
    rw [e2, slice_writeAt_same _ _ _ (by omega)]
  · show mv.2.2 + rd.1.length - mv.2.1 = _
    omega

/-- The function `parser_fill` leaves the value of `g_mime_parser_tell` as it is. -/
theorem parser_fill_tell (p : GMimeParser) (hw : WindowInv p)
    (ho : p.offset = g_mime_stream_tell p.stream) :
    g_mime_parser_tell (parser_fill p).2 = g_mime_parser_tell p := by
  obtain ⟨hw', _, data, _, d2, _, d4, d5, d6, _⟩ := parser_fill_spec p hw
  have h1 := hw.2.1
  have h2 := hw'.2.1
  unfold g_mime_parser_tell parser_offset
  rw [d6, ho]
  unfold g_mime_stream_tell
  rw [d5]
  by_cases hs : p.stream.seekable = true
  · simp only [hs, if_true]
    have n1 : ¬ ((parser_fill p).2.stream.pos : Int) = -1 := by omega
    have n2 : ¬ (p.stream.pos : Int) = -1 := by omega
    rw [if_neg n1, if_neg n2, d4]
    omega
  · simp only [hs]
    rfl

/-! ### The boundary stack inside the multipart constructor -/

/-- The stack after a push depends on the stack before it and on the boundary only. -/
theorem push_boundary_bounds (p q : GMimeParser) (b : List Nat) (h : q.bounds = p.bounds) :
    (parser_push_boundary q b).bounds = (parser_push_boundary p b).bounds := by
  unfold parser_push_boundary
  simp only [h]

/-- One iteration of the loop of `parser_scan_multipart_subparts`: the line skip, the
header scan and the constructor of the part each return with the boundary stack of the
loop entry, and the loop goes on from there or returns. -/
theorem subparts_iteration (env : Collaborators) (D : List Nat)
    (henv : env.is_message_part (bytes "text") (bytes "plain") = false) (n : Nat)
    (p : GMimeParser) (parts : List GMimeObject) (hp : Rest D p) (hlt : p.inptr < p.inend)
    (hn : 4 * unread_measure p + 3 ≤ n + 1) :
    ∃ q1 q2 sub found q4,
      parser_skip_line n p = some q1 ∧ q1.bounds = p.bounds ∧
      parser_step_headers n q1 = some q2 ∧ q2.bounds = p.bounds ∧
      (if g_mime_content_type_is_type ((parser_content_type env q2).getD text_plain)
          (bytes "multipart") (bytes "*") = true then
        parser_construct_multipart env n (parser_unstep q2)
          ((parser_content_type env q2).getD text_plain)
      else parser_construct_leaf_part env n (parser_unstep q2)
          ((parser_content_type env q2).getD text_plain)) = some (sub, found, q4) ∧
      q4.bounds = p.bounds ∧ Rest D q4 ∧
      (found = FOUND_BOUNDARY → q4.inptr < q4.inend ∧ 4 * unread_measure q4 + 3 ≤ n) ∧
      parser_scan_multipart_subparts env (n + 1) p parts =
        (if found = FOUND_BOUNDARY then
          parser_scan_multipart_subparts env n q4 (parts ++ [sub])
        else some (parts ++ [sub], found, q4)) := by
  obtain ⟨cL, cM, _, _⟩ := construct_parts_spec env D henv n
  obtain ⟨q1, s1, s2, s3, s4, _, _, s7⟩ := skip_line_done D p n hp
    (by unfold unread_measure at hn; omega)
  have hlt1 := s7 hlt
  obtain ⟨q2, h1, h2, h3, h4, h5, _⟩ := step_headers_done D q1 n s2
    (by unfold unread_measure at hn hlt1; omega)
  have hmu3 : unread_measure (parser_unstep q2) < unread_measure p :=
    Nat.lt_of_le_of_lt h4.1 hlt1
  have hb3 : (parser_unstep q2).bounds = p.bounds := h5.trans s4
  have hunf : ∀ (sub : GMimeObject) (found : Nat) (q4 : GMimeParser),
      (if g_mime_content_type_is_type ((parser_content_type env q2).getD text_plain)
          (bytes "multipart") (bytes "*") = true then
        parser_construct_multipart env n (parser_unstep q2)
          ((parser_content_type env q2).getD text_plain)
      else parser_construct_leaf_part env n (parser_unstep q2)
          ((parser_content_type env q2).getD text_plain)) = some (sub, found, q4) →
      parser_scan_multipart_subparts env (n + 1) p parts =
        (if found = FOUND_BOUNDARY then
          parser_scan_multipart_subparts env n q4 (parts ++ [sub])
        else some (parts ++ [sub], found, q4)) := by
    intro sub found q4 hc
    rw [parser_scan_multipart_subparts, s1]
    simp only
    rw [h1]
    simp only
    by_cases hmp : g_mime_content_type_is_type ((parser_content_type env q2).getD text_plain)
        (bytes "multipart") (bytes "*") = true
    · rw [if_pos hmp] at hc
      simp only [hmp, if_true]
      rw [hc]
    · rw [if_neg hmp] at hc
      simp only [hmp]
      rw [hc]
      rfl
  by_cases hmp : g_mime_content_type_is_type ((parser_content_type env q2).getD text_plain)
      (bytes "multipart") (bytes "*") = true
  · obtain ⟨sub, found, q4, t1, t2⟩ := cM (parser_unstep q2)
      ((parser_content_type env q2).getD text_plain) h2 (by omega)
    have hc : (if g_mime_content_type_is_type ((parser_content_type env q2).getD text_plain)
          (bytes "multipart") (bytes "*") = true then
        parser_construct_multipart env n (parser_unstep q2)
          ((parser_content_type env q2).getD text_plain)
      else parser_construct_leaf_part env n (parser_unstep q2)
          ((parser_content_type env q2).getD text_plain)) = some (sub, found, q4) := by
      rw [if_pos hmp]; exact t1
    exact ⟨q1, q2, sub, found, q4, s1, s4, h1, h5.trans s4, hc, t2.2.2.1.trans hb3, t2.1,
      fun hf => ⟨t2.2.2.2.2 (by rw [hf]; decide), by have := t2.2.1.1; omega⟩,
      hunf sub found q4 hc⟩
  · obtain ⟨sub, found, q4, t1, t2⟩ := cL (parser_unstep q2)
      ((parser_content_type env q2).getD text_plain) h2 (by omega)
    have hc : (if g_mime_content_type_is_type ((parser_content_type env q2).getD text_plain)
          (bytes "multipart") (bytes "*") = true then
        parser_construct_multipart env n (parser_unstep q2)
          ((parser_content_type env q2).getD text_plain)
      else parser_construct_leaf_part env n (parser_unstep q2)
          ((parser_content_type env q2).getD text_plain)) = some (sub, found, q4) := by
      rw [if_neg hmp]; exact t1
    exact ⟨q1, q2, sub, found, q4, s1, s4, h1, h5.trans s4, hc, t2.2.2.1.trans hb3, t2.1,
      fun hf => ⟨t2.2.2.2.2 (by rw [hf]; decide), by have := t2.2.1.1; omega⟩,
      hunf sub found q4 hc⟩

/-- The preface scan and the subparts scan of `parser_construct_multipart` run with the
frame of the multipart pushed on the stack of entry, and return with that stack. -/
theorem multipart_own_frame (env : Collaborators) (D : List Nat)
    (henv : env.is_message_part (bytes "text") (bytes "plain") = false) (n : Nat)
    (p : GMimeParser) (B : List Nat) (hp : AtHeadersEnd D p)
    (hn : 4 * unread_measure p + 4 ≤ n + 1) :
    ∃ p2 found preface p4,
      parser_skip_line n (raw_header_reset
        { ({ p with unstep := p.unstep - 1 } : GMimeParser) with headers := [] }) = some p2 ∧
      p2.bounds = p.bounds ∧
      (parser_push_boundary p2 B).bounds = (parser_push_boundary p B).bounds ∧
      parser_scan_multipart_face n (parser_push_boundary p2 B) = some (found, preface, p4) ∧
      p4.bounds = (parser_push_boundary p B).bounds ∧
      (found = FOUND_BOUNDARY →
        ∃ parts found5 p5, parser_scan_multipart_subparts env n p4 [] =
          some (parts, found5, p5) ∧ p5.bounds = (parser_push_boundary p B).bounds) := by
  obtain ⟨_, _, cS, _⟩ := construct_parts_spec env D henv n
  obtain ⟨r1, r2⟩ := rest_of_atHeadersEnd D p hp
  have hmu := r2.1
  obtain ⟨p2, s1, s2, s3, s4, _, _, _⟩ := skip_line_done D _ n r1
    (by unfold unread_measure at hmu hn; omega)
  have hf2 := follows_trans _ _ _ r2 s3
  have hb2 : p2.bounds = p.bounds := s4.trans rfl
  obtain ⟨u1, u2, _, _, _⟩ := rest_push D p2 B s2
  obtain ⟨found, preface, p4, t1, t2⟩ :=
    scan_multipart_face_done D (parser_push_boundary p2 B) n u1
      (by have := hf2.1; have := u2.1; omega)
  have hpb := push_boundary_bounds p p2 B hb2
  have hf4 := follows_trans _ _ _ hf2 (follows_trans _ _ _ u2 t2.2.1)
  refine ⟨p2, found, preface, p4, s1, hb2, hpb, t1, t2.2.2.1.trans hpb, fun hfb => ?_⟩
  obtain ⟨parts, found5, p5, v1, v2⟩ := cS p4 [] t2.1
    (t2.2.2.2.2 (by rw [hfb]; decide)) (by have := hf4.1; omega)
  exact ⟨parts, found5, p5, v1, v2.2.2.1.trans (t2.2.2.1.trans hpb)⟩

/-! ## Claims about the header lexer -/

/-- C5 (amended): when the buffered logical header line has a colon with no NUL before it,
`header_parse` records, after the headers recorded before it, a header whose name is the
bytes before the first colon, stripped, and whose value is the bytes after that colon up
to the first NUL, stripped; the leaf constructor replays the recorded headers into the
object in list order. -/
theorem C5_header_split_at_first_colon (p : GMimeParser) (hend : Nat) (pre post : List Nat)
    (hbuf : p.headerbuf = pre ++ 58 :: post) (hpre : ∀ c ∈ pre, c ≠ 58 ∧ c ≠ 0) :
    (header_parse p hend).1.headers = p.headers.take hend ++
      [{ name := g_strstrip pre, value := g_strstrip (cstr post), offset := p.header_start }] ∧
    (header_parse p hend).2 = hend + 1 ∧
    (∀ (env : Collaborators) (fuel : Nat) (q : GMimeParser) (ct : GMimeContentType)
        (obj : GMimeObject) (found : Nat) (q' : GMimeParser),
      parser_construct_leaf_part env (fuel + 1) q ct = some (obj, found, q') →
      ∃ r, step_to_headers_end fuel q = some r ∧
        obj.get_headers = r.headers.map (fun x => (x.name, x.value))) := by
  refine ⟨?_, rfl, ?_⟩
  · simp only [header_parse, hbuf, header_parse_line_colon pre post p.header_start hpre]
  · intro env fuel q ct obj found q' h
    obtain ⟨r, h1, h2, _⟩ := construct_leaf_part_headers env fuel q ct obj found q' h
    exact ⟨r, h1, h2⟩

/-- C5 (witness): the buffered line `Subject: hi`. -/
theorem C5_header_split_witness :
    (header_parse { parser_on [] with headerbuf := bytes "Subject: hi" } 0).1.headers =
      [{ name := bytes "Subject", value := bytes "hi", offset := -1 }] :=
  (C5_header_split_at_first_colon { parser_on [] with headerbuf := bytes "Subject: hi" } 0
    (bytes "Subject") (bytes " hi") (by decide) (by decide)).1

/-- C5 (counterexample): for the header line `A: b NUL c` the recorded value is `b`, not
the stripped bytes after the colon, `b NUL c`. -/
theorem C5_value_cut_at_nul :
    (parser_step_headers 10 (parser_on (bytes "A: b\x00c\n\nbody"))).map
      (fun p => p.headers.map (fun h => (h.name, h.value))) =
      some [(bytes "A", bytes "b")] ∧
    g_strstrip (bytes " b\x00c") = bytes "b\x00c" ∧
    bytes "b" ≠ bytes "b\x00c" := by
  decide!

/-- C8 (amended): a buffered line without colon before its first NUL is recorded as a
header named `X-Invalid-Header` whose value is the line up to that NUL with leading and
trailing whitespace stripped. -/
theorem C8_invalid_header_value_stripped (p : GMimeParser) (hend : Nat)
    (h : 58 ∉ cstr p.headerbuf) :
    (header_parse p hend).1.headers = p.headers.take hend ++
      [{ name := bytes "X-Invalid-Header", value := g_strstrip (cstr p.headerbuf),
         offset := p.header_start }] := by
  simp only [header_parse, header_parse_line_no_colon p.headerbuf p.header_start h]

/-- C8 (witness): the buffered line `bad line` followed by a space. -/
theorem C8_invalid_header_witness :
    (header_parse { parser_on [] with headerbuf := bytes "bad line " } 0).1.headers =
      [{ name := bytes "X-Invalid-Header", value := bytes "bad line", offset := -1 }] :=
  C8_invalid_header_value_stripped { parser_on [] with headerbuf := bytes "bad line " } 0
    (by decide)

/-- C8 (counterexample): the line `bad line SP` is buffered with its trailing space, but
the value of the recorded `X-Invalid-Header` is `bad line`, without it. -/
theorem C8_value_is_not_entire_line :
    (parser_step_headers 10 (parser_on (bytes "bad line \r\n\r\nbody"))).map
      (fun p => p.headers.map (fun h => (h.name, h.value))) =
      some [(bytes "X-Invalid-Header", bytes "bad line")] ∧
    (header_parse_line (bytes "bad line ") 0).value = bytes "bad line" ∧
    bytes "bad line" ≠ bytes "bad line " := by
  decide!

/-- C10 (counterexample): for the CR LF terminated input of the first scenario the raw
header block attached to the part ends with the CR of the terminating blank line. -/
theorem C10_raw_block_holds_blank_line_cr :
    (parser_construct_part simple_collaborators 10
        (parser_on (bytes "Subject: hi\r\n\r\nhello\r\n"))).map
      (fun r => r.1.get_raw_headers) = some (bytes "Subject: hi\r\n\r") ∧
    (parser_construct_part simple_collaborators 10
        (parser_on (bytes "Subject: hi\n\nhello\n"))).map
      (fun r => r.1.get_raw_headers) = some (bytes "Subject: hi\n") := by
  decide!

/-! ## Claims about the boundary stack and the content scanner -/

/-- C2: for every boundary stack whose frames hold a NUL-free marker of `boundarylenfinal`
bytes with `boundarylen <= boundarylenfinal` (as `parser_push_boundary` builds them),
every flag setting and every candidate line of the i/o array that is followed by a line
feed (the terminator or the sentinel, as in every call of the scanner), `check_boundary`
returns what the matching rule of the specification prescribes for the bytes of the line:
`boundary_rule` trims one trailing CR, gives 0 for a line that cannot be a boundary, and
else walks the frames from top to root. -/
theorem C2_check_boundary_follows_rule (p : GMimeParser) (start len : Nat)
    (hbuf : p.realbuf.length = SCAN_HEAD + SCAN_BUF + 1)
    (hlen : start + len < p.realbuf.length)
    (hterm : peek p.realbuf (start + len) = 10)
    (hframes : ∀ s ∈ p.bounds, s.boundary.length = s.boundarylenfinal ∧
      s.boundarylen ≤ s.boundarylenfinal ∧ 0 ∉ s.boundary)
    (hoff : -1 ≤ parser_offset p (some start)) :
    check_boundary p start len =
      boundary_rule p.scan_from p.bounds (parser_offset p (some start))
        (slice p.realbuf start len) := by
  have hrest : len ≤ (p.realbuf.drop start).length := by simp; omega
  have hsmall : len < 2 ^ 64 := by
    have : len < 4225 := by simp [SCAN_HEAD, SCAN_BUF] at hbuf; omega
    omega
  by_cases hl0 : len = 0
  · subst hl0
    have hp : ∀ n, possible_boundary p.scan_from (p.realbuf.drop start) n = false := fun n =>
      possible_boundary_at_lf _ _ _ (by rw [peek_drop]; simpa using hterm)
    simp [check_boundary, boundary_rule, slice, hp, bytes_dashes]
  · have hpos : 0 < len := Nat.pos_of_ne_zero hl0
    have hlast := getLast?_take_drop p.realbuf start len hpos (by omega)
    have hne : start + len ≠ 0 := by omega
    unfold check_boundary boundary_rule slice
    simp only [hne, if_false, hlast, Option.some.injEq]
    by_cases h13 : peek p.realbuf (start + len - 1) = 13
    · have hlen' : (len + 2 ^ 64 - 1) % 2 ^ 64 = len - 1 := by
        have : len + 2 ^ 64 - 1 = (len - 1) + 2 ^ 64 := by omega
        rw [this, Nat.add_mod_right, Nat.mod_eq_of_lt (by omega)]
      have hdl : ((p.realbuf.drop start).take len).dropLast =
          (p.realbuf.drop start).take (len - 1) := by
        have hl : ((p.realbuf.drop start).take len).length = len := by
          rw [List.length_take]; omega
        rw [List.dropLast_eq_take, hl, List.take_take, Nat.min_eq_left (by omega)]
      simp only [h13, if_true, hlen', hdl]
      rw [ite_congr_bool _ _ (possible_boundary_iff p.scan_from _ (len - 1) (by omega)),
        check_boundary_walk_eq _ _ _ (by omega) hoff _ hframes]
    · simp only [h13, if_false]
      rw [ite_congr_bool _ _ (possible_boundary_iff p.scan_from _ len hrest),
        check_boundary_walk_eq _ _ _ hrest hoff _ hframes]

/-- C2 (witness): the line `--B--` CR in the window of `end_boundary_example` is the end
boundary of the frame on the stack. -/
theorem C2_check_boundary_witness :
    check_boundary end_boundary_example 128 6 =
      boundary_rule end_boundary_example.scan_from end_boundary_example.bounds
        (parser_offset end_boundary_example (some 128))
        (slice end_boundary_example.realbuf 128 6) ∧
    check_boundary end_boundary_example 128 6 = FOUND_END_BOUNDARY :=
  ⟨C2_check_boundary_follows_rule end_boundary_example 128 6 (by decide!) (by decide!)
    (by decide!) (by decide!) (by decide!), by decide!⟩

/-- C3: whenever `parser_scan_content` returns BOUNDARY or END_BOUNDARY, `priv->inptr`
(hence `g_mime_parser_tell`) is inside the window at the first byte of a line, the bytes
up to the next line feed, that `check_boundary` recognises with that same outcome: the
boundary line is still unread. -/
theorem C3_boundary_not_consumed (fuel : Nat) (p : GMimeParser)
    (content : Option (List Nat)) (r : Nat × Nat × Option (List Nat) × GMimeParser)
    (h : parser_scan_content fuel p content = some r)
    (hb : r.1 = FOUND_BOUNDARY ∨ r.1 = FOUND_END_BOUNDARY) :
    r.2.2.2.inptr < r.2.2.2.inend ∧
    check_boundary r.2.2.2 r.2.2.2.inptr
      (scan_to_lf r.2.2.2.realbuf r.2.2.2.inptr - r.2.2.2.inptr) = r.1 ∧
    g_mime_parser_tell r.2.2.2 = parser_offset r.2.2.2 (some r.2.2.2.inptr) := by
  unfold parser_scan_content at h
  split at h
  · simp at h
  · rename_i q found start inptr c heq
    simp only [Option.some.injEq] at h
    subst h
    simp only at hb ⊢
    have := scan_content_loop_ok _ _ _ _ _ _ _ _ _ heq hb
    refine ⟨this.1, ?_, ?_⟩
    · rw [check_boundary_inptr]; exact this.2.2
    · simp [g_mime_parser_tell, parser_offset]

/-- C3 (witness): the scan of `pre CR LF --B CR LF rest` with the frame of `B` on the
stack stops with BOUNDARY at the line `--B`. -/
theorem C3_boundary_not_consumed_witness :
    parser_scan_content 5 preface_scan_example (some []) = some preface_scan_result ∧
    preface_scan_result.1 = FOUND_BOUNDARY ∧
    (preface_scan_result.2.2.2.inptr < preface_scan_result.2.2.2.inend ∧
      check_boundary preface_scan_result.2.2.2 preface_scan_result.2.2.2.inptr
        (scan_to_lf preface_scan_result.2.2.2.realbuf preface_scan_result.2.2.2.inptr -
          preface_scan_result.2.2.2.inptr) = preface_scan_result.1 ∧
      g_mime_parser_tell preface_scan_result.2.2.2 =
        parser_offset preface_scan_result.2.2.2 (some preface_scan_result.2.2.2.inptr)) :=
  ⟨by decide!, by decide!,
    C3_boundary_not_consumed 5 preface_scan_example (some []) preface_scan_result
      (by decide!) (Or.inl (by decide!))⟩

/-! ## Claims about offsets and the raw header block -/

/-- C9: for a seekable stream whose bytes are `D`, a parser whose window stands for bytes of
`D` and whose header list and header buffer are empty (as at every call in the
constructors), and fuel above what is left in the stream, `parser_step_headers` returns,
and the headers it leaves lie in `D` one after the other from the offset where the block
starts: every header is built from the bytes of a range `[a1, a2)` of `D` that starts at
a line start, and its offset is `a1`, the absolute offset of the first byte of its first
physical line. The stream may deliver its bytes in any chunks, so any number of buffer
refills is covered. -/
theorem C9_header_offset_fidelity (D : List Nat) (p : GMimeParser) (fuel : Nat)
    (hw : WindowInv p) (hr : Represents D p) (ho : p.offset = g_mime_stream_tell p.stream)
    (hh : p.headers = []) (hb : p.headerbuf = []) (hs : p.stream.seekable = true)
    (hfuel : stream_left p.stream + 2 ≤ fuel) :
    ∃ p' e, parser_step_headers fuel p = some p' ∧
      HeaderChain D true (abs_offset p p.inptr) (abs_offset p p.inptr) p'.headers e ∧
      ∀ h ∈ p'.headers, ∃ a1 a2 hb,
        abs_offset p p.inptr ≤ a1 ∧ a1 < a2 ∧ a2 ≤ D.length ∧
        LineStart D (abs_offset p p.inptr) a1 ∧
        Decoded (slice D a1 (a2 - a1)) hb ∧
        h = header_parse_line hb (a1 : Int) ∧ h.offset = (a1 : Int) := by
  obtain ⟨p', h1, h2, hsk, _⟩ := parser_step_headers_spec D p fuel hw hr ho hh hb hfuel
  obtain ⟨_, hw', hr', _, _, _, _, s, _, _, hc, _⟩ := h2
  rw [hsk, hs] at hc
  refine ⟨p', s, h1, hc, ?_⟩
  intro h hm
  obtain ⟨a1, a2, hb', d1, d2, _, d4, d5, d6, d7⟩ :=
    header_chain_mem D true _ p'.headers _ s hc h hm
  have d7' : h = header_parse_line hb' (a1 : Int) := d7
  exact ⟨a1, a2, hb', d1, d2, d4, d5, d6, d7', by rw [d7', header_parse_line_offset]⟩

/-- C10 (amended): from a parser with empty raw buffer, header list and header buffer,
`parser_step_headers` returns with the raw buffer equal to the bytes of the stream from
the start of the block up to the position where the parser stops; when it stops inside
the window, that position is the line feed of the terminating blank line, which is thus
excluded, while the CR of a blank line CR LF is the last byte of the raw buffer. The
leaf constructor attaches the C string of that buffer to the part. -/
theorem C10_raw_block_up_to_blank_line_lf (D : List Nat) (p : GMimeParser) (fuel : Nat)
    (hw : WindowInv p) (hr : Represents D p) (ho : p.offset = g_mime_stream_tell p.stream)
    (hh : p.headers = []) (hb : p.headerbuf = []) (hraw : p.rawbuf = [])
    (hfuel : stream_left p.stream + 2 ≤ fuel) :
    (∃ p', parser_step_headers fuel p = some p' ∧
      abs_offset p p.inptr ≤ abs_offset p' p'.inptr ∧
      p'.rawbuf =
        slice D (abs_offset p p.inptr) (abs_offset p' p'.inptr - abs_offset p p.inptr) ∧
      (p'.inptr < p'.inend →
        peek D (abs_offset p' p'.inptr) = 10 ∧
        ∃ s, LineStart D (abs_offset p p.inptr) s ∧
          (abs_offset p' p'.inptr = s ∨
            (abs_offset p' p'.inptr = s + 1 ∧ peek D s = 13 ∧ p'.rawbuf.getLast? = some 13)))) ∧
    (∀ (env : Collaborators) (fuel : Nat) (q : GMimeParser) (ct : GMimeContentType)
        (obj : GMimeObject) (found : Nat) (q' : GMimeParser),
      parser_construct_leaf_part env (fuel + 1) q ct = some (obj, found, q') →
      ∃ r, step_to_headers_end fuel q = some r ∧ obj.get_raw_headers = cstr r.rawbuf) := by
  refine ⟨?_, ?_⟩
  · obtain ⟨p', h1, h2, _⟩ := parser_step_headers_spec D p fuel hw hr ho hh hb hfuel
    obtain ⟨_, hw', hr', _, g1, g2, _, s, g3, g4, _, g5⟩ := h2
    rw [hraw, List.nil_append] at g2
    refine ⟨p', h1, g1, g2, ?_⟩
    intro hlt
    rcases g5 with ⟨k1, _, k3, k4⟩ | ⟨k, _⟩
    · refine ⟨k3, s, k1, ?_⟩
      rcases k4 with k4 | ⟨k4, k5⟩
      · exact Or.inl k4
      · refine Or.inr ⟨k4, k5, ?_⟩
        have hle : abs_offset p' p'.inptr ≤ D.length := abs_offset_le_length D p' hr' _ hw'.2.1
        have hl := getLast?_take_drop D (abs_offset p p.inptr)
          (abs_offset p' p'.inptr - abs_offset p p.inptr) (by omega) (by omega)
        have he : abs_offset p p.inptr + (abs_offset p' p'.inptr - abs_offset p p.inptr) - 1
            = s := by omega
        rw [he, k5] at hl
        rw [g2]
        exact hl
    · omega
  · intro env fuel q ct obj found q' h
    obtain ⟨r, h1, _, h3⟩ := construct_leaf_part_headers env fuel q ct obj found q' h
    exact ⟨r, h1, h3⟩

/-! ## Claims about the end of the header block -/

/-- C11: for NUL-free stream bytes `D`, from a parser with empty raw buffer, header list
and header buffer, `parser_step_headers` returns in state HEADERS_END with the raw buffer
equal to the bytes of `D` from the offset where the scan began up to the offset where the
parser stands, each once and in order; the array of the raw buffer after the store
`*priv->rawptr = 0` is those bytes, a NUL and whatever follows, so it reads as the C
string of exactly those bytes. -/
theorem C11_raw_buffer_verbatim (D : List Nat) (p : GMimeParser) (fuel : Nat)
    (hnul : ∀ c ∈ D, c ≠ 0)
    (hw : WindowInv p) (hr : Represents D p) (ho : p.offset = g_mime_stream_tell p.stream)
    (hh : p.headers = []) (hb : p.headerbuf = []) (hraw : p.rawbuf = [])
    (hfuel : stream_left p.stream + 2 ≤ fuel) :
    ∃ p', parser_step_headers fuel p = some p' ∧
      p'.state = ParserState.HEADERS_END ∧
      abs_offset p p.inptr ≤ abs_offset p' p'.inptr ∧
      p'.rawbuf =
        slice D (abs_offset p p.inptr) (abs_offset p' p'.inptr - abs_offset p p.inptr) ∧
      ∀ rest, cstr (p'.rawbuf ++ 0 :: rest) =
        slice D (abs_offset p p.inptr) (abs_offset p' p'.inptr - abs_offset p p.inptr) := by
  obtain ⟨p', h1, h2, _⟩ := parser_step_headers_spec D p fuel hw hr ho hh hb hfuel
  obtain ⟨g0, _, _, _, g1, g2, _⟩ := h2
  rw [hraw, List.nil_append] at g2
  refine ⟨p', h1, g0, g1, g2, ?_⟩
  intro rest
  rw [cstr_append_nul _ _ (by rw [g2]; exact fun c hc => hnul c (mem_slice D _ _ c hc)), g2]

/-- C12 (amended): from a parser with empty header list and header buffer,
`parser_step_headers` returns in state HEADERS_END, and when it stops inside the window,
which is the exit through the blank line, `inptr` is at the terminating line feed of the
blank line: the byte at `inptr` is that LF, and it is the first byte of a line or follows
the CR that is the first byte of a line. -/
theorem C12_inptr_at_blank_line_lf (D : List Nat) (p : GMimeParser) (fuel : Nat)
    (hw : WindowInv p) (hr : Represents D p) (ho : p.offset = g_mime_stream_tell p.stream)
    (hh : p.headers = []) (hb : p.headerbuf = [])
    (hfuel : stream_left p.stream + 2 ≤ fuel) :
    ∃ p', parser_step_headers fuel p = some p' ∧
      p'.state = ParserState.HEADERS_END ∧
      (p'.inptr < p'.inend →
        peek p'.realbuf p'.inptr = 10 ∧
        peek D (abs_offset p' p'.inptr) = 10 ∧
        ∃ s, LineStart D (abs_offset p p.inptr) s ∧
          (abs_offset p' p'.inptr = s ∨
            (abs_offset p' p'.inptr = s + 1 ∧ peek D s = 13))) := by
  obtain ⟨p', h1, h2, _⟩ := parser_step_headers_spec D p fuel hw hr ho hh hb hfuel
  obtain ⟨g0, hw', hr', _, _, _, _, s, _, _, _, g5⟩ := h2
  refine ⟨p', h1, g0, ?_⟩
  intro hlt
  rcases g5 with ⟨k1, _, k3, k4⟩ | ⟨k, _⟩
  · refine ⟨?_, k3, s, k1, k4⟩
    rw [buf_peek_eq D p' hw' hr' _ (Nat.le_refl _) hlt]
    exact k3
  · omega

/-- C13: for every stream content `D` in any chunks and every parser state whose window
stands for bytes of `D` with empty header list and header buffer, `parser_step_headers`
with fuel above what the stream holds returns, in state HEADERS_END and with nothing
left in the header buffer. When it stops at the end of the window (no blank line was
found), the headers cover the bytes read up to an offset `s` after which only bare line
terminators follow, so a last line without line feed lies in the last header; for a
stream with no empty read the parser is then at end of stream, and at end of stream the
line skip and the body scan of the leaf constructor return EOS with a content that holds
no byte. -/
theorem C13_headers_never_fail (D : List Nat) (p : GMimeParser) (fuel : Nat)
    (hw : WindowInv p) (hr : Represents D p) (ho : p.offset = g_mime_stream_tell p.stream)
    (hh : p.headers = []) (hb : p.headerbuf = [])
    (hfuel : stream_left p.stream + 2 ≤ fuel) :
    ∃ p', parser_step_headers fuel p = some p' ∧
      p'.state = ParserState.HEADERS_END ∧ p'.headerbuf = [] ∧
      (p'.inptr = p'.inend →
        ∃ s, s ≤ abs_offset p' p'.inptr ∧
          HeaderChain D p.stream.seekable (abs_offset p p.inptr) (abs_offset p p.inptr)
            p'.headers s ∧
          Decoded (slice D s (abs_offset p' p'.inptr - s)) [] ∧
          (s = abs_offset p' p'.inptr ∨ peek D (abs_offset p' p'.inptr - 1) = 10)) ∧
      (NoEmptyRead p.stream → p'.inptr = p'.inend → g_mime_parser_eos p' = true) ∧
      (g_mime_parser_eos p' = true → ∀ f, ∃ q c q',
        parser_skip_line (f + 1) (raw_header_reset { p' with headers := [] }) = some q ∧
        parser_scan_mime_part_content (f + 1) q = some (c, FOUND_EOS, q') ∧
        ∀ D', PartContent.read D' c = []) := by
  obtain ⟨p', h1, h2, hsk, hne⟩ := parser_step_headers_spec D p fuel hw hr ho hh hb hfuel
  obtain ⟨g0, hw', hr', ho', _, _, g3, s, _, g4, hc, g5⟩ := h2
  refine ⟨p', h1, g0, g3, ?_, ?_, ?_⟩
  · intro he
    rcases g5 with ⟨_, k, _⟩ | ⟨_, k⟩
    · omega
    · rw [hsk] at hc
      refine ⟨s, g4, hc, k, ?_⟩
      have hle : abs_offset p' p'.inptr ≤ D.length := abs_offset_le_length D p' hr' _ hw'.2.1
      rcases decoded_nil_last _ _ k rfl with hnil | hlast
      · left
        have := congrArg List.length hnil
        rw [slice_length D s _ (by omega)] at this
        simp only [List.length_nil] at this
        omega
      · right
        have hpos : 0 < abs_offset p' p'.inptr - s := by
          by_contra hc0
          have h0 : abs_offset p' p'.inptr - s = 0 := by omega
          rw [h0, slice_zero] at hlast
          simp at hlast
        have hl := getLast?_take_drop D s (abs_offset p' p'.inptr - s) hpos (by omega)
        have he' : s + (abs_offset p' p'.inptr - s) - 1 = abs_offset p' p'.inptr - 1 := by omega
        rw [he'] at hl
        have hl' : (slice D s (abs_offset p' p'.inptr - s)).getLast? =
            some (peek D (abs_offset p' p'.inptr - 1)) := hl
        rw [hlast] at hl'
        exact (Option.some.inj hl').symm
  · intro hn he
    have := (hne hn).2 he
    unfold g_mime_parser_eos g_mime_stream_eos
    rw [this, he]
    simp
  · intro heos f
    unfold g_mime_parser_eos g_mime_stream_eos at heos
    have hc0 : p'.stream.chunks = [] := by
      cases hch : p'.stream.chunks with
      | nil => rfl
      | cons a t => rw [hch] at heos; simp at heos
    have he : p'.inptr = p'.inend := by
      rw [hc0] at heos
      simpa using heos
    obtain ⟨q, s1, s2, s3, s4, s5, _, _⟩ := parser_skip_line_at_eos
      (raw_header_reset { p' with headers := [] }) f hw' he hc0
    obtain ⟨c, q', t1, t2⟩ := scan_mime_part_content_at_eos q f s2 s3
      (by rw [s4]; exact hc0) (by rw [s5, s4])
    exact ⟨q, c, q', s1, t1, t2⟩

/-! ## Claims about the preface and the postface -/

/-- C15 (amended): whenever `parser_scan_multipart_face` sets a face, the string is the
output of `crlf2lf` on the scanned bytes without the last `crlf` ones and up to the first
NUL; it holds a CR immediately followed by LF exactly when those bytes hold a CR
immediately followed by CR LF. -/
theorem C15_face_crlf_only_from_cr_crlf (fuel : Nat) (p : GMimeParser) (found : Nat)
    (face : List Nat) (p' : GMimeParser)
    (h : parser_scan_multipart_face fuel p = some (found, some face, p')) :
    ∃ crlf content, parser_scan_content fuel p (some []) = some (found, crlf, content, p') ∧
      face = crlf2lf
        (cstr ((content.getD []).take ((content.getD []).length - crlf))) ∧
      has_crlf face =
        has_cr_crlf (cstr ((content.getD []).take ((content.getD []).length - crlf))) := by
  unfold parser_scan_multipart_face at h
  cases hs : parser_scan_content fuel p (some []) with
  | none => rw [hs] at h; simp at h
  | some r =>
    obtain ⟨f, crlf, content, q⟩ := r
    rw [hs] at h
    simp only at h
    by_cases hge : (content.getD []).length ≥ crlf
    · simp only [hge, if_true, Option.some.injEq, Prod.mk.injEq] at h
      obtain ⟨h1, h2, h3⟩ := h
      subst h1; subst h3
      rw [face_cstr _ _ hge] at h2
      refine ⟨crlf, content, rfl, h2.symm, ?_⟩
      rw [← h2, crlf2lf_eq_copy, has_crlf_copy]
    · simp only [hge, if_false, Option.some.injEq, Prod.mk.injEq] at h
      exact absurd h.2.1 (by simp)

/-! ## Claims about the multipart constructor -/

/-- C20 (amended claim): on a parser whose window stands for bytes of `D`,
`parser_step_from` with fuel above what the stream holds returns, either with 0 in state
HEADERS or with -1 in state ERROR and an empty window. On success there is a first line,
from the position where the scan began, that begins with the 5 bytes `From `, its line
feed is not the last byte of the stream, `from_offset` is the stream offset of that line,
`from_line` holds its bytes without the line feed and `inptr` is just after that line
feed. When no line begins with `From ` the state is ERROR. When the stream has no empty
read, some line begins with `From ` and is ended by a line feed that is not the last byte
of the stream, and every line that starts at or before it has its line feed among its
first 4222 bytes, the state is HEADERS. -/
theorem C20_step_from_finds_first_from_line (D : List Nat) (p : GMimeParser) (fuel : Nat)
    (hw : WindowInv p) (hr : Represents D p) (ho : p.offset = g_mime_stream_tell p.stream)
    (hfuel : stream_left p.stream + 1 < fuel) :
    ∃ rc q, parser_step_from fuel p = some (rc, q) ∧
      ((rc = 0 ∧ q.state = ParserState.HEADERS ∧
          ∃ s e, FromLineAt D (abs_offset p p.inptr) s e ∧
            NoFromLineBefore D (abs_offset p p.inptr) s ∧ e + 1 < D.length ∧
            q.from_offset = off_of p.stream.seekable s ∧
            q.from_line = slice D s (e - s) ∧ abs_offset q q.inptr = e + 1) ∨
        (rc = -1 ∧ q.state = ParserState.ERROR ∧ q.inptr = q.inend)) ∧
      ((∀ s, abs_offset p p.inptr ≤ s → LineStart D (abs_offset p p.inptr) s →
          slice D s 5 ≠ bytes "From ") → q.state = ParserState.ERROR) ∧
      (NoEmptyRead p.stream → ∀ s e, FromLineAt D (abs_offset p p.inptr) s e →
        e + 1 < D.length →
        (∀ k, abs_offset p p.inptr ≤ k → k ≤ s →
          ∃ m, k ≤ m ∧ m < k + (SCAN_HEAD + SCAN_BUF - 2) ∧ peek D m = 10) →
        q.state = ParserState.HEADERS) := by
  obtain ⟨rc, q, hrun, hwq, hrq, _, hsk, hcase⟩ := parser_step_from_spec D p fuel hw hr ho hfuel
  have hend : abs_offset q q.inend ≤ D.length := by
    have := hrq.1
    unfold abs_offset
    omega
  refine ⟨rc, q, hrun, ?_, ?_, ?_⟩
  · rcases hcase with ⟨h0, hs, s, e, h1, h2, h3, h4, h5, h6⟩ | ⟨h0, hs, h1, _⟩
    · refine Or.inl ⟨h0, hs, s, e, h1, h2, by omega, ?_, ?_, h5⟩
      · rw [h3, hsk]
      · rw [h4, List.nil_append]
    · exact Or.inr ⟨h0, hs, h1⟩
  · intro hno
    rcases hcase with ⟨_, _, s, e, h1, _⟩ | ⟨_, hs, _⟩
    · exact absurd h1.2.2.1 (hno s h1.1 h1.2.1)
    · exact hs
  · intro hne s e hfl he hshort
    rcases hcase with ⟨_, hs, _⟩ | ⟨_, _, _, _, start, g1, g2, g3, g4, g5, g6⟩
    · exact hs
    · exfalso
      obtain ⟨f1, f2, f3, f4, f5, f6⟩ := hfl
      have hss : start ≤ s := by
        by_contra hc
        exact g4 s f1 (by omega) f2 f3
      have h10 : (10 : Nat) ≠ 0 := by decide
      rcases g6 hne with hc | hfull
      · have hlen := abs_inend_of_eos D q hrq hc
        rw [hlen] at g5
        by_cases hst : start = s
        · have hm := peek_mem_slice D start (D.length - start - 1) e (by omega) (by omega)
            (by rw [f5]; exact h10)
          rw [f5] at hm
          exact g5 10 hm rfl
        · have hsne : s ≠ abs_offset p p.inptr := by omega
          have hprev : 0 < s ∧ peek D (s - 1) = 10 := by
            rcases f2 with h | h
            · exact absurd h hsne
            · exact h
          have hm := peek_mem_slice D start (D.length - start - 1) (s - 1) (by omega)
            (by omega) (by rw [hprev.2]; exact h10)
          rw [hprev.2] at hm
          exact g5 10 hm rfl
      · obtain ⟨m, m1, m2, m3⟩ := hshort start g1 hss
        have hm := peek_mem_slice D start (abs_offset q q.inend - start - 1) m m1
          (by unfold SCAN_HEAD SCAN_BUF at m2 hfull; omega) (by rw [m3]; exact h10)
        rw [m3] at hm
        exact g5 10 hm rfl

/-! ## Claims about the boundary stack and the configuration -/

/-- C26 (amended claim): for every boundary string whose bytes up to the first NUL are `B`
and are not `From `, `parser_push_boundary` puts on top of the stack a frame with marker
`--B--`, `boundarylen = len(B) + 2`, `boundarylenfinal = len(B) + 4`, `boundarylenmax`
the larger of that and the `boundarylenmax` of the previous top, and `content_end` unset
(-1), with the previous stack as its parent; for the string `From ` the frame has marker
`From ` and both lengths 5. -/
theorem C26_push_boundary_frame (p : GMimeParser) (B : List Nat)
    (h : cstr B ≠ bytes "From ") :
    (parser_push_boundary p B).bounds =
      { boundary := bytes "--" ++ cstr B ++ bytes "--",
        boundarylen := (cstr B).length + 2,
        boundarylenfinal := (cstr B).length + 4,
        boundarylenmax := Nat.max ((cstr B).length + 4)
          (match p.bounds with
            | [] => 0
            | s :: _ => s.boundarylenmax),
        content_end := -1 } :: p.bounds ∧
    (parser_push_boundary p (bytes "From ")).bounds =
      { boundary := bytes "From ", boundarylen := 5, boundarylenfinal := 5,
        boundarylenmax := Nat.max 5
          (match p.bounds with
            | [] => 0
            | s :: _ => s.boundarylenmax),
        content_end := -1 } :: p.bounds := by
  constructor
  · unfold parser_push_boundary
    simp only [h, if_false]
  · have e : cstr (bytes "From ") = bytes "From " := by decide
    unfold parser_push_boundary
    simp only [e, if_true]

/-- C26 (witness): the push of the boundary parameter `B` on an empty stack. -/
theorem C26_push_boundary_witness :
    cstr (bytes "B") ≠ bytes "From " ∧
    (parser_push_boundary (parser_on []) (bytes "B")).bounds =
      [{ boundary := bytes "--B--", boundarylen := 3, boundarylenfinal := 5,
         boundarylenmax := 5, content_end := -1 }] :=
  ⟨by decide, (C26_push_boundary_frame (parser_on []) (bytes "B") (by decide)).1⟩

/-- C26 (counterexample): for the boundary parameter `From ` the frame pushed is the mbox
frame, with marker `From ` and both lengths 5, not a frame with marker `--From --` and
lengths 7 and 9. -/
theorem C26_from_boundary_parameter :
    (parser_push_boundary (parser_on []) (bytes "From ")).bounds.map
      (fun s => (s.boundary, s.boundarylen, s.boundarylenfinal)) = [(bytes "From ", 5, 5)] ∧
    (parser_push_boundary (parser_on []) (bytes "From ")).bounds.map
      (fun s => (s.boundary, s.boundarylen, s.boundarylenfinal)) ≠
      [(bytes "--From --", (bytes "From ").length + 2, (bytes "From ").length + 4)] :=
  ⟨by decide, by decide⟩

/-- C27: in the boundary stack after any sequence of calls of `parser_push_boundary` and
`parser_pop_boundary` that starts from the empty stack, `boundarylenmax` of each frame is
the maximum of `boundarylenfinal` over that frame and the frames that enclose it; and
`parser_pop_boundary` on the empty stack leaves the stack empty. -/
theorem C27_stack_max_invariant (ops : List StackOp) (p : GMimeParser) :
    StackMaxInv (run_stack_ops ops { p with bounds := [] }).bounds ∧
    (parser_pop_boundary { p with bounds := [] }).bounds = [] :=
  ⟨stackMaxInv_run ops _ trivial, rfl⟩

/-- C28 (amended claim): for every parser and every boolean `b`, the getters of scan_from
and of respect_content_length return `b` after the setter was called with `b`; the
getter of persist_stream returns `b` only on a seekable stream: it returns
`b && seekable`; and each of the three setters called twice with `b` leaves the state
that one call leaves. -/
theorem C28_setters_and_getters (p : GMimeParser) (b : Bool) :
    g_mime_parser_get_scan_from (g_mime_parser_set_scan_from p b) = b ∧
    g_mime_parser_get_respect_content_length
      (g_mime_parser_set_respect_content_length p b) = b ∧
    g_mime_parser_get_persist_stream (g_mime_parser_set_persist_stream p b) =
      (b && p.seekable) ∧
    g_mime_parser_set_scan_from (g_mime_parser_set_scan_from p b) b =
      g_mime_parser_set_scan_from p b ∧
    g_mime_parser_set_respect_content_length
      (g_mime_parser_set_respect_content_length p b) b =
      g_mime_parser_set_respect_content_length p b ∧
    g_mime_parser_set_persist_stream (g_mime_parser_set_persist_stream p b) b =
      g_mime_parser_set_persist_stream p b :=
  ⟨rfl, rfl, rfl, rfl, rfl, rfl⟩

/-- C28 (counterexample): on a parser whose stream is not seekable the getter of
persist_stream returns false after the setter was called with true. -/
theorem C28_persist_stream_not_read_back :
    (g_mime_parser_new_with_stream pipe_stream).seekable = false ∧
    g_mime_parser_get_persist_stream
      (g_mime_parser_set_persist_stream (g_mime_parser_new_with_stream pipe_stream) true) =
      false :=
  ⟨by decide, by decide⟩

/-! ## Claims about the buffer fill and the step machine -/

/-- C24 (amended claim): for a parser state that satisfies the window invariant, on a
stream that delivers at least one byte at every read before its end, `parser_fill`
never returns less than the unread length before the call; if the stream is not at its
end and fewer than `SCAN_HEAD + SCAN_BUF - 1` bytes are unread, it returns more than the
unread length before the call; so the returned count equals the unread length only at
the end of the stream or when the unread bytes fill the whole i/o array; and a state
with `inptr` at or after `realbuf + SCAN_HEAD` has fewer unread bytes than that. -/
theorem C24_fill_progress (p : GMimeParser) (hw : WindowInv p)
    (hne : NoEmptyRead p.stream) :
    p.inend - p.inptr ≤ (parser_fill p).1 ∧
    (g_mime_stream_eos p.stream = false → p.inend - p.inptr < SCAN_HEAD + SCAN_BUF - 1 →
      p.inend - p.inptr < (parser_fill p).1) ∧
    ((parser_fill p).1 = p.inend - p.inptr →
      g_mime_stream_eos p.stream = true ∨ p.inend - p.inptr = SCAN_HEAD + SCAN_BUF - 1) ∧
    (SCAN_HEAD ≤ p.inptr → p.inend - p.inptr < SCAN_HEAD + SCAN_BUF - 1) := by
  obtain ⟨_, m2, m3⟩ := parser_fill_measure p hw
  obtain ⟨_, _, data, _, d2, d3, _⟩ := parser_fill_spec p hw
  have key : (parser_fill p).1 = p.inend - p.inptr →
      g_mime_stream_eos p.stream = true ∨ p.inend - p.inptr = SCAN_HEAD + SCAN_BUF - 1 := by
    intro h
    rcases parser_fill_no_progress p hw hne (by omega) with hc | hfull
    · left
      have hd : data = [] := List.eq_nil_of_length_eq_zero (by omega)
      rw [hd, hc] at d3
      simp only [List.flatten_nil, List.nil_append] at d3
      unfold g_mime_stream_eos
      cases hch : p.stream.chunks with
      | nil => rfl
      | cons c cs =>
        exfalso
        have hcne : c ≠ [] := hne c (by rw [hch]; exact List.mem_cons_self _ _)
        rw [hch] at d3
        simp only [List.flatten_cons, List.append_eq_nil] at d3
        exact hcne d3.1
    · exact Or.inr hfull
  refine ⟨by omega, ?_, key, ?_⟩
  · intro he hlt
    by_contra hc
    rcases key (by omega) with h | h
    · rw [he] at h
      exact absurd h (by decide)
    · omega
  · intro h
    have := hw.2.2.2
    have := hw.2.1
    unfold SCAN_HEAD SCAN_BUF at *
    omega

/-- C24 (witness): the first fill on the 23 bytes of `crlf_message`. -/
theorem C24_fill_progress_witness :
    (parser_on crlf_message).inend - (parser_on crlf_message).inptr ≤
      (parser_fill (parser_on crlf_message)).1 ∧
    (g_mime_stream_eos (parser_on crlf_message).stream = false →
      (parser_on crlf_message).inend - (parser_on crlf_message).inptr <
        SCAN_HEAD + SCAN_BUF - 1 →
      (parser_on crlf_message).inend - (parser_on crlf_message).inptr <
        (parser_fill (parser_on crlf_message)).1) ∧
    ((parser_fill (parser_on crlf_message)).1 =
        (parser_on crlf_message).inend - (parser_on crlf_message).inptr →
      g_mime_stream_eos (parser_on crlf_message).stream = true ∨
        (parser_on crlf_message).inend - (parser_on crlf_message).inptr =
          SCAN_HEAD + SCAN_BUF - 1) ∧
    (SCAN_HEAD ≤ (parser_on crlf_message).inptr →
      (parser_on crlf_message).inend - (parser_on crlf_message).inptr <
        SCAN_HEAD + SCAN_BUF - 1) :=
  C24_fill_progress (parser_on crlf_message) (parser_on_ok _).1
    (by unfold NoEmptyRead; decide)

/-- C25: when `parser_step` returns the state `st` and leaves the parser `q`, then after
`parser_unstep` the next `parser_step` returns `st` again and leaves exactly `q`: the
stream, `inptr` and every other field are as the first step left them, and the `unstep`
count is back at its value after the first step. The `unstep` count at entry is one
that its 26-bit field holds. -/
theorem C25_unstep_idempotent (fuel fuel2 : Nat) (p : GMimeParser) (st : ParserState)
    (q : GMimeParser) (hu : p.unstep < 2 ^ 26) (h : parser_step fuel p = some (st, q)) :
    parser_step fuel2 (parser_unstep q) = some (st, q) := by
  obtain ⟨h1, h2, _⟩ := parser_step_unstep fuel p st q h
  have hq : (q.unstep + 1) % 2 ^ 26 = q.unstep + 1 := Nat.mod_eq_of_lt (by omega)
  rw [parser_step_eq]
  have hne : ¬ (parser_unstep q).unstep = 0 := by
    show ¬ (q.unstep + 1) % 2 ^ 26 = 0
    rw [hq]
    omega
  rw [if_neg hne]
  have e1 : (parser_unstep q).state = st := h1.symm
  have e2 : ({ parser_unstep q with unstep := (parser_unstep q).unstep - 1 } : GMimeParser) =
      q := by
    show ({ q with unstep := (q.unstep + 1) % 2 ^ 26 - 1 } : GMimeParser) = q
    rw [hq, Nat.add_sub_cancel]
  rw [e2, e1]

/-! ## Claims about the public constructors -/

/-- C22: on a freshly initialised parser (state INIT, no step to take back, empty header
list and header buffer) whose i/o array stands for bytes of `D`, with fuel above four
times what is unread, `parser_construct_message` returns; the result is NULL if and only
if scan_from is on and `parser_step_from`, run on the parser in state FROM, returns -1
(it reached the end of the stream without finding a From-line), and then the state is
ERROR; with scan_from off the result is a message for every stream. The object factory
is one that builds no message part for `text/plain`. -/
theorem C22_construct_message_null_iff_from_scan_fails (env : Collaborators) (D : List Nat)
    (p : GMimeParser) (fuel : Nat)
    (henv : env.is_message_part (bytes "text") (bytes "plain") = false)
    (hw : WindowInv p) (hr : Represents D p) (ho : p.offset = g_mime_stream_tell p.stream)
    (hs : p.state = ParserState.INIT) (hu : p.unstep = 0) (hh : p.headers = [])
    (hb : p.headerbuf = [])
    (hfuel : 4 * (stream_left p.stream + (p.inend - p.inptr)) + 8 ≤ fuel) :
    ∃ r q, parser_construct_message env fuel p = some (r, q) ∧
      (r = none ↔ (p.scan_from = true ∧
        ∃ q', parser_step_from fuel { p with state := ParserState.FROM } = some (-1, q'))) ∧
      (p.scan_from = false → r ≠ none) ∧
      (r = none → q.state = ParserState.ERROR) := by
  obtain ⟨r, q, h1, h2, _, _, _, h6, _⟩ := construct_message_spec env D henv p fuel
    ⟨hw, hr, ho, hu, hh, hb⟩ hs hfuel
  refine ⟨r, q, h1, h2, ?_, h6⟩
  intro hsf hn
  have := (h2.1 hn).1
  rw [hsf] at this
  exact absurd this (by decide)

/-! ## Claims about `crlf2lf` -/

/-- C35: for every byte string `s` without NUL (the bytes of a C string), `crlf2lf`
gives `s` with the CR of every CR LF pair of `s` left out and every other byte kept in
order; it gives `s` itself when `s` holds no CR LF pair; and its output is shorter than
`s` by the number of CR LF pairs of `s`. -/
theorem C35_crlf2lf_drops_cr_of_each_pair (s : List Nat) (hs : ∀ c ∈ s, c ≠ 0) :
    crlf2lf s = without_crlf_cr s ∧
    (has_crlf s = false → crlf2lf s = s) ∧
    (crlf2lf s).length + count_crlf s = s.length ∧
    cstr s = s := by
  have e : crlf2lf s = without_crlf_cr s := by
    rw [crlf2lf_eq_copy, crlf2lf_copy_eq_spec]
  refine ⟨e, fun h => ?_, ?_, ?_⟩
  · rw [e, without_crlf_cr_id s h]
  · rw [e]
    exact without_crlf_cr_length s
  · unfold cstr
    rw [List.takeWhile_eq_self_iff]
    intro c hc
    simpa using hs c hc

/-- C35 (witness): the string `a CR LF CR b CR CR LF` holds two CR LF pairs; the lone CR
and the CR before the second pair are kept. -/
theorem C35_crlf2lf_witness :
    (∀ c ∈ bytes "a\r\n\rb\r\r\n", c ≠ 0) ∧
    crlf2lf (bytes "a\r\n\rb\r\r\n") = without_crlf_cr (bytes "a\r\n\rb\r\r\n") ∧
    crlf2lf (bytes "a\r\n\rb\r\r\n") = bytes "a\n\rb\r\n" ∧
    count_crlf (bytes "a\r\n\rb\r\r\n") = 2 :=
  ⟨by decide,
    (C35_crlf2lf_drops_cr_of_each_pair (bytes "a\r\n\rb\r\r\n") (by decide)).1,
    by decide, by decide⟩

/-! ## Claims about the i/o array -/

/-- C33: on a parser that `g_mime_parser_new_with_stream` built, after any sequence of
calls of `parser_fill`, sentinel writes and advances of `inptr` inside `[inptr, inend]`,
the window invariant holds (`inptr <= inend`, `realbuf + SCAN_HEAD <= inend`,
`inend <= realbuf + SCAN_HEAD + SCAN_BUF - 1`, in an array of `SCAN_HEAD + SCAN_BUF + 1`
bytes); so the next `parser_fill` reads into the array from an index that is not after
`realbuf + SCAN_HEAD + SCAN_BUF - 1` (the length it asks for is not negative) and the
sentinel is written at an index inside the array. -/
theorem C33_window_invariant_kept (ops : List WindowOp) (stream : GMimeStream) :
    WindowInv (run_window_ops ops (g_mime_parser_new_with_stream stream)) ∧
    (parser_fill_shift (run_window_ops ops (g_mime_parser_new_with_stream stream))).2.2 ≤
      SCAN_HEAD + SCAN_BUF - 1 ∧
    (run_window_ops ops (g_mime_parser_new_with_stream stream)).inend <
      (run_window_ops ops (g_mime_parser_new_with_stream stream)).realbuf.length ∧
    (run_window_ops ops (g_mime_parser_new_with_stream stream)).realbuf.length =
      SCAN_HEAD + SCAN_BUF + 1 := by
  have hw := windowInv_run ops _ (windowInv_new stream)
  refine ⟨hw, (parser_fill_shift_spec _ hw).2.2.2.1, ?_, hw.1⟩
  have := hw.1
  have := hw.2.2.2
  omega

/-- C34: for a parser that satisfies the window invariant and whose cached offset is the
one of its stream, `parser_fill` leaves a window that is the window before the call
followed by exactly the bytes that its read takes from the stream, returns the length
of the new window, and leaves the offset of `inptr` (`g_mime_parser_tell`) as it was. -/
theorem C34_fill_preserves_unread (p : GMimeParser) (hw : WindowInv p)
    (ho : p.offset = g_mime_stream_tell p.stream) :
    window (parser_fill p).2 = window p ++
      (g_mime_stream_read p.stream (SCAN_HEAD + SCAN_BUF - 1 - (parser_fill_shift p).2.2)).1 ∧
    (parser_fill p).2.stream =
      (g_mime_stream_read p.stream (SCAN_HEAD + SCAN_BUF - 1 - (parser_fill_shift p).2.2)).2 ∧
    (parser_fill p).1 = (parser_fill p).2.inend - (parser_fill p).2.inptr ∧
    (parser_fill p).1 = (p.inend - p.inptr) +
      (g_mime_stream_read p.stream
        (SCAN_HEAD + SCAN_BUF - 1 - (parser_fill_shift p).2.2)).1.length ∧
    g_mime_parser_tell (parser_fill p).2 = g_mime_parser_tell p := by
  obtain ⟨r1, r2, r3⟩ := parser_fill_read p hw
  have hret := (parser_fill_spec p hw).2.1
  exact ⟨r1, r2, hret, hret.trans r3, parser_fill_tell p hw ho⟩

/-! ## Claims about the boundary stack of the constructors -/

/-- C36: with fuel above four times what is unread, for an object factory that builds no
message part for `text/plain`: `parser_construct_multipart`, entered in state HEADERS_END
after `parser_unstep`, returns with the boundary stack of entry, whatever the path
(own end boundary, boundary of an ancestor, end of stream, no boundary parameter);
`parser_construct_message` on a fresh parser returns with the boundary stack of entry;
for a multipart with boundary parameter `B` the preface scan and the subparts scan are
run with the frame of `B` pushed on the stack of entry and return with that stack; and
in each iteration of the subparts loop the line skip, the header scan and the
constructor of the part return with the stack of the loop entry. -/
theorem C36_boundary_stack_balance (env : Collaborators) (D : List Nat) (n : Nat)
    (henv : env.is_message_part (bytes "text") (bytes "plain") = false) :
    (∀ p ct, AtHeadersEnd D p → 4 * unread_measure p + 4 ≤ n →
      ∃ o found q, parser_construct_multipart env n p ct = some (o, found, q) ∧
        q.bounds = p.bounds) ∧
    (∀ p, Rest D p → p.state = ParserState.INIT → 4 * unread_measure p + 8 ≤ n →
      ∃ r q, parser_construct_message env n p = some (r, q) ∧ q.bounds = p.bounds) ∧
    (∀ p B, AtHeadersEnd D p → 4 * unread_measure p + 4 ≤ n + 1 →
      ∃ p2 found preface p4,
        parser_skip_line n (raw_header_reset
          { ({ p with unstep := p.unstep - 1 } : GMimeParser) with headers := [] }) =
          some p2 ∧
        (parser_push_boundary p2 B).bounds = (parser_push_boundary p B).bounds ∧
        (parser_push_boundary p B).bounds.tail = p.bounds ∧
        parser_scan_multipart_face n (parser_push_boundary p2 B) =
          some (found, preface, p4) ∧
        p4.bounds = (parser_push_boundary p B).bounds ∧
        (found = FOUND_BOUNDARY →
          ∃ parts found5 p5, parser_scan_multipart_subparts env n p4 [] =
            some (parts, found5, p5) ∧ p5.bounds = (parser_push_boundary p B).bounds)) ∧
    (∀ p parts, Rest D p → p.inptr < p.inend → 4 * unread_measure p + 3 ≤ n + 1 →
      ∃ q1 q2 sub found q4,
        parser_skip_line n p = some q1 ∧ q1.bounds = p.bounds ∧
        parser_step_headers n q1 = some q2 ∧ q2.bounds = p.bounds ∧
        (if g_mime_content_type_is_type ((parser_content_type env q2).getD text_plain)
            (bytes "multipart") (bytes "*") = true then
          parser_construct_multipart env n (parser_unstep q2)
            ((parser_content_type env q2).getD text_plain)
        else parser_construct_leaf_part env n (parser_unstep q2)
            ((parser_content_type env q2).getD text_plain)) = some (sub, found, q4) ∧
        q4.bounds = p.bounds ∧
        parser_scan_multipart_subparts env (n + 1) p parts =
          (if found = FOUND_BOUNDARY then
            parser_scan_multipart_subparts env n q4 (parts ++ [sub])
          else some (parts ++ [sub], found, q4))) := by
  refine ⟨fun p ct hp hn => ?_, fun p hp hs hn => ?_, fun p B hp hn => ?_,
    fun p parts hp hlt hn => ?_⟩
  · obtain ⟨o, found, q, h1, h2⟩ := (construct_parts_spec env D henv n).2.1 p ct hp hn
    exact ⟨o, found, q, h1, h2.2.2.1⟩
  · obtain ⟨r, q, h1, _, _, _, h5, _⟩ := construct_message_spec env D henv p n hp hs hn
    exact ⟨r, q, h1, h5⟩
  · obtain ⟨p2, found, preface, p4, h1, _, h3, h4, h5, h6⟩ :=
      multipart_own_frame env D henv n p B hp hn
    exact ⟨p2, found, preface, p4, h1, h3, rfl, h4, h5, h6⟩
  · obtain ⟨q1, q2, sub, found, q4, h1, h2, h3, h4, h5, h6, _, _, h9⟩ :=
      subparts_iteration env D henv n p parts hp hlt hn
    exact ⟨q1, q2, sub, found, q4, h1, h2, h3, h4, h5, h6, h9⟩

/-! ## Claims about the content scan -/

/-- C39: for a parser that satisfies the window invariant and whose i/o array stands for
bytes of a stream `D`, with any boundary stack and any content buffer,
`parser_scan_content` with fuel above `4 * stream_left + 2 * window + 1` returns, with
`found` one of FOUND_EOS, FOUND_BOUNDARY and FOUND_END_BOUNDARY; at FOUND_EOS the window
is empty and `crlf` is 0, otherwise an unread line stands at `inptr`. -/
theorem C39_scan_content_terminates (D : List Nat) (p : GMimeParser) (fuel : Nat)
    (c0 : Option (List Nat)) (hw : WindowInv p) (hr : Represents D p)
    (ho : p.offset = g_mime_stream_tell p.stream)
    (hfuel : 4 * stream_left p.stream + 2 * (p.inend - p.inptr) + 1 < fuel) :
    ∃ found crlf content q, parser_scan_content fuel p c0 = some (found, crlf, content, q) ∧
      (found = FOUND_EOS ∨ found = FOUND_BOUNDARY ∨ found = FOUND_END_BOUNDARY) ∧
      WindowInv q ∧ q.bounds = p.bounds ∧
      (found = FOUND_EOS → crlf = 0 ∧ q.inptr = q.inend) ∧
      (found ≠ FOUND_EOS → q.inptr < q.inend) := by
  obtain ⟨found, crlf, content, q, h1, h2⟩ := parser_scan_content_spec D p fuel c0 hw hr ho hfuel
  obtain ⟨k1, k2, _, _, _, _, _, _, _, k10⟩ := h2
  have hb := (frame_eqs p q k1).2.2.2.2.2.1
  refine ⟨found, crlf, content, q, h1, ?_, k2, hb, ?_, ?_⟩
  · rcases k10 with ⟨h, _⟩ | ⟨h | h, _⟩
    · exact Or.inl h
    · exact Or.inr (Or.inl h)
    · exact Or.inr (Or.inr h)
  · intro he
    rcases k10 with ⟨_, h2, h3⟩ | ⟨h | h, _⟩
    · exact ⟨h2, h3⟩
    · rw [he] at h; exact absurd h (by decide)
    · rw [he] at h; exact absurd h (by decide)
  · intro hne
    rcases k10 with ⟨h, _⟩ | ⟨_, h, _⟩
    · exact absurd h hne
    · exact h

/-! ## Scenarios of the specification -/

/-- Scenario "simple text/plain": one header `Subject = hi`, content `hello CR LF`. -/
theorem scenario_simple_text_plain :
    (parser_construct_part simple_collaborators 10
        (parser_on (bytes "Subject: hi\r\n\r\nhello\r\n"))).map
      (fun r => (r.1.get_content_type, r.1.get_headers,
        r.1.get_content.map (PartContent.read (bytes "Subject: hi\r\n\r\nhello\r\n")))) =
    some (text_plain, [(bytes "Subject", bytes "hi")], some (bytes "hello\r\n")) := by
  decide!

/-- Scenario "folded header": the value of `Subject` is `one  two`. -/
theorem scenario_folded_header :
    (parser_construct_part simple_collaborators 10
        (parser_on (bytes "Subject: one\r\n  two\r\n\r\nx"))).map
      (fun r => r.1.get_headers) =
    some [(bytes "Subject", bytes "one  two")] := by
  decide!

/-- Scenario "two-part multipart": preface, two leaf children with bodies `A` and `B`,
postface. -/
theorem scenario_two_part_multipart :
    (parser_construct_part simple_collaborators 20 (parser_on two_part_input)).map
      (fun r => (r.1.get_preface, r.1.get_postface,
        r.1.get_subparts.map (fun k => k.get_content.map (PartContent.read two_part_input)))) =
    some (some (bytes "preface"), some (bytes "postface"),
      [some (bytes "A"), some (bytes "B")]) := by
  decide!

/-! ## Claims settled by evaluation -/

/-- C1 (code defect): on `long_line_multipart` the preface holds no CR, no NUL and no line
that starts with `--`, yet `parser_construct_part` returns a multipart whose preface is
only the first 4221 bytes of it and which has no child at all: the bytes `--B--` in the
middle of the long line are taken as the end boundary. -/
theorem C1_long_preface_line_split :
    (∀ c ∈ long_line_preface, c ≠ 13 ∧ c ≠ 0 ∧ c ≠ 10) ∧
    long_line_preface.take 2 ≠ bytes "--" ∧
    (parser_construct_part simple_collaborators 20 (parser_on long_line_multipart)).map
      (fun r => (r.1.get_preface, r.1.get_subparts.length)) =
    some (some (List.replicate 4221 120), 0) := by
  decide!

/-- C4 (code defect): on `blank_line_at_window_end`, a header block without Content-Type,
a blank line and the body `hello CR LF`, `parser_construct_part` returns a leaf whose
content is empty and which has two more headers after `Subject`: the blank line, whose
CR ends one buffer fill and whose LF starts the next, is not seen as the end of the
headers. -/
theorem C4_blank_line_split_by_refill :
    blank_line_at_window_end.drop 4094 = bytes "\r\nhello\r\n" ∧
    (parser_construct_part simple_collaborators 20 (parser_on blank_line_at_window_end)).map
      (fun r => (r.1.get_headers.drop 4,
        r.1.get_content.map (PartContent.read blank_line_at_window_end))) =
    some ([(bytes "Subject", List.replicate 87 97), (bytes "X-Invalid-Header", []),
           (bytes "X-Invalid-Header", bytes "hello")], some []) := by
  decide!

/-- C6 (code defect): on `folded_subject_at_window_end` the folded header
`Subject: one CR LF SP SP two` is delivered as two headers, `Subject = one` and
`X-Invalid-Header = two`, not as one header with value `one  two`. -/
theorem C6_folded_header_split_at_window_end :
    folded_subject_at_window_end.drop 4081 = bytes "Subject: one\r\n  two\r\n\r\nx" ∧
    (parser_construct_part simple_collaborators 20
        (parser_on folded_subject_at_window_end)).map
      (fun r => r.1.get_headers.drop 5) =
    some [(bytes "Subject", bytes "one"), (bytes "X-Invalid-Header", bytes "two")] := by
  decide!

/-- C7 (code defect): in `folded_at_window_end` the LF at offset 4094 is followed in the
stream by a space (offset 4095), but it is the last byte of the first buffer fill, and
`parser_step_headers` closes the header there: the continuation line becomes a header of
its own, with the offset 4095 of the continuation line. -/
theorem C7_continuation_missed_at_window_end :
    (parser_fill (parser_on folded_at_window_end)).1 = 4095 ∧
    folded_at_window_end.drop 4094 = bytes "\n two\r\n\r\nbody" ∧
    (parser_step_headers 10 (parser_on folded_at_window_end)).map
      (fun p => (p.headers.drop 4).map (fun h => (h.name, h.value, h.offset))) =
    some [(bytes "Subject", List.replicate 88 97, 3996),
          (bytes "X-Invalid-Header", bytes "two", 4095)] := by
  decide!

/-! ## Witnesses on concrete messages -/

/-- C9 (witness): the message `folded_at_window_end`, 4109 bytes in a memory stream, whose
header block needs a second fill of the buffer; the offsets recorded are those of the
line starts 0, 999, 1998, 2997, 3996 and 4095. -/
theorem C9_header_offset_witness :
    (∃ p' e, parser_step_headers 4200 (parser_on folded_at_window_end) = some p' ∧
      HeaderChain folded_at_window_end true
        (abs_offset (parser_on folded_at_window_end) (parser_on folded_at_window_end).inptr)
        (abs_offset (parser_on folded_at_window_end) (parser_on folded_at_window_end).inptr)
        p'.headers e ∧
      ∀ h ∈ p'.headers, ∃ a1 a2 hb,
        abs_offset (parser_on folded_at_window_end) (parser_on folded_at_window_end).inptr
          ≤ a1 ∧ a1 < a2 ∧ a2 ≤ folded_at_window_end.length ∧
        LineStart folded_at_window_end
          (abs_offset (parser_on folded_at_window_end) (parser_on folded_at_window_end).inptr)
          a1 ∧
        Decoded (slice folded_at_window_end a1 (a2 - a1)) hb ∧
        h = header_parse_line hb (a1 : Int) ∧ h.offset = (a1 : Int)) ∧
    (parser_step_headers 4200 (parser_on folded_at_window_end)).map
      (fun p => p.headers.map (fun h => h.offset)) =
      some [0, 999, 1998, 2997, 3996, 4095] :=
  ⟨C9_header_offset_fidelity folded_at_window_end (parser_on folded_at_window_end) 4200
    (parser_on_ok _).1 (parser_on_ok _).2.1 (parser_on_ok _).2.2.1 (parser_on_ok _).2.2.2.1
    (parser_on_ok _).2.2.2.2.1 (parser_on_ok _).2.2.2.2.2.2
    (by rw [stream_left_mem]; decide!), by decide!⟩

/-- C10 (witness): the CR LF terminated message of the first scenario; the parser stops at
offset 14, the line feed of the blank line, and the raw buffer is the 14 bytes before
it, the last of which is the CR of the blank line. -/
theorem C10_raw_block_witness :
    (∃ p', parser_step_headers 30 (parser_on crlf_message) = some p' ∧
      abs_offset (parser_on crlf_message)
        (parser_on crlf_message).inptr ≤ abs_offset p' p'.inptr ∧
      p'.rawbuf =
        slice crlf_message
          (abs_offset (parser_on crlf_message)
            (parser_on crlf_message).inptr)
          (abs_offset p' p'.inptr -
            abs_offset (parser_on crlf_message)
              (parser_on crlf_message).inptr) ∧
      (p'.inptr < p'.inend →
        peek crlf_message (abs_offset p' p'.inptr) = 10 ∧
        ∃ s, LineStart crlf_message
            (abs_offset (parser_on crlf_message)
              (parser_on crlf_message).inptr) s ∧
          (abs_offset p' p'.inptr = s ∨
            (abs_offset p' p'.inptr = s + 1 ∧
              peek crlf_message s = 13 ∧
              p'.rawbuf.getLast? = some 13)))) ∧
    (parser_step_headers 30 (parser_on crlf_message)).map
      (fun p => (p.rawbuf, abs_offset p p.inptr, decide (p.inptr < p.inend))) =
      some (bytes "Subject: hi\r\n\r", 14, true) :=
  ⟨(C10_raw_block_up_to_blank_line_lf crlf_message
    (parser_on crlf_message) 30
    (parser_on_ok _).1 (parser_on_ok _).2.1 (parser_on_ok _).2.2.1 (parser_on_ok _).2.2.2.1
    (parser_on_ok _).2.2.2.2.1 (parser_on_ok _).2.2.2.2.2.1
    (by rw [stream_left_mem]; decide)).1, by decide!⟩

/-- C11 (witness): the message `crlf_message`, which holds no NUL; the raw buffer is the
14 bytes before the line feed of the blank line. -/
theorem C11_raw_buffer_witness :
    (∃ p', parser_step_headers 30 (parser_on crlf_message) = some p' ∧
      p'.state = ParserState.HEADERS_END ∧
      abs_offset (parser_on crlf_message) (parser_on crlf_message).inptr ≤
        abs_offset p' p'.inptr ∧
      p'.rawbuf =
        slice crlf_message
          (abs_offset (parser_on crlf_message) (parser_on crlf_message).inptr)
          (abs_offset p' p'.inptr -
            abs_offset (parser_on crlf_message) (parser_on crlf_message).inptr) ∧
      ∀ rest, cstr (p'.rawbuf ++ 0 :: rest) =
        slice crlf_message
          (abs_offset (parser_on crlf_message) (parser_on crlf_message).inptr)
          (abs_offset p' p'.inptr -
            abs_offset (parser_on crlf_message) (parser_on crlf_message).inptr)) ∧
    (parser_step_headers 30 (parser_on crlf_message)).map
      (fun p => (p.rawbuf, abs_offset p p.inptr)) = some (slice crlf_message 0 14, 14) :=
  ⟨C11_raw_buffer_verbatim crlf_message (parser_on crlf_message) 30 (by decide)
    (parser_on_ok _).1 (parser_on_ok _).2.1 (parser_on_ok _).2.2.1 (parser_on_ok _).2.2.2.1
    (parser_on_ok _).2.2.2.2.1 (parser_on_ok _).2.2.2.2.2.1
    (by rw [stream_left_mem]; decide), by decide!⟩

/-- C12 (counterexample): on `Subject: hi LF LF hello LF` the blank line is the line feed
at offset 12 and the byte after it is at offset 13; `parser_step_headers` leaves `inptr`
at offset 12, on the line feed itself. On `crlf_message` the line feed of the blank
line is at offset 14 and `inptr` is left there, not at 15. -/
theorem C12_inptr_not_after_blank_line :
    (parser_step_headers 30 (parser_on (bytes "Subject: hi\n\nhello\n"))).map
      (fun p => (p.state, abs_offset p p.inptr, peek p.realbuf p.inptr)) =
      some (ParserState.HEADERS_END, 12, 10) ∧
    (parser_step_headers 30 (parser_on crlf_message)).map
      (fun p => (p.state, abs_offset p p.inptr, peek p.realbuf p.inptr)) =
      some (ParserState.HEADERS_END, 14, 10) ∧
    peek (bytes "Subject: hi\n\nhello\n") 12 = 10 ∧ peek crlf_message 14 = 10 := by
  decide!

/-- C12 (witness): on `crlf_message` the parser stops inside the window, at the line
feed (offset 14) that follows the CR at the line start 13. -/
theorem C12_inptr_at_blank_line_witness :
    (∃ p', parser_step_headers 30 (parser_on crlf_message) = some p' ∧
      p'.state = ParserState.HEADERS_END ∧
      (p'.inptr < p'.inend →
        peek p'.realbuf p'.inptr = 10 ∧
        peek crlf_message (abs_offset p' p'.inptr) = 10 ∧
        ∃ s, LineStart crlf_message
            (abs_offset (parser_on crlf_message) (parser_on crlf_message).inptr) s ∧
          (abs_offset p' p'.inptr = s ∨
            (abs_offset p' p'.inptr = s + 1 ∧ peek crlf_message s = 13)))) ∧
    (parser_step_headers 30 (parser_on crlf_message)).map
      (fun p => (decide (p.inptr < p.inend), abs_offset p p.inptr)) = some (true, 14) :=
  ⟨C12_inptr_at_blank_line_lf crlf_message (parser_on crlf_message) 30
    (parser_on_ok _).1 (parser_on_ok _).2.1 (parser_on_ok _).2.2.1 (parser_on_ok _).2.2.2.1
    (parser_on_ok _).2.2.2.2.1 (by rw [stream_left_mem]; decide), by decide!⟩

/-- C13 (witness): the stream `unterminated_header` ends in the middle of its second header
line; both lines become headers, the parser is at end of stream and the leaf built from
it has an empty content. -/
theorem C13_headers_never_fail_witness :
    (∃ p', parser_step_headers 30 (parser_on unterminated_header) = some p' ∧
      p'.state = ParserState.HEADERS_END ∧ p'.headerbuf = [] ∧
      (p'.inptr = p'.inend →
        ∃ s, s ≤ abs_offset p' p'.inptr ∧
          HeaderChain unterminated_header (parser_on unterminated_header).stream.seekable
            (abs_offset (parser_on unterminated_header) (parser_on unterminated_header).inptr)
            (abs_offset (parser_on unterminated_header) (parser_on unterminated_header).inptr)
            p'.headers s ∧
          Decoded (slice unterminated_header s (abs_offset p' p'.inptr - s)) [] ∧
          (s = abs_offset p' p'.inptr ∨
            peek unterminated_header (abs_offset p' p'.inptr - 1) = 10)) ∧
      (NoEmptyRead (parser_on unterminated_header).stream → p'.inptr = p'.inend →
        g_mime_parser_eos p' = true) ∧
      (g_mime_parser_eos p' = true → ∀ f, ∃ q c q',
        parser_skip_line (f + 1) (raw_header_reset { p' with headers := [] }) = some q ∧
        parser_scan_mime_part_content (f + 1) q = some (c, FOUND_EOS, q') ∧
        ∀ D', PartContent.read D' c = [])) ∧
    (parser_step_headers 30 (parser_on unterminated_header)).map
      (fun p => p.headers.map (fun h => (h.name, h.value, h.offset))) =
      some [(bytes "A", bytes "1", 0), (bytes "Subject", bytes "hi", 5)] ∧
    (parser_step_headers 30 (parser_on unterminated_header)).map
      (fun p => (p.state, g_mime_parser_eos p)) = some (ParserState.HEADERS_END, true) ∧
    (parser_construct_part simple_collaborators 30 (parser_on unterminated_header)).map
      (fun r => (r.1.get_headers, r.1.get_content.map (PartContent.read unterminated_header)))
      = some ([(bytes "A", bytes "1"), (bytes "Subject", bytes "hi")], some []) :=
  ⟨C13_headers_never_fail unterminated_header (parser_on unterminated_header) 30
    (parser_on_ok _).1 (parser_on_ok _).2.1 (parser_on_ok _).2.2.1 (parser_on_ok _).2.2.2.1
    (parser_on_ok _).2.2.2.2.1 (by rw [stream_left_mem]; decide), by decide!, by decide!, by decide!⟩

/-! ## Claims about the content scanner settled by evaluation -/

/-- C14 (code defect): `parser_scan_content` takes `crlf` from the last byte of the
boundary line (`inptr[-1]`), not from the bytes before its start. On
`lf_body_crlf_boundary` the byte before the boundary line is an LF that follows `o`, yet
`crlf` is 2; on `crlf_body_lf_boundary` it is an LF preceded by CR, yet `crlf` is 1; and
the part of `mixed_line_ends_multipart`, whose body is `hello`, gets the content `hell`.
At EOS `crlf` is 0. -/
theorem C14_crlf_taken_from_boundary_line :
    (parser_scan_content 5 (parser_push_boundary (parser_on lf_body_crlf_boundary) (bytes "B"))
        (some [])).map (fun r => (r.1, r.2.1, r.2.2.1, abs_offset r.2.2.2 r.2.2.2.inptr)) =
      some (FOUND_BOUNDARY, 2, some (bytes "hello\n"), 6) ∧
    peek lf_body_crlf_boundary 5 = 10 ∧ peek lf_body_crlf_boundary 4 ≠ 13 ∧
    (parser_scan_content 5 (parser_push_boundary (parser_on crlf_body_lf_boundary) (bytes "B"))
        (some [])).map (fun r => (r.1, r.2.1, r.2.2.1, abs_offset r.2.2.2 r.2.2.2.inptr)) =
      some (FOUND_BOUNDARY, 1, some (bytes "hello\r\n"), 7) ∧
    peek crlf_body_lf_boundary 6 = 10 ∧ peek crlf_body_lf_boundary 5 = 13 ∧
    (parser_construct_part simple_collaborators 30 (parser_on mixed_line_ends_multipart)).map
      (fun r => r.1.get_subparts.map
        (fun k => k.get_content.map (PartContent.read mixed_line_ends_multipart))) =
      some [some (bytes "hell")] ∧
    (parser_scan_content 5 (parser_on (bytes "hello\n")) (some [])).map
      (fun r => (r.1, r.2.1, r.2.2.1)) = some (FOUND_EOS, 0, some (bytes "hello\n")) :=
  ⟨by decide!, by decide!, by decide!, by decide!, by decide!, by decide!, by decide!,
    by decide!⟩

/-- C15 (witness): the preface `pre` scanned up to the line `--B`. -/
theorem C15_face_crlf_witness :
    (∃ crlf content, parser_scan_content 5 preface_scan_example (some []) =
        some (FOUND_BOUNDARY, crlf, content, preface_face_result.2.2) ∧
      bytes "pre" = crlf2lf
        (cstr ((content.getD []).take ((content.getD []).length - crlf))) ∧
      has_crlf (bytes "pre") =
        has_cr_crlf (cstr ((content.getD []).take ((content.getD []).length - crlf)))) ∧
    has_crlf (bytes "pre") = false :=
  ⟨C15_face_crlf_only_from_cr_crlf 5 preface_scan_example FOUND_BOUNDARY (bytes "pre")
    preface_face_result.2.2 (by decide!), by decide⟩

/-- C15 (counterexample): the preface `a CR CR LF b` of `cr_crlf_preface_multipart` is
attached as `a CR LF b`, which holds a CR immediately followed by LF. -/
theorem C15_preface_holds_crlf :
    (parser_construct_part simple_collaborators 30 (parser_on cr_crlf_preface_multipart)).map
      (fun r => r.1.get_preface) = some (some (bytes "a\r\nb")) ∧
    has_crlf (bytes "a\r\nb") = true ∧
    crlf2lf (bytes "a\r\r\nb") = bytes "a\r\nb" :=
  ⟨by decide!, by decide, by decide⟩

/-! ## Claims about whole messages settled by evaluation -/

/-- Scenario "nested multipart": with a one-line header block the outer multipart has two
children, the `multipart/alternative` with its own parts `A` and `B` and the part `C`,
and the postface `post`. -/
theorem scenario_nested_multipart :
    (parser_construct_part simple_collaborators 40 (parser_on nested_multipart)).map
      (fun r => r.1.get_subparts.map (fun k => k.get_content_type.subtype)) =
      some [bytes "alternative", bytes "plain"] ∧
    (parser_construct_part simple_collaborators 40 (parser_on nested_multipart)).map
      (fun r => r.1.get_subparts.map (fun k =>
        k.get_subparts.map (fun j => j.get_content.map (PartContent.read nested_multipart)))) =
      some [[some (bytes "A"), some (bytes "B")], []] ∧
    (parser_construct_part simple_collaborators 40 (parser_on nested_multipart)).map
      (fun r => (r.1.get_subparts.map
          (fun k => k.get_content.map (PartContent.read nested_multipart)),
        r.1.get_postface)) =
      some ([none, some (bytes "C")], some (bytes "post")) :=
  ⟨by decide!, by decide!, by decide!⟩

/-- C16 (code defect): `nested_multipart_at_window_end` is the same nested multipart with
a header block of 4094 bytes. The result has a single child, the part `C`: the blank
line is missed (the defect of C4), the lines `--O` and the Content-Type of the inner
multipart are taken as headers of the outer one, and the inner multipart, boundary lines
included, ends up in the preface. -/
theorem C16_nested_multipart_lost_at_window_end :
    (padded_multipart_headers (bytes "O")).length = 4094 ∧
    (parser_construct_part simple_collaborators 40
        (parser_on nested_multipart_at_window_end)).map
      (fun r => (r.1.get_subparts.map (fun k => (k.get_content_type.subtype,
          k.get_subparts.length,
          k.get_content.map (PartContent.read nested_multipart_at_window_end))),
        r.1.get_preface)) =
    some ([(bytes "plain", 0, some (bytes "C"))],
      some (bytes "--I\nContent-Type: text/plain\n\nA\n--I\nContent-Type: text/html\n\nB\n--I--")) :=
  ⟨by decide!, by decide!⟩

/-- Scenario "unterminated multipart": with a one-line header block both parts are
attached, the second with the content up to the end of the stream; no preface. -/
theorem scenario_unterminated_multipart :
    (parser_construct_part simple_collaborators 40 (parser_on unterminated_multipart)).map
      (fun r => (r.1.get_subparts.map
          (fun k => k.get_content.map (PartContent.read unterminated_multipart)),
        r.1.get_preface, r.2.state)) =
    some ([some (bytes "A"), some (bytes "B")], none, ParserState.HEADERS_END) := by
  decide!

/-- C17 (code defect): `unterminated_multipart_at_window_end` is the same unterminated
multipart with a header block of 4094 bytes. Only the second part is attached: the blank
line is missed (the defect of C4), the first boundary line is taken as a header, and the
body `A` of the first part becomes the preface. -/
theorem C17_unterminated_multipart_part_lost :
    (padded_multipart_headers (bytes "B")).length = 4094 ∧
    (parser_construct_part simple_collaborators 40
        (parser_on unterminated_multipart_at_window_end)).map
      (fun r => (r.1.get_subparts.map
          (fun k => k.get_content.map (PartContent.read unterminated_multipart_at_window_end)),
        r.1.get_preface, r.2.state)) =
    some ([some (bytes "B")], some (bytes "A"), ParserState.HEADERS_END) ∧
    (parser_construct_message simple_collaborators 40
        (parser_on unterminated_multipart_at_window_end)).map
      (fun r => r.1.map (fun m => m.mime_part.get_subparts.map
          (fun k => k.get_content.map (PartContent.read unterminated_multipart_at_window_end)))) =
    some (some [some (bytes "B")]) :=
  ⟨by decide!, by decide!, by decide!⟩

/-- C19 (code defect): on `content_length_mbox` with `scan_from` and
`respect_content_length` on, the message with `Content-Length: 6` ends at the line
`From b`, which starts at byte 5 of the body: the body attached is `abcd` and the parser
stops at offset 31, although the body starts at offset 26 and 31 < 26 + 6. -/
theorem C19_content_length_off_by_one :
    (parser_construct_message simple_collaborators 40 content_length_example).map
      (fun r => (r.1.map (fun m => m.mime_part.get_content.map
          (PartContent.read content_length_mbox)),
        g_mime_parser_tell r.2)) =
    some (some (some (bytes "abcd")), 31) ∧
    slice content_length_mbox 26 6 = bytes "abcd\nF" ∧
    slice content_length_mbox 31 6 = bytes "From b" := by
  decide!

/-! ## Claims about the multipart constructor: witnesses -/

/-- C20 (witness): in `mbox_after_junk` the line `junk` is passed over; the From line at
offset 5 is found, recorded without its line feed, and the parser stands just after its
line feed (offset 18). -/
theorem C20_step_from_witness :
    (∃ rc q, parser_step_from 40 (parser_on mbox_after_junk) = some (rc, q) ∧
      ((rc = 0 ∧ q.state = ParserState.HEADERS ∧
          ∃ s e, FromLineAt mbox_after_junk
              (abs_offset (parser_on mbox_after_junk) (parser_on mbox_after_junk).inptr) s e ∧
            NoFromLineBefore mbox_after_junk
              (abs_offset (parser_on mbox_after_junk) (parser_on mbox_after_junk).inptr) s ∧
            e + 1 < mbox_after_junk.length ∧
            q.from_offset = off_of (parser_on mbox_after_junk).stream.seekable s ∧
            q.from_line = slice mbox_after_junk s (e - s) ∧ abs_offset q q.inptr = e + 1) ∨
        (rc = -1 ∧ q.state = ParserState.ERROR ∧ q.inptr = q.inend)) ∧
      ((∀ s, abs_offset (parser_on mbox_after_junk) (parser_on mbox_after_junk).inptr ≤ s →
          LineStart mbox_after_junk
            (abs_offset (parser_on mbox_after_junk) (parser_on mbox_after_junk).inptr) s →
          slice mbox_after_junk s 5 ≠ bytes "From ") → q.state = ParserState.ERROR) ∧
      (NoEmptyRead (parser_on mbox_after_junk).stream →
        ∀ s e, FromLineAt mbox_after_junk
            (abs_offset (parser_on mbox_after_junk) (parser_on mbox_after_junk).inptr) s e →
        e + 1 < mbox_after_junk.length →
        (∀ k, abs_offset (parser_on mbox_after_junk) (parser_on mbox_after_junk).inptr ≤ k →
          k ≤ s → ∃ m, k ≤ m ∧ m < k + (SCAN_HEAD + SCAN_BUF - 2) ∧
            peek mbox_after_junk m = 10) →
        q.state = ParserState.HEADERS)) ∧
    (parser_step_from 40 (parser_on mbox_after_junk)).map
      (fun r => (r.1, r.2.state, r.2.from_offset)) = some (0, ParserState.HEADERS, 5) ∧
    (parser_step_from 40 (parser_on mbox_after_junk)).map
      (fun r => (r.2.from_line, abs_offset r.2 r.2.inptr)) =
      some (bytes "From a@b Mon", 18) :=
  ⟨C20_step_from_finds_first_from_line mbox_after_junk (parser_on mbox_after_junk) 40
    (parser_on_ok _).1 (parser_on_ok _).2.1 (parser_on_ok _).2.2.1
    (by rw [stream_left_mem]; decide), by decide!, by decide!⟩

/-- C20 (counterexample): the stream `from_line_at_eof` is one complete line that begins
with `From ` and ends with a line feed, yet `parser_step_from` returns -1 in state ERROR
with an empty from_line: a From line whose line feed is the last byte of the stream is
not found. -/
theorem C20_from_line_at_eof_not_found :
    FromLineAt from_line_at_eof 0 0 12 ∧
    abs_offset (parser_on from_line_at_eof) (parser_on from_line_at_eof).inptr = 0 ∧
    (parser_step_from 30 (parser_on from_line_at_eof)).map
      (fun r => (r.1, r.2.state, r.2.from_line)) = some (-1, ParserState.ERROR, []) ∧
    ¬ (∃ rc q, parser_step_from 30 (parser_on from_line_at_eof) = some (rc, q) ∧
        q.state = ParserState.HEADERS) := by
  have hrun : (parser_step_from 30 (parser_on from_line_at_eof)).map
      (fun r => (r.1, r.2.state, r.2.from_line)) = some (-1, ParserState.ERROR, []) := by
    decide!
  refine ⟨?_, by decide!, hrun, ?_⟩
  · unfold FromLineAt LineStart
    decide!
  · rintro ⟨rc, q, h1, h2⟩
    rw [h1] at hrun
    simp only [Option.map_some', Option.some.injEq, Prod.mk.injEq] at hrun
    rw [h2] at hrun
    exact absurd hrun.2.1 (by decide)

/-- C24 (counterexample): on the 5000-byte line `long_line` the third fill finds the
4223 unread bytes filling the i/o array from its first byte on (`inptr = realbuf`,
`inend = realbuf + SCAN_HEAD + SCAN_BUF - 1`, a state that satisfies the window
invariant), asks the stream for 0 bytes and returns the same count although the stream
is not at its end; `parser_step_from` takes this for the end of the stream. -/
theorem C24_full_window_no_progress :
    WindowInv full_window_example ∧
    (full_window_example.inptr, full_window_example.inend) = (0, SCAN_HEAD + SCAN_BUF - 1) ∧
    g_mime_stream_eos full_window_example.stream = false ∧
    full_window_example.stream.chunks.flatten.length = 777 ∧
    (parser_fill full_window_example).1 =
      full_window_example.inend - full_window_example.inptr ∧
    (parser_fill full_window_example).2.stream = full_window_example.stream ∧
    (parser_step_from 10 (parser_on long_line)).map
      (fun r => (r.1, r.2.state, g_mime_stream_eos r.2.stream)) =
      some (-1, ParserState.ERROR, false) := by
  refine ⟨?_, by decide!, by decide!, by decide!, by decide!, by decide!, by decide!⟩
  unfold WindowInv
  decide!

/-- C25 (witness): the first step on `crlf_message` reads the stream and returns
HEADERS_END; after `parser_unstep` the next step returns HEADERS_END and the same
parser. -/
theorem C25_unstep_idempotent_witness :
    (parser_on crlf_message).unstep < 2 ^ 26 ∧
    parser_step 30 (parser_on crlf_message) =
      some (ParserState.HEADERS_END, stepped_example) ∧
    parser_step 5 (parser_unstep stepped_example) =
      some (ParserState.HEADERS_END, stepped_example) :=
  have h : parser_step 30 (parser_on crlf_message) =
      some (ParserState.HEADERS_END, stepped_example) := by decide!
  ⟨by decide, h, C25_unstep_idempotent 30 5 (parser_on crlf_message)
    ParserState.HEADERS_END stepped_example (by decide) h⟩

/-- C21 (failing input): on `one_message_mbox` with scan_from on, the first call of
`parser_construct_message` returns a message and the From-line offset is 0; the second
call finds no From-line, returns NULL and leaves the state ERROR; after it
`g_mime_parser_get_from` returns NULL but `g_mime_parser_get_from_offset` still returns
0, the offset of the From-line of the first message, not -1. -/
theorem C21_from_offset_stale_after_failed_scan :
    (parser_construct_message simple_collaborators 60 one_message_example).map
      (fun r => (r.1.isSome, g_mime_parser_get_from_offset r.2)) = some (true, 0) ∧
    (parser_construct_message simple_collaborators 60 after_first_message).map
      (fun r => (r.1.isSome, r.2.state)) = some (false, ParserState.ERROR) ∧
    after_second_message.state = ParserState.ERROR ∧
    g_mime_parser_get_scan_from after_second_message = true ∧
    g_mime_parser_get_from after_second_message = none ∧
    g_mime_parser_get_from_offset after_second_message = 0 ∧
    g_mime_parser_get_from_offset (g_mime_parser_set_scan_from after_second_message false) =
      -1 :=
  ⟨by decide!, by decide!, by decide!, by decide!, by decide!, by decide!, by decide!⟩

/-- C30 (failing input): in `empty_part_multipart` the body of the part is empty, and with
persist_stream on the range recorded for it is `[73, 72)`: its end lies before its
start. For the same body scan, at the start of a stream that holds the end boundary
line, the range recorded with persist_stream on is `[0, -1)`, which holds no byte,
while with persist_stream off the owned buffer is resized to 4294967295 bytes. -/
theorem C30_empty_part_range_inverted :
    (parser_construct_part simple_collaborators 60 (parser_on empty_part_multipart)).map
      (fun r => r.1.get_subparts.map (fun o => o.get_content)) =
      some [some (PartContent.substream 73 72)] ∧
    (parser_scan_mime_part_content 10 empty_body_example).map (fun r => (r.1, r.2.1)) =
      some (PartContent.substream 0 (-1), FOUND_END_BOUNDARY) ∧
    PartContent.read (bytes "--B--\n") (PartContent.substream 0 (-1)) = [] ∧
    ∃ c, parser_scan_mime_part_content 10
        (g_mime_parser_set_persist_stream empty_body_example false) =
        some (PartContent.mem c, FOUND_END_BOUNDARY, empty_body_scanned) ∧
      c.length = 4294967295 := by
  refine ⟨by decide!, by decide!, by decide!, g_byte_array_set_size [] 4294967295, ?_,
    g_byte_array_set_size_length _ _⟩
  have hs : parser_scan_content 10 (g_mime_parser_set_persist_stream empty_body_example false)
      (some []) = some (FOUND_END_BOUNDARY, 1, some [], empty_body_scanned) := by decide!
  have hp : ((g_mime_parser_set_persist_stream empty_body_example false).persist_stream &&
      (g_mime_parser_set_persist_stream empty_body_example false).seekable) = false := rfl
  unfold parser_scan_mime_part_content
  simp only [hp, hs]
  rfl

/-- C22 (witness): on `one_message_mbox` with scan_from on the From-line is found and a
message is returned; on `crlf_message`, which holds no From-line, the result with
scan_from on is NULL in state ERROR, and with scan_from off it is a message. -/
theorem C22_construct_message_witness :
    (∃ r q, parser_construct_message simple_collaborators 120 one_message_example =
        some (r, q) ∧
      (r = none ↔ (one_message_example.scan_from = true ∧
        ∃ q', parser_step_from 120 { one_message_example with state := ParserState.FROM } =
          some (-1, q'))) ∧
      (one_message_example.scan_from = false → r ≠ none) ∧
      (r = none → q.state = ParserState.ERROR)) ∧
    (parser_construct_message simple_collaborators 120 one_message_example).map
      (fun r => r.1.isSome) = some true ∧
    (parser_construct_message simple_collaborators 120 no_from_line_example).map
      (fun r => (r.1.isSome, r.2.state)) = some (false, ParserState.ERROR) ∧
    (parser_construct_message simple_collaborators 120 (parser_on crlf_message)).map
      (fun r => r.1.isSome) = some true :=
  ⟨C22_construct_message_null_iff_from_scan_fails simple_collaborators one_message_mbox
    one_message_example 120 (by decide) (by unfold WindowInv; decide!)
    (by unfold Represents; decide!) (by decide!) (by decide!) (by decide!) (by decide!)
    (by decide!) (by decide!), by decide!, by decide!, by decide!⟩

/-- C23 (failing input): with scan_from on, on the stream `crlf_message`, which holds no
From-line, `parser_construct_part` on a freshly initialised parser returns for no
amount of fuel: `parser_step_from` leaves the state ERROR and the loop that steps to
HEADERS_END spins. On the same parser `parser_construct_message` returns NULL, and
with scan_from off `parser_construct_part` returns an object. -/
theorem C23_construct_part_hangs_without_from_line :
    (∀ fuel : Nat,
      parser_construct_part simple_collaborators fuel no_from_line_example = none) ∧
    (parser_step 30 no_from_line_example).map (fun r => r.1) = some ParserState.ERROR ∧
    (parser_construct_message simple_collaborators 120 no_from_line_example).map
      (fun r => r.1.isSome) = some false ∧
    (parser_construct_part simple_collaborators 120 (parser_on crlf_message)).isSome =
      true := by
  refine ⟨fun fuel => ?_, by decide!, by decide!, by decide!⟩
  have hshort : ∀ s, s < 22 → slice crlf_message s 5 ≠ bytes "From " := by decide
  refine construct_part_no_from_line simple_collaborators crlf_message no_from_line_example
    ⟨by unfold WindowInv; decide!, by unfold Represents; decide!, by decide!, by decide!,
      by decide!, by decide!⟩ (by decide!) (by decide!) ?_ fuel
  intro s _ _ h
  by_cases hlt : s < 22
  · exact hshort s hlt h
  · have hl : crlf_message.length = 22 := by decide
    have e : slice crlf_message s 5 = [] := by
      unfold slice
      rw [List.drop_eq_nil_of_le (by omega)]
      rfl
    rw [e] at h
    exact absurd h (by decide)

/-- C34 (witness): on `two_chunk_stream`, after the first fill and an advance over 9
bytes, the window holds `hi CR LF`; the second fill appends the 9 bytes of the second
chunk, returns 13 and leaves the offset of `inptr` at 9. -/
theorem C34_fill_preserves_unread_witness :
    (window (parser_fill after_first_fill).2 = window after_first_fill ++
      (g_mime_stream_read after_first_fill.stream
        (SCAN_HEAD + SCAN_BUF - 1 - (parser_fill_shift after_first_fill).2.2)).1 ∧
    (parser_fill after_first_fill).2.stream =
      (g_mime_stream_read after_first_fill.stream
        (SCAN_HEAD + SCAN_BUF - 1 - (parser_fill_shift after_first_fill).2.2)).2 ∧
    (parser_fill after_first_fill).1 =
      (parser_fill after_first_fill).2.inend - (parser_fill after_first_fill).2.inptr ∧
    (parser_fill after_first_fill).1 =
      (after_first_fill.inend - after_first_fill.inptr) +
      (g_mime_stream_read after_first_fill.stream
        (SCAN_HEAD + SCAN_BUF - 1 - (parser_fill_shift after_first_fill).2.2)).1.length ∧
    g_mime_parser_tell (parser_fill after_first_fill).2 =
      g_mime_parser_tell after_first_fill) ∧
    window after_first_fill = bytes "hi\r\n" ∧
    window (parser_fill after_first_fill).2 = bytes "hi\r\n\r\nhello\r\n" ∧
    (parser_fill after_first_fill).1 = 13 ∧
    g_mime_parser_tell (parser_fill after_first_fill).2 = 9 :=
  ⟨C34_fill_preserves_unread after_first_fill (by unfold WindowInv; decide!) (by decide!),
    by decide!, by decide!, by decide!, by decide!⟩

/-- C36 (witness): on `two_part_input` the multipart constructor pushes the frame of `B`
and returns at the end of the stream with the empty stack it was entered with. -/
theorem C36_boundary_stack_balance_witness :
    (∃ o found q, parser_construct_multipart simple_collaborators 700 two_part_example
        two_part_content_type = some (o, found, q) ∧ q.bounds = two_part_example.bounds) ∧
    two_part_example.bounds = [] ∧
    (parser_push_boundary two_part_example (bytes "B")).bounds.map (fun s => s.boundary) =
      [bytes "--B--"] ∧
    (parser_construct_multipart simple_collaborators 700 two_part_example
        two_part_content_type).map (fun r => (r.1.get_subparts.length, r.2.1, r.2.2.bounds)) =
      some (2, FOUND_EOS, []) :=
  ⟨(C36_boundary_stack_balance simple_collaborators two_part_input 700 (by decide)).1
    two_part_example two_part_content_type
    ⟨by unfold WindowInv; decide!, by unfold Represents; decide!, by decide!, by decide!,
      by decide!, by decide!⟩ (by decide!),
    by decide!, by decide!, by decide!⟩

/-- C39 (witness): the stream `long_line` is one line of 5000 bytes without line feed,
longer than the i/o array, and ends in the middle of it; the scan returns FOUND_EOS with
all 5000 bytes in the content. -/
theorem C39_scan_content_terminates_witness :
    (∃ found crlf content q,
      parser_scan_content 20010 (parser_on long_line) (some []) =
        some (found, crlf, content, q) ∧
      (found = FOUND_EOS ∨ found = FOUND_BOUNDARY ∨ found = FOUND_END_BOUNDARY) ∧
      WindowInv q ∧ q.bounds = (parser_on long_line).bounds ∧
      (found = FOUND_EOS → crlf = 0 ∧ q.inptr = q.inend) ∧
      (found ≠ FOUND_EOS → q.inptr < q.inend)) ∧
    (parser_scan_content 20010 (parser_on long_line) (some [])).map
      (fun r => (r.1, r.2.1, r.2.2.1.map List.length)) = some (FOUND_EOS, 0, some 5000) :=
  ⟨C39_scan_content_terminates long_line (parser_on long_line) 20010 (some [])
    (parser_on_ok _).1 (parser_on_ok _).2.1 (parser_on_ok _).2.2.1 (by decide!), by decide!⟩

/-- C32 (failing input): with persist_stream off, the body scan of `empty_body_example`
stops at the end boundary after 0 bytes with `crlf = 1`, and the content attached has
4294967295 bytes, not 0: the length `0 - 1` is computed on `guint`. For the body `A LF`
before the boundary the content is `A`. -/
theorem C32_empty_body_content_not_empty :
    (parser_scan_content 10 (g_mime_parser_set_persist_stream empty_body_example false)
      (some [])).map (fun r => (r.1, r.2.1, r.2.2.1)) =
      some (FOUND_END_BOUNDARY, 1, some []) ∧
    (∃ c, parser_scan_mime_part_content 10
        (g_mime_parser_set_persist_stream empty_body_example false) =
        some (PartContent.mem c, FOUND_END_BOUNDARY, empty_body_scanned) ∧
      c.length = 4294967295 ∧ c.length ≠ max (0 - 1) 0) ∧
    (parser_scan_mime_part_content 10 one_line_body_example).map (fun r => (r.1, r.2.1)) =
      some (PartContent.mem (bytes "A"), FOUND_END_BOUNDARY) := by
  refine ⟨by decide!, ⟨g_byte_array_set_size [] 4294967295, ?_,
    g_byte_array_set_size_length _ _, ?_⟩, by decide!⟩
  · have hs : parser_scan_content 10
        (g_mime_parser_set_persist_stream empty_body_example false) (some []) =
        some (FOUND_END_BOUNDARY, 1, some [], empty_body_scanned) := by decide!
    have hp : ((g_mime_parser_set_persist_stream empty_body_example false).persist_stream &&
        (g_mime_parser_set_persist_stream empty_body_example false).seekable) = false := rfl
    unfold parser_scan_mime_part_content
    simp only [hp, hs]
    rfl
  · rw [g_byte_array_set_size_length]
    decide

/-- C37 (failing input): `long_line_body` is one line: 4223 bytes `x`, then `--B--`, then
the line feed. `parser_scan_content`, started at its first byte, returns
FOUND_END_BOUNDARY with the parser at offset 4223, in the middle of that line: the byte
before it is an `x`, and no line feed lies before it. -/
theorem C37_boundary_found_inside_long_line :
    (∀ c ∈ long_line_body.take 4228, c ≠ 10) ∧
    peek long_line_body 4222 = 120 ∧
    slice long_line_body 4223 5 = bytes "--B--" ∧
    abs_offset long_line_body_example long_line_body_example.inptr = 0 ∧
    (parser_scan_content 20 long_line_body_example (some [])).map
      (fun r => (r.1, abs_offset r.2.2.2 r.2.2.2.inptr, r.2.2.1.map List.length)) =
      some (FOUND_END_BOUNDARY, 4223, some 4223) :=
  ⟨by decide!, by decide!, by decide!, by decide!, by decide!⟩

/-- C38 (failing input): in `unclosed_inner_multipart` the part `B` follows the open
boundary `--O` of the outer multipart, yet the outer multipart gets one child only, the
inner multipart, and the inner multipart gets both `A` and `B`. With the inner
multipart closed by `--I--` the outer multipart gets two children. -/
theorem C38_part_after_outer_boundary_added_to_inner :
    (parser_construct_part simple_collaborators 60 (parser_on unclosed_inner_multipart)).map
      (fun r => r.1.get_subparts.map (fun o => (o.get_content_type.subtype,
        o.get_subparts.map (fun k => k.get_content.map
          (PartContent.read unclosed_inner_multipart))))) =
      some [(bytes "alternative", [some (bytes "A"), some (bytes "B")])] ∧
    (parser_construct_part simple_collaborators 60 (parser_on closed_inner_multipart)).map
      (fun r => r.1.get_subparts.map (fun o => (o.get_content_type.subtype,
        o.get_subparts.length))) =
      some [(bytes "alternative", 1), (bytes "plain", 0)] :=
  ⟨by decide!, by decide!⟩

/-- C31 (failing input): with the cipher context `pgp_context` (sign protocol
`application/pgp-signature`) and two children, a protocol parameter
`application/pkcs7-signature` makes `g_mime_multipart_signed_verify` return NULL with no
error set, and so does a protocol parameter that matches with a signature part of type
`application/octet-stream`. With one child only NULL is returned with the parse error
set; with matching types the result and the error are those of the cipher context. -/
theorem C31_verify_null_without_error :
    g_mime_multipart_signed_verify simple_signed_collaborators
      (signed_part "application/pkcs7-signature"
        [application_part "octet-stream" "text", application_part "pkcs7-signature" "good"])
      pgp_context = (none, none) ∧
    g_mime_multipart_signed_verify simple_signed_collaborators
      (signed_part "application/pgp-signature"
        [application_part "octet-stream" "text", application_part "octet-stream" "good"])
      pgp_context = (none, none) ∧
    g_mime_multipart_signed_verify simple_signed_collaborators
      (signed_part "application/pgp-signature" [application_part "octet-stream" "text"])
      pgp_context =
      (none, some { code := GMimeErrorCode.GMIME_ERROR_PARSE_ERROR,
                    message :=
                      bytes "Cannot verify multipart/signed part due to missing subparts." }) ∧
    g_mime_multipart_signed_verify simple_signed_collaborators
      (signed_part "application/pgp-signature"
        [application_part "octet-stream" "text", application_part "pgp-signature" "good"])
      pgp_context = (some { status := 1 }, none) ∧
    g_mime_multipart_signed_verify simple_signed_collaborators
      (signed_part "application/pgp-signature"
        [application_part "octet-stream" "text", application_part "pgp-signature" "bad"])
      pgp_context =
      (none, some { code := GMimeErrorCode.GMIME_ERROR_GENERAL,
                    message := bytes "bad signature" }) :=
  ⟨by decide!, by decide!, by decide!, by decide!, by decide!⟩

end GMime
